import Mathlib

/-! # Finite automata in C++ (`DFA.h`): a shallow embedding

The class `DeterministicFiniteAutomaton` of `src/DFA.h` is embedded as a record of
its private members.  A `std::vector<int>` is a `List`, `v[i]` is `List.getD`, the
assignment `v[i] = x` is `List.set`; an `int` that can hold the `-1` sentinel is an
`Int`, every other index is a `Nat`.  A call of the macro `RE(...)` (print and
`exit(23)`) is the `Except.error` result.  The address of an automaton object
(`this`, compared with `&state.DFA()`) is an explicit `Nat` argument.  State names
(`stateNames`, a side table that no algorithm reads) are left out.  The counter
`countEmptyTransitions` is a 32-bit `int`: what `n * m`, `++` and `--` store in it is
reduced to the range `[-2^31, 2^31)` by `wrapInt32`.
-/

namespace FiniteAutomata

/-! ## Errors, alphabet, automaton record -/

/-- The fatal diagnostics raised through `RE`. -/
inductive Err
  | alphabetSize
  | symbolId
  | notInAlphabet
  | emptyAutomaton
  | emptyAlphabet
  | emptyStates
  | alphabetExists
  | notEmpty
  | nonPositiveSize
  | foreignState
  | invalidState
  | indexOutOfRange
  | sizeMismatch
  | incomplete
  | startUnset
  deriving DecidableEq, Repr

deriving instance DecidableEq for Except

/-- Class `Alphabet`: a size and the two conversion functions. -/
structure Alphabet where
  siz : Nat
  func : Int → Int
  inv : Int → Int

/-- `Alphabet::empty`. -/
def Alphabet.empty (sig : Alphabet) : Bool := sig.siz == 0

/-- `Alphabet::c2i`: the id of a symbol, fatal when the id is outside `[0, siz)`. -/
def Alphabet.c2i (sig : Alphabet) (c : Int) : Except Err Nat :=
  let id := sig.inv c
  if id < 0 ∨ id ≥ (sig.siz : Int) then .error .notInAlphabet else .ok id.toNat

/-- The value that a 32-bit `int` holds when the arithmetic result is `x` (wrap-around
arithmetic): the representative of `x` modulo `2^32` in `[-2^31, 2^31)`. -/
def wrapInt32 (x : Int) : Int := (x + 2147483648) % 4294967296 - 2147483648

/-- The private members of `DeterministicFiniteAutomaton` (without `stateNames`). -/
structure DeterministicFiniteAutomaton where
  n : Nat
  sig : Alphabet
  transitions : List (List Int)
  countEmptyTransitions : Int
  isComplete : Bool
  startStateIndex : Int
  acceptStates : List Nat

/-- Nested class `State`: owner address, index, validity flag. -/
structure State where
  orig : Nat
  ind : Int
  vali : Bool
  deriving DecidableEq, Repr

namespace DeterministicFiniteAutomaton

/-- The constructor `DeterministicFiniteAutomaton(const Alphabet &alph)`. -/
def new (alph : Alphabet) : DeterministicFiniteAutomaton :=
  { n := 0, sig := alph, transitions := [], countEmptyTransitions := 0,
    isComplete := false, startStateIndex := -1, acceptStates := [] }

/-- `size()`. -/
def size (A : DeterministicFiniteAutomaton) : Nat := A.n

/-- `complete()`. -/
def complete (A : DeterministicFiniteAutomaton) : Bool := A.isComplete

/-- The table entry `transitions[u][j]`. -/
def tr (A : DeterministicFiniteAutomaton) (u j : Nat) : Int :=
  (A.transitions.getD u []).getD j (-1)

/-- The statement `transitions[u][j] = v`. -/
def setTr (t : List (List Int)) (u j : Nat) (v : Int) : List (List Int) :=
  t.set u ((t.getD u []).set j v)

/-- `initTransitions`. -/
def initTransitions (A : DeterministicFiniteAutomaton) : Except Err DeterministicFiniteAutomaton :=
  if A.n = 0 ∧ A.sig.empty then .ok A
  else if A.n = 0 then .error .emptyStates
  else if A.sig.empty then .error .emptyAlphabet
  else
    let m := A.sig.siz
    .ok { A with transitions := List.replicate A.n (List.replicate m (-1)),
                 countEmptyTransitions := wrapInt32 ((A.n : Int) * m),
                 isComplete := false }

/-- `setSize`. -/
def setSize (A : DeterministicFiniteAutomaton) (siz : Int) : Except Err DeterministicFiniteAutomaton :=
  if A.n ≠ 0 then .error .notEmpty
  else if siz ≤ 0 then .error .nonPositiveSize
  else
    let A1 := { A with n := siz.toNat,
                       acceptStates := (A.acceptStates ++
                         List.replicate (siz.toNat - A.acceptStates.length) 0).take siz.toNat }
    if !A1.sig.empty then A1.initTransitions else .ok A1

end DeterministicFiniteAutomaton

/-- `State::index`. -/
def State.index (s : State) : Int := if !s.vali then -1 else s.ind

namespace DeterministicFiniteAutomaton

/-- The private constructor `State(dfa)` of the invalid state, as used by `invalid()`. -/
def invalid (A : DeterministicFiniteAutomaton) (this : Nat) : Except Err State :=
  if A.n = 0 then .error .emptyAutomaton
  else .ok { orig := this, ind := -1, vali := false }

/-- `getState` and `operator []` (the public `State` constructor is folded in). -/
def getState (A : DeterministicFiniteAutomaton) (this : Nat) (indnum : Int) : Except Err State :=
  if A.n = 0 then .error .emptyAutomaton
  else if indnum < 0 ∨ indnum ≥ (A.n : Int) then .error .indexOutOfRange
  else .ok { orig := this, ind := indnum, vali := true }

/-- `setStartState`. -/
def setStartState (A : DeterministicFiniteAutomaton) (this : Nat) (state : State) :
    Except Err DeterministicFiniteAutomaton :=
  if A.n = 0 then .error .emptyAutomaton
  else if this ≠ state.orig then .error .foreignState
  else if !state.vali then .error .invalidState
  else
    let index := state.index
    if index < 0 ∨ index ≥ (A.n : Int) then .error .indexOutOfRange
    else .ok { A with startStateIndex := index }

/-- `start`. -/
def start (A : DeterministicFiniteAutomaton) (this : Nat) : Except Err State :=
  if A.n = 0 then .error .emptyAutomaton
  else if A.startStateIndex = -1 then A.invalid this
  else A.getState this A.startStateIndex

/-- `setTransition`. -/
def setTransition (A : DeterministicFiniteAutomaton) (this : Nat) (state1 : State) (symbol : Int)
    (state2 : State) : Except Err DeterministicFiniteAutomaton :=
  if A.n = 0 then .error .emptyAutomaton
  else if A.sig.empty then .error .emptyAlphabet
  else if this ≠ state1.orig then .error .foreignState
  else if this ≠ state2.orig then .error .foreignState
  else do
    let symbId ← A.sig.c2i symbol
    if !state1.vali then .error .invalidState
    else
      let index1 := state1.index
      if index1 < 0 ∨ index1 ≥ (A.n : Int) then .error .indexOutOfRange
      else
        let refIndex := A.tr index1.toNat symbId
        if !state2.vali then
          let A1 :=
            if refIndex ≠ -1 then
              { A with isComplete := if A.countEmptyTransitions = 0 then false else A.isComplete,
                       countEmptyTransitions := wrapInt32 (A.countEmptyTransitions + 1) }
            else A
          .ok { A1 with transitions := setTr A1.transitions index1.toNat symbId (-1) }
        else
          let index2 := state2.index
          if index2 < 0 ∨ index2 ≥ (A.n : Int) then .error .indexOutOfRange
          else
            let A1 :=
              if refIndex = -1 then
                { A with countEmptyTransitions := wrapInt32 (A.countEmptyTransitions - 1),
                         isComplete := if wrapInt32 (A.countEmptyTransitions - 1) = 0 then true
                                       else A.isComplete }
              else A
            .ok { A1 with transitions := setTr A1.transitions index1.toNat symbId index2 }

/-- `transition(const State &, int)`: one symbol. -/
def transition (A : DeterministicFiniteAutomaton) (this : Nat) (state : State) (symbol : Int) :
    Except Err State :=
  if A.n = 0 then .error .emptyAutomaton
  else if A.sig.empty then .error .emptyAlphabet
  else if this ≠ state.orig then .error .foreignState
  else do
    let symbId ← A.sig.c2i symbol
    if !state.vali then A.invalid this
    else
      let index1 := state.index
      if index1 < 0 ∨ index1 ≥ (A.n : Int) then .error .indexOutOfRange
      else
        let index2 := A.tr index1.toNat symbId
        if index2 = -1 then A.invalid this
        else A.getState this index2

/-- The loop `for (int symbId : symbIds)` of the sequence form; `none` is the early
`return invalid()`. -/
def walk (A : DeterministicFiniteAutomaton) : Int → List Nat → Option Int
  | index2, [] => some index2
  | index2, symbId :: rest =>
    let next := A.tr index2.toNat symbId
    if next = -1 then none else walk A next rest

/-- `transition(const State &, const std::vector<int> &)`: a sequence of symbols. -/
def transitionSeq (A : DeterministicFiniteAutomaton) (this : Nat) (state : State)
    (symbols : List Int) : Except Err State :=
  if A.n = 0 then .error .emptyAutomaton
  else if A.sig.empty then .error .emptyAlphabet
  else if this ≠ state.orig then .error .foreignState
  else do
    let symbIds ← symbols.mapM A.sig.c2i
    if !state.vali then A.invalid this
    else
      let index1 := state.index
      if index1 < 0 ∨ index1 ≥ (A.n : Int) then .error .indexOutOfRange
      else
        match walk A index1 symbIds with
        | none => A.invalid this
        | some index2 => A.getState this index2

/-- `flipStateAcceptance`. -/
def flipStateAcceptance (A : DeterministicFiniteAutomaton) (this : Nat) (state : State) :
    Except Err DeterministicFiniteAutomaton :=
  if A.n = 0 then .error .emptyAutomaton
  else if this ≠ state.orig then .error .foreignState
  else if !state.vali then .error .invalidState
  else
    let index := state.index
    if index < 0 ∨ index ≥ (A.n : Int) then .error .indexOutOfRange
    else .ok { A with acceptStates :=
                 A.acceptStates.set index.toNat (Nat.xor (A.acceptStates.getD index.toNat 0) 1) }

/-- `isAcceptState`. -/
def isAcceptState (A : DeterministicFiniteAutomaton) (this : Nat) (state : State) :
    Except Err Bool :=
  if A.n = 0 then .error .emptyAutomaton
  else if this ≠ state.orig then .error .foreignState
  else if !state.vali then .error .invalidState
  else
    let index := state.index
    if index < 0 ∨ index ≥ (A.n : Int) then .error .indexOutOfRange
    else .ok (A.acceptStates.getD index.toNat 0 != 0)

/-! ## Reachability filter -/

/-- The working variables of the breadth-first loop of `eliminateUnreachableStates`. -/
structure BfsState where
  reachable : List Nat
  que : List Nat
  head : Nat
  tail : Nat

/-- Body of `for (int j = 0; j < m; ++j)` inside the breadth-first loop. -/
def bfsVisit (A : DeterministicFiniteAutomaton) (u : Nat) (st : BfsState) (j : Nat) : BfsState :=
  let v := (A.tr u j).toNat
  if st.reachable.getD v 0 = 0 then
    { st with reachable := st.reachable.set v 1, que := st.que.set st.tail v, tail := st.tail + 1 }
  else st

/-- The loop `while (head != tail)`, with a bound on the number of iterations. -/
def bfsLoop (A : DeterministicFiniteAutomaton) : Nat → BfsState → BfsState
  | 0, st => st
  | fuel + 1, st =>
    if st.head = st.tail then st
    else
      let u := st.que.getD st.head 0
      bfsLoop A fuel ((List.range A.sig.siz).foldl (bfsVisit A u) { st with head := st.head + 1 })

/-- The state of the breadth-first loop on entry. -/
def bfsInit (A : DeterministicFiniteAutomaton) : BfsState :=
  { reachable := (List.replicate A.n 0).set A.startStateIndex.toNat 1,
    que := (List.replicate A.n 0).set 0 A.startStateIndex.toNat,
    head := 0, tail := 1 }

/-- The vector `reachable` when the breadth-first loop is left (at most `n` rounds). -/
def reachableFlags (A : DeterministicFiniteAutomaton) : List Nat :=
  (bfsLoop A A.n (bfsInit A)).reachable

/-- The vector `map`: prefix sums of the flags in index order. -/
def prefixMap (n : Nat) (reachable : List Nat) : List Nat :=
  (List.range' 1 (n - 1)).foldl
    (fun mp i => mp.set i (mp.getD (i - 1) 0 + reachable.getD (i - 1) 0))
    ((List.replicate n 0).set 0 0)

/-- The loop that fills `ret.transitions` in `eliminateUnreachableStates`. -/
def elimTransitions (A : DeterministicFiniteAutomaton) (reachable mp : List Nat)
    (t : List (List Int)) : List (List Int) :=
  (List.range A.n).foldl (fun t u =>
    if reachable.getD u 0 ≠ 0 then
      (List.range A.sig.siz).foldl (fun t j =>
        let v := (A.tr u j).toNat
        setTr t (mp.getD u 0) j (mp.getD v 0)) t
    else t) t

/-- The loop that fills `ret.acceptStates` in `eliminateUnreachableStates`. -/
def elimAccepts (A : DeterministicFiniteAutomaton) (reachable mp : List Nat)
    (acc : List Nat) : List Nat :=
  (List.range A.n).foldl (fun acc i =>
    if reachable.getD i 0 ≠ 0 then acc.set (mp.getD i 0) (A.acceptStates.getD i 0) else acc) acc

/-- `eliminateUnreachableStates`. -/
def eliminateUnreachableStates (A : DeterministicFiniteAutomaton) :
    Except Err DeterministicFiniteAutomaton :=
  if !A.isComplete then .error .incomplete
  else if A.startStateIndex = -1 then .error .startUnset
  else do
    let reachable := reachableFlags A
    let mp := prefixMap A.n reachable
    let newSize : Int := (mp.getD (A.n - 1) 0 + reachable.getD (A.n - 1) 0 : Nat)
    let ret ← (new A.sig).setSize newSize
    .ok { ret with
      transitions := elimTransitions A reachable mp ret.transitions,
      countEmptyTransitions := 0,
      isComplete := true,
      acceptStates := elimAccepts A reachable mp ret.acceptStates,
      startStateIndex := (mp.getD A.startStateIndex.toNat 0 : Nat) }

/-! ## Partition refinement (Hopcroft) -/

/-- The statement `invTr[transitions[i][j]][j].push_back(i)` for all `i`, `j`. -/
def buildInvTr (A : DeterministicFiniteAutomaton) : List (List (List Nat)) :=
  (List.range A.n).foldl (fun inv i =>
    (List.range A.sig.siz).foldl (fun inv j =>
      let t := (A.tr i j).toNat
      inv.set t ((inv.getD t []).set j (((inv.getD t []).getD j []) ++ [i]))) inv)
    (List.replicate A.n (List.replicate A.sig.siz []))

/-- The local vectors and counters of `equivalenceClassesHopcroft`. -/
structure HopcroftState where
  classBegin : List Nat
  classSize : List Nat
  classElems : List Nat
  classSplitCnt : List Nat
  classSplitElems : List (List Nat)
  elemBelong : List Nat
  elemPosition : List Nat
  num : Nat
  splitterStack : List (Nat × Nat)
  inStack : List (List Nat)
  stackTop : Nat

/-- Body of the loop of the lambda `Split`; the second component is `pb`. -/
def splitStep (jd : Nat) (S : HopcroftState × Nat) (a : Nat) : HopcroftState × Nat :=
  let pa := S.1.elemPosition.getD a 0
  let b := S.1.classElems.getD S.2 0
  ({ S.1 with
      elemPosition := (S.1.elemPosition.set a S.2).set b pa,
      classElems := (S.1.classElems.set S.2 a).set pa b,
      elemBelong := S.1.elemBelong.set a jd }, S.2 + 1)

/-- The lambda `Split(id, elems)`; returns the new state and `jd`. -/
def Split (st : HopcroftState) (id : Nat) (elems : List Nat) : HopcroftState × Nat :=
  let jd := st.num
  let S := elems.foldl (splitStep jd) ({ st with num := st.num + 1 }, st.classBegin.getD id 0)
  let cb := (S.1.classBegin.set jd (S.1.classBegin.getD id 0)).set id S.2
  let cs := S.1.classSize.set jd elems.length
  ({ S.1 with classBegin := cb,
              classSize := cs.set id (cs.getD id 0 - elems.length) }, jd)

/-- Body of `for (int x : invTr[elem][Aj])`; the second component is `candidates`. -/
def scanPred (S : HopcroftState × List Nat) (x : Nat) : HopcroftState × List Nat :=
  let bel := S.1.elemBelong.getD x 0
  ({ S.1 with
      classSplitCnt := S.1.classSplitCnt.set bel (S.1.classSplitCnt.getD bel 0 + 1),
      classSplitElems := S.1.classSplitElems.set bel (S.1.classSplitElems.getD bel [] ++ [x]) },
   if S.1.classSplitCnt.getD bel 0 = 0 then S.2 ++ [bel] else S.2)

/-- Body of `for (int i = 0; i < classSize[Aid]; ++i)`. -/
def scanElem (invTr : List (List (List Nat))) (Aid Aj : Nat)
    (S : HopcroftState × List Nat) (i : Nat) : HopcroftState × List Nat :=
  let elem := S.1.classElems.getD (S.1.classBegin.getD Aid 0 + i) 0
  ((invTr.getD elem []).getD Aj []).foldl scanPred S

/-- Body of `for (int j = 0; j < m; ++j)` after a split: push one splitter. -/
def pushSplitter (id jd : Nat) (st : HopcroftState) (j : Nat) : HopcroftState :=
  let Xid :=
    if (st.inStack.getD id []).getD j 0 = 0 then
      (if st.classSize.getD id 0 < st.classSize.getD jd 0 then id else jd)
    else jd
  { st with
      splitterStack := st.splitterStack.set st.stackTop (Xid, j),
      stackTop := st.stackTop + 1,
      inStack := st.inStack.set Xid ((st.inStack.getD Xid []).set j 1) }

/-- Body of `for (int id : candidates)`. -/
def processCandidate (m : Nat) (st : HopcroftState) (id : Nat) : HopcroftState :=
  let st1 :=
    if st.classSplitCnt.getD id 0 ≠ st.classSize.getD id 0 then
      let R := Split st id (st.classSplitElems.getD id [])
      (List.range m).foldl (pushSplitter id R.2) R.1
    else st
  { st1 with classSplitCnt := st1.classSplitCnt.set id 0,
             classSplitElems := st1.classSplitElems.set id [] }

/-- Body of `while (stackTop)`. -/
def refineStep (m : Nat) (invTr : List (List (List Nat))) (st : HopcroftState) : HopcroftState :=
  let p := st.splitterStack.getD (st.stackTop - 1) (0, 0)
  let st1 := { st with stackTop := st.stackTop - 1,
                       inStack := st.inStack.set p.1 ((st.inStack.getD p.1 []).set p.2 0) }
  let S := (List.range (st1.classSize.getD p.1 0)).foldl (scanElem invTr p.1 p.2) (st1, [])
  S.2.foldl (processCandidate m) S.1

/-- The loop `while (stackTop)`, with a bound on the number of iterations. -/
def refineLoop (m : Nat) (invTr : List (List (List Nat))) : Nat → HopcroftState → HopcroftState
  | 0, st => st
  | fuel + 1, st => if st.stackTop = 0 then st else refineLoop m invTr fuel (refineStep m invTr st)

/-- The vectors as declared, before class `0` is installed. -/
def hopcroftAlloc (n m : Nat) : HopcroftState :=
  { classBegin := List.replicate n 0, classSize := List.replicate n 0,
    classElems := List.replicate n 0, classSplitCnt := List.replicate n 0,
    classSplitElems := List.replicate n [], elemBelong := List.replicate n 0,
    elemPosition := List.replicate n 0, num := 0,
    splitterStack := List.replicate (n * m) (0, 0),
    inStack := List.replicate n (List.replicate m 0), stackTop := 0 }

/-- Class `0` holding every state, then `++num`. -/
def hopcroftWhole (n m : Nat) : HopcroftState :=
  let st0 := hopcroftAlloc n m
  let st1 := { st0 with classBegin := st0.classBegin.set st0.num 0,
                        classSize := st0.classSize.set st0.num n }
  let st2 := (List.range (st1.classSize.getD st1.num 0)).foldl (fun st i =>
    { st with classElems := st.classElems.set (st.classBegin.getD st.num 0 + i) i,
              elemBelong := st.elemBelong.set i st.num,
              elemPosition := st.elemPosition.set i (st.classBegin.getD st.num 0 + i) }) st1
  { st2 with num := st2.num + 1 }

/-- Body of the loop that seeds the stack with the smaller initial class. -/
def seedSplitter (st : HopcroftState) (j : Nat) : HopcroftState :=
  let id := if st.classSize.getD 0 0 < st.classSize.getD 1 0 then 0 else 1
  { st with
      splitterStack := st.splitterStack.set st.stackTop (id, j),
      stackTop := st.stackTop + 1,
      inStack := st.inStack.set id ((st.inStack.getD id []).set j 1) }

/-- The state on entry of the refinement loop. -/
def hopcroftInit (A : DeterministicFiniteAutomaton) : HopcroftState :=
  let accepting := (List.range A.n).filter (fun i => A.acceptStates.getD i 0 != 0)
  let R := Split (hopcroftWhole A.n A.sig.siz) 0 accepting
  (List.range A.sig.siz).foldl seedSplitter R.1

/-- Inner loop of the final numbering: every member of class `bel` gets `classCnt`. -/
def labelClass (st : HopcroftState) (bel : Nat) (classCnt : Int) (ret : List Int) : List Int :=
  (List.range (st.classSize.getD bel 0)).foldl
    (fun r k => r.set (st.classElems.getD (st.classBegin.getD bel 0 + k) 0) classCnt) ret

/-- Body of the final numbering loop; the second component is `classCnt`. -/
def labelStep (st : HopcroftState) (S : List Int × Int) (i : Nat) : List Int × Int :=
  if S.1.getD i (-1) ≠ -1 then S
  else (labelClass st (st.elemBelong.getD i 0) S.2 S.1, S.2 + 1)

/-- The final numbering of the classes by first occurrence. -/
def labelAll (n : Nat) (st : HopcroftState) : List Int :=
  ((List.range n).foldl (labelStep st) (List.replicate n (-1), 0)).1

/-- `equivalenceClassesHopcroft`; the refinement loop gets `n * m` rounds. -/
def equivalenceClassesHopcroft (A : DeterministicFiniteAutomaton) : List Int :=
  let allAccept := (List.range A.n).all (fun i => A.acceptStates.getD i 0 != 0)
  let allReject := (List.range A.n).all (fun i => A.acceptStates.getD i 0 == 0)
  if allAccept || allReject then List.replicate A.n 0
  else
    let m := A.sig.siz
    let invTr := buildInvTr A
    labelAll A.n (refineLoop m invTr (A.n * m) (hopcroftInit A))

/-- `equivalenceClasses`. -/
def equivalenceClasses (A : DeterministicFiniteAutomaton) : Except Err (List Int) :=
  if !A.isComplete then .error .incomplete
  else .ok A.equivalenceClassesHopcroft

/-! ## Quotient builder -/

/-- The loop that fills `represent` in `minimize`. -/
def buildRepresent (oldSize : Nat) (eqv : List Int) (newSize : Nat) : List Int :=
  (List.range oldSize).foldl (fun rep i =>
    if rep.getD (eqv.getD i 0).toNat (-1) = -1 then rep.set (eqv.getD i 0).toNat (i : Int) else rep)
    (List.replicate newSize (-1))

/-- The loop that fills `ret.transitions` in `minimize`. -/
def quotientTransitions (A : DeterministicFiniteAutomaton) (m : Nat) (eqv represent : List Int)
    (newSize : Nat) (t : List (List Int)) : List (List Int) :=
  (List.range newSize).foldl (fun t i =>
    let u := (represent.getD i (-1)).toNat
    (List.range m).foldl (fun t j =>
      let v := (A.tr u j).toNat
      setTr t i j (eqv.getD v 0)) t) t

/-- The loop that fills `ret.acceptStates` in `minimize`. -/
def quotientAccepts (A : DeterministicFiniteAutomaton) (represent : List Int) (newSize : Nat)
    (acc : List Nat) : List Nat :=
  (List.range newSize).foldl (fun acc i =>
    acc.set i (A.acceptStates.getD (represent.getD i (-1)).toNat 0)) acc

/-- `*std::max_element(eqv.begin(), eqv.end())`. -/
def maxElement (eqv : List Int) : Int := eqv.foldl max (eqv.getD 0 0)

/-- `minimize`. -/
def minimize (A : DeterministicFiniteAutomaton) : Except Err DeterministicFiniteAutomaton :=
  if !A.isComplete then .error .incomplete
  else if A.startStateIndex = -1 then .error .startUnset
  else do
    let m := A.sig.siz
    let F ← A.eliminateUnreachableStates
    let oldSize := F.size
    let eqv ← F.equivalenceClasses
    let newSize : Int := maxElement eqv + 1
    let ret ← (new A.sig).setSize newSize
    let represent := buildRepresent oldSize eqv newSize.toNat
    .ok { ret with
      transitions := quotientTransitions F m eqv represent newSize.toNat ret.transitions,
      countEmptyTransitions := 0,
      isComplete := true,
      acceptStates := quotientAccepts F represent newSize.toNat ret.acceptStates,
      startStateIndex := eqv.getD F.startStateIndex.toNat 0 }

end DeterministicFiniteAutomaton

/-! ## The driver of `examples/example1.cpp` -/

/-- The alphabet `alphabet_number`: the ten digit characters. -/
def alphabet_number : Alphabet := { siz := 10, func := fun x => x + 48, inv := fun x => x - 48 }

open DeterministicFiniteAutomaton in
/-- The statement `A.setTransition(A[i], '0' + j, A[(i * 10 + j) % modular])` of `main`;
the automaton is threaded through as a result that may already be an error. -/
def setEdge (this : Nat) (modular : Int) (i : Nat) (acc : Except Err DeterministicFiniteAutomaton)
    (j : Nat) : Except Err DeterministicFiniteAutomaton := do
  let A ← acc
  let s1 ← A.getState this (i : Int)
  let s2 ← A.getState this (((i : Int) * 10 + j) % modular)
  A.setTransition this s1 (48 + (j : Int)) s2

open DeterministicFiniteAutomaton in
/-- The automaton `A` of `main` for the input `modular`: lines 13 to 20. -/
def multiplesAutomaton (this : Nat) (modular : Int) : Except Err DeterministicFiniteAutomaton := do
  let A0 ← (new alphabet_number).setSize modular
  let A1 ← (List.range modular.toNat).foldl (fun acc i =>
    (List.range 10).foldl (setEdge this modular i) acc) (.ok A0)
  let A2 ← A1.setStartState this (← A1.getState this 0)
  A2.flipStateAcceptance this (← A2.getState this 0)

/-! ## Class invariant and preconditions -/

namespace DeterministicFiniteAutomaton

/-- Number of `-1` entries of a transition table. -/
def emptyEdges (t : List (List Int)) : Nat := (t.map (fun row => row.count (-1))).sum

/-- The class invariant of a sized automaton that is bound to an alphabet: the table is
`n × m` with entries `-1` or a state index, the counter counts the `-1` entries,
`isComplete` says that the counter is `0`, one accept label per state, and the
start index is `-1` or a state index. -/
def WellFormed (A : DeterministicFiniteAutomaton) : Prop :=
  0 < A.n ∧ 0 < A.sig.siz ∧ A.transitions.length = A.n ∧
  (∀ row ∈ A.transitions, row.length = A.sig.siz ∧ ∀ v ∈ row, -1 ≤ v ∧ v < (A.n : Int)) ∧
  A.countEmptyTransitions = (emptyEdges A.transitions : Int) ∧
  (A.isComplete = true ↔ A.countEmptyTransitions = 0) ∧
  A.acceptStates.length = A.n ∧
  -1 ≤ A.startStateIndex ∧ A.startStateIndex < (A.n : Int)

instance (A : DeterministicFiniteAutomaton) : Decidable A.WellFormed := by
  unfold WellFormed; infer_instance

/-- A complete automaton with an assigned start state: the precondition of
`eliminateUnreachableStates` and `minimize`, on top of the class invariant. -/
def Ready (A : DeterministicFiniteAutomaton) : Prop :=
  A.WellFormed ∧ A.isComplete = true ∧ A.startStateIndex ≠ -1

instance (A : DeterministicFiniteAutomaton) : Decidable A.Ready := by
  unfold Ready; infer_instance

/-- A state reference that belongs to the automaton at address `this`: made by
`getState` (index in range) or by the private invalid constructor. -/
def Owns (A : DeterministicFiniteAutomaton) (this : Nat) (st : State) : Prop :=
  st.orig = this ∧
  if st.vali then 0 ≤ st.ind ∧ st.ind < (A.n : Int) else st.ind = -1

instance (A : DeterministicFiniteAutomaton) (this : Nat) (st : State) : Decidable (A.Owns this st) := by
  unfold Owns; infer_instance

end DeterministicFiniteAutomaton

/-- The symbol `c` is in the alphabet: `c2i` does not fail on it. -/
def Alphabet.Has (sig : Alphabet) (c : Int) : Prop := 0 ≤ sig.inv c ∧ sig.inv c < (sig.siz : Int)

instance (sig : Alphabet) (c : Int) : Decidable (sig.Has c) := by
  unfold Alphabet.Has; infer_instance

/-- The id of a symbol of the alphabet. -/
def Alphabet.idOf (sig : Alphabet) (c : Int) : Nat := (sig.inv c).toNat

namespace DeterministicFiniteAutomaton

/-- The successor `transitions[u][j]` used as an index. -/
def step (A : DeterministicFiniteAutomaton) (u j : Nat) : Nat := (A.tr u j).toNat

/-- The state reached from `u` on a word of symbol ids, following the table. -/
def run (A : DeterministicFiniteAutomaton) (u : Nat) (w : List Nat) : Nat := w.foldl A.step u

/-- The accept label of a state as a truth value: `(bool)acceptStates[u]`. -/
def acc (A : DeterministicFiniteAutomaton) (u : Nat) : Bool := A.acceptStates.getD u 0 != 0

/-- The driver expression `A.start().transition(s).accept()`. -/
def accepts (A : DeterministicFiniteAutomaton) (this : Nat) (s : List Int) : Except Err Bool := do
  let st0 ← A.start this
  let st ← A.transitionSeq this st0 s
  A.isAcceptState this st

end DeterministicFiniteAutomaton

end FiniteAutomata

namespace FiniteAutomata

namespace DeterministicFiniteAutomaton

/-- Trap semantics of a sequence of symbol ids, as a specification: from the trap
(`none`) one stays in the trap, from a state one follows the table, and a missing
edge leads to the trap. -/
def follow (A : DeterministicFiniteAutomaton) : Option Nat → List Nat → Option Nat
  | none, _ => none
  | some u, [] => some u
  | some u, a :: w => if A.tr u a = -1 then none else follow A (some (A.tr u a).toNat) w

/-- The state reference for a followed path: a valid state or the invalid state. -/
def stateOf (this : Nat) : Option Nat → State
  | some k => { orig := this, ind := (k : Int), vali := true }
  | none => { orig := this, ind := -1, vali := false }

/-- The position of a state reference: its index, or the trap. -/
def posOf (st : State) : Option Nat := if st.vali then some st.ind.toNat else none

end DeterministicFiniteAutomaton

end FiniteAutomata

namespace FiniteAutomata

namespace DeterministicFiniteAutomaton

/-- The state `v` is reachable from the start state on some word of symbol ids. -/
def Reach (A : DeterministicFiniteAutomaton) (v : Nat) : Prop :=
  ∃ w : List Nat, (∀ a ∈ w, a < A.sig.siz) ∧ A.run A.startStateIndex.toNat w = v

/-- Loop invariant of the breadth-first loop, `closed` apart: the queue holds
distinct marked states, and every marked state is queued and reachable. -/
structure BfsBase (A : DeterministicFiniteAutomaton) (st : BfsState) : Prop where
  lenR : st.reachable.length = A.n
  lenQ : st.que.length = A.n
  ht : st.head ≤ st.tail
  tn : st.tail ≤ A.n
  nodup : (st.que.take st.tail).Nodup
  qmark : ∀ v ∈ st.que.take st.tail, v < A.n ∧ st.reachable.getD v 0 = 1
  bit : ∀ v, st.reachable.getD v 0 ≤ 1
  marked : ∀ v, st.reachable.getD v 0 ≠ 0 → v ∈ st.que.take st.tail ∧ A.Reach v
  start : st.reachable.getD A.startStateIndex.toNat 0 ≠ 0

/-- The states taken from the queue have all their successors marked. -/
def BfsClosed (A : DeterministicFiniteAutomaton) (st : BfsState) (k : Nat) : Prop :=
  ∀ u ∈ st.que.take k, ∀ j, j < A.sig.siz → st.reachable.getD (A.step u j) 0 ≠ 0

/-- Number of marked states below `i`: the prefix sum of the flags. -/
def flagSum (reachable : List Nat) (i : Nat) : Nat :=
  ((List.range i).map (fun k => reachable.getD k 0)).sum

/-- The table has `N` rows of length `m`. -/
def Table {α : Type} (t : List (List α)) (N m : Nat) : Prop :=
  t.length = N ∧ ∀ u, u < N → (t.getD u []).length = m

/-- The renumbering used by `eliminateUnreachableStates`: the value `map[u]`. -/
def renumber (A : DeterministicFiniteAutomaton) (u : Nat) : Nat := flagSum (reachableFlags A) u

end DeterministicFiniteAutomaton

/-- The alphabet `alphabet_01` of the driver: the two characters `0` and `1`. -/
def alphabet_01 : Alphabet := { siz := 2, func := fun x => x + 48, inv := fun x => x - 48 }

/-- A small complete automaton over `alphabet_01` with an unreachable state `2` and two
equivalent states `0` and `3`; states `1` and `4` accept after a last symbol `0`. -/
def sampleAutomaton : DeterministicFiniteAutomaton :=
  { n := 5, sig := alphabet_01,
    transitions := [[1, 3], [1, 0], [2, 2], [4, 0], [4, 3]],
    countEmptyTransitions := 0, isComplete := true, startStateIndex := 0,
    acceptStates := [0, 1, 0, 0, 1] }

namespace DeterministicFiniteAutomaton

/-! ## Reading the Hopcroft vectors -/

/-- `elemBelong[x]`. -/
def HopcroftState.bel (st : HopcroftState) (x : Nat) : Nat := st.elemBelong.getD x 0

/-- `elemPosition[x]`. -/
def HopcroftState.pos (st : HopcroftState) (x : Nat) : Nat := st.elemPosition.getD x 0

/-- `classElems[p]`. -/
def HopcroftState.elem (st : HopcroftState) (p : Nat) : Nat := st.classElems.getD p 0

/-- `classBegin[c]`. -/
def HopcroftState.cbeg (st : HopcroftState) (c : Nat) : Nat := st.classBegin.getD c 0

/-- `classSize[c]`. -/
def HopcroftState.csz (st : HopcroftState) (c : Nat) : Nat := st.classSize.getD c 0

/-- `classSplitCnt[c]`. -/
def HopcroftState.cnt (st : HopcroftState) (c : Nat) : Nat := st.classSplitCnt.getD c 0

/-- `classSplitElems[c]`. -/
def HopcroftState.sel (st : HopcroftState) (c : Nat) : List Nat := st.classSplitElems.getD c []

/-- The splitters on the stack: the first `stackTop` cells of `splitterStack`. -/
def HopcroftState.stack (st : HopcroftState) : List (Nat × Nat) := st.splitterStack.take st.stackTop

/-- `inStack[c][j]`. -/
def HopcroftState.flag (st : HopcroftState) (c j : Nat) : Nat := (st.inStack.getD c []).getD j 0

/-- The vectors that describe the partition. -/
def HopcroftState.core (st : HopcroftState) :
    List Nat × List Nat × List Nat × List Nat × List Nat × Nat :=
  (st.classBegin, st.classSize, st.classElems, st.elemBelong, st.elemPosition, st.num)

/-- The splitter stack with its membership flags. -/
def HopcroftState.stk (st : HopcroftState) : List (Nat × Nat) × List (List Nat) × Nat :=
  (st.splitterStack, st.inStack, st.stackTop)

/-- The two vectors filled by the predecessor scan. -/
def HopcroftState.scratch (st : HopcroftState) : List Nat × List (List Nat) :=
  (st.classSplitCnt, st.classSplitElems)

/-- The partition data structure is consistent: `classElems` and `elemPosition` are
inverse permutations of the states, every class below `num` is a non-empty block of
`classElems`, and `elemBelong` names the block in which a state lies. -/
structure PartInv (n : Nat) (st : HopcroftState) : Prop where
  lenB : st.classBegin.length = n
  lenS : st.classSize.length = n
  lenE : st.classElems.length = n
  lenBel : st.elemBelong.length = n
  lenP : st.elemPosition.length = n
  lenCnt : st.classSplitCnt.length = n
  lenSel : st.classSplitElems.length = n
  numle : st.num ≤ n
  posElem : ∀ x, x < n → st.pos x < n ∧ st.elem (st.pos x) = x
  elemPos : ∀ p, p < n → st.elem p < n ∧ st.pos (st.elem p) = p
  belLt : ∀ x, x < n → st.bel x < st.num
  inBlock : ∀ x, x < n → st.cbeg (st.bel x) ≤ st.pos x ∧ st.pos x < st.cbeg (st.bel x) + st.csz (st.bel x)
  blockBel : ∀ c p, c < st.num → st.cbeg c ≤ p → p < st.cbeg c + st.csz c →
    p < n ∧ st.bel (st.elem p) = c
  sizePos : ∀ c, c < st.num → 0 < st.csz c

/-- Loop invariant of the loop inside `Split`, after the elements `pre` have been
moved, relative to the state `st0` on entry and the class `id` being split. -/
structure SplitInv (n : Nat) (st0 : HopcroftState) (id jd : Nat) (pre : List Nat)
    (S : HopcroftState × Nat) : Prop where
  pb : S.2 = st0.cbeg id + pre.length
  frameB : S.1.classBegin = st0.classBegin
  frameS : S.1.classSize = st0.classSize
  frameCnt : S.1.classSplitCnt = st0.classSplitCnt
  frameSel : S.1.classSplitElems = st0.classSplitElems
  frameStack : S.1.splitterStack = st0.splitterStack
  frameIn : S.1.inStack = st0.inStack
  frameTop : S.1.stackTop = st0.stackTop
  frameNum : S.1.num = st0.num + 1
  lenE : S.1.classElems.length = n
  lenBel : S.1.elemBelong.length = n
  lenP : S.1.elemPosition.length = n
  posElem : ∀ x, x < n → S.1.pos x < n ∧ S.1.elem (S.1.pos x) = x
  elemPos : ∀ p, p < n → S.1.elem p < n ∧ S.1.pos (S.1.elem p) = p
  moved : ∀ i, i < pre.length → S.1.elem (st0.cbeg id + i) = pre.getD i 0
  belEq : ∀ x, S.1.bel x = if x ∈ pre then jd else st0.bel x
  stay : ∀ x, x < n → st0.bel x = id →
    st0.cbeg id ≤ S.1.pos x ∧ S.1.pos x < st0.cbeg id + st0.csz id
  other : ∀ x, x < n → st0.bel x ≠ id → S.1.pos x = st0.pos x
  rest : ∀ x, x < n → st0.bel x = id → x ∉ pre → S.2 ≤ S.1.pos x

end DeterministicFiniteAutomaton

namespace DeterministicFiniteAutomaton

/-- Invariant of the predecessor scan after the predecessors `V` have been recorded,
relative to the state `st0` on entry: only the two split vectors changed,
`classSplitElems[c]` lists the recorded states of class `c`, `classSplitCnt[c]`
counts them, and `candidates` names each class that has one, once. -/
structure ScanInv (n : Nat) (st0 : HopcroftState) (V : List Nat)
    (S : HopcroftState × List Nat) : Prop where
  frameCore : S.1.core = st0.core
  frameStk : S.1.stk = st0.stk
  lenCnt : S.1.classSplitCnt.length = n
  lenSel : S.1.classSplitElems.length = n
  selEq : ∀ c, S.1.sel c = V.filter (fun x => st0.bel x = c)
  cntEq : ∀ c, S.1.cnt c = (S.1.sel c).length
  candNodup : S.2.Nodup
  candMem : ∀ c, c ∈ S.2 ↔ ∃ x, x ∈ V ∧ st0.bel x = c

end DeterministicFiniteAutomaton

end FiniteAutomata

namespace FiniteAutomata

namespace DeterministicFiniteAutomaton

/-- Two states are equivalent: no word of symbol ids tells them apart by acceptance. -/
def Nerode (A : DeterministicFiniteAutomaton) (p q : Nat) : Prop :=
  ∀ w : List Nat, (∀ a ∈ w, a < A.sig.siz) → A.acc (A.run p w) = A.acc (A.run q w)

/-- No word of length at most `k` tells the two states apart. -/
def NerodeUpTo (A : DeterministicFiniteAutomaton) (k : Nat) (p q : Nat) : Prop :=
  ∀ w : List Nat, w.length ≤ k → (∀ a ∈ w, a < A.sig.siz) →
    A.acc (A.run p w) = A.acc (A.run q w)

/-- The splitter stack is consistent: distinct pairs of a class and a symbol, and
`inStack` flags exactly the pairs on the stack. -/
structure StackInv (n m : Nat) (st : HopcroftState) : Prop where
  lenStack : st.splitterStack.length = n * m
  tabIn : Table st.inStack n m
  topLe : st.stackTop ≤ n * m
  nodup : st.stack.Nodup
  range : ∀ c j, (c, j) ∈ st.stack → c < st.num ∧ j < m
  flagIff : ∀ c j, c < n → j < m → (st.flag c j ≠ 0 ↔ (c, j) ∈ st.stack)

/-- The three assignments that push the splitter `(X, j)`. -/
def pushAt (st : HopcroftState) (X j : Nat) : HopcroftState :=
  { st with
      splitterStack := st.splitterStack.set st.stackTop (X, j),
      stackTop := st.stackTop + 1,
      inStack := st.inStack.set X ((st.inStack.getD X []).set j 1) }

/-- The splitter on top of the stack: `splitterStack[stackTop - 1]`. -/
def topSplitter (st : HopcroftState) : Nat × Nat := st.splitterStack.getD (st.stackTop - 1) (0, 0)

/-- The state after `p = splitterStack[--stackTop]` and `inStack[Aid][Aj] = 0`. -/
def popTop (st : HopcroftState) : HopcroftState :=
  { st with stackTop := st.stackTop - 1,
            inStack := st.inStack.set (topSplitter st).1
              ((st.inStack.getD (topSplitter st).1 []).set (topSplitter st).2 0) }

/-- The two assignments `classSplitCnt[c] = 0` and `classSplitElems[c].clear()`. -/
def resetSplit (st : HopcroftState) (c : Nat) : HopcroftState :=
  { st with classSplitCnt := st.classSplitCnt.set c 0,
            classSplitElems := st.classSplitElems.set c [] }

/-- Loop invariant of `while (stackTop)`: the partition is consistent, lies between
the equivalence and the accept/reject split, and every pair of states of one class
whose successors on a symbol lie in different classes is covered by a splitter on
the stack. -/
structure LoopInv (A : DeterministicFiniteAutomaton) (st : HopcroftState) : Prop where
  part : PartInv A.n st
  stk : StackInv A.n A.sig.siz st
  clean : ∀ c, st.cnt c = 0 ∧ st.sel c = []
  coarse : ∀ p q, p < A.n → q < A.n → A.Nerode p q → st.bel p = st.bel q
  fine : ∀ p q, p < A.n → q < A.n → st.bel p = st.bel q → A.acc p = A.acc q
  cover : ∀ p q b, p < A.n → q < A.n → b < A.sig.siz → st.bel p = st.bel q →
    st.bel (A.step p b) ≠ st.bel (A.step q b) →
    (st.bel (A.step p b), b) ∈ st.stack ∨ (st.bel (A.step q b), b) ∈ st.stack

/-- Invariant of `for (int id : candidates)` for the popped symbol `a`, the set `X`
of predecessors found by the scan and the candidates `cs` still to be handled. -/
structure MidInv (A : DeterministicFiniteAutomaton) (a : Nat) (X : Nat → Prop)
    (cs : List Nat) (st : HopcroftState) : Prop where
  part : PartInv A.n st
  stk : StackInv A.n A.sig.siz st
  csNodup : cs.Nodup
  todo : ∀ c, c ∈ cs → c < st.num ∧ (st.sel c).Nodup ∧ st.sel c ≠ [] ∧
    st.cnt c = (st.sel c).length ∧ ∀ x, x ∈ st.sel c ↔ (x < A.n ∧ X x ∧ st.bel x = c)
  done : ∀ c, c ∉ cs → st.cnt c = 0 ∧ st.sel c = [] ∧
    ∀ x y, x < A.n → y < A.n → st.bel x = c → st.bel y = c → (X x ↔ X y)
  coarse : ∀ p q, p < A.n → q < A.n → A.Nerode p q → st.bel p = st.bel q
  fine : ∀ p q, p < A.n → q < A.n → st.bel p = st.bel q → A.acc p = A.acc q
  cover : ∀ p q b, p < A.n → q < A.n → b < A.sig.siz → st.bel p = st.bel q →
    st.bel (A.step p b) ≠ st.bel (A.step q b) →
    (st.bel (A.step p b), b) ∈ st.stack ∨ (st.bel (A.step q b), b) ∈ st.stack ∨
      (b = a ∧ ¬ (X p ↔ X q))

/-- Invariant of the final numbering loop after the states below `i` were visited:
a state is numbered when its class has a member below `i`, numbered states have the
same number exactly when they are in the same class, and the numbers used are
`0 .. classCnt - 1`. -/
structure LabelInv (n : Nat) (st : HopcroftState) (i : Nat) (S : List Int × Int) : Prop where
  len : S.1.length = n
  cntNonneg : 0 ≤ S.2
  labelled : ∀ x, x < n → (S.1.getD x (-1) ≠ -1 ↔ ∃ i', i' < i ∧ st.bel i' = st.bel x)
  range : ∀ x, x < n → S.1.getD x (-1) ≠ -1 → 0 ≤ S.1.getD x (-1) ∧ S.1.getD x (-1) < S.2
  same : ∀ x y, x < n → y < n → S.1.getD x (-1) ≠ -1 → S.1.getD y (-1) ≠ -1 →
    (S.1.getD x (-1) = S.1.getD y (-1) ↔ st.bel x = st.bel y)
  onto : ∀ v : Int, 0 ≤ v → v < S.2 → ∃ x, x < n ∧ S.1.getD x (-1) = v

/-- The class id that `equivalenceClassesHopcroft` gives to state `u`. -/
def classOf (F : DeterministicFiniteAutomaton) (u : Nat) : Nat :=
  ((F.equivalenceClassesHopcroft).getD u 0).toNat

/-- The state of `minimize(A)` into which the state `u` of `A` is merged: the class id
of its new index in the filtered automaton. -/
def mergedState (A : DeterministicFiniteAutomaton) (u : Nat) : Nat :=
  match A.eliminateUnreachableStates with
  | .ok F => F.classOf (A.renumber u)
  | .error _ => 0

end DeterministicFiniteAutomaton

/-- A small incomplete automaton over `alphabet_01`: two of its four edges are missing. -/
def sampleIncomplete : DeterministicFiniteAutomaton :=
  { n := 2, sig := alphabet_01,
    transitions := [[1, -1], [-1, 0]],
    countEmptyTransitions := 2, isComplete := false, startStateIndex := -1,
    acceptStates := [0, 1] }

/-- The table that the driver fills: entry `(i, j)` is `(i * 10 + j) % k`. -/
def multiplesTable (k : Nat) : List (List Int) :=
  (List.range k).map (fun i => (List.range 10).map (fun j => (((i * 10 + j) % k : Nat) : Int)))

/-- The automaton that the driver has built for `modular = k`, in closed form. -/
def multiplesRecord (k : Nat) : DeterministicFiniteAutomaton :=
  { n := k, sig := alphabet_number, transitions := multiplesTable k,
    countEmptyTransitions := 0, isComplete := true, startStateIndex := 0,
    acceptStates := (List.replicate k 0).set 0 1 }

/-- Invariant of the two driver loops when the first `t` cells of the table, in row
order, have been set: no error so far, the other cells are `-1`, the counter holds
the number of missing cells as a 32-bit value, and the completeness flag is set once
every cell is set. -/
def DriverInv (k t : Nat) (acc : Except Err DeterministicFiniteAutomaton) : Prop :=
  ∃ T b, acc = .ok
      { n := k, sig := alphabet_number, transitions := T,
        countEmptyTransitions := wrapInt32 ((k : Int) * 10 - (t : Int)), isComplete := b,
        startStateIndex := -1, acceptStates := List.replicate k 0 } ∧
    DeterministicFiniteAutomaton.Table T k 10 ∧ (t = k * 10 → b = true) ∧
    ∀ i' j', i' < k → j' < 10 → (T.getD i' []).getD j' (-1)
      = if i' * 10 + j' < t then (((i' * 10 + j') % k : Nat) : Int) else -1

/-- The characters of `std::to_string(i)` for a positive `i`, as character codes. -/
def decimalString (i : Nat) : List Int :=
  (Nat.digits 10 i).reverse.map (fun d : Nat => 48 + (d : Int))

/-- The driver up to `B.size()`: build the automaton for `modular`, minimize it, and
return the number of states of the result. -/
def minimizedSize (this : Nat) (modular : Int) : Except Err Nat := do
  let A ← multiplesAutomaton this modular
  let B ← A.minimize
  pure B.size

end FiniteAutomata

namespace FiniteAutomata

/-! ## The remaining public operations of the automaton model -/

/-- The default constructor `Alphabet()`: size `0`; the two `std::function` members are
empty and are never reached, since every caller tests `empty()` or the id range first. -/
def Alphabet.new : Alphabet := { siz := 0, func := fun _ => 0, inv := fun _ => 0 }

/-- `Alphabet::clear`. -/
def Alphabet.clear (_sig : Alphabet) : Alphabet := Alphabet.new

/-- An alphabet with `2^30` symbols in which the symbol `c` has the id `c`:
`Alphabet(1 << 30, f, f)` for the identity function `f`. -/
def alphabet_large : Alphabet := { siz := 1073741824, func := fun x => x, inv := fun x => x }

namespace DeterministicFiniteAutomaton

/-- The default constructor `DeterministicFiniteAutomaton()`. -/
def newUnbound : DeterministicFiniteAutomaton := new Alphabet.new

/-- `clear`. -/
def clear (A : DeterministicFiniteAutomaton) : DeterministicFiniteAutomaton :=
  { n := 0, sig := A.sig.clear, transitions := [], countEmptyTransitions := 0,
    isComplete := false, startStateIndex := -1, acceptStates := [] }

/-- `setAlphabet`. -/
def setAlphabet (A : DeterministicFiniteAutomaton) (alph : Alphabet) :
    Except Err DeterministicFiniteAutomaton :=
  if alph.empty then .error .emptyAlphabet
  else if !A.sig.empty then .error .alphabetExists
  else
    let A1 := { A with sig := alph }
    if A1.n ≠ 0 then A1.initTransitions else .ok A1

/-- `resetAlphabet`: the warning branch leaves the automaton as it is. -/
def resetAlphabet (A : DeterministicFiniteAutomaton) (alph : Alphabet) :
    Except Err DeterministicFiniteAutomaton :=
  if alph.empty then .error .emptyAlphabet
  else if A.sig.siz = alph.siz then .ok { A with sig := alph }
  else .ok A

/-- `clearAcceptStates`: `std::fill` with `(unsigned char)value`. -/
def clearAcceptStates (A : DeterministicFiniteAutomaton) (value : Bool) :
    DeterministicFiniteAutomaton :=
  if A.n = 0 then A
  else { A with acceptStates := List.replicate A.acceptStates.length (if value then 1 else 0) }

/-- `resetAcceptStates(const std::vector<unsigned char> &)`: the bytes are stored as
they come. -/
def resetAcceptStatesBytes (A : DeterministicFiniteAutomaton) (acc : List Nat) :
    Except Err DeterministicFiniteAutomaton :=
  if A.n = 0 then .error .emptyAutomaton
  else if (acc.length : Int) ≠ (A.n : Int) then .error .sizeMismatch
  else .ok { A with acceptStates := acc }

/-- `resetAcceptStates(const std::vector<bool> &)`: each label is stored as `0` or `1`. -/
def resetAcceptStatesBools (A : DeterministicFiniteAutomaton) (acc : List Bool) :
    Except Err DeterministicFiniteAutomaton :=
  if A.n = 0 then .error .emptyAutomaton
  else if (acc.length : Int) ≠ (A.n : Int) then .error .sizeMismatch
  else
    let labels := (List.range A.n).foldl
      (fun a i => a.set i (if acc.getD i false then 1 else 0)) A.acceptStates
    .ok { A with acceptStates := labels }

/-- The unchecked store `v[ind] = x` through `std::vector::operator[]` with an `int`
index. An index outside the vector is undefined behaviour in C++ and raises no
diagnostic; here such a store leaves the elements of the vector as they are. -/
def storeUnchecked (v : List Nat) (ind : Int) (x : Nat) : List Nat :=
  if 0 ≤ ind ∧ ind < (v.length : Int) then v.set ind.toNat x else v

/-- `resetAcceptStates(const std::vector<int> &)`: clear every label, then mark the
listed indices; the indices are not tested against the size. -/
def resetAcceptStatesIndices (A : DeterministicFiniteAutomaton) (states : List Int) :
    Except Err DeterministicFiniteAutomaton :=
  if A.n = 0 then .error .emptyAutomaton
  else
    let A1 := A.clearAcceptStates false
    let marked := states.foldl (fun a ind => storeUnchecked a ind 1) A1.acceptStates
    .ok { A1 with acceptStates := marked }

/-- `State::accept`: `this->DFA().isAcceptState(*this)`, a call on the automaton that
the state points to. -/
def stateAccept (A : DeterministicFiniteAutomaton) (state : State) : Except Err Bool :=
  A.isAcceptState state.orig state

/-! ## Class invariant of every automaton, sized or not -/

/-- An automaton without size or without alphabet: no table has been allocated, the
counter is `0` and `isComplete` is `false`. -/
def Unallocated (A : DeterministicFiniteAutomaton) : Prop :=
  (A.n = 0 ∨ A.sig.siz = 0) ∧ A.transitions = [] ∧ A.countEmptyTransitions = 0 ∧
  A.isComplete = false ∧ A.acceptStates.length = A.n ∧
  -1 ≤ A.startStateIndex ∧ A.startStateIndex < max (A.n : Int) 0

instance (A : DeterministicFiniteAutomaton) : Decidable A.Unallocated := by
  unfold Unallocated; infer_instance

/-- The class invariant: the automaton has no table yet, or it is well formed. -/
def ClassInv (A : DeterministicFiniteAutomaton) : Prop := A.Unallocated ∨ A.WellFormed

instance (A : DeterministicFiniteAutomaton) : Decidable A.ClassInv := by
  unfold ClassInv; infer_instance

/-- The automaton values that the public operations produce: the two constructors,
then any sequence of the mutators and of the two deriving operations. A call that
ends in a fatal error produces no value; the index-list form of `resetAcceptStates`
is taken with indices inside `[0, n)` only, where the C++ code is defined; and
`setSize` and `setAlphabet` are taken with a table of fewer than `2^31` cells only,
where the product `n * m` that `initTransitions` stores in the 32-bit counter does not
overflow. -/
inductive Obtainable : DeterministicFiniteAutomaton → Prop
  | newUnbound : Obtainable newUnbound
  | new (alph : Alphabet) : Obtainable (new alph)
  | setSize {A B : DeterministicFiniteAutomaton} (siz : Int) :
      Obtainable A → siz.toNat * A.sig.siz < 2147483648 → A.setSize siz = .ok B →
      Obtainable B
  | setAlphabet {A B : DeterministicFiniteAutomaton} (alph : Alphabet) :
      Obtainable A → A.n * alph.siz < 2147483648 → A.setAlphabet alph = .ok B →
      Obtainable B
  | resetAlphabet {A B : DeterministicFiniteAutomaton} (alph : Alphabet) :
      Obtainable A → A.resetAlphabet alph = .ok B → Obtainable B
  | clear {A : DeterministicFiniteAutomaton} : Obtainable A → Obtainable A.clear
  | setStartState {A B : DeterministicFiniteAutomaton} (this : Nat) (state : State) :
      Obtainable A → A.setStartState this state = .ok B → Obtainable B
  | setTransition {A B : DeterministicFiniteAutomaton} (this : Nat) (state1 : State)
      (symbol : Int) (state2 : State) :
      Obtainable A → A.setTransition this state1 symbol state2 = .ok B → Obtainable B
  | clearAcceptStates {A : DeterministicFiniteAutomaton} (value : Bool) :
      Obtainable A → Obtainable (A.clearAcceptStates value)
  | flipStateAcceptance {A B : DeterministicFiniteAutomaton} (this : Nat) (state : State) :
      Obtainable A → A.flipStateAcceptance this state = .ok B → Obtainable B
  | resetAcceptStatesBytes {A B : DeterministicFiniteAutomaton} (acc : List Nat) :
      Obtainable A → A.resetAcceptStatesBytes acc = .ok B → Obtainable B
  | resetAcceptStatesBools {A B : DeterministicFiniteAutomaton} (acc : List Bool) :
      Obtainable A → A.resetAcceptStatesBools acc = .ok B → Obtainable B
  | resetAcceptStatesIndices {A B : DeterministicFiniteAutomaton} (states : List Int) :
      Obtainable A → (∀ ind ∈ states, 0 ≤ ind ∧ ind < (A.n : Int)) →
      A.resetAcceptStatesIndices states = .ok B → Obtainable B
  | eliminateUnreachableStates {A B : DeterministicFiniteAutomaton} :
      Obtainable A → A.eliminateUnreachableStates = .ok B → Obtainable B
  | minimize {A B : DeterministicFiniteAutomaton} :
      Obtainable A → A.minimize = .ok B → Obtainable B

/-- The automaton after `DFA A(alphabet_01); A.setSize(2); A.setTransition(A[0], '0', A[1]);`
for an object `A` at address `7`. -/
def sampleBuilt : DeterministicFiniteAutomaton :=
  { n := 2, sig := alphabet_01,
    transitions := [[1, -1], [-1, -1]],
    countEmptyTransitions := 3, isComplete := false, startStateIndex := -1,
    acceptStates := [0, 0] }

/-- A one-state automaton whose accept label is the byte `2`, as left by
`A.setSize(1); A.resetAcceptStates(std::vector<unsigned char>{2});`. -/
def sampleByteLabel : DeterministicFiniteAutomaton :=
  { n := 1, sig := alphabet_01,
    transitions := [[-1, -1]],
    countEmptyTransitions := 2, isComplete := false, startStateIndex := -1,
    acceptStates := [2] }

end DeterministicFiniteAutomaton

end FiniteAutomata

namespace FiniteAutomata

namespace DeterministicFiniteAutomaton

/-! ## The table-filling reference algorithm -/

/-- The local variables of `equivalenceClassesTableFilling` that the two marking loops
change. -/
structure FillState where
  distinguishable : List (List Nat)
  que : List (Nat × Nat)
  head : Nat
  tail : Nat

/-- The two statements `distinguishable[i][j] = 1u, que[tail++] = {i, j}`. -/
def markPair (st : FillState) (i j : Nat) : FillState :=
  { st with
      distinguishable := st.distinguishable.set i ((st.distinguishable.getD i []).set j 1),
      que := st.que.set st.tail (i, j),
      tail := st.tail + 1 }

/-- The declarations of `distinguishable`, `que`, `head` and `tail`. -/
def fillAlloc (n : Nat) : FillState :=
  { distinguishable := List.replicate n (List.replicate n 0),
    que := List.replicate (n * (n - 1) / 2) (0, 0), head := 0, tail := 0 }

/-- Body of the seeding loops: the pair `(i, j)` with `j < i` is marked when the two
label bytes differ (`acceptStates[j] != acceptStates[i]`). -/
def fillSeedPair (A : DeterministicFiniteAutomaton) (i : Nat) (st : FillState) (j : Nat) :
    FillState :=
  if A.acceptStates.getD j 0 ≠ A.acceptStates.getD i 0 then markPair st i j else st

/-- The seeding loops `for i < n, for j < i`. -/
def fillSeed (A : DeterministicFiniteAutomaton) : FillState :=
  (List.range A.n).foldl (fun st i => (List.range i).foldl (fillSeedPair A i) st)
    (fillAlloc A.n)

/-- Body of `for (int v : invTr[y][j])` for a predecessor `u` of `x`: order the pair,
skip it when it is marked, else mark it and queue it. -/
def fillVisit (u : Nat) (st : FillState) (v : Nat) : FillState :=
  let tu := if u < v then v else u
  let tv := if u < v then u else v
  if (st.distinguishable.getD tu []).getD tv 0 ≠ 0 then st else markPair st tu tv

/-- Body of `while (head != tail)`. -/
def fillStep (m : Nat) (invTr : List (List (List Nat))) (st : FillState) : FillState :=
  let p := st.que.getD st.head (0, 0)
  let st1 := { st with head := st.head + 1 }
  (List.range m).foldl (fun st j =>
    ((invTr.getD p.1 []).getD j []).foldl (fun st u =>
      ((invTr.getD p.2 []).getD j []).foldl (fillVisit u) st) st) st1

/-- The loop `while (head != tail)`, with a bound on the number of iterations. -/
def fillLoop (m : Nat) (invTr : List (List (List Nat))) : Nat → FillState → FillState
  | 0, st => st
  | fuel + 1, st => if st.head = st.tail then st else fillLoop m invTr fuel (fillStep m invTr st)

/-- Inner loop of the numbering: every state `j > i` that is not marked against `i`
gets `classCnt`. -/
def fillLabelRow (n : Nat) (dist : List (List Nat)) (i : Nat) (classCnt : Int)
    (ret : List Int) : List Int :=
  (List.range' (i + 1) (n - (i + 1))).foldl
    (fun r j => if (dist.getD j []).getD i 0 = 0 then r.set j classCnt else r) ret

/-- Body of the numbering loop; the second component is `classCnt`. -/
def fillLabelStep (n : Nat) (dist : List (List Nat)) (S : List Int × Int) (i : Nat) :
    List Int × Int :=
  if S.1.getD i (-1) ≠ -1 then S
  else (fillLabelRow n dist i S.2 (S.1.set i S.2), S.2 + 1)

/-- The numbering of the classes from the table of marked pairs. -/
def fillLabel (n : Nat) (dist : List (List Nat)) : List Int :=
  ((List.range n).foldl (fillLabelStep n dist) (List.replicate n (-1), 0)).1

/-- The state of the marking loop when it is left: at most `n (n - 1) / 2` rounds, one
for each pair that can be queued. -/
def fillFinal (A : DeterministicFiniteAutomaton) : FillState :=
  fillLoop A.sig.siz (buildInvTr A) (A.n * (A.n - 1) / 2) (fillSeed A)

/-- `equivalenceClassesTableFilling`. -/
def equivalenceClassesTableFilling (A : DeterministicFiniteAutomaton) : List Int :=
  fillLabel A.n (fillFinal A).distinguishable

/-- A complete two-state automaton whose two states are accepting with the label bytes
`1` and `2`, as left by `resetAcceptStates(std::vector<unsigned char>{1, 2})`. -/
def sampleTwoLabels : DeterministicFiniteAutomaton :=
  { n := 2, sig := alphabet_01,
    transitions := [[1, 0], [0, 1]],
    countEmptyTransitions := 0, isComplete := true, startStateIndex := 0,
    acceptStates := [1, 2] }

end DeterministicFiniteAutomaton

end FiniteAutomata

namespace FiniteAutomata

namespace DeterministicFiniteAutomaton

/-! ## The refinement with checked vector accesses

The same statements as in `hopcroftInit` and `refineLoop`, but every `v[i]` goes through
`readAt` or `writeAt`, which return `none` when the index is outside the vector. -/

end DeterministicFiniteAutomaton

end FiniteAutomata

/-! ## Vector lemmas -/

namespace FiniteAutomata

theorem getD_set_eq {α : Type} (l : List α) (i : Nat) (v d : α) (h : i < l.length) :
    (l.set i v).getD i d = v := by
  simp [List.getD_eq_getElem?_getD, List.getElem?_set, h]

theorem getD_set_ne {α : Type} (l : List α) (i j : Nat) (v d : α) (h : i ≠ j) :
    (l.set i v).getD j d = l.getD j d := by
  simp [List.getD_eq_getElem?_getD, List.getElem?_set, h]

theorem getD_set {α : Type} (l : List α) (i j : Nat) (v d : α) :
    (l.set i v).getD j d = if i = j ∧ i < l.length then v else l.getD j d := by
  by_cases h : i = j
  · subst h
    by_cases h2 : i < l.length
    · simp [getD_set_eq, h2]
    · have : l.set i v = l := List.set_eq_of_length_le (by omega)
      simp [h2, this]
  · simp [getD_set_ne, h]

theorem getD_replicate {α : Type} (n i : Nat) (a d : α) (h : i < n) :
    (List.replicate n a).getD i d = a := by
  simp [List.getD_eq_getElem?_getD, List.getElem?_replicate, h]

theorem getD_mem {α : Type} (l : List α) (i : Nat) (d : α) (h : i < l.length) :
    l.getD i d ∈ l := by
  rw [List.getD_eq_getElem?_getD, List.getElem?_eq_getElem h]
  exact List.getElem_mem h

theorem getD_of_le {α : Type} (l : List α) (i : Nat) (d : α) (h : l.length ≤ i) :
    l.getD i d = d := by
  simp [List.getD_eq_getElem?_getD, List.getElem?_eq_none h]

/-- Invariant rule for a loop `for (i = 0; i < k; ++i)`. -/
theorem foldl_range_inv {σ : Type} (f : σ → Nat → σ) (P : Nat → σ → Prop) (k : Nat) (s : σ)
    (h0 : P 0 s) (hstep : ∀ i s, i < k → P i s → P (i + 1) (f s i)) :
    P k ((List.range k).foldl f s) := by
  induction k with
  | zero => simpa using h0
  | succ k ih =>
    rw [List.range_succ, List.foldl_append]
    simp only [List.foldl_cons, List.foldl_nil]
    exact hstep k _ (Nat.lt_succ_self k)
      (ih (fun i s hi hP => hstep i s (Nat.lt_succ_of_lt hi) hP))

/-- Invariant rule for a loop over the elements of a vector. -/
theorem foldl_list_inv {σ α : Type} (f : σ → α → σ) (P : List α → σ → Prop) (l : List α) (s : σ)
    (h0 : P [] s) (hstep : ∀ pre x s, (∃ suf, l = pre ++ x :: suf) → P pre s → P (pre ++ [x]) (f s x)) :
    P l (l.foldl f s) := by
  induction l using List.reverseRecOn with
  | nil => simpa using h0
  | append_singleton l x ih =>
    rw [List.foldl_append]
    simp only [List.foldl_cons, List.foldl_nil]
    refine hstep l x _ ⟨[], rfl⟩ (ih ?_)
    intro pre y s hsuf hP
    obtain ⟨suf, hs⟩ := hsuf
    exact hstep pre y s ⟨suf ++ [x], by simp [hs]⟩ hP

namespace DeterministicFiniteAutomaton

/-! ## Consequences of the class invariant -/

theorem tr_range (A : DeterministicFiniteAutomaton) (h : A.WellFormed) (u j : Nat) :
    A.tr u j = -1 ∨ (0 ≤ A.tr u j ∧ A.tr u j < (A.n : Int)) := by
  obtain ⟨_, _, hlen, hrows, _⟩ := h
  unfold tr
  by_cases hu : u < A.transitions.length
  · have hrow := hrows _ (getD_mem A.transitions u [] hu)
    by_cases hj : j < (A.transitions.getD u []).length
    · have := hrow.2 _ (getD_mem _ j (-1) hj)
      omega
    · left; exact getD_of_le _ _ _ (by omega)
  · left
    rw [getD_of_le A.transitions u [] (by omega)]
    rfl

theorem emptyEdges_zero (t : List (List Int)) (h : emptyEdges t = 0) :
    ∀ row ∈ t, (-1 : Int) ∉ row := by
  intro row hrow hmem
  unfold emptyEdges at h
  have h1 : row.count (-1) ∈ t.map (fun row => row.count (-1)) := List.mem_map.2 ⟨row, hrow, rfl⟩
  have h2 := List.sum_eq_zero_iff.1 h _ h1
  have h3 := List.count_pos_iff.2 hmem
  omega

/-- In a complete automaton every table entry of a state and a symbol id is a state. -/
theorem tr_complete (A : DeterministicFiniteAutomaton) (h : A.WellFormed) (hc : A.isComplete = true)
    (u j : Nat) (hu : u < A.n) (hj : j < A.sig.siz) :
    0 ≤ A.tr u j ∧ A.tr u j < (A.n : Int) := by
  have hr := tr_range A h u j
  obtain ⟨_, _, hlen, hrows, hcnt, hiff, _⟩ := h
  have h0 : emptyEdges A.transitions = 0 := by
    have := hiff.1 hc
    rw [hcnt] at this
    exact_mod_cast this
  have hne := emptyEdges_zero _ h0
  rcases hr with hr | hr
  · exfalso
    have hu2 : u < A.transitions.length := by omega
    have hrow := getD_mem A.transitions u [] hu2
    have hj2 : j < (A.transitions.getD u []).length := by rw [(hrows _ hrow).1]; exact hj
    have := getD_mem (A.transitions.getD u []) j (-1) hj2
    unfold tr at hr
    rw [hr] at this
    exact hne _ hrow this
  · exact hr

theorem step_lt (A : DeterministicFiniteAutomaton) (h : A.WellFormed) (hc : A.isComplete = true)
    (u j : Nat) (hu : u < A.n) (hj : j < A.sig.siz) : A.step u j < A.n := by
  have := tr_complete A h hc u j hu hj
  unfold step
  omega

theorem tr_eq_step (A : DeterministicFiniteAutomaton) (h : A.WellFormed) (hc : A.isComplete = true)
    (u j : Nat) (hu : u < A.n) (hj : j < A.sig.siz) : A.tr u j = (A.step u j : Int) := by
  have := tr_complete A h hc u j hu hj
  unfold step
  omega

theorem run_lt (A : DeterministicFiniteAutomaton) (h : A.WellFormed) (hc : A.isComplete = true)
    (w : List Nat) (hw : ∀ a ∈ w, a < A.sig.siz) (u : Nat) (hu : u < A.n) : A.run u w < A.n := by
  induction w generalizing u with
  | nil => simpa [run] using hu
  | cons a w ih =>
    have := ih (fun b hb => hw b (List.mem_cons_of_mem _ hb)) (A.step u a)
      (step_lt A h hc u a hu (hw a (List.mem_cons_self _ _)))
    simpa [run] using this

theorem run_append (A : DeterministicFiniteAutomaton) (u : Nat) (w1 w2 : List Nat) :
    A.run u (w1 ++ w2) = A.run (A.run u w1) w2 := by
  simp [run, List.foldl_append]

theorem run_cons (A : DeterministicFiniteAutomaton) (u a : Nat) (w : List Nat) :
    A.run u (a :: w) = A.run (A.step u a) w := rfl

theorem run_nil (A : DeterministicFiniteAutomaton) (u : Nat) : A.run u [] = u := rfl

end DeterministicFiniteAutomaton

end FiniteAutomata

/-! ## Transition lookup: trap semantics -/

namespace FiniteAutomata

theorem Alphabet.c2i_of_has (sig : Alphabet) (c : Int) (h : sig.Has c) :
    sig.c2i c = .ok (sig.idOf c) := by
  unfold Alphabet.Has at h
  unfold Alphabet.c2i Alphabet.idOf
  have : ¬ (sig.inv c < 0 ∨ sig.inv c ≥ (sig.siz : Int)) := by omega
  simp only [this, if_false]

theorem Alphabet.idOf_lt (sig : Alphabet) (c : Int) (h : sig.Has c) : sig.idOf c < sig.siz := by
  unfold Alphabet.Has at h
  unfold Alphabet.idOf
  omega

theorem Alphabet.mapM_c2i (sig : Alphabet) (l : List Int) (h : ∀ c ∈ l, sig.Has c) :
    l.mapM sig.c2i = .ok (l.map sig.idOf) := by
  induction l with
  | nil => rfl
  | cons c l ih =>
    rw [List.mapM_cons, sig.c2i_of_has c (h c (List.mem_cons_self _ _)),
      ih (fun d hd => h d (List.mem_cons_of_mem _ hd))]
    rfl

namespace DeterministicFiniteAutomaton

/-- The invalid state of the automaton at address `this`. -/
theorem invalid_eq (A : DeterministicFiniteAutomaton) (h : A.WellFormed) (this : Nat) :
    A.invalid this = .ok { orig := this, ind := -1, vali := false } := by
  have hn : A.n ≠ 0 := by have := h.1; omega
  simp [invalid, hn]

theorem getState_eq (A : DeterministicFiniteAutomaton) (h : A.WellFormed) (this : Nat) (i : Int)
    (h0 : 0 ≤ i) (h1 : i < (A.n : Int)) :
    A.getState this i = .ok { orig := this, ind := i, vali := true } := by
  have hn : A.n ≠ 0 := by have := h.1; omega
  have : ¬ (i < 0 ∨ i ≥ (A.n : Int)) := by omega
  simp [getState, hn, this]

/-- Closed form of the one-symbol `transition` on a symbol of the alphabet. -/
theorem transition_eq (A : DeterministicFiniteAutomaton) (h : A.WellFormed) (this : Nat)
    (st : State) (hst : A.Owns this st) (c : Int) (hc : A.sig.Has c) :
    A.transition this st c =
      .ok (if st.vali = true ∧ A.tr st.ind.toNat (A.sig.idOf c) ≠ -1
           then { orig := this, ind := A.tr st.ind.toNat (A.sig.idOf c), vali := true }
           else { orig := this, ind := -1, vali := false }) := by
  have hn : A.n ≠ 0 := by have := h.1; omega
  have hm : A.sig.empty = false := by
    have := h.2.1
    simp [Alphabet.empty]; omega
  obtain ⟨ho, hv⟩ := hst
  unfold transition
  simp only [hn, if_false, hm, ho, ne_eq, not_true_eq_false, Bool.false_eq_true]
  rw [A.sig.c2i_of_has c hc]
  show (if (!st.vali) = true then A.invalid this else _) = _
  by_cases hvali : st.vali = true
  · simp only [hvali, if_true] at hv
    have hidx : st.index = st.ind := by simp [State.index, hvali]
    have hr : ¬ (st.ind < 0 ∨ st.ind ≥ (A.n : Int)) := by omega
    simp only [hvali, Bool.not_true, Bool.false_eq_true, if_false, hidx, hr, true_and]
    by_cases hm1 : A.tr st.ind.toNat (A.sig.idOf c) = -1
    · simp only [hm1, if_true, not_true_eq_false, if_false]
      exact invalid_eq A h this
    · simp only [hm1, if_false, not_false_eq_true, if_true]
      rcases tr_range A h st.ind.toNat (A.sig.idOf c) with h1 | h1
      · exact absurd h1 hm1
      · exact getState_eq A h this _ h1.1 h1.2
  · have hvf : st.vali = false := by simpa using hvali
    simp only [hvf, Bool.not_false, if_true, Bool.false_eq_true, false_and, if_false]
    exact invalid_eq A h this

theorem walk_range (A : DeterministicFiniteAutomaton) (h : A.WellFormed) (ids : List Nat)
    (i k : Int) (h0 : 0 ≤ i ∧ i < (A.n : Int)) (hw : walk A i ids = some k) :
    0 ≤ k ∧ k < (A.n : Int) := by
  induction ids generalizing i with
  | nil =>
    simp only [walk, Option.some.injEq] at hw
    rw [← hw]; exact h0
  | cons a ids ih =>
    simp only [walk] at hw
    by_cases hm1 : A.tr i.toNat a = -1
    · simp [hm1] at hw
    · simp only [hm1, if_false] at hw
      rcases tr_range A h i.toNat a with h1 | h1
      · exact absurd h1 hm1
      · exact ih _ h1 hw

/-- Closed form of the sequence `transition` on symbols of the alphabet. -/
theorem transitionSeq_eq (A : DeterministicFiniteAutomaton) (h : A.WellFormed) (this : Nat)
    (st : State) (hst : A.Owns this st) (symbols : List Int) (hs : ∀ c ∈ symbols, A.sig.Has c) :
    A.transitionSeq this st symbols =
      .ok (if st.vali = true then
            match walk A st.ind (symbols.map A.sig.idOf) with
            | some k => { orig := this, ind := k, vali := true }
            | none => { orig := this, ind := -1, vali := false }
           else { orig := this, ind := -1, vali := false }) := by
  have hn : A.n ≠ 0 := by have := h.1; omega
  have hm : A.sig.empty = false := by
    have := h.2.1
    simp [Alphabet.empty]; omega
  obtain ⟨ho, hv⟩ := hst
  unfold transitionSeq
  simp only [hn, if_false, hm, ho, ne_eq, not_true_eq_false, Bool.false_eq_true]
  rw [A.sig.mapM_c2i symbols hs]
  show (if (!st.vali) = true then A.invalid this else _) = _
  by_cases hvali : st.vali = true
  · simp only [hvali, if_true] at hv
    have hidx : st.index = st.ind := by simp [State.index, hvali]
    have hr : ¬ (st.ind < 0 ∨ st.ind ≥ (A.n : Int)) := by omega
    simp only [hvali, Bool.not_true, Bool.false_eq_true, if_false, hidx, hr, if_true]
    cases hw : walk A st.ind (symbols.map A.sig.idOf) with
    | none => exact invalid_eq A h this
    | some k =>
      have hk := walk_range A h _ _ _ hv hw
      exact getState_eq A h this k hk.1 hk.2
  · have hvf : st.vali = false := by simpa using hvali
    simp only [hvf, Bool.not_false, if_true, Bool.false_eq_true, if_false]
    exact invalid_eq A h this

/-- On a complete automaton the table walk never leaves the states and equals `run`. -/
theorem walk_complete (A : DeterministicFiniteAutomaton) (h : A.WellFormed)
    (hc : A.isComplete = true) (ids : List Nat) (hids : ∀ a ∈ ids, a < A.sig.siz)
    (u : Nat) (hu : u < A.n) : walk A (u : Int) ids = some (A.run u ids : Int) := by
  induction ids generalizing u with
  | nil => rfl
  | cons a ids ih =>
    have ha := hids a (List.mem_cons_self _ _)
    have h1 := tr_complete A h hc u a hu ha
    have h2 := tr_eq_step A h hc u a hu ha
    simp only [walk, Int.toNat_ofNat, run_cons]
    have hne : A.tr u a ≠ -1 := by omega
    simp only [hne, if_false]
    rw [h2]
    exact ih (fun b hb => hids b (List.mem_cons_of_mem _ hb)) _ (step_lt A h hc u a hu ha)

end DeterministicFiniteAutomaton

end FiniteAutomata

namespace FiniteAutomata

namespace DeterministicFiniteAutomaton

theorem walk_eq_follow (A : DeterministicFiniteAutomaton) (h : A.WellFormed) (ids : List Nat)
    (i : Int) (h0 : 0 ≤ i) :
    walk A i ids = (follow A (some i.toNat) ids).map (fun k : Nat => (k : Int)) := by
  induction ids generalizing i with
  | nil => simp [walk, follow, Int.toNat_of_nonneg h0]
  | cons a ids ih =>
    simp only [walk, follow]
    by_cases hm1 : A.tr i.toNat a = -1
    · simp [hm1]
    · simp only [hm1, if_false]
      rcases tr_range A h i.toNat a with h1 | h1
      · exact absurd h1 hm1
      · exact ih _ h1.1

theorem owns_stateOf (A : DeterministicFiniteAutomaton) (this : Nat) (o : Option Nat)
    (h : ∀ k, o = some k → k < A.n) : A.Owns this (stateOf this o) := by
  cases o with
  | none => simp [Owns, stateOf]
  | some k =>
    have := h k rfl
    simp only [Owns, stateOf, if_true, true_and]
    omega

theorem stateOf_posOf (A : DeterministicFiniteAutomaton) (this : Nat) (st : State)
    (hst : A.Owns this st) : stateOf this (posOf st) = st := by
  obtain ⟨ho, hv⟩ := hst
  cases st with
  | mk orig ind vali =>
    cases vali with
    | true =>
      simp only [if_true] at hv
      simp only [posOf, stateOf, if_true]
      simp only at ho
      rw [ho, Int.toNat_of_nonneg hv.1]
    | false =>
      simp only [Bool.false_eq_true, if_false] at hv
      simp only at ho
      simp [posOf, stateOf, ho, hv]

theorem follow_lt (A : DeterministicFiniteAutomaton) (h : A.WellFormed) (ids : List Nat)
    (o : Option Nat) (ho : ∀ k, o = some k → k < A.n) :
    ∀ k, follow A o ids = some k → k < A.n := by
  induction ids generalizing o with
  | nil =>
    cases o with
    | none => simp [follow]
    | some u => simpa [follow] using ho
  | cons a ids ih =>
    cases o with
    | none => simp [follow]
    | some u =>
      simp only [follow]
      by_cases hm1 : A.tr u a = -1
      · simp [hm1]
      · simp only [hm1, if_false]
        apply ih
        intro k hk
        rcases tr_range A h u a with h1 | h1
        · exact absurd h1 hm1
        · simp only [Option.some.injEq] at hk
          omega

/-- The sequence form in terms of the specification `follow`. -/
theorem transitionSeq_follow (A : DeterministicFiniteAutomaton) (h : A.WellFormed) (this : Nat)
    (st : State) (hst : A.Owns this st) (symbols : List Int) (hs : ∀ c ∈ symbols, A.sig.Has c) :
    A.transitionSeq this st symbols =
      .ok (stateOf this (follow A (posOf st) (symbols.map A.sig.idOf))) := by
  rw [transitionSeq_eq A h this st hst symbols hs]
  by_cases hvali : st.vali = true
  · have hv := hst.2
    simp only [hvali, if_true] at hv
    simp only [hvali, if_true, posOf]
    rw [walk_eq_follow A h _ _ hv.1]
    cases follow A (some st.ind.toNat) (symbols.map A.sig.idOf) <;> rfl
  · have hvf : st.vali = false := by simpa using hvali
    simp [hvf, posOf, follow, stateOf]

/-- The one-symbol form in terms of the specification `follow`. -/
theorem transition_follow (A : DeterministicFiniteAutomaton) (h : A.WellFormed) (this : Nat)
    (st : State) (hst : A.Owns this st) (c : Int) (hc : A.sig.Has c) :
    A.transition this st c = .ok (stateOf this (follow A (posOf st) [A.sig.idOf c])) := by
  rw [transition_eq A h this st hst c hc]
  by_cases hvali : st.vali = true
  · have hv := hst.2
    simp only [hvali, if_true] at hv
    simp only [hvali, true_and, posOf, if_true, follow]
    by_cases hm1 : A.tr st.ind.toNat (A.sig.idOf c) = -1
    · simp [hm1, stateOf]
    · rcases tr_range A h st.ind.toNat (A.sig.idOf c) with h1 | h1
      · exact absurd h1 hm1
      · simp [hm1, stateOf, Int.toNat_of_nonneg h1.1]
  · have hvf : st.vali = false := by simpa using hvali
    simp [hvf, posOf, follow, stateOf]

theorem posOf_stateOf (this : Nat) (o : Option Nat) : posOf (stateOf this o) = o := by
  cases o <;> simp [posOf, stateOf]

theorem follow_cons (A : DeterministicFiniteAutomaton) (o : Option Nat) (a : Nat) (w : List Nat) :
    follow A o (a :: w) = follow A (follow A o [a]) w := by
  cases o with
  | none => simp [follow]
  | some u =>
    simp only [follow]
    by_cases hm1 : A.tr u a = -1 <;> simp [hm1, follow]

/-- The sequence form is the iteration of the one-symbol form. -/
theorem transitionSeq_foldlM (A : DeterministicFiniteAutomaton) (h : A.WellFormed) (this : Nat)
    (symbols : List Int) (hs : ∀ c ∈ symbols, A.sig.Has c) (st : State) (hst : A.Owns this st) :
    A.transitionSeq this st symbols = symbols.foldlM (A.transition this) st := by
  induction symbols generalizing st with
  | nil =>
    rw [transitionSeq_follow A h this st hst [] hs]
    cases hp : posOf st with
    | none =>
      have := stateOf_posOf A this st hst
      rw [hp] at this
      simp [follow, this, pure, Except.pure]
    | some u =>
      have := stateOf_posOf A this st hst
      rw [hp] at this
      simp [follow, this, pure, Except.pure]
  | cons c cs ih =>
    have hc := hs c (List.mem_cons_self _ _)
    have hcs : ∀ d ∈ cs, A.sig.Has d := fun d hd => hs d (List.mem_cons_of_mem _ hd)
    rw [List.foldlM_cons, transition_follow A h this st hst c hc]
    have hown : A.Owns this (stateOf this (follow A (posOf st) [A.sig.idOf c])) := by
      apply owns_stateOf
      apply follow_lt A h
      intro k hk
      have hv := hst.2
      unfold posOf at hk
      by_cases hvali : st.vali = true
      · simp only [hvali, if_true, Option.some.injEq] at hk hv
        omega
      · simp [hvali] at hk
    show _ = List.foldlM (A.transition this) (stateOf this (follow A (posOf st) [A.sig.idOf c])) cs
    rw [← ih hcs _ hown, transitionSeq_follow A h this st hst (c :: cs) hs,
      transitionSeq_follow A h this _ hown cs hcs, posOf_stateOf, List.map_cons, follow_cons]

end DeterministicFiniteAutomaton

end FiniteAutomata

/-! ## Reachability filter: the breadth-first loop -/

namespace FiniteAutomata

theorem take_set_succ {α : Type} (l : List α) (k : Nat) (v : α) (h : k < l.length) :
    (l.set k v).take (k + 1) = l.take k ++ [v] := by
  rw [List.take_succ, List.set_take, List.set_eq_of_length_le (by simp)]
  simp [List.getElem?_set, h]

theorem take_succ_getD {α : Type} (l : List α) (k : Nat) (d : α) (h : k < l.length) :
    l.take (k + 1) = l.take k ++ [l.getD k d] := by
  rw [List.take_succ, List.getD_eq_getElem?_getD, List.getElem?_eq_getElem h]
  rfl

theorem nodup_length_le (l : List Nat) (n : Nat) (hnd : l.Nodup) (hlt : ∀ x ∈ l, x < n) :
    l.length ≤ n := by
  rw [← List.toFinset_card_of_nodup hnd]
  have : l.toFinset ⊆ Finset.range n := by
    intro x hx
    simp only [List.mem_toFinset] at hx
    simpa using hlt x hx
  simpa using Finset.card_le_card this

namespace DeterministicFiniteAutomaton

theorem reach_lt (A : DeterministicFiniteAutomaton) (h : A.Ready) (v : Nat) (hv : A.Reach v) :
    v < A.n := by
  obtain ⟨w, hw, rfl⟩ := hv
  have hs : A.startStateIndex.toNat < A.n := by
    obtain ⟨⟨_, _, _, _, _, _, _, h1, h2⟩, _, h3⟩ := h
    omega
  exact run_lt A h.1 h.2.1 w hw _ hs

theorem reach_start (A : DeterministicFiniteAutomaton) : A.Reach A.startStateIndex.toNat :=
  ⟨[], by simp, rfl⟩

theorem reach_step (A : DeterministicFiniteAutomaton) (u j : Nat) (hu : A.Reach u)
    (hj : j < A.sig.siz) : A.Reach (A.step u j) := by
  obtain ⟨w, hw, rfl⟩ := hu
  refine ⟨w ++ [j], ?_, ?_⟩
  · intro a ha
    rcases List.mem_append.1 ha with h1 | h1
    · exact hw a h1
    · simp only [List.mem_singleton] at h1; omega
  · rw [run_append]; rfl

theorem start_lt (A : DeterministicFiniteAutomaton) (h : A.Ready) :
    A.startStateIndex.toNat < A.n := by
  obtain ⟨⟨_, _, _, _, _, _, _, h1, h2⟩, _, h3⟩ := h
  omega

theorem bfsInit_base (A : DeterministicFiniteAutomaton) (h : A.Ready) : BfsBase A (bfsInit A) := by
  have hs := start_lt A h
  have hn : 0 < A.n := h.1.1
  have hq : ((List.replicate A.n 0).set 0 A.startStateIndex.toNat).take 1
      = [A.startStateIndex.toNat] := by
    have := take_set_succ (List.replicate A.n 0) 0 A.startStateIndex.toNat (by simpa using hn)
    simpa using this
  have hget : ∀ v, ((List.replicate A.n 0).set A.startStateIndex.toNat 1).getD v 0
      = if v = A.startStateIndex.toNat then 1 else 0 := by
    intro v
    rw [getD_set]
    by_cases hv : A.startStateIndex.toNat = v
    · subst hv; simp [hs]
    · have hv2 : ¬ v = A.startStateIndex.toNat := fun e => hv e.symm
      simp only [hv, false_and, if_false, hv2]
      by_cases hvn : v < A.n
      · exact getD_replicate _ _ _ _ hvn
      · exact getD_of_le _ _ _ (by simp; omega)
  constructor
  · simp [bfsInit]
  · simp [bfsInit]
  · simp [bfsInit]
  · simp only [bfsInit]; omega
  · simp only [bfsInit, hq]; simp
  · intro v hv
    simp only [bfsInit, hq, List.mem_singleton] at hv
    subst hv
    refine ⟨hs, ?_⟩
    simp only [bfsInit, hget, if_true]
  · intro v
    simp only [bfsInit, hget]
    split <;> omega
  · intro v hv
    simp only [bfsInit, hget] at hv
    simp only [bfsInit, hq, List.mem_singleton]
    by_cases e : v = A.startStateIndex.toNat
    · subst e; exact ⟨rfl, reach_start A⟩
    · simp [e] at hv
  · simp only [bfsInit, hget, if_true]; omega

theorem bfsVisit_pos (A : DeterministicFiniteAutomaton) (st : BfsState) (u j : Nat)
    (h0 : st.reachable.getD (A.step u j) 0 = 0) :
    bfsVisit A u st j = { reachable := st.reachable.set (A.step u j) 1,
                          que := st.que.set st.tail (A.step u j),
                          head := st.head, tail := st.tail + 1 } := by
  unfold step at h0 ⊢
  simp only [bfsVisit, h0, if_true]

theorem bfsVisit_neg (A : DeterministicFiniteAutomaton) (st : BfsState) (u j : Nat)
    (h0 : ¬ st.reachable.getD (A.step u j) 0 = 0) : bfsVisit A u st j = st := by
  unfold step at h0
  simp only [bfsVisit, h0, if_false]

/-- One visit keeps the base invariant, marks the successor, and only extends the queue. -/
theorem bfsVisit_base (A : DeterministicFiniteAutomaton) (h : A.Ready) (st : BfsState)
    (u j : Nat) (hb : BfsBase A st) (hu : A.Reach u) (hj : j < A.sig.siz) :
    BfsBase A (bfsVisit A u st j) ∧
    (bfsVisit A u st j).reachable.getD (A.step u j) 0 ≠ 0 ∧
    (bfsVisit A u st j).head = st.head ∧
    (∀ v, st.reachable.getD v 0 ≠ 0 → (bfsVisit A u st j).reachable.getD v 0 ≠ 0) ∧
    (∃ ext, (bfsVisit A u st j).que.take (bfsVisit A u st j).tail = st.que.take st.tail ++ ext) := by
  have hv : A.step u j < A.n := step_lt A h.1 h.2.1 u j (reach_lt A h u hu) hj
  have hreach : A.Reach (A.step u j) := reach_step A u j hu hj
  by_cases h0 : st.reachable.getD (A.step u j) 0 = 0
  · rw [bfsVisit_pos A st u j h0]
    have hnotin : A.step u j ∉ st.que.take st.tail := by
      intro hin
      have := (hb.qmark _ hin).2
      omega
    have hnd : (st.que.take st.tail ++ [A.step u j]).Nodup := by
      refine List.Nodup.append hb.nodup (List.nodup_singleton _) ?_
      intro x hx hx2
      simp only [List.mem_singleton] at hx2
      subst hx2
      exact hnotin hx
    have hlen : (st.que.take st.tail ++ [A.step u j]).length ≤ A.n := by
      apply nodup_length_le _ _ hnd
      intro x hx
      rcases List.mem_append.1 hx with h1 | h1
      · exact (hb.qmark x h1).1
      · simp only [List.mem_singleton] at h1; omega
    have htl : st.tail < A.n := by
      have hlq := hb.lenQ
      have htn := hb.tn
      simp only [List.length_append, List.length_take, List.length_singleton] at hlen
      omega
    have hq : (st.que.set st.tail (A.step u j)).take (st.tail + 1)
        = st.que.take st.tail ++ [A.step u j] :=
      take_set_succ _ _ _ (by rw [hb.lenQ]; exact htl)
    have hget : ∀ v, (st.reachable.set (A.step u j) 1).getD v 0
        = if v = A.step u j then 1 else st.reachable.getD v 0 := by
      intro v
      rw [getD_set]
      by_cases e : A.step u j = v
      · subst e; simp [hb.lenR, hv]
      · have e2 : ¬ v = A.step u j := fun x => e x.symm
        simp [e, e2]
    refine ⟨?_, ?_, rfl, ?_, ⟨[A.step u j], hq⟩⟩
    · constructor
      · simp [hb.lenR]
      · simp [hb.lenQ]
      · have := hb.ht; simp only; omega
      · simp only; omega
      · simp only [hq]; exact hnd
      · intro v hvin
        simp only [hq] at hvin
        simp only [hget]
        rcases List.mem_append.1 hvin with h1 | h1
        · have := hb.qmark v h1
          refine ⟨this.1, ?_⟩
          split
          · rfl
          · exact this.2
        · simp only [List.mem_singleton] at h1
          subst h1
          exact ⟨hv, by simp⟩
      · intro v
        simp only [hget]
        split
        · omega
        · exact hb.bit v
      · intro v hvm
        simp only [hget] at hvm
        simp only [hq]
        by_cases e : v = A.step u j
        · subst e
          exact ⟨List.mem_append_right _ (List.mem_singleton_self _), hreach⟩
        · simp only [e, if_false] at hvm
          have := hb.marked v hvm
          exact ⟨List.mem_append_left _ this.1, this.2⟩
      · simp only [hget]
        split
        · omega
        · exact hb.start
    · simp only [hget, if_true]; omega
    · intro v hvm
      simp only [hget]
      split
      · omega
      · exact hvm
  · rw [bfsVisit_neg A st u j h0]
    exact ⟨hb, h0, rfl, fun v hvm => hvm, ⟨[], by simp⟩⟩

theorem take_of_ext {α : Type} (l l2 : List α) (t t2 k : Nat) (ext : List α)
    (hk : k ≤ t) (ht : t ≤ l.length) (he : l2.take t2 = l.take t ++ ext) :
    l2.take k = l.take k := by
  have hlen : (l.take t).length = t := by simp [ht]
  have ht2 : t ≤ t2 := by
    have := congrArg List.length he
    simp only [List.length_take, List.length_append] at this
    omega
  have h1 : l2.take k = (l2.take t2).take k := by
    rw [List.take_take, Nat.min_eq_left (by omega)]
  rw [h1, he, List.take_append_of_le_length (by omega), List.take_take, Nat.min_eq_left hk]

/-- The loop over the symbols for one dequeued state `u`. -/
theorem bfsVisit_loop (A : DeterministicFiniteAutomaton) (h : A.Ready) (st : BfsState)
    (u : Nat) (hb : BfsBase A st) (hu : A.Reach u) :
    let st2 := (List.range A.sig.siz).foldl (bfsVisit A u) st
    BfsBase A st2 ∧ st2.head = st.head ∧
    (∀ v, st.reachable.getD v 0 ≠ 0 → st2.reachable.getD v 0 ≠ 0) ∧
    (∃ ext, st2.que.take st2.tail = st.que.take st.tail ++ ext) ∧
    (∀ j, j < A.sig.siz → st2.reachable.getD (A.step u j) 0 ≠ 0) := by
  intro st2
  have key := foldl_range_inv (bfsVisit A u)
    (fun k s => BfsBase A s ∧ s.head = st.head ∧
      (∀ v, st.reachable.getD v 0 ≠ 0 → s.reachable.getD v 0 ≠ 0) ∧
      (∃ ext, s.que.take s.tail = st.que.take st.tail ++ ext) ∧
      (∀ j, j < k → s.reachable.getD (A.step u j) 0 ≠ 0))
    A.sig.siz st
    ⟨hb, rfl, fun v hv => hv, ⟨[], by simp⟩, fun j hj => absurd hj (Nat.not_lt_zero j)⟩
    (by
      intro i s hi ⟨hbs, hhead, hmono, ⟨ext, hext⟩, hdone⟩
      obtain ⟨hb2, hmark, hhead2, hmono2, ⟨ext2, hext2⟩⟩ := bfsVisit_base A h s u i hbs hu hi
      refine ⟨hb2, by rw [hhead2, hhead], fun v hv => hmono2 v (hmono v hv),
        ⟨ext ++ ext2, by rw [hext2, hext, List.append_assoc]⟩, ?_⟩
      intro j hj
      by_cases e : j = i
      · subst e; exact hmark
      · exact hmono2 _ (hdone j (by omega)))
  exact key

/-- One round of `while (head != tail)` keeps the invariant. -/
theorem bfs_round (A : DeterministicFiniteAutomaton) (h : A.Ready) (st : BfsState)
    (hb : BfsBase A st) (hc : BfsClosed A st st.head) (hne : st.head ≠ st.tail) :
    let st2 := (List.range A.sig.siz).foldl (bfsVisit A (st.que.getD st.head 0))
      { st with head := st.head + 1 }
    BfsBase A st2 ∧ BfsClosed A st2 st2.head ∧ st2.head = st.head + 1 := by
  intro st2
  have hht : st.head < st.tail := by have := hb.ht; omega
  have hlq : st.head < st.que.length := by rw [hb.lenQ]; have := hb.tn; omega
  have huq : st.que.getD st.head 0 ∈ st.que.take st.tail := by
    rw [List.mem_take_iff_getElem]
    refine ⟨st.head, by simp; omega, ?_⟩
    rw [List.getD_eq_getElem?_getD, List.getElem?_eq_getElem hlq]; rfl
  have hu : A.Reach (st.que.getD st.head 0) :=
    (hb.marked _ (by rw [(hb.qmark _ huq).2]; omega)).2
  have hb1 : BfsBase A { st with head := st.head + 1 } :=
    { lenR := hb.lenR, lenQ := hb.lenQ, ht := hht, tn := hb.tn, nodup := hb.nodup,
      qmark := hb.qmark, bit := hb.bit, marked := hb.marked, start := hb.start }
  obtain ⟨hb2, hhead, hmono, ⟨ext, hext⟩, hdone⟩ := bfsVisit_loop A h _ _ hb1 hu
  refine ⟨hb2, ?_, hhead⟩
  intro v hv j hj
  have hhd : st2.head = st.head + 1 := hhead
  rw [hhd] at hv
  have hq2 : st2.que.take (st.head + 1) = st.que.take (st.head + 1) :=
    take_of_ext st.que st2.que st.tail st2.tail (st.head + 1) ext hht
      (by rw [hb.lenQ]; exact hb.tn) hext
  rw [hq2, take_succ_getD st.que st.head 0 hlq] at hv
  rcases List.mem_append.1 hv with h1 | h1
  · exact hmono _ (hc v h1 j hj)
  · simp only [List.mem_singleton] at h1
    subst h1
    exact hdone j hj

/-- With enough rounds the loop is left with `head = tail` and the invariant. -/
theorem bfsLoop_inv (A : DeterministicFiniteAutomaton) (h : A.Ready) (fuel : Nat)
    (st : BfsState) (hb : BfsBase A st) (hc : BfsClosed A st st.head)
    (hf : A.n ≤ st.head + fuel) :
    BfsBase A (bfsLoop A fuel st) ∧ BfsClosed A (bfsLoop A fuel st) (bfsLoop A fuel st).head ∧
    (bfsLoop A fuel st).head = (bfsLoop A fuel st).tail := by
  induction fuel generalizing st with
  | zero =>
    have h1 := hb.ht
    have h2 := hb.tn
    exact ⟨hb, hc, by simp only [bfsLoop]; omega⟩
  | succ fuel ih =>
    by_cases he : st.head = st.tail
    · simp only [bfsLoop, he, if_true]
      exact ⟨hb, by rw [← he]; exact hc, trivial⟩
    · simp only [bfsLoop, he, if_false]
      obtain ⟨hb2, hc2, hhead⟩ := bfs_round A h st hb hc he
      exact ih _ hb2 hc2 (by rw [hhead]; omega)

/-- The flags computed by the breadth-first loop mark exactly the reachable states. -/
theorem reachableFlags_spec (A : DeterministicFiniteAutomaton) (h : A.Ready) :
    (reachableFlags A).length = A.n ∧
    (∀ v, (reachableFlags A).getD v 0 ≤ 1) ∧
    (∀ v, (reachableFlags A).getD v 0 ≠ 0 ↔ A.Reach v) := by
  have hinit := bfsInit_base A h
  have hc0 : BfsClosed A (bfsInit A) (bfsInit A).head := by
    intro u hu
    simp [bfsInit] at hu
  obtain ⟨hb, hc, hend⟩ := bfsLoop_inv A h A.n (bfsInit A) hinit hc0 (by omega)
  refine ⟨hb.lenR, hb.bit, fun v => ⟨fun hv => (hb.marked v hv).2, ?_⟩⟩
  rintro ⟨w, hw, rfl⟩
  induction w using List.reverseRecOn with
  | nil => exact hb.start
  | append_singleton w a ih =>
    have hw1 : ∀ b ∈ w, b < A.sig.siz := fun b hb' => hw b (List.mem_append_left _ hb')
    have ha : a < A.sig.siz := hw a (List.mem_append_right _ (List.mem_singleton_self a))
    have hm := ih hw1
    have hq := (hb.marked _ hm).1
    rw [← hend] at hq
    rw [run_append]
    exact hc _ hq a ha

end DeterministicFiniteAutomaton

end FiniteAutomata

/-! ## Reachability filter: renumbering and the new automaton -/

namespace FiniteAutomata

namespace DeterministicFiniteAutomaton

theorem flagSum_succ (R : List Nat) (i : Nat) : flagSum R (i + 1) = flagSum R i + R.getD i 0 := by
  simp [flagSum, List.range_succ]

theorem flagSum_mono (R : List Nat) (i j : Nat) (h : i ≤ j) : flagSum R i ≤ flagSum R j := by
  induction j with
  | zero =>
    have : i = 0 := by omega
    subst this; exact Nat.le_refl _
  | succ j ih =>
    by_cases e : i = j + 1
    · subst e; exact Nat.le_refl _
    · have := ih (by omega)
      rw [flagSum_succ]; omega

theorem flagSum_lt (R : List Nat) (u v : Nat) (hu : R.getD u 0 ≠ 0) (huv : u < v) :
    flagSum R u < flagSum R v := by
  have h1 := flagSum_mono R (u + 1) v huv
  rw [flagSum_succ] at h1
  omega

theorem flagSum_surj (R : List Nat) (hbit : ∀ v, R.getD v 0 ≤ 1) (n k : Nat)
    (hk : k < flagSum R n) : ∃ u, u < n ∧ R.getD u 0 ≠ 0 ∧ flagSum R u = k := by
  induction n with
  | zero => simp [flagSum] at hk
  | succ n ih =>
    rw [flagSum_succ] at hk
    by_cases h1 : k < flagSum R n
    · obtain ⟨u, hu, h2, h3⟩ := ih h1
      exact ⟨u, by omega, h2, h3⟩
    · have := hbit n
      exact ⟨n, by omega, by omega, by omega⟩

theorem flagSum_inj (R : List Nat) (u v : Nat) (hu : R.getD u 0 ≠ 0) (hv : R.getD v 0 ≠ 0)
    (h : flagSum R u = flagSum R v) : u = v := by
  rcases Nat.lt_trichotomy u v with h1 | h1 | h1
  · have := flagSum_lt R u v hu h1; omega
  · exact h1
  · have := flagSum_lt R v u hv h1; omega

theorem flagSum_le (R : List Nat) (hbit : ∀ v, R.getD v 0 ≤ 1) (i : Nat) : flagSum R i ≤ i := by
  induction i with
  | zero => simp [flagSum]
  | succ i ih =>
    rw [flagSum_succ]
    have := hbit i
    omega

/-- The vector `map` holds the prefix sums of the flags. -/
theorem prefixMap_spec (n : Nat) (R : List Nat) (hn : 0 < n) :
    (prefixMap n R).length = n ∧ ∀ i, i < n → (prefixMap n R).getD i 0 = flagSum R i := by
  unfold prefixMap
  rw [List.range'_eq_map_range, List.foldl_map]
  have key := foldl_range_inv
    (fun (mp : List Nat) (y : Nat) =>
      mp.set (1 + y) (mp.getD (1 + y - 1) 0 + R.getD (1 + y - 1) 0))
    (fun k mp => mp.length = n ∧ ∀ i, i ≤ k → i < n → mp.getD i 0 = flagSum R i)
    (n - 1) ((List.replicate n 0).set 0 0)
    (by
      refine ⟨by simp, ?_⟩
      intro i hi _
      have : i = 0 := by omega
      subst this
      rw [getD_set_eq _ _ _ _ (by simpa using hn)]
      simp [flagSum])
    (by
      intro i mp hi ⟨hlen, hval⟩
      refine ⟨by simp [hlen], ?_⟩
      intro i' hi' hi'n
      by_cases e : i' = 1 + i
      · subst e
        rw [getD_set_eq _ _ _ _ (by omega)]
        have h1 : 1 + i - 1 = i := by omega
        rw [h1, hval i (Nat.le_refl i) (by omega), Nat.add_comm 1 i, flagSum_succ]
      · rw [getD_set_ne _ _ _ _ _ (fun x => e x.symm)]
        exact hval i' (by omega) hi'n)
  refine ⟨key.1, fun i hi => key.2 i (by omega) hi⟩

/-! ### Two-dimensional tables -/

theorem table_replicate {α : Type} (N m : Nat) (v : α) :
    Table (List.replicate N (List.replicate m v)) N m := by
  refine ⟨by simp, ?_⟩
  intro u hu
  rw [getD_replicate _ _ _ _ hu]
  simp

theorem set2_table {α : Type} (t : List (List α)) (N m u j : Nat) (v : α) (h : Table t N m) :
    Table (t.set u ((t.getD u []).set j v)) N m := by
  obtain ⟨hl, hr⟩ := h
  refine ⟨by simp [hl], ?_⟩
  intro u' hu'
  rw [getD_set]
  split
  · rename_i hc
    rw [List.length_set, hr u (by rw [← hl]; exact hc.2)]
  · exact hr u' hu'

theorem set2_get {α : Type} (t : List (List α)) (N m u j : Nat) (v d : α) (h : Table t N m)
    (hu : u < N) (hj : j < m) (u' j' : Nat) :
    ((t.set u ((t.getD u []).set j v)).getD u' []).getD j' d
      = if u' = u ∧ j' = j then v else (t.getD u' []).getD j' d := by
  obtain ⟨hl, hr⟩ := h
  by_cases e : u = u'
  · subst e
    rw [getD_set_eq _ _ _ _ (by rw [hl]; exact hu)]
    by_cases e2 : j = j'
    · subst e2
      rw [getD_set_eq _ _ _ _ (by rw [hr u hu]; exact hj), if_pos ⟨rfl, rfl⟩]
    · rw [getD_set_ne _ _ _ _ _ e2, if_neg (fun x => e2 x.2.symm)]
  · rw [getD_set_ne _ _ _ _ _ e, if_neg (fun x => e x.1.symm)]

theorem setTr_table (t : List (List Int)) (N m u j : Nat) (v : Int) (h : Table t N m) :
    Table (setTr t u j v) N m := set2_table t N m u j v h

theorem setTr_get (t : List (List Int)) (N m u j : Nat) (v : Int) (h : Table t N m)
    (hu : u < N) (hj : j < m) (u' j' : Nat) :
    ((setTr t u j v).getD u' []).getD j' (-1)
      = if u' = u ∧ j' = j then v else (t.getD u' []).getD j' (-1) :=
  set2_get t N m u j v (-1) h hu hj u' j'

theorem table_mem_row (t : List (List Int)) (N m : Nat) (h : Table t N m) (row : List Int)
    (hrow : row ∈ t) : ∃ u, u < N ∧ row = t.getD u [] := by
  obtain ⟨u, hu, rfl⟩ := List.mem_iff_getElem.1 hrow
  refine ⟨u, by rw [← h.1]; exact hu, ?_⟩
  rw [List.getD_eq_getElem?_getD, List.getElem?_eq_getElem hu]; rfl

theorem row_mem_entry (row : List Int) (v : Int) (hv : v ∈ row) :
    ∃ j, j < row.length ∧ v = row.getD j (-1) := by
  obtain ⟨j, hj, rfl⟩ := List.mem_iff_getElem.1 hv
  refine ⟨j, hj, ?_⟩
  rw [List.getD_eq_getElem?_getD, List.getElem?_eq_getElem hj]; rfl

/-- A table all of whose entries are state indices has the class invariant's shape and
no empty edge. -/
theorem table_full (t : List (List Int)) (N m : Nat) (h : Table t N m)
    (hv : ∀ u j, u < N → j < m → 0 ≤ (t.getD u []).getD j (-1) ∧ (t.getD u []).getD j (-1) < (N : Int)) :
    (∀ row ∈ t, row.length = m ∧ ∀ v ∈ row, 0 ≤ v ∧ v < (N : Int)) ∧ emptyEdges t = 0 := by
  have h1 : ∀ row ∈ t, row.length = m ∧ ∀ v ∈ row, 0 ≤ v ∧ v < (N : Int) := by
    intro row hrow
    obtain ⟨u, hu, rfl⟩ := table_mem_row t N m h row hrow
    refine ⟨h.2 u hu, ?_⟩
    intro v hvm
    obtain ⟨j, hj, rfl⟩ := row_mem_entry _ v hvm
    rw [h.2 u hu] at hj
    exact hv u j hu hj
  refine ⟨h1, ?_⟩
  unfold emptyEdges
  apply List.sum_eq_zero
  intro c hc
  obtain ⟨row, hrow, rfl⟩ := List.mem_map.1 hc
  apply List.count_eq_zero.2
  intro hm
  have := (h1 row hrow).2 _ hm
  omega

end DeterministicFiniteAutomaton

end FiniteAutomata

namespace FiniteAutomata

/-- A value in the range of a 32-bit `int` is stored unchanged. -/
theorem wrapInt32_of_range (x : Int) (h1 : -2147483648 ≤ x) (h2 : x < 2147483648) :
    wrapInt32 x = x := by
  unfold wrapInt32
  omega

theorem wrapInt32_range (x : Int) : -2147483648 ≤ wrapInt32 x ∧ wrapInt32 x < 2147483648 := by
  unfold wrapInt32
  omega

/-- Adding to a stored value and storing again is storing the exact sum. -/
theorem wrapInt32_add (x y : Int) : wrapInt32 (wrapInt32 x + y) = wrapInt32 (x + y) := by
  unfold wrapInt32
  omega

namespace DeterministicFiniteAutomaton

/-- `setSize` on a freshly constructed automaton bound to a non-empty alphabet. -/
theorem setSize_new (sig : Alphabet) (N : Nat) (hN : 0 < N) (hm : 0 < sig.siz) :
    (new sig).setSize (N : Int) = .ok
      { n := N, sig := sig, transitions := List.replicate N (List.replicate sig.siz (-1)),
        countEmptyTransitions := wrapInt32 ((N : Int) * sig.siz), isComplete := false,
        startStateIndex := -1, acceptStates := List.replicate N 0 } := by
  have h1 : ¬ ((N : Int) ≤ 0) := by omega
  have h2 : sig.empty = false := by simp [Alphabet.empty]; omega
  have h3 : ¬ (N = 0) := by omega
  simp [setSize, new, h1, h2, initTransitions, h3]

theorem renumber_lt (A : DeterministicFiniteAutomaton) (h : A.Ready) (u : Nat) (hu : A.Reach u) :
    A.renumber u < A.renumber A.n := by
  have hs := reachableFlags_spec A h
  exact flagSum_lt _ u A.n ((hs.2.2 u).2 hu) (reach_lt A h u hu)

theorem renumber_pos (A : DeterministicFiniteAutomaton) (h : A.Ready) : 0 < A.renumber A.n := by
  have := renumber_lt A h _ (reach_start A)
  omega

theorem prefixMap_renumber (A : DeterministicFiniteAutomaton) (h : A.Ready) (u : Nat)
    (hu : u < A.n) : (prefixMap A.n (reachableFlags A)).getD u 0 = A.renumber u :=
  (prefixMap_spec A.n (reachableFlags A) h.1.1).2 u hu

theorem newSize_renumber (A : DeterministicFiniteAutomaton) (h : A.Ready) :
    (prefixMap A.n (reachableFlags A)).getD (A.n - 1) 0 + (reachableFlags A).getD (A.n - 1) 0
      = A.renumber A.n := by
  have hn : 0 < A.n := h.1.1
  rw [prefixMap_renumber A h (A.n - 1) (by omega)]
  have : A.n = (A.n - 1) + 1 := by omega
  conv_rhs => rw [this]
  exact (flagSum_succ _ _).symm

/-- The transition loop of `eliminateUnreachableStates`. -/
theorem elimTransitions_spec (A : DeterministicFiniteAutomaton) (h : A.Ready) :
    let T := elimTransitions A (reachableFlags A) (prefixMap A.n (reachableFlags A))
      (List.replicate (A.renumber A.n) (List.replicate A.sig.siz (-1)))
    Table T (A.renumber A.n) A.sig.siz ∧
    ∀ u, A.Reach u → ∀ j, j < A.sig.siz →
      (T.getD (A.renumber u) []).getD j (-1) = (A.renumber (A.step u j) : Int) := by
  intro T
  have hs := reachableFlags_spec A h
  have key := foldl_range_inv
    (fun (t : List (List Int)) (u : Nat) =>
      if (reachableFlags A).getD u 0 ≠ 0 then
        (List.range A.sig.siz).foldl (fun t j =>
          let v := (A.tr u j).toNat
          setTr t ((prefixMap A.n (reachableFlags A)).getD u 0) j
            ((prefixMap A.n (reachableFlags A)).getD v 0)) t
      else t)
    (fun k t => Table t (A.renumber A.n) A.sig.siz ∧
      ∀ u, u < k → A.Reach u → ∀ j, j < A.sig.siz →
        (t.getD (A.renumber u) []).getD j (-1) = (A.renumber (A.step u j) : Int))
    A.n (List.replicate (A.renumber A.n) (List.replicate A.sig.siz (-1)))
    ⟨table_replicate _ _ _, fun u hu => absurd hu (Nat.not_lt_zero u)⟩
    (by
      intro u t hu ⟨htab, hrows⟩
      by_cases hr : (reachableFlags A).getD u 0 ≠ 0
      · have hreach : A.Reach u := (hs.2.2 u).1 hr
        beta_reduce
        rw [if_pos hr]
        have inner := foldl_range_inv
          (fun (t : List (List Int)) (j : Nat) =>
            let v := (A.tr u j).toNat
            setTr t ((prefixMap A.n (reachableFlags A)).getD u 0) j
              ((prefixMap A.n (reachableFlags A)).getD v 0))
          (fun k' t => Table t (A.renumber A.n) A.sig.siz ∧
            (∀ u', u' < u → A.Reach u' → ∀ j, j < A.sig.siz →
              (t.getD (A.renumber u') []).getD j (-1) = (A.renumber (A.step u' j) : Int)) ∧
            ∀ j, j < k' →
              (t.getD (A.renumber u) []).getD j (-1) = (A.renumber (A.step u j) : Int))
          A.sig.siz t
          ⟨htab, hrows, fun j hj => absurd hj (Nat.not_lt_zero j)⟩
          (by
            intro j t' hj ⟨htab', hrows', hdone⟩
            have hstep : A.step u j < A.n := step_lt A h.1 h.2.1 u j hu hj
            have e1 : (prefixMap A.n (reachableFlags A)).getD u 0 = A.renumber u :=
              prefixMap_renumber A h u hu
            have e2 : (prefixMap A.n (reachableFlags A)).getD (A.tr u j).toNat 0
                = A.renumber (A.step u j) := prefixMap_renumber A h _ hstep
            simp only [e1, e2]
            have hlt := renumber_lt A h u hreach
            refine ⟨setTr_table _ _ _ _ _ _ htab', ?_, ?_⟩
            · intro u' hu' hr' j' hj'
              rw [setTr_get _ _ _ _ _ _ htab' hlt hj]
              have hne : A.renumber u' ≠ A.renumber u := by
                intro e
                have := flagSum_inj _ u' u ((hs.2.2 u').2 hr') hr e
                omega
              rw [if_neg (fun x => hne x.1)]
              exact hrows' u' hu' hr' j' hj'
            · intro j' hj'
              rw [setTr_get _ _ _ _ _ _ htab' hlt hj]
              by_cases e : j' = j
              · subst e; rw [if_pos ⟨rfl, rfl⟩]
              · rw [if_neg (fun x => e x.2)]
                exact hdone j' (by omega))
        refine ⟨inner.1, ?_⟩
        intro u' hu' hr' j hj
        by_cases e : u' = u
        · subst e; exact inner.2.2 j hj
        · exact inner.2.1 u' (by omega) hr' j hj
      · beta_reduce
        rw [if_neg hr]
        refine ⟨htab, ?_⟩
        intro u' hu' hr' j hj
        by_cases e : u' = u
        · subst e; exact absurd ((hs.2.2 u').2 hr') hr
        · exact hrows u' (by omega) hr' j hj)
  exact ⟨key.1, fun u hu j hj => key.2 u (reach_lt A h u hu) hu j hj⟩

/-- The accept-label loop of `eliminateUnreachableStates`. -/
theorem elimAccepts_spec (A : DeterministicFiniteAutomaton) (h : A.Ready) :
    let L := elimAccepts A (reachableFlags A) (prefixMap A.n (reachableFlags A))
      (List.replicate (A.renumber A.n) 0)
    L.length = A.renumber A.n ∧
    ∀ u, A.Reach u → L.getD (A.renumber u) 0 = A.acceptStates.getD u 0 := by
  intro L
  have hs := reachableFlags_spec A h
  have key := foldl_range_inv
    (fun (acc : List Nat) (i : Nat) =>
      if (reachableFlags A).getD i 0 ≠ 0 then
        acc.set ((prefixMap A.n (reachableFlags A)).getD i 0) (A.acceptStates.getD i 0)
      else acc)
    (fun k acc => acc.length = A.renumber A.n ∧
      ∀ u, u < k → A.Reach u → acc.getD (A.renumber u) 0 = A.acceptStates.getD u 0)
    A.n (List.replicate (A.renumber A.n) 0)
    ⟨by simp, fun u hu => absurd hu (Nat.not_lt_zero u)⟩
    (by
      intro u acc hu ⟨hlen, hval⟩
      by_cases hr : (reachableFlags A).getD u 0 ≠ 0
      · have hreach : A.Reach u := (hs.2.2 u).1 hr
        beta_reduce
        rw [if_pos hr, prefixMap_renumber A h u hu]
        refine ⟨by simp [hlen], ?_⟩
        intro u' hu' hr'
        by_cases e : u' = u
        · subst e
          rw [getD_set_eq _ _ _ _ (by rw [hlen]; exact renumber_lt A h u' hreach)]
        · have hne : A.renumber u ≠ A.renumber u' := by
            intro e2
            exact e (flagSum_inj _ u' u ((hs.2.2 u').2 hr') hr e2.symm)
          rw [getD_set_ne _ _ _ _ _ hne]
          exact hval u' (by omega) hr'
      · beta_reduce
        rw [if_neg hr]
        refine ⟨hlen, ?_⟩
        intro u' hu' hr'
        by_cases e : u' = u
        · subst e; exact absurd ((hs.2.2 u').2 hr') hr
        · exact hval u' (by omega) hr')
  exact ⟨key.1, fun u hu => key.2 u (reach_lt A h u hu) hu⟩

/-- The automaton built by `eliminateUnreachableStates`, field by field. -/
theorem eliminate_eq (A : DeterministicFiniteAutomaton) (h : A.Ready) :
    A.eliminateUnreachableStates = .ok
      { n := A.renumber A.n, sig := A.sig,
        transitions := elimTransitions A (reachableFlags A) (prefixMap A.n (reachableFlags A))
          (List.replicate (A.renumber A.n) (List.replicate A.sig.siz (-1))),
        countEmptyTransitions := 0, isComplete := true,
        startStateIndex := (A.renumber A.startStateIndex.toNat : Int),
        acceptStates := elimAccepts A (reachableFlags A) (prefixMap A.n (reachableFlags A))
          (List.replicate (A.renumber A.n) 0) } := by
  unfold eliminateUnreachableStates
  rw [h.2.1, if_neg (by simp), if_neg h.2.2]
  simp only [newSize_renumber A h]
  rw [setSize_new A.sig _ (renumber_pos A h) h.1.2.1, prefixMap_renumber A h _ (start_lt A h)]
  rfl

/-- What `eliminateUnreachableStates` returns on a complete automaton with a start state. -/
theorem eliminate_spec (A : DeterministicFiniteAutomaton) (h : A.Ready) :
    ∃ F, A.eliminateUnreachableStates = .ok F ∧ F.Ready ∧ F.sig = A.sig ∧
      F.n = A.renumber A.n ∧
      (∀ u, A.Reach u → ∀ j, j < A.sig.siz →
        F.tr (A.renumber u) j = (A.renumber (A.step u j) : Int)) ∧
      (∀ u, A.Reach u → F.acceptStates.getD (A.renumber u) 0 = A.acceptStates.getD u 0) ∧
      F.startStateIndex = (A.renumber A.startStateIndex.toNat : Int) := by
  refine ⟨_, eliminate_eq A h, ?_, rfl, rfl, ?_, ?_, rfl⟩
  · have hs := reachableFlags_spec A h
    obtain ⟨htab, hval⟩ := elimTransitions_spec A h
    obtain ⟨hlen, _⟩ := elimAccepts_spec A h
    have hfull := table_full _ _ _ htab (by
      intro k j hk hj
      obtain ⟨u, hu, hr, hk2⟩ := flagSum_surj _ hs.2.1 A.n k hk
      have hreach : A.Reach u := (hs.2.2 u).1 hr
      have hk3 : k = A.renumber u := hk2.symm
      rw [hk3, hval u hreach j hj]
      have := renumber_lt A h _ (reach_step A u j hreach hj)
      omega)
    have hstart := renumber_lt A h _ (reach_start A)
    refine ⟨⟨renumber_pos A h, h.1.2.1, htab.1, ?_, ?_, ?_, hlen, ?_, ?_⟩, rfl, ?_⟩
    · intro row hrow
      have := hfull.1 row hrow
      refine ⟨this.1, fun v hv => ?_⟩
      have := this.2 v hv
      show -1 ≤ v ∧ v < (A.renumber A.n : Int)
      omega
    · show (0 : Int) = _
      rw [hfull.2]; rfl
    · simp
    · show (-1 : Int) ≤ (A.renumber A.startStateIndex.toNat : Int)
      omega
    · show (A.renumber A.startStateIndex.toNat : Int) < (A.renumber A.n : Int)
      omega
    · show (A.renumber A.startStateIndex.toNat : Int) ≠ -1
      omega
  · exact (elimTransitions_spec A h).2
  · exact (elimAccepts_spec A h).2

end DeterministicFiniteAutomaton

end FiniteAutomata

/-! ## Acceptance on complete automata; the reachability filter preserves it -/

namespace FiniteAutomata

namespace DeterministicFiniteAutomaton

theorem follow_complete (A : DeterministicFiniteAutomaton) (h : A.WellFormed)
    (hc : A.isComplete = true) (ids : List Nat) (hids : ∀ a ∈ ids, a < A.sig.siz)
    (u : Nat) (hu : u < A.n) : follow A (some u) ids = some (A.run u ids) := by
  induction ids generalizing u with
  | nil => rfl
  | cons a ids ih =>
    have ha := hids a (List.mem_cons_self _ _)
    have h1 := tr_complete A h hc u a hu ha
    have hne : A.tr u a ≠ -1 := by omega
    simp only [follow, hne, if_false, run_cons]
    exact ih (fun b hb => hids b (List.mem_cons_of_mem _ hb)) _ (step_lt A h hc u a hu ha)

theorem ids_lt (sig : Alphabet) (s : List Int) (hs : ∀ c ∈ s, sig.Has c) :
    ∀ a ∈ s.map sig.idOf, a < sig.siz := by
  intro a ha
  obtain ⟨c, hc, rfl⟩ := List.mem_map.1 ha
  exact sig.idOf_lt c (hs c hc)

/-- On a complete automaton with a start state the driver expression
`start().transition(s).accept()` is the accept label of the state that `run` reaches. -/
theorem accepts_eq (A : DeterministicFiniteAutomaton) (h : A.Ready) (this : Nat) (s : List Int)
    (hs : ∀ c ∈ s, A.sig.Has c) :
    A.accepts this s = .ok (A.acc (A.run A.startStateIndex.toNat (s.map A.sig.idOf))) := by
  have hn : A.n ≠ 0 := by have := h.1.1; omega
  have hst := start_lt A h
  have hs0 : 0 ≤ A.startStateIndex := by
    have := h.1.2.2.2.2.2.2.2.1
    have := h.2.2
    omega
  have hs1 : A.startStateIndex < (A.n : Int) := h.1.2.2.2.2.2.2.2.2
  have hstart : A.start this = .ok { orig := this, ind := A.startStateIndex, vali := true } := by
    unfold start
    rw [if_neg hn, if_neg h.2.2]
    exact getState_eq A h.1 this _ hs0 hs1
  have hown : A.Owns this { orig := this, ind := A.startStateIndex, vali := true } := by
    simp only [Owns, if_true, true_and]
    exact ⟨hs0, hs1⟩
  have hrun := run_lt A h.1 h.2.1 _ (ids_lt A.sig s hs) _ hst
  unfold accepts
  rw [hstart]
  show (A.transitionSeq this _ s >>= fun st => A.isAcceptState this st) = _
  rw [transitionSeq_follow A h.1 this _ hown s hs]
  have hpos : posOf { orig := this, ind := A.startStateIndex, vali := true }
      = some A.startStateIndex.toNat := by simp [posOf]
  rw [hpos, follow_complete A h.1 h.2.1 _ (ids_lt A.sig s hs) _ hst]
  show A.isAcceptState this (stateOf this (some _)) = _
  unfold isAcceptState
  have hr : ¬ (((A.run A.startStateIndex.toNat (s.map A.sig.idOf) : Nat) : Int) < 0 ∨
      ((A.run A.startStateIndex.toNat (s.map A.sig.idOf) : Nat) : Int) ≥ (A.n : Int)) := by omega
  simp only [stateOf, State.index, hn, if_false, ne_eq, not_true_eq_false, Bool.not_true,
    Bool.false_eq_true, hr, Int.toNat_ofNat, acc]

/-- The renumbering commutes with running a word from a reachable state. -/
theorem eliminate_run (A F : DeterministicFiniteAutomaton) (h : A.Ready)
    (hF : A.eliminateUnreachableStates = .ok F) (w : List Nat) (hw : ∀ a ∈ w, a < A.sig.siz)
    (u : Nat) (hu : A.Reach u) : F.run (A.renumber u) w = A.renumber (A.run u w) := by
  obtain ⟨F', hF', _, _, _, htr, _⟩ := eliminate_spec A h
  have hFF : F' = F := by rw [hF'] at hF; exact Except.ok.inj hF
  subst hFF
  induction w generalizing u with
  | nil => rfl
  | cons a w ih =>
    have ha := hw a (List.mem_cons_self _ _)
    rw [run_cons, run_cons]
    have : F'.step (A.renumber u) a = A.renumber (A.step u a) := by
      unfold step
      rw [htr u hu a ha]
      rfl
    rw [this]
    exact ih (fun b hb => hw b (List.mem_cons_of_mem _ hb)) _ (reach_step A u a hu ha)

theorem reach_run (A : DeterministicFiniteAutomaton) (w : List Nat) (hw : ∀ a ∈ w, a < A.sig.siz) :
    A.Reach (A.run A.startStateIndex.toNat w) := ⟨w, hw, rfl⟩

/-- Acceptance from the start state is the same before and after the filter. -/
theorem eliminate_acc (A F : DeterministicFiniteAutomaton) (h : A.Ready)
    (hF : A.eliminateUnreachableStates = .ok F) (w : List Nat) (hw : ∀ a ∈ w, a < A.sig.siz) :
    F.acc (F.run F.startStateIndex.toNat w) = A.acc (A.run A.startStateIndex.toNat w) := by
  obtain ⟨F', hF', _, _, _, _, hacc, hstart⟩ := eliminate_spec A h
  have hFF : F' = F := by rw [hF'] at hF; exact Except.ok.inj hF
  subst hFF
  have h1 : F'.startStateIndex.toNat = A.renumber A.startStateIndex.toNat := by
    rw [hstart]; rfl
  rw [h1, eliminate_run A F' h hF w hw _ (reach_start A)]
  unfold acc
  rw [hacc _ (reach_run A w hw)]

end DeterministicFiniteAutomaton

end FiniteAutomata

/-! ## Partition refinement: the lambda `Split` -/

namespace FiniteAutomata

namespace DeterministicFiniteAutomaton

theorem getD_set_lt {α : Type} (l : List α) (i j : Nat) (v d : α) (h : i < l.length) :
    (l.set i v).getD j d = if j = i then v else l.getD j d := by
  by_cases e : j = i
  · subst e; rw [if_pos rfl, getD_set_eq _ _ _ _ h]
  · rw [if_neg e, getD_set_ne _ _ _ _ _ (fun x => e x.symm)]

theorem splitStep_inv (n : Nat) (st0 : HopcroftState) (id jd : Nat) (pre : List Nat)
    (S : HopcroftState × Nat) (a : Nat) (h0 : PartInv n st0) (hid : id < st0.num)
    (hJ : SplitInv n st0 id jd pre S) (ha : a < n) (hbel : st0.bel a = id) (hnot : a ∉ pre) :
    SplitInv n st0 id jd (pre ++ [a]) (splitStep jd S a) := by
  -- the two positions and the two elements that are swapped
  have hpa1 := hJ.rest a ha hbel hnot
  have hpa2 := (hJ.stay a ha hbel).2
  have hpan := (hJ.posElem a ha).1
  have hea := (hJ.posElem a ha).2
  have hpbn : S.2 < n := by omega
  have hbn := (hJ.elemPos S.2 hpbn).1
  have hpb := (hJ.elemPos S.2 hpbn).2
  have hpbge : st0.cbeg id ≤ S.2 := by rw [hJ.pb]; omega
  -- the element at `pb` is in the class being split
  have hbbel : st0.bel (S.1.elem S.2) = id := by
    by_contra hne
    have h1 := hJ.other _ hbn hne
    rw [hpb] at h1
    have h2 := (h0.posElem _ hbn).2
    rw [← h1] at h2
    have h3 := (h0.blockBel id S.2 hid hpbge (by omega)).2
    rw [h2] at h3
    exact hne h3
  have hposr : ∀ x, (splitStep jd S a).1.pos x =
      if x = S.1.elem S.2 then S.1.pos a else if x = a then S.2 else S.1.pos x := by
    intro x
    show (((S.1.elemPosition.set a S.2).set (S.1.classElems.getD S.2 0)
      (S.1.elemPosition.getD a 0)).getD x 0) = _
    rw [getD_set_lt _ _ _ _ _ (by rw [List.length_set, hJ.lenP]; exact hbn),
      getD_set_lt _ _ _ _ _ (by rw [hJ.lenP]; exact ha)]
    rfl
  have helemr : ∀ p, (splitStep jd S a).1.elem p =
      if p = S.1.pos a then S.1.elem S.2 else if p = S.2 then a else S.1.elem p := by
    intro p
    show (((S.1.classElems.set S.2 a).set (S.1.elemPosition.getD a 0)
      (S.1.classElems.getD S.2 0)).getD p 0) = _
    rw [getD_set_lt _ _ _ _ _ (by rw [List.length_set, hJ.lenE]; exact hpan),
      getD_set_lt _ _ _ _ _ (by rw [hJ.lenE]; exact hpbn)]
    rfl
  have hbelr : ∀ x, (splitStep jd S a).1.bel x = if x = a then jd else S.1.bel x := by
    intro x
    show ((S.1.elemBelong.set a jd).getD x 0) = _
    rw [getD_set_lt _ _ _ _ _ (by rw [hJ.lenBel]; exact ha)]
    rfl
  -- injectivity of the two maps
  have hposinj : ∀ x, x < n → S.1.pos x = S.1.pos a → x = a := by
    intro x hx e
    have := (hJ.posElem x hx).2
    rw [e, hea] at this
    exact this.symm
  have hposinjb : ∀ x, x < n → S.1.pos x = S.2 → x = S.1.elem S.2 := by
    intro x hx e
    have := (hJ.posElem x hx).2
    rw [e] at this
    exact this.symm
  refine
    { pb := ?_, frameB := hJ.frameB, frameS := hJ.frameS, frameCnt := hJ.frameCnt,
      frameSel := hJ.frameSel, frameStack := hJ.frameStack, frameIn := hJ.frameIn,
      frameTop := hJ.frameTop, frameNum := hJ.frameNum, lenE := ?_, lenBel := ?_, lenP := ?_,
      posElem := ?_, elemPos := ?_, moved := ?_, belEq := ?_, stay := ?_, other := ?_,
      rest := ?_ }
  · show S.2 + 1 = _
    rw [hJ.pb, List.length_append, List.length_singleton]; omega
  · show (((S.1.classElems.set S.2 a).set _ _).length) = n
    rw [List.length_set, List.length_set, hJ.lenE]
  · show ((S.1.elemBelong.set a jd).length) = n
    rw [List.length_set, hJ.lenBel]
  · show (((S.1.elemPosition.set a S.2).set _ _).length) = n
    rw [List.length_set, List.length_set, hJ.lenP]
  · intro x hx
    rw [hposr x]
    by_cases e1 : x = S.1.elem S.2
    · rw [if_pos e1, helemr, if_pos rfl]
      exact ⟨hpan, e1.symm⟩
    · rw [if_neg e1]
      by_cases e2 : x = a
      · rw [if_pos e2, helemr]
        have hne : S.2 ≠ S.1.pos a := by
          intro e
          apply e1
          rw [e2, e, hea]
        rw [if_neg hne, if_pos rfl]
        exact ⟨hpbn, e2.symm⟩
      · rw [if_neg e2, helemr]
        have hne1 : S.1.pos x ≠ S.1.pos a := fun e => e2 (hposinj x hx e)
        have hne2 : S.1.pos x ≠ S.2 := fun e => e1 (hposinjb x hx e)
        rw [if_neg hne1, if_neg hne2]
        exact hJ.posElem x hx
  · intro p hp
    rw [helemr p]
    by_cases e1 : p = S.1.pos a
    · rw [if_pos e1, hposr, if_pos rfl]
      exact ⟨hbn, e1.symm⟩
    · rw [if_neg e1]
      by_cases e2 : p = S.2
      · rw [if_pos e2, hposr]
        have hne : a ≠ S.1.elem S.2 := by
          intro e
          apply e1
          rw [e2, e, hpb]
        rw [if_neg hne, if_pos rfl]
        exact ⟨ha, e2.symm⟩
      · rw [if_neg e2, hposr]
        have hp1 := hJ.elemPos p hp
        have hne1 : S.1.elem p ≠ S.1.elem S.2 := by
          intro e
          apply e2
          rw [← hp1.2, e, hpb]
        have hne2 : S.1.elem p ≠ a := by
          intro e
          apply e1
          rw [← hp1.2, e]
        rw [if_neg hne1, if_neg hne2]
        exact hp1
  · intro i hi
    rw [List.length_append, List.length_singleton] at hi
    rw [helemr]
    by_cases e : i = pre.length
    · subst e
      rw [← hJ.pb]
      have hg : (pre ++ [a]).getD pre.length 0 = a := by
        simp [List.getD_eq_getElem?_getD]
      rw [hg]
      by_cases e1 : S.2 = S.1.pos a
      · rw [if_pos e1]
        rw [← hea, ← e1]
      · rw [if_neg e1, if_pos rfl]
    · have hi2 : i < pre.length := by omega
      have hg : (pre ++ [a]).getD i 0 = pre.getD i 0 := by
        simp [List.getD_eq_getElem?_getD, List.getElem?_append_left hi2]
      have hpbeq := hJ.pb
      rw [hg, if_neg (by omega), if_neg (by omega)]
      exact hJ.moved i hi2
  · intro x
    rw [hbelr, hJ.belEq]
    by_cases e : x = a
    · subst e
      rw [if_pos rfl, if_pos (List.mem_append_right _ (List.mem_singleton_self _))]
    · rw [if_neg e]
      by_cases hm : x ∈ pre
      · rw [if_pos hm, if_pos (List.mem_append_left _ hm)]
      · rw [if_neg hm, if_neg]
        intro hx
        rcases List.mem_append.1 hx with h1 | h1
        · exact hm h1
        · exact e (List.mem_singleton.1 h1)
  · intro x hx hb
    rw [hposr]
    by_cases e1 : x = S.1.elem S.2
    · rw [if_pos e1]; omega
    · rw [if_neg e1]
      by_cases e2 : x = a
      · rw [if_pos e2]; omega
      · rw [if_neg e2]; exact hJ.stay x hx hb
  · intro x hx hb
    rw [hposr]
    have e1 : x ≠ S.1.elem S.2 := fun e => hb (by rw [e]; exact hbbel)
    have e2 : x ≠ a := fun e => hb (by rw [e]; exact hbel)
    rw [if_neg e1, if_neg e2]
    exact hJ.other x hx hb
  · intro x hx hb hnp
    show S.2 + 1 ≤ _
    have hxa : x ≠ a := fun e => hnp (by rw [e]; exact List.mem_append_right _ (List.mem_singleton_self _))
    have hxp : x ∉ pre := fun e => hnp (List.mem_append_left _ e)
    rw [hposr]
    by_cases e1 : x = S.1.elem S.2
    · rw [if_pos e1]
      have : S.1.pos a ≠ S.2 := by
        intro e
        apply hxa
        rw [e1, ← e, hea]
      omega
    · rw [if_neg e1, if_neg hxa]
      have h1 := hJ.rest x hx hb hxp
      have : S.1.pos x ≠ S.2 := fun e => e1 (hposinjb x hx e)
      omega

theorem splitLoop_inv (n : Nat) (st : HopcroftState) (id : Nat) (elems : List Nat)
    (h0 : PartInv n st) (hid : id < st.num) (hnd : elems.Nodup)
    (hel : ∀ x ∈ elems, x < n ∧ st.bel x = id) :
    SplitInv n st id st.num elems
      (elems.foldl (splitStep st.num) ({ st with num := st.num + 1 }, st.classBegin.getD id 0)) := by
  apply foldl_list_inv (splitStep st.num) (fun pre S => SplitInv n st id st.num pre S)
  · exact
      { pb := rfl, frameB := rfl, frameS := rfl, frameCnt := rfl, frameSel := rfl,
        frameStack := rfl, frameIn := rfl, frameTop := rfl, frameNum := rfl,
        lenE := h0.lenE, lenBel := h0.lenBel, lenP := h0.lenP,
        posElem := h0.posElem, elemPos := h0.elemPos,
        moved := fun i hi => absurd hi (Nat.not_lt_zero i),
        belEq := fun x => by simp [HopcroftState.bel],
        stay := fun x hx hb => by have := h0.inBlock x hx; rw [hb] at this; exact this,
        other := fun x _ _ => rfl,
        rest := fun x hx hb _ => by have := (h0.inBlock x hx).1; rw [hb] at this; exact this }
  · intro pre a S ⟨suf, hsuf⟩ hJ
    have hmem : a ∈ elems := by rw [hsuf]; simp
    have hnot : a ∉ pre := by
      rw [hsuf] at hnd
      have := (List.nodup_append.1 hnd).2.2
      intro hin
      exact this hin (List.mem_cons_self _ _)
    exact splitStep_inv n st id st.num pre S a h0 hid hJ (hel a hmem).1 (hel a hmem).2 hnot

/-- The class starts are distinct positions, and a class of size at least two leaves
room for one more class. -/
theorem num_lt_of_big (n : Nat) (st : HopcroftState) (h0 : PartInv n st) (id : Nat)
    (hid : id < st.num) (hbig : 2 ≤ st.csz id) : st.num < n := by
  have hlt : ∀ c, c < st.num → st.cbeg c < n := fun c hc =>
    (h0.blockBel c (st.cbeg c) hc (Nat.le_refl _) (by have := h0.sizePos c hc; omega)).1
  have hinj : ∀ c c', c < st.num → c' < st.num → st.cbeg c = st.cbeg c' → c = c' := by
    intro c c' hc hc' e
    have h1 := (h0.blockBel c (st.cbeg c) hc (Nat.le_refl _) (by have := h0.sizePos c hc; omega)).2
    have h2 := (h0.blockBel c' (st.cbeg c) hc' (by omega) (by have := h0.sizePos c' hc'; omega)).2
    omega
  have hnd : ((st.cbeg id + 1) :: (List.range st.num).map st.cbeg).Nodup := by
    rw [List.nodup_cons]
    constructor
    · intro hm
      obtain ⟨c, hc, e⟩ := List.mem_map.1 hm
      have hc' : c < st.num := List.mem_range.1 hc
      have h1 := (h0.blockBel id (st.cbeg id + 1) hid (by omega) (by omega)).2
      have h2 := (h0.blockBel c (st.cbeg id + 1) hc' (by omega)
        (by have := h0.sizePos c hc'; omega)).2
      have : c = id := by omega
      subst this
      omega
    · apply List.Nodup.map_on _ (List.nodup_range _)
      intro c hc c' hc' e
      exact hinj c c' (List.mem_range.1 hc) (List.mem_range.1 hc') e
  have hlen := nodup_length_le _ n hnd (by
    intro x hx
    rcases List.mem_cons.1 hx with h1 | h1
    · have := (h0.blockBel id (st.cbeg id + 1) hid (by omega) (by omega)).1
      omega
    · obtain ⟨c, hc, e⟩ := List.mem_map.1 h1
      have := hlt c (List.mem_range.1 hc)
      omega)
  simp only [List.length_cons, List.length_map, List.length_range] at hlen
  omega

/-- What `Split(id, elems)` does when `elems` is a proper non-empty part of class `id`:
the elements form the new class `num`, the others stay in class `id`. -/
theorem split_spec (n : Nat) (st : HopcroftState) (id : Nat) (elems : List Nat)
    (h0 : PartInv n st) (hid : id < st.num) (hnd : elems.Nodup)
    (hel : ∀ x ∈ elems, x < n ∧ st.bel x = id) (hpos : 0 < elems.length)
    (hlt : elems.length < st.csz id) :
    (Split st id elems).2 = st.num ∧ PartInv n (Split st id elems).1 ∧
    (Split st id elems).1.num = st.num + 1 ∧
    (∀ x, (Split st id elems).1.bel x = if x ∈ elems then st.num else st.bel x) ∧
    (Split st id elems).1.csz st.num = elems.length ∧
    (Split st id elems).1.csz id = st.csz id - elems.length ∧
    (∀ c, c ≠ id → c ≠ st.num → (Split st id elems).1.csz c = st.csz c) ∧
    (Split st id elems).1.classSplitCnt = st.classSplitCnt ∧
    (Split st id elems).1.classSplitElems = st.classSplitElems ∧
    (Split st id elems).1.splitterStack = st.splitterStack ∧
    (Split st id elems).1.inStack = st.inStack ∧
    (Split st id elems).1.stackTop = st.stackTop := by
  have hJ := splitLoop_inv n st id elems h0 hid hnd hel
  have hjd : st.num < n := num_lt_of_big n st h0 id hid (by omega)
  have hidn : id < n := by omega
  have hne : id ≠ st.num := by omega
  generalize hS : elems.foldl (splitStep st.num)
    ({ st with num := st.num + 1 }, st.classBegin.getD id 0) = S at hJ
  have hR : Split st id elems =
      ({ S.1 with
          classBegin := (S.1.classBegin.set st.num (S.1.classBegin.getD id 0)).set id S.2,
          classSize := ((S.1.classSize.set st.num elems.length).set id
            (((S.1.classSize.set st.num elems.length).getD id 0) - elems.length)) }, st.num) := by
    unfold Split
    simp only [hS]
  have hpb := hJ.pb
  have hcbeg : ∀ c, (Split st id elems).1.cbeg c =
      if c = id then st.cbeg id + elems.length else if c = st.num then st.cbeg id else st.cbeg c := by
    intro c
    rw [hR]
    show (((S.1.classBegin.set st.num (S.1.classBegin.getD id 0)).set id S.2).getD c 0) = _
    rw [hJ.frameB, getD_set_lt _ _ _ _ _ (by rw [List.length_set, h0.lenB]; exact hidn),
      getD_set_lt _ _ _ _ _ (by rw [h0.lenB]; exact hjd), hpb]
    rfl
  have hcsz : ∀ c, (Split st id elems).1.csz c =
      if c = id then st.csz id - elems.length else if c = st.num then elems.length else st.csz c := by
    intro c
    rw [hR]
    show ((((S.1.classSize.set st.num elems.length).set id
      (((S.1.classSize.set st.num elems.length).getD id 0) - elems.length))).getD c 0) = _
    rw [hJ.frameS, getD_set_ne _ _ id _ _ (Ne.symm hne),
      getD_set_lt _ _ _ _ _ (by rw [List.length_set, h0.lenS]; exact hidn),
      getD_set_lt _ _ _ _ _ (by rw [h0.lenS]; exact hjd)]
    rfl
  have hbel : ∀ x, (Split st id elems).1.bel x = if x ∈ elems then st.num else st.bel x := by
    intro x; rw [hR]; exact hJ.belEq x
  have hpos' : ∀ x, (Split st id elems).1.pos x = S.1.pos x := by intro x; rw [hR]; rfl
  have helem' : ∀ p, (Split st id elems).1.elem p = S.1.elem p := by intro p; rw [hR]; rfl
  have hnum : (Split st id elems).1.num = st.num + 1 := by rw [hR]; exact hJ.frameNum
  -- the position of a moved element
  have hmovedpos : ∀ x, x ∈ elems →
      st.cbeg id ≤ S.1.pos x ∧ S.1.pos x < st.cbeg id + elems.length := by
    intro x hx
    obtain ⟨i, hi, e⟩ := List.mem_iff_getElem.1 hx
    have h1 := hJ.moved i hi
    have h2 : elems.getD i 0 = x := by
      rw [List.getD_eq_getElem?_getD, List.getElem?_eq_getElem hi]; exact e
    rw [h2] at h1
    have hb : st.cbeg id + i < n := by
      have := (h0.blockBel id (st.cbeg id + i) hid (by omega) (by omega)).1
      exact this
    have h3 := (hJ.elemPos _ hb).2
    rw [h1] at h3
    omega
  -- an element found in the block of `id` belongs to `id`
  have hinblock : ∀ p, st.cbeg id ≤ p → p < st.cbeg id + st.csz id → st.bel (S.1.elem p) = id := by
    intro p hp1 hp2
    have hpn := (h0.blockBel id p hid hp1 hp2).1
    by_contra hne'
    have hx := (hJ.elemPos p hpn)
    have h1 := hJ.other _ hx.1 hne'
    rw [hx.2] at h1
    have h2 := (h0.posElem _ hx.1).2
    rw [← h1] at h2
    have h3 := (h0.blockBel id p hid hp1 hp2).2
    rw [h2] at h3
    exact hne' h3
  refine ⟨by rw [hR], ?_, hnum, hbel, ?_, ?_, ?_, ?_, ?_, ?_, ?_, ?_⟩
  · refine
      { lenB := ?_, lenS := ?_, lenE := ?_, lenBel := ?_, lenP := ?_, lenCnt := ?_, lenSel := ?_,
        numle := ?_, posElem := ?_, elemPos := ?_, belLt := ?_, inBlock := ?_, blockBel := ?_,
        sizePos := ?_ }
    · rw [hR]; show ((_ : List Nat).set _ _).length = n
      rw [List.length_set, List.length_set, hJ.frameB, h0.lenB]
    · rw [hR]; show ((_ : List Nat).set _ _).length = n
      rw [List.length_set, List.length_set, hJ.frameS, h0.lenS]
    · rw [hR]; exact hJ.lenE
    · rw [hR]; exact hJ.lenBel
    · rw [hR]; exact hJ.lenP
    · rw [hR]; show S.1.classSplitCnt.length = n
      rw [hJ.frameCnt, h0.lenCnt]
    · rw [hR]; show S.1.classSplitElems.length = n
      rw [hJ.frameSel, h0.lenSel]
    · rw [hnum]; omega
    · intro x hx
      rw [hpos', helem']
      exact hJ.posElem x hx
    · intro p hp
      rw [helem', hpos']
      exact hJ.elemPos p hp
    · intro x hx
      rw [hbel, hnum]
      have := h0.belLt x hx
      split <;> omega
    · intro x hx
      rw [hbel x, hpos']
      by_cases hm : x ∈ elems
      · rw [if_pos hm, hcbeg, hcsz, if_neg (Ne.symm hne), if_pos rfl, if_neg (Ne.symm hne),
          if_pos rfl]
        exact hmovedpos x hm
      · rw [if_neg hm, hcbeg, hcsz]
        by_cases hb : st.bel x = id
        · rw [if_pos hb, if_pos hb]
          have h1 := hJ.rest x hx hb hm
          have h2 := (hJ.stay x hx hb).2
          omega
        · have hb2 : st.bel x ≠ st.num := by have := h0.belLt x hx; omega
          rw [if_neg hb, if_neg hb2, if_neg hb, if_neg hb2, hJ.other x hx hb]
          exact h0.inBlock x hx
    · intro c p hc hp1 hp2
      rw [hnum] at hc
      rw [helem', hbel]
      by_cases e1 : c = id
      · subst e1
        have hb1 : (Split st c elems).1.cbeg c = st.cbeg c + elems.length := by
          rw [hcbeg, if_pos rfl]
        have hs1 : (Split st c elems).1.csz c = st.csz c - elems.length := by
          rw [hcsz, if_pos rfl]
        rw [hb1] at hp1 hp2
        rw [hs1] at hp2
        have hpn := (h0.blockBel c p hid (by omega) (by omega)).1
        refine ⟨hpn, ?_⟩
        have hnm : S.1.elem p ∉ elems := by
          intro hm
          have h1 := hmovedpos _ hm
          rw [(hJ.elemPos p hpn).2] at h1
          omega
        rw [if_neg hnm]
        exact hinblock p (by omega) (by omega)
      · by_cases e2 : c = st.num
        · subst e2
          have hb1 : (Split st id elems).1.cbeg st.num = st.cbeg id := by
            rw [hcbeg, if_neg e1, if_pos rfl]
          have hs1 : (Split st id elems).1.csz st.num = elems.length := by
            rw [hcsz, if_neg e1, if_pos rfl]
          rw [hb1] at hp1 hp2
          rw [hs1] at hp2
          have hpn := (h0.blockBel id p hid (by omega) (by omega)).1
          refine ⟨hpn, ?_⟩
          have hi : p - st.cbeg id < elems.length := by omega
          have h1 := hJ.moved (p - st.cbeg id) hi
          have h2 : st.cbeg id + (p - st.cbeg id) = p := by omega
          rw [h2] at h1
          have hm : S.1.elem p ∈ elems := by
            rw [h1]
            exact getD_mem _ _ _ hi
          rw [if_pos hm]
        · have hb1 : (Split st id elems).1.cbeg c = st.cbeg c := by
            rw [hcbeg, if_neg e1, if_neg e2]
          have hs1 : (Split st id elems).1.csz c = st.csz c := by
            rw [hcsz, if_neg e1, if_neg e2]
          rw [hb1] at hp1 hp2
          rw [hs1] at hp2
          have hc' : c < st.num := by omega
          have h1 := h0.blockBel c p hc' hp1 hp2
          have hx := (h0.elemPos p h1.1)
          have hb : st.bel (st.elem p) ≠ id := by rw [h1.2]; exact e1
          have h2 := hJ.other _ hx.1 hb
          rw [hx.2] at h2
          have h3 := (hJ.posElem _ hx.1).2
          rw [h2] at h3
          rw [h3]
          refine ⟨h1.1, ?_⟩
          have hnm : st.elem p ∉ elems := fun hm => hb (hel _ hm).2
          rw [if_neg hnm]
          exact h1.2
    · intro c hc
      rw [hnum] at hc
      rw [hcsz]
      by_cases e1 : c = id
      · rw [if_pos e1]; omega
      · rw [if_neg e1]
        by_cases e2 : c = st.num
        · rw [if_pos e2]; exact hpos
        · rw [if_neg e2]; exact h0.sizePos c (by omega)
  · rw [hcsz, if_neg (Ne.symm hne), if_pos rfl]
  · rw [hcsz, if_pos rfl]
  · intro c h1 h2
    rw [hcsz, if_neg h1, if_neg h2]
  · rw [hR]; exact hJ.frameCnt
  · rw [hR]; exact hJ.frameSel
  · rw [hR]; exact hJ.frameStack
  · rw [hR]; exact hJ.frameIn
  · rw [hR]; exact hJ.frameTop

end DeterministicFiniteAutomaton

end FiniteAutomata

/-! ## Partition refinement: inverse transitions and the predecessor scan -/

namespace FiniteAutomata

namespace DeterministicFiniteAutomaton

/-- The lists `invTr[t][j]` hold the states `i` with `transitions[i][j] = t`, in
index order. -/
theorem buildInvTr_spec (A : DeterministicFiniteAutomaton) (h : A.WellFormed)
    (hc : A.isComplete = true) :
    Table (buildInvTr A) A.n A.sig.siz ∧
    ∀ t j, t < A.n → j < A.sig.siz →
      ((buildInvTr A).getD t []).getD j [] = (List.range A.n).filter (fun i => A.step i j = t) := by
  unfold buildInvTr
  apply foldl_range_inv _
    (fun i (inv : List (List (List Nat))) => Table inv A.n A.sig.siz ∧
      ∀ t j, t < A.n → j < A.sig.siz →
        (inv.getD t []).getD j [] = (List.range i).filter (fun i => A.step i j = t))
  · refine ⟨table_replicate _ _ _, ?_⟩
    intro t j ht hj
    rw [getD_replicate _ _ _ _ ht, getD_replicate _ _ _ _ hj]
    rfl
  · intro i inv hi ⟨htab, hval⟩
    have inner := foldl_range_inv
      (fun (inv : List (List (List Nat))) (j : Nat) =>
        let t := (A.tr i j).toNat
        inv.set t ((inv.getD t []).set j (((inv.getD t []).getD j []) ++ [i])))
      (fun j' (inv : List (List (List Nat))) => Table inv A.n A.sig.siz ∧
        ∀ t j, t < A.n → j < A.sig.siz →
          (inv.getD t []).getD j [] = (List.range i).filter (fun i => A.step i j = t)
            ++ (if j < j' ∧ A.step i j = t then [i] else []))
      A.sig.siz inv
      ⟨htab, fun t j ht hj => by
        rw [hval t j ht hj, if_neg (fun x => Nat.not_lt_zero j x.1), List.append_nil]⟩
      (by
        intro j0 inv' hj0 ⟨htab', hval'⟩
        beta_reduce
        have ht0 : A.step i j0 < A.n := step_lt A h hc i j0 hi hj0
        refine ⟨set2_table _ _ _ _ _ _ htab', ?_⟩
        intro t j ht hj
        show ((inv'.set (A.step i j0) ((inv'.getD (A.step i j0) []).set j0
          (((inv'.getD (A.step i j0) []).getD j0 []) ++ [i]))).getD t []).getD j [] = _
        rw [set2_get _ _ _ _ _ _ _ htab' ht0 hj0]
        by_cases e : t = A.step i j0 ∧ j = j0
        · obtain ⟨e1, e2⟩ := e
          subst e1; subst e2
          rw [if_pos ⟨rfl, rfl⟩, hval' _ _ ht hj, if_neg (fun x => Nat.lt_irrefl _ x.1),
            List.append_nil, if_pos ⟨Nat.lt_succ_self _, rfl⟩]
        · rw [if_neg e, hval' t j ht hj]
          congr 1
          by_cases e2 : j < j0 ∧ A.step i j = t
          · rw [if_pos e2, if_pos ⟨by omega, e2.2⟩]
          · rw [if_neg e2, if_neg]
            intro ⟨h1, h2⟩
            by_cases e3 : j = j0
            · subst e3; exact e ⟨h2.symm, rfl⟩
            · exact e2 ⟨by omega, h2⟩)
    refine ⟨inner.1, ?_⟩
    intro t j ht hj
    rw [inner.2 t j ht hj, List.range_succ, List.filter_append]
    congr 1
    by_cases e : A.step i j = t
    · rw [if_pos ⟨hj, e⟩]
      simp [e]
    · rw [if_neg (fun x => e x.2)]
      simp [e]

theorem mem_invTr (A : DeterministicFiniteAutomaton) (h : A.WellFormed)
    (hc : A.isComplete = true) (t j x : Nat) (ht : t < A.n) (hj : j < A.sig.siz) :
    x ∈ ((buildInvTr A).getD t []).getD j [] ↔ x < A.n ∧ A.step x j = t := by
  rw [(buildInvTr_spec A h hc).2 t j ht hj]
  simp

theorem nodup_invTr (A : DeterministicFiniteAutomaton) (h : A.WellFormed)
    (hc : A.isComplete = true) (t j : Nat) (ht : t < A.n) (hj : j < A.sig.siz) :
    (((buildInvTr A).getD t []).getD j []).Nodup := by
  rw [(buildInvTr_spec A h hc).2 t j ht hj]
  exact (List.nodup_range _).filter _

theorem scanPred_inv (n : Nat) (st0 : HopcroftState) (V : List Nat)
    (S : HopcroftState × List Nat) (x : Nat) (h0 : PartInv n st0) (hx : x < n)
    (hJ : ScanInv n st0 V S) : ScanInv n st0 (V ++ [x]) (scanPred S x) := by
  have hfr := hJ.frameCore
  have hbelx : S.1.elemBelong.getD x 0 = st0.bel x := by
    have : S.1.elemBelong = st0.elemBelong := congrArg (fun c => c.2.2.2.1) hfr
    rw [this]; rfl
  have hbn : st0.bel x < n := by have := h0.belLt x hx; have := h0.numle; omega
  have hR : scanPred S x =
      ({ S.1 with
          classSplitCnt := S.1.classSplitCnt.set (st0.bel x) (S.1.cnt (st0.bel x) + 1),
          classSplitElems := S.1.classSplitElems.set (st0.bel x) (S.1.sel (st0.bel x) ++ [x]) },
       if S.1.cnt (st0.bel x) = 0 then S.2 ++ [st0.bel x] else S.2) := by
    unfold scanPred
    rw [hbelx]
    rfl
  have hsel : ∀ c, (scanPred S x).1.sel c =
      if c = st0.bel x then S.1.sel (st0.bel x) ++ [x] else S.1.sel c := by
    intro c
    rw [hR]
    show (S.1.classSplitElems.set (st0.bel x) (S.1.sel (st0.bel x) ++ [x])).getD c [] = _
    rw [getD_set_lt _ _ _ _ _ (by rw [hJ.lenSel]; exact hbn)]
    rfl
  have hcnt : ∀ c, (scanPred S x).1.cnt c =
      if c = st0.bel x then S.1.cnt (st0.bel x) + 1 else S.1.cnt c := by
    intro c
    rw [hR]
    show (S.1.classSplitCnt.set (st0.bel x) (S.1.cnt (st0.bel x) + 1)).getD c 0 = _
    rw [getD_set_lt _ _ _ _ _ (by rw [hJ.lenCnt]; exact hbn)]
    rfl
  refine
    { frameCore := ?_, frameStk := ?_, lenCnt := ?_, lenSel := ?_, selEq := ?_, cntEq := ?_,
      candNodup := ?_, candMem := ?_ }
  · rw [hR]; exact hfr
  · rw [hR]; exact hJ.frameStk
  · rw [hR]; show (S.1.classSplitCnt.set _ _).length = n
    rw [List.length_set, hJ.lenCnt]
  · rw [hR]; show (S.1.classSplitElems.set _ _).length = n
    rw [List.length_set, hJ.lenSel]
  · intro c
    rw [hsel, List.filter_append]
    by_cases e : c = st0.bel x
    · subst e
      rw [if_pos rfl, hJ.selEq]
      simp
    · rw [if_neg e, hJ.selEq]
      have : ¬ st0.bel x = c := fun h => e h.symm
      simp [this]
  · intro c
    rw [hsel, hcnt]
    by_cases e : c = st0.bel x
    · rw [if_pos e, if_pos e, hJ.cntEq]
      simp
    · rw [if_neg e, if_neg e, hJ.cntEq]
  · rw [hR]
    show (if S.1.cnt (st0.bel x) = 0 then S.2 ++ [st0.bel x] else S.2).Nodup
    by_cases e : S.1.cnt (st0.bel x) = 0
    · rw [if_pos e]
      have hnot : st0.bel x ∉ S.2 := by
        intro hin
        obtain ⟨y, hy, hb⟩ := (hJ.candMem _).1 hin
        have h1 := hJ.cntEq (st0.bel x)
        rw [e, hJ.selEq] at h1
        have h2 : y ∈ V.filter (fun z => st0.bel z = st0.bel x) := by
          simp [hy, hb]
        have h3 := List.length_pos_of_mem h2
        omega
      refine List.Nodup.append hJ.candNodup (List.nodup_singleton _) ?_
      intro z hz hz2
      rw [List.mem_singleton] at hz2
      subst hz2
      exact hnot hz
    · rw [if_neg e]; exact hJ.candNodup
  · intro c
    rw [hR]
    show c ∈ (if S.1.cnt (st0.bel x) = 0 then S.2 ++ [st0.bel x] else S.2) ↔ _
    constructor
    · intro hc
      have hc2 : c ∈ S.2 ∨ c = st0.bel x := by
        by_cases e : S.1.cnt (st0.bel x) = 0
        · rw [if_pos e] at hc
          rcases List.mem_append.1 hc with h1 | h1
          · exact Or.inl h1
          · exact Or.inr (List.mem_singleton.1 h1)
        · rw [if_neg e] at hc; exact Or.inl hc
      rcases hc2 with h1 | h1
      · obtain ⟨y, hy, hb⟩ := (hJ.candMem _).1 h1
        exact ⟨y, List.mem_append_left _ hy, hb⟩
      · exact ⟨x, List.mem_append_right _ (List.mem_singleton_self _), h1.symm⟩
    · rintro ⟨y, hy, hb⟩
      rcases List.mem_append.1 hy with h1 | h1
      · have hin := (hJ.candMem c).2 ⟨y, h1, hb⟩
        by_cases e : S.1.cnt (st0.bel x) = 0
        · rw [if_pos e]; exact List.mem_append_left _ hin
        · rw [if_neg e]; exact hin
      · rw [List.mem_singleton] at h1
        subst h1
        by_cases e : S.1.cnt (st0.bel y) = 0
        · rw [if_pos e, ← hb]; exact List.mem_append_right _ (List.mem_singleton_self _)
        · rw [if_neg e]
          have h1 := hJ.cntEq (st0.bel y)
          rw [hJ.selEq] at h1
          have h2 : 0 < (V.filter (fun z => st0.bel z = st0.bel y)).length := by omega
          obtain ⟨z, hz⟩ := List.exists_mem_of_length_pos h2
          rw [List.mem_filter] at hz
          apply (hJ.candMem c).2
          refine ⟨z, hz.1, ?_⟩
          rw [← hb]
          simpa using hz.2

theorem core_fields (st st' : HopcroftState) (h : st'.core = st.core) :
    st'.classBegin = st.classBegin ∧ st'.classSize = st.classSize ∧
    st'.classElems = st.classElems ∧ st'.elemBelong = st.elemBelong ∧
    st'.elemPosition = st.elemPosition ∧ st'.num = st.num := by
  unfold HopcroftState.core at h
  simp only [Prod.mk.injEq] at h
  exact h

theorem core_access (st st' : HopcroftState) (h : st'.core = st.core) :
    st'.cbeg = st.cbeg ∧ st'.csz = st.csz ∧ st'.elem = st.elem ∧ st'.bel = st.bel ∧
    st'.pos = st.pos ∧ st'.num = st.num := by
  obtain ⟨h1, h2, h3, h4, h5, h6⟩ := core_fields st st' h
  refine ⟨?_, ?_, ?_, ?_, ?_, h6⟩
  · funext c; simp [HopcroftState.cbeg, h1]
  · funext c; simp [HopcroftState.csz, h2]
  · funext c; simp [HopcroftState.elem, h3]
  · funext c; simp [HopcroftState.bel, h4]
  · funext c; simp [HopcroftState.pos, h5]

theorem stk_access (st st' : HopcroftState) (h : st'.stk = st.stk) :
    st'.splitterStack = st.splitterStack ∧ st'.inStack = st.inStack ∧
    st'.stackTop = st.stackTop ∧ st'.stack = st.stack ∧ st'.flag = st.flag := by
  unfold HopcroftState.stk at h
  simp only [Prod.mk.injEq] at h
  obtain ⟨h1, h2, h3⟩ := h
  refine ⟨h1, h2, h3, ?_, ?_⟩
  · simp [HopcroftState.stack, h1, h3]
  · funext c j; simp [HopcroftState.flag, h2]

theorem scratch_access (st st' : HopcroftState) (h : st'.scratch = st.scratch) :
    st'.classSplitCnt = st.classSplitCnt ∧ st'.classSplitElems = st.classSplitElems ∧
    st'.cnt = st.cnt ∧ st'.sel = st.sel := by
  unfold HopcroftState.scratch at h
  simp only [Prod.mk.injEq] at h
  obtain ⟨h1, h2⟩ := h
  refine ⟨h1, h2, ?_, ?_⟩
  · funext c; simp [HopcroftState.cnt, h1]
  · funext c; simp [HopcroftState.sel, h2]

/-- The partition invariant only reads the partition vectors. -/
theorem partInv_of_core (n : Nat) (st st' : HopcroftState) (h0 : PartInv n st)
    (h : st'.core = st.core) (h1 : st'.classSplitCnt.length = n)
    (h2 : st'.classSplitElems.length = n) : PartInv n st' := by
  obtain ⟨e1, e2, e3, e4, e5, e6⟩ := core_fields st st' h
  obtain ⟨a1, a2, a3, a4, a5, _⟩ := core_access st st' h
  exact
    { lenB := by rw [e1]; exact h0.lenB, lenS := by rw [e2]; exact h0.lenS,
      lenE := by rw [e3]; exact h0.lenE, lenBel := by rw [e4]; exact h0.lenBel,
      lenP := by rw [e5]; exact h0.lenP, lenCnt := h1, lenSel := h2,
      numle := by rw [e6]; exact h0.numle,
      posElem := by rw [a3, a5]; exact h0.posElem,
      elemPos := by rw [a3, a5]; exact h0.elemPos,
      belLt := by rw [a4, e6]; exact h0.belLt,
      inBlock := by rw [a1, a2, a4, a5]; exact h0.inBlock,
      blockBel := by rw [a1, a2, a3, a4, e6]; exact h0.blockBel,
      sizePos := by rw [a2, e6]; exact h0.sizePos }

/-- The predecessor scan for the popped splitter `(C, a)`: afterwards the split
vectors describe the set of states whose `a`-successor lies in class `C`. -/
theorem scan_spec (A : DeterministicFiniteAutomaton) (h : A.WellFormed)
    (hc : A.isComplete = true) (st : HopcroftState) (C a : Nat) (h0 : PartInv A.n st)
    (hclean : ∀ c, st.cnt c = 0 ∧ st.sel c = []) (hC : C < st.num) (ha : a < A.sig.siz) :
    ∃ V : List Nat, V.Nodup ∧ (∀ x, x ∈ V ↔ x < A.n ∧ st.bel (A.step x a) = C) ∧
      ScanInv A.n st V
        ((List.range (st.csz C)).foldl (scanElem (buildInvTr A) C a) (st, [])) := by
  have key := foldl_range_inv (scanElem (buildInvTr A) C a)
    (fun i S => ∃ V : List Nat, V.Nodup ∧
      (∀ x, x ∈ V ↔ x < A.n ∧ ∃ i', i' < i ∧ A.step x a = st.elem (st.cbeg C + i')) ∧
      ScanInv A.n st V S)
    (st.csz C) (st, [])
    ⟨[], List.nodup_nil, by simp,
      { frameCore := rfl, frameStk := rfl, lenCnt := h0.lenCnt, lenSel := h0.lenSel,
        selEq := fun c => by simpa using (hclean c).2,
        cntEq := fun c => by rw [(hclean c).1, (hclean c).2]; rfl,
        candNodup := List.nodup_nil, candMem := fun c => by simp }⟩
    (by
      rintro i S hi ⟨V, hnd, hmem, hJ⟩
      obtain ⟨a1, a2, a3, a4, a5, a6⟩ := core_access st S.1 hJ.frameCore
      have hp := h0.blockBel C (st.cbeg C + i) hC (by omega) (by omega)
      have he := h0.elemPos _ hp.1
      have hL : scanElem (buildInvTr A) C a S i =
          (((buildInvTr A).getD (st.elem (st.cbeg C + i)) []).getD a []).foldl scanPred S := by
        unfold scanElem
        show List.foldl scanPred S (((buildInvTr A).getD (S.1.elem (S.1.cbeg C + i)) []).getD a [])
          = _
        rw [a1, a3]
      rw [hL]
      have hLmem := fun x => mem_invTr A h hc (st.elem (st.cbeg C + i)) a x he.1 ha
      have hLnd := nodup_invTr A h hc (st.elem (st.cbeg C + i)) a he.1 ha
      generalize ((buildInvTr A).getD (st.elem (st.cbeg C + i)) []).getD a [] = L at hLmem hLnd
      have inner := foldl_list_inv scanPred (fun pre S' => ScanInv A.n st (V ++ pre) S') L S
        (by simpa using hJ)
        (by
          intro pre x S' ⟨suf, hsuf⟩ hJ'
          have hxL : x ∈ L := by rw [hsuf]; simp
          have := scanPred_inv A.n st (V ++ pre) S' x h0 ((hLmem x).1 hxL).1 hJ'
          rwa [List.append_assoc] at this)
      refine ⟨V ++ L, ?_, ?_, inner⟩
      · refine List.Nodup.append hnd hLnd ?_
        intro x hx1 hx2
        obtain ⟨_, i', hi', e⟩ := (hmem x).1 hx1
        have e2 := ((hLmem x).1 hx2).2
        rw [e] at e2
        have hp' := h0.blockBel C (st.cbeg C + i') hC (by omega) (by omega)
        have h1 := (h0.elemPos _ hp'.1).2
        rw [e2, he.2] at h1
        omega
      · intro x
        rw [List.mem_append, hmem, hLmem]
        constructor
        · rintro (⟨h1, i', hi', e⟩ | ⟨h1, e⟩)
          · exact ⟨h1, i', by omega, e⟩
          · exact ⟨h1, i, by omega, e⟩
        · rintro ⟨h1, i', hi', e⟩
          by_cases e2 : i' = i
          · subst e2; exact Or.inr ⟨h1, e⟩
          · exact Or.inl ⟨h1, i', by omega, e⟩)
  obtain ⟨V, hnd, hmem, hJ⟩ := key
  refine ⟨V, hnd, ?_, hJ⟩
  intro x
  rw [hmem]
  constructor
  · rintro ⟨h1, i', hi', e⟩
    refine ⟨h1, ?_⟩
    rw [e]
    exact (h0.blockBel C (st.cbeg C + i') hC (by omega) (by omega)).2
  · rintro ⟨h1, e⟩
    refine ⟨h1, ?_⟩
    have hy := step_lt A h hc x a h1 ha
    have hb := h0.inBlock _ hy
    rw [e] at hb
    refine ⟨st.pos (A.step x a) - st.cbeg C, by omega, ?_⟩
    have : st.cbeg C + (st.pos (A.step x a) - st.cbeg C) = st.pos (A.step x a) := by omega
    rw [this, (h0.posElem _ hy).2]

end DeterministicFiniteAutomaton

end FiniteAutomata

/-! ## Partition refinement: the splitter stack -/

namespace FiniteAutomata

namespace DeterministicFiniteAutomaton

theorem nodup_pairs_length_le (l : List (Nat × Nat)) (n m : Nat) (hnd : l.Nodup)
    (hlt : ∀ c j, (c, j) ∈ l → c < n ∧ j < m) : l.length ≤ n * m := by
  rw [← List.toFinset_card_of_nodup hnd]
  have : l.toFinset ⊆ Finset.range n ×ˢ Finset.range m := by
    intro x hx
    simp only [List.mem_toFinset] at hx
    have := hlt x.1 x.2 hx
    simp only [Finset.mem_product, Finset.mem_range]
    exact this
  have h2 := Finset.card_le_card this
  simpa using h2

/-- Pushing a splitter that is not on the stack. -/
theorem pushAt_inv (n m : Nat) (st : HopcroftState) (X j : Nat) (h0 : PartInv n st)
    (hS : StackInv n m st) (hX : X < st.num) (hj : j < m)
    (hnot : (X, j) ∉ st.stack) :
    StackInv n m (pushAt st X j) ∧
    (pushAt st X j).stack = st.stack ++ [(X, j)] ∧
    (pushAt st X j).core = st.core ∧ (pushAt st X j).scratch = st.scratch ∧
    (pushAt st X j).stackTop = st.stackTop + 1 := by
  have hXn : X < n := by have := h0.numle; omega
  have htop := hS.topLe
  have hlen0 : st.stack.length = st.stackTop := by
    simp [HopcroftState.stack, hS.lenStack, htop]
  have hnd : (st.stack ++ [(X, j)]).Nodup := by
    refine List.Nodup.append hS.nodup (List.nodup_singleton _) ?_
    intro e he he2
    rw [List.mem_singleton] at he2
    subst he2
    exact hnot he
  have hbound := nodup_pairs_length_le _ n m hnd (by
    intro c j' hm
    rcases List.mem_append.1 hm with h1 | h1
    · have := hS.range c j' h1
      have := h0.numle
      omega
    · rw [List.mem_singleton, Prod.mk.injEq] at h1
      omega)
  rw [List.length_append, List.length_singleton, hlen0] at hbound
  have hstack : (pushAt st X j).stack = st.stack ++ [(X, j)] := by
    show (st.splitterStack.set st.stackTop (X, j)).take (st.stackTop + 1) = _
    rw [take_set_succ _ _ _ (by rw [hS.lenStack]; omega)]
    rfl
  have hflag : ∀ c j', (pushAt st X j).flag c j' =
      if c = X ∧ j' = j then 1 else st.flag c j' := by
    intro c j'
    exact set2_get st.inStack n m X j 1 0 hS.tabIn hXn hj c j'
  refine ⟨?_, hstack, rfl, rfl, rfl⟩
  refine { lenStack := ?_, tabIn := ?_, topLe := hbound, nodup := ?_, range := ?_,
           flagIff := ?_ }
  · show (st.splitterStack.set _ _).length = _
    rw [List.length_set, hS.lenStack]
  · exact set2_table _ _ _ _ _ _ hS.tabIn
  · rw [hstack]; exact hnd
  · intro c j' hm
    rw [hstack] at hm
    rcases List.mem_append.1 hm with h1 | h1
    · exact hS.range c j' h1
    · rw [List.mem_singleton, Prod.mk.injEq] at h1
      obtain ⟨e1, e2⟩ := h1
      subst e1; subst e2
      exact ⟨hX, hj⟩
  · intro c j' hc hj'
    rw [hflag, hstack, List.mem_append, List.mem_singleton, Prod.mk.injEq]
    by_cases e : c = X ∧ j' = j
    · rw [if_pos e]
      exact ⟨fun _ => Or.inr e, fun _ => by omega⟩
    · rw [if_neg e, hS.flagIff c j' hc hj']
      exact ⟨fun h1 => Or.inl h1, fun h1 => h1.resolve_right e⟩

theorem pushSplitter_eq (id jd : Nat) (st : HopcroftState) (j : Nat) :
    pushSplitter id jd st j = pushAt st
      (if st.flag id j = 0 then (if st.csz id < st.csz jd then id else jd) else jd) j := rfl

/-- The loop that pushes one splitter per symbol after class `id` was split and `jd`
is the new class. -/
theorem pushLoop_spec (n m : Nat) (st : HopcroftState) (id jd : Nat) (h0 : PartInv n st)
    (hS : StackInv n m st)
    (hid : id < st.num) (hjd : jd < st.num) (hidjd : id ≠ jd)
    (hfresh : ∀ j, (jd, j) ∉ st.stack) :
    let s := (List.range m).foldl (pushSplitter id jd) st
    s.core = st.core ∧ s.scratch = st.scratch ∧ StackInv n m s ∧
    s.stackTop = st.stackTop + m ∧
    (∀ e, e ∈ st.stack → e ∈ s.stack) ∧
    (∀ c j, (c, j) ∈ s.stack → (c, j) ∈ st.stack ∨ c = id ∨ c = jd) ∧
    (∀ j, j < m → (jd, j) ∈ s.stack ∨ (id, j) ∈ s.stack) ∧
    (∀ j, j < m → (id, j) ∈ st.stack → (jd, j) ∈ s.stack) := by
  intro s
  have key := foldl_range_inv (pushSplitter id jd)
    (fun j' s => s.core = st.core ∧ s.scratch = st.scratch ∧ StackInv n m s ∧
      s.stackTop = st.stackTop + j' ∧
      (∀ e, e ∈ st.stack → e ∈ s.stack) ∧
      (∀ c j, (c, j) ∈ s.stack → (c, j) ∈ st.stack ∨ ((c = id ∨ c = jd) ∧ j < j')) ∧
      (∀ j, j < j' → (jd, j) ∈ s.stack ∨ (id, j) ∈ s.stack) ∧
      (∀ j, j < j' → (id, j) ∈ st.stack → (jd, j) ∈ s.stack))
    m st
    ⟨rfl, rfl, hS, rfl, fun e he => he, fun c j hm => Or.inl hm,
      fun j hj => absurd hj (Nat.not_lt_zero j), fun j hj => absurd hj (Nat.not_lt_zero j)⟩
    (by
      rintro j s hj ⟨hcore, hscr, hSs, htops, hmono, hnew, hcov, hboth⟩
      obtain ⟨a1, a2, a3, a4, a5, a6⟩ := core_access st s hcore
      have h0s : PartInv n s := partInv_of_core n st s h0 hcore
        (by rw [(scratch_access st s hscr).1]; exact h0.lenCnt)
        (by rw [(scratch_access st s hscr).2.1]; exact h0.lenSel)
      rw [pushSplitter_eq]
      generalize hX : (if s.flag id j = 0 then (if s.csz id < s.csz jd then id else jd) else jd)
        = X
      have hXc : X = id ∨ X = jd := by
        rw [← hX]; split
        · split
          · exact Or.inl rfl
          · exact Or.inr rfl
        · exact Or.inr rfl
      have hXid : X = id → s.flag id j = 0 := by
        intro e
        by_contra hne
        rw [if_neg hne] at hX
        omega
      have hidn : id < n := by have := h0.numle; omega
      have hnot : (X, j) ∉ s.stack := by
        intro hm
        rcases hnew X j hm with h1 | h1
        · rcases hXc with e | e
          · have := (hSs.flagIff id j hidn hj).2 (by rw [← e]; exact hm)
            exact this (hXid e)
          · rw [e] at h1; exact hfresh j h1
        · omega
      have hXnum : X < s.num := by rw [a6]; rcases hXc with e | e <;> omega
      obtain ⟨hS', hstack', hcore', hscr', htop2⟩ :=
        pushAt_inv n m s X j h0s hSs hXnum hj hnot
      refine ⟨by rw [hcore', hcore], by rw [hscr', hscr], hS', by rw [htop2, htops]; omega,
        ?_, ?_, ?_, ?_⟩
      · intro e he
        rw [hstack']
        exact List.mem_append_left _ (hmono e he)
      · intro c j' hm
        rw [hstack'] at hm
        rcases List.mem_append.1 hm with h1 | h1
        · rcases hnew c j' h1 with h2 | h2
          · exact Or.inl h2
          · exact Or.inr ⟨h2.1, by omega⟩
        · rw [List.mem_singleton, Prod.mk.injEq] at h1
          obtain ⟨e1, e2⟩ := h1
          subst e1; subst e2
          exact Or.inr ⟨hXc, Nat.lt_succ_self _⟩
      · intro j' hj'
        rw [hstack']
        by_cases e : j' = j
        · subst e
          rcases hXc with e1 | e1
          · exact Or.inr (List.mem_append_right _ (by rw [e1]; exact List.mem_singleton_self _))
          · exact Or.inl (List.mem_append_right _ (by rw [e1]; exact List.mem_singleton_self _))
        · rcases hcov j' (by omega) with h1 | h1
          · exact Or.inl (List.mem_append_left _ h1)
          · exact Or.inr (List.mem_append_left _ h1)
      · intro j' hj' hin
        rw [hstack']
        by_cases e : j' = j
        · subst e
          have hfl := (hSs.flagIff id j' hidn hj).2 (hmono _ hin)
          have : X = jd := by
            rcases hXc with e1 | e1
            · exact absurd (hXid e1) hfl
            · exact e1
          rw [this]
          exact List.mem_append_right _ (List.mem_singleton_self _)
        · exact List.mem_append_left _ (hboth j' (by omega) hin))
  obtain ⟨k1, k2, k3, k4, k5, k6, k7, k8⟩ := key
  refine ⟨k1, k2, k3, k4, k5, ?_, k7, k8⟩
  intro c j hm
  rcases k6 c j hm with h1 | h1
  · exact Or.inl h1
  · exact Or.inr h1.1

end DeterministicFiniteAutomaton

end FiniteAutomata

/-! ## Partition refinement: handling one candidate class -/

namespace FiniteAutomata

namespace DeterministicFiniteAutomaton

/-- The members of a class, as a duplicate-free list of length `classSize[c]`. -/
theorem members (n : Nat) (st : HopcroftState) (h0 : PartInv n st) (c : Nat) (hc : c < st.num) :
    ∃ M : List Nat, M.Nodup ∧ M.length = st.csz c ∧ ∀ x, x ∈ M ↔ x < n ∧ st.bel x = c := by
  refine ⟨(List.range (st.csz c)).map (fun i => st.elem (st.cbeg c + i)), ?_, by simp, ?_⟩
  · apply List.Nodup.map_on _ (List.nodup_range _)
    intro i hi i' hi' e
    rw [List.mem_range] at hi hi'
    have h1 := (h0.elemPos _ (h0.blockBel c (st.cbeg c + i) hc (by omega) (by omega)).1).2
    have h2 := (h0.elemPos _ (h0.blockBel c (st.cbeg c + i') hc (by omega) (by omega)).1).2
    rw [e, h2] at h1
    omega
  · intro x
    rw [List.mem_map]
    constructor
    · rintro ⟨i, hi, rfl⟩
      rw [List.mem_range] at hi
      have h1 := h0.blockBel c (st.cbeg c + i) hc (by omega) (by omega)
      exact ⟨(h0.elemPos _ h1.1).1, h1.2⟩
    · rintro ⟨hx, hb⟩
      have h1 := h0.inBlock x hx
      rw [hb] at h1
      refine ⟨st.pos x - st.cbeg c, List.mem_range.2 (by omega), ?_⟩
      have : st.cbeg c + (st.pos x - st.cbeg c) = st.pos x := by omega
      rw [this]
      exact (h0.posElem x hx).2

theorem sublist_count (L M : List Nat) (hL : L.Nodup) (hsub : ∀ x, x ∈ L → x ∈ M) :
    L.length ≤ M.length ∧ (L.length = M.length → M.Nodup → ∀ x, x ∈ M → x ∈ L) := by
  have hsp : L.Subperm M := List.subperm_of_subset hL hsub
  refine ⟨hsp.length_le, ?_⟩
  intro hlen _ x hx
  have hperm : L.Perm M := hsp.perm_of_length_le (by omega)
  exact hperm.mem_iff.2 hx

theorem processCandidate_eq (m : Nat) (st : HopcroftState) (id : Nat) :
    processCandidate m st id =
      resetSplit (if st.cnt id ≠ st.csz id then
          (List.range m).foldl (pushSplitter id (Split st id (st.sel id)).2)
            (Split st id (st.sel id)).1
         else st) id := rfl

/-- Resetting the two split vectors at `c`. -/
theorem reset_access (n : Nat) (s : HopcroftState) (c : Nat) (hc : c < n)
    (h1 : s.classSplitCnt.length = n) (h2 : s.classSplitElems.length = n) :
    (resetSplit s c).core = s.core ∧ (resetSplit s c).stk = s.stk ∧
    (resetSplit s c).classSplitCnt.length = n ∧
    (resetSplit s c).classSplitElems.length = n ∧
    (∀ c', (resetSplit s c).cnt c' = if c' = c then 0 else s.cnt c') ∧
    (∀ c', (resetSplit s c).sel c' = if c' = c then [] else s.sel c') := by
  refine ⟨rfl, rfl, ?_, ?_, ?_, ?_⟩
  · show (s.classSplitCnt.set c 0).length = n
    rw [List.length_set, h1]
  · show (s.classSplitElems.set c []).length = n
    rw [List.length_set, h2]
  · intro c'
    show (s.classSplitCnt.set c 0).getD c' 0 = _
    rw [getD_set_lt _ _ _ _ _ (by rw [h1]; exact hc)]
    rfl
  · intro c'
    show (s.classSplitElems.set c []).getD c' [] = _
    rw [getD_set_lt _ _ _ _ _ (by rw [h2]; exact hc)]
    rfl

theorem stackInv_of_stk (n m : Nat) (st st' : HopcroftState) (hS : StackInv n m st)
    (h : st'.stk = st.stk) (hnum : st.num ≤ st'.num) : StackInv n m st' := by
  obtain ⟨e1, e2, e3, e4, e5⟩ := stk_access st st' h
  exact
    { lenStack := by rw [e1]; exact hS.lenStack, tabIn := by rw [e2]; exact hS.tabIn,
      topLe := by rw [e3]; exact hS.topLe, nodup := by rw [e4]; exact hS.nodup,
      range := by
        rw [e4]; intro c j hm
        have := hS.range c j hm
        exact ⟨by omega, this.2⟩,
      flagIff := by rw [e4, e5]; exact hS.flagIff }

end DeterministicFiniteAutomaton

end FiniteAutomata

namespace FiniteAutomata

namespace DeterministicFiniteAutomaton

/-- A candidate all of whose members are predecessors is left as it is. -/
theorem processCandidate_keep (A : DeterministicFiniteAutomaton) (a : Nat) (X : Nat → Prop)
    (c : Nat) (cs : List Nat) (st : HopcroftState) (hM : MidInv A a X (c :: cs) st)
    (e : st.cnt c = st.csz c) :
    MidInv A a X cs (processCandidate A.sig.siz st c) ∧
    (processCandidate A.sig.siz st c).num = st.num ∧
    (processCandidate A.sig.siz st c).stackTop = st.stackTop := by
  obtain ⟨hcnum, hLnd, hLne, hcnt, hLmem⟩ := hM.todo c (List.mem_cons_self _ _)
  have hcn : c < A.n := by have := hM.part.numle; omega
  have hnd := hM.csNodup
  rw [List.nodup_cons] at hnd
  obtain ⟨M, hMnd, hMlen, hMmem⟩ := members A.n st hM.part c hcnum
  have hcount := sublist_count (st.sel c) M hLnd
    (fun x hx => (hMmem x).2 ⟨((hLmem x).1 hx).1, ((hLmem x).1 hx).2.2⟩)
  have hall : ∀ x, x < A.n → st.bel x = c → X x := by
    intro x hx hb
    have := hcount.2 (by omega) hMnd x ((hMmem x).2 ⟨hx, hb⟩)
    exact ((hLmem x).1 this).2.1
  rw [processCandidate_eq, if_neg (not_not.2 e)]
  obtain ⟨r1, r2, r3, r4, r5, r6⟩ := reset_access A.n st c hcn hM.part.lenCnt hM.part.lenSel
  obtain ⟨a1, a2, a3, a4, a5, a6⟩ := core_access st _ r1
  obtain ⟨e1, e2, e3, e4, e5⟩ := stk_access st _ r2
  refine ⟨?_, a6, e3⟩
  refine
    { part := partInv_of_core A.n st _ hM.part r1 r3 r4,
      stk := stackInv_of_stk _ _ st _ hM.stk r2 (by rw [a6]),
      csNodup := hnd.2, todo := ?_, done := ?_, coarse := ?_, fine := ?_, cover := ?_ }
  · intro c' hc'
    have hne : c' ≠ c := fun h => hnd.1 (h ▸ hc')
    rw [r5, r6, if_neg hne, if_neg hne, a4, a6]
    exact hM.todo c' (List.mem_cons_of_mem _ hc')
  · intro c' hc'
    rw [r5, r6, a4]
    by_cases hne : c' = c
    · subst hne
      rw [if_pos rfl, if_pos rfl]
      refine ⟨rfl, rfl, ?_⟩
      intro x y hx hy hbx hby
      exact ⟨fun _ => hall y hy hby, fun _ => hall x hx hbx⟩
    · rw [if_neg hne, if_neg hne]
      apply hM.done c'
      intro hm
      rcases List.mem_cons.1 hm with h1 | h1
      · exact hne h1
      · exact hc' h1
  · rw [a4]; exact hM.coarse
  · rw [a4]; exact hM.fine
  · rw [a4, e4]; exact hM.cover

/-- A candidate with members on both sides is split, and splitters are pushed. -/
theorem processCandidate_split (A : DeterministicFiniteAutomaton) (a : Nat) (X : Nat → Prop)
    (c : Nat) (cs : List Nat) (st : HopcroftState)
    (hX : ∀ p q, p < A.n → q < A.n → A.Nerode p q → (X p ↔ X q))
    (hstep : ∀ p b, p < A.n → b < A.sig.siz → A.step p b < A.n)
    (hM : MidInv A a X (c :: cs) st) (e : st.cnt c ≠ st.csz c) :
    MidInv A a X cs (processCandidate A.sig.siz st c) ∧
    (processCandidate A.sig.siz st c).num = st.num + 1 ∧
    (processCandidate A.sig.siz st c).stackTop = st.stackTop + A.sig.siz := by
  obtain ⟨hcnum, hLnd, hLne, hcnt, hLmem⟩ := hM.todo c (List.mem_cons_self _ _)
  have hcn : c < A.n := by have := hM.part.numle; omega
  have hnd := hM.csNodup
  rw [List.nodup_cons] at hnd
  obtain ⟨M, hMnd, hMlen, hMmem⟩ := members A.n st hM.part c hcnum
  have hcount := sublist_count (st.sel c) M hLnd
    (fun x hx => (hMmem x).2 ⟨((hLmem x).1 hx).1, ((hLmem x).1 hx).2.2⟩)
  have hLpos : 0 < (st.sel c).length := List.length_pos.2 hLne
  have hLlt : (st.sel c).length < st.csz c := by
    have := hcount.1
    omega
  obtain ⟨s1, s2, s3, s4, s5, s6, s7, s8, s9, s10, s11, s12⟩ :=
    split_spec A.n st c (st.sel c) hM.part hcnum hLnd
      (fun x hx => ⟨((hLmem x).1 hx).1, ((hLmem x).1 hx).2.2⟩) hLpos hLlt
  rw [processCandidate_eq, if_pos e, s1]
  generalize (Split st c (st.sel c)).1 = st2 at s2 s3 s4 s5 s6 s7 s8 s9 s10 s11 s12
  have hstk2 : st2.stack = st.stack := by simp [HopcroftState.stack, s10, s12]
  have hflag2 : st2.flag = st.flag := by funext c j; simp [HopcroftState.flag, s11]
  have hS2 : StackInv A.n A.sig.siz st2 :=
    { lenStack := by rw [s10]; exact hM.stk.lenStack, tabIn := by rw [s11]; exact hM.stk.tabIn,
      topLe := by rw [s12]; exact hM.stk.topLe, nodup := by rw [hstk2]; exact hM.stk.nodup,
      range := by
        rw [hstk2]; intro c' j hm
        have := hM.stk.range c' j hm
        exact ⟨by omega, this.2⟩,
      flagIff := by rw [hstk2, hflag2]; exact hM.stk.flagIff }
  have hfresh : ∀ j, (st.num, j) ∉ st2.stack := by
    intro j hm
    rw [hstk2] at hm
    have := (hM.stk.range _ _ hm).1
    omega
  obtain ⟨k1, k2, k3, k4, k5, k6, k7, k8⟩ :=
    pushLoop_spec A.n A.sig.siz st2 c st.num s2 hS2 (by omega) (by omega) (by omega) hfresh
  generalize (List.range A.sig.siz).foldl (pushSplitter c st.num) st2 = st3
    at k1 k2 k3 k4 k5 k6 k7 k8
  obtain ⟨b1, b2, b3, b4, b5, b6⟩ := core_access st2 st3 k1
  obtain ⟨c1, c2, c3, c4⟩ := scratch_access st2 st3 k2
  obtain ⟨r1, r2, r3, r4, r5, r6⟩ := reset_access A.n st3 c hcn
    (by rw [c1]; exact s2.lenCnt) (by rw [c2]; exact s2.lenSel)
  obtain ⟨a1, a2, a3, a4, a5, a6⟩ := core_access st3 _ r1
  obtain ⟨e1, e2, e3, e4, e5⟩ := stk_access st3 _ r2
  have h3part : PartInv A.n st3 := partInv_of_core A.n st2 st3 s2 k1
    (by rw [c1]; exact s2.lenCnt) (by rw [c2]; exact s2.lenSel)
  have hbel : ∀ x, (resetSplit st3 c).bel x = if x ∈ st.sel c then st.num else st.bel x := by
    intro x; rw [a4, b4]; exact s4 x
  have hselst : ∀ c', st3.sel c' = st.sel c' := by
    intro c'; rw [c4]; simp [HopcroftState.sel, s9]
  have hcntst : ∀ c', st3.cnt c' = st.cnt c' := by
    intro c'; rw [c3]; simp [HopcroftState.cnt, s8]
  have hnum' : (resetSplit st3 c).num = st.num + 1 := by rw [a6, b6, s3]
  -- membership in the new class
  have hLX : ∀ x, x < A.n → (x ∈ st.sel c ↔ X x ∧ st.bel x = c) := by
    intro x hx
    rw [hLmem x]
    exact ⟨fun h => h.2, fun h => ⟨hx, h⟩⟩
  have hrefine : ∀ p q, p < A.n → q < A.n →
      (resetSplit st3 c).bel p = (resetSplit st3 c).bel q → st.bel p = st.bel q := by
    intro p q hp hq hb
    rw [hbel, hbel] at hb
    have hbp := hM.part.belLt p hp
    have hbq := hM.part.belLt q hq
    by_cases h1 : p ∈ st.sel c
    · by_cases h2 : q ∈ st.sel c
      · rw [((hLX p hp).1 h1).2, ((hLX q hq).1 h2).2]
      · rw [if_pos h1, if_neg h2] at hb; omega
    · by_cases h2 : q ∈ st.sel c
      · rw [if_neg h1, if_pos h2] at hb; omega
      · rw [if_neg h1, if_neg h2] at hb; exact hb
  refine ⟨?_, hnum', by rw [e3, k4, s12]⟩
  refine
    { part := partInv_of_core A.n st3 _ h3part r1 r3 r4,
      stk := stackInv_of_stk _ _ st3 _ k3 r2 (by rw [a6]),
      csNodup := hnd.2, todo := ?_, done := ?_, coarse := ?_, fine := ?_, cover := ?_ }
  · intro c' hc'
    have hne : c' ≠ c := fun h => hnd.1 (h ▸ hc')
    obtain ⟨t1, t2, t3, t4, t5⟩ := hM.todo c' (List.mem_cons_of_mem _ hc')
    rw [r5, r6, if_neg hne, if_neg hne, hselst, hcntst, hnum']
    refine ⟨by omega, t2, t3, t4, ?_⟩
    intro x
    rw [t5 x, hbel]
    constructor
    · rintro ⟨hx, hXx, hb⟩
      refine ⟨hx, hXx, ?_⟩
      have : x ∉ st.sel c := fun hm => hne (by rw [← hb, ((hLX x hx).1 hm).2])
      rw [if_neg this]; exact hb
    · rintro ⟨hx, hXx, hb⟩
      refine ⟨hx, hXx, ?_⟩
      by_cases hm : x ∈ st.sel c
      · rw [if_pos hm] at hb; omega
      · rw [if_neg hm] at hb; exact hb
  · intro c' hc'
    rw [r5, r6, hselst, hcntst]
    have hscr : (if c' = c then 0 else st.cnt c') = 0 ∧
        (if c' = c then ([] : List Nat) else st.sel c') = [] := by
      by_cases hne : c' = c
      · rw [if_pos hne, if_pos hne]; exact ⟨rfl, rfl⟩
      · rw [if_neg hne, if_neg hne]
        have := hM.done c' (fun hm => by
          rcases List.mem_cons.1 hm with h1 | h1
          · exact hne h1
          · exact hc' h1)
        exact ⟨this.1, this.2.1⟩
    refine ⟨hscr.1, hscr.2, ?_⟩
    intro x y hx hy hbx hby
    rw [hbel] at hbx hby
    by_cases hmx : x ∈ st.sel c
    · rw [if_pos hmx] at hbx
      by_cases hmy : y ∈ st.sel c
      · exact ⟨fun _ => ((hLX y hy).1 hmy).1, fun _ => ((hLX x hx).1 hmx).1⟩
      · rw [if_neg hmy] at hby
        have := hM.part.belLt y hy
        omega
    · rw [if_neg hmx] at hbx
      by_cases hmy : y ∈ st.sel c
      · rw [if_pos hmy] at hby
        have := hM.part.belLt x hx
        omega
      · rw [if_neg hmy] at hby
        by_cases hne : c' = c
        · have hnx : ¬ X x := fun h => hmx ((hLX x hx).2 ⟨h, by rw [hbx, hne]⟩)
          have hny : ¬ X y := fun h => hmy ((hLX y hy).2 ⟨h, by rw [hby, hne]⟩)
          exact ⟨fun h => absurd h hnx, fun h => absurd h hny⟩
        · have := hM.done c' (fun hm => by
            rcases List.mem_cons.1 hm with h1 | h1
            · exact hne h1
            · exact hc' h1)
          exact this.2.2 x y hx hy hbx hby
  · intro p q hp hq hN
    have h1 := hM.coarse p q hp hq hN
    have h2 := hX p q hp hq hN
    rw [hbel, hbel]
    have : p ∈ st.sel c ↔ q ∈ st.sel c := by
      rw [hLX p hp, hLX q hq, h1, h2]
    by_cases hm : p ∈ st.sel c
    · rw [if_pos hm, if_pos (this.1 hm)]
    · rw [if_neg hm, if_neg (fun h => hm (this.2 h))]
      exact h1
  · intro p q hp hq hb
    exact hM.fine p q hp hq (hrefine p q hp hq hb)
  · intro p q b hp hq hb hbel' hne
    have hold := hrefine p q hp hq hbel'
    have hp' := hstep p b hp hb
    have hq' := hstep q b hq hb
    rw [e4]
    rw [hbel (A.step p b), hbel (A.step q b)] at hne ⊢
    by_cases hd : st.bel (A.step p b) = st.bel (A.step q b)
    · -- the two successors were in one class: it is the class just split
      by_cases h1 : A.step p b ∈ st.sel c
      · by_cases h2 : A.step q b ∈ st.sel c
        · rw [if_pos h1, if_pos h2] at hne; exact absurd rfl hne
        · rw [if_pos h1, if_neg h2]
          have hqc : st.bel (A.step q b) = c := by rw [← hd]; exact ((hLX _ hp').1 h1).2
          rw [hqc]
          rcases k7 b hb with h3 | h3
          · exact Or.inl h3
          · exact Or.inr (Or.inl h3)
      · by_cases h2 : A.step q b ∈ st.sel c
        · rw [if_neg h1, if_pos h2]
          have hpc : st.bel (A.step p b) = c := by rw [hd]; exact ((hLX _ hq').1 h2).2
          rw [hpc]
          rcases k7 b hb with h3 | h3
          · exact Or.inr (Or.inl h3)
          · exact Or.inl h3
        · rw [if_neg h1, if_neg h2] at hne; exact absurd hd hne
    · rcases hM.cover p q b hp hq hb hold hd with h3 | h3 | h3
      · left
        rw [← hstk2] at h3
        by_cases h1 : A.step p b ∈ st.sel c
        · rw [if_pos h1]
          rw [((hLX _ hp').1 h1).2] at h3
          exact k8 b hb h3
        · rw [if_neg h1]; exact k5 _ h3
      · right; left
        rw [← hstk2] at h3
        by_cases h1 : A.step q b ∈ st.sel c
        · rw [if_pos h1]
          rw [((hLX _ hq').1 h1).2] at h3
          exact k8 b hb h3
        · rw [if_neg h1]; exact k5 _ h3
      · exact Or.inr (Or.inr h3)

end DeterministicFiniteAutomaton

end FiniteAutomata

/-! ## Partition refinement: one round of the loop -/

namespace FiniteAutomata

namespace DeterministicFiniteAutomaton

theorem processCandidate_inv (A : DeterministicFiniteAutomaton) (a : Nat) (X : Nat → Prop)
    (c : Nat) (cs : List Nat) (st : HopcroftState)
    (hX : ∀ p q, p < A.n → q < A.n → A.Nerode p q → (X p ↔ X q))
    (hstep : ∀ p b, p < A.n → b < A.sig.siz → A.step p b < A.n)
    (hM : MidInv A a X (c :: cs) st) :
    MidInv A a X cs (processCandidate A.sig.siz st c) ∧
    st.num ≤ (processCandidate A.sig.siz st c).num ∧
    (processCandidate A.sig.siz st c).stackTop + A.sig.siz * st.num
      = st.stackTop + A.sig.siz * (processCandidate A.sig.siz st c).num := by
  by_cases e : st.cnt c = st.csz c
  · obtain ⟨h1, h2, h3⟩ := processCandidate_keep A a X c cs st hM e
    exact ⟨h1, by omega, by rw [h2, h3]⟩
  · obtain ⟨h1, h2, h3⟩ := processCandidate_split A a X c cs st hX hstep hM e
    refine ⟨h1, by omega, ?_⟩
    rw [h2, h3, Nat.mul_add, Nat.mul_one]
    omega

/-- The loop over the candidates. -/
theorem candidates_inv (A : DeterministicFiniteAutomaton) (a : Nat) (X : Nat → Prop)
    (hX : ∀ p q, p < A.n → q < A.n → A.Nerode p q → (X p ↔ X q))
    (hstep : ∀ p b, p < A.n → b < A.sig.siz → A.step p b < A.n)
    (cs : List Nat) (st : HopcroftState) (hM : MidInv A a X cs st) :
    MidInv A a X [] (cs.foldl (processCandidate A.sig.siz) st) ∧
    st.num ≤ (cs.foldl (processCandidate A.sig.siz) st).num ∧
    (cs.foldl (processCandidate A.sig.siz) st).stackTop + A.sig.siz * st.num
      = st.stackTop + A.sig.siz * (cs.foldl (processCandidate A.sig.siz) st).num := by
  induction cs generalizing st with
  | nil => exact ⟨hM, Nat.le_refl _, rfl⟩
  | cons c cs ih =>
    obtain ⟨h1, h2, h3⟩ := processCandidate_inv A a X c cs st hX hstep hM
    obtain ⟨i1, i2, i3⟩ := ih _ h1
    rw [List.foldl_cons]
    refine ⟨i1, by omega, ?_⟩
    omega

theorem nerode_step (A : DeterministicFiniteAutomaton) (p q a : Nat) (ha : a < A.sig.siz)
    (h : A.Nerode p q) : A.Nerode (A.step p a) (A.step q a) := by
  intro w hw
  have := h (a :: w) (by
    intro b hb
    rcases List.mem_cons.1 hb with h1 | h1
    · omega
    · exact hw b h1)
  simpa [run_cons] using this

theorem nerode_acc (A : DeterministicFiniteAutomaton) (p q : Nat) (h : A.Nerode p q) :
    A.acc p = A.acc q := by
  simpa [run_nil] using h [] (by simp)

/-- Popping the top splitter. -/
theorem pop_spec (n m : Nat) (st : HopcroftState) (hS : StackInv n m st) (h0 : PartInv n st)
    (htop : st.stackTop ≠ 0) :
    (topSplitter st).1 < st.num ∧ (topSplitter st).2 < m ∧
    st.stack = (popTop st).stack ++ [topSplitter st] ∧ StackInv n m (popTop st) ∧
    (popTop st).core = st.core ∧ (popTop st).scratch = st.scratch ∧
    (popTop st).stackTop = st.stackTop - 1 := by
  generalize hp0 : topSplitter st = p
  generalize hst1 : popTop st = st1
  have hst1' : st1 =
      { st with stackTop := st.stackTop - 1,
                inStack := st.inStack.set p.1 ((st.inStack.getD p.1 []).set p.2 0) } := by
    rw [← hst1, ← hp0]; rfl
  have hp0' : p = st.splitterStack.getD (st.stackTop - 1) (0, 0) := by rw [← hp0]; rfl
  have hle := hS.topLe
  have hlt : st.stackTop - 1 < st.splitterStack.length := by rw [hS.lenStack]; omega
  have hstack : st.stack = st1.stack ++ [p] := by
    rw [hst1', hp0']
    show st.splitterStack.take st.stackTop = st.splitterStack.take (st.stackTop - 1) ++ [_]
    have := take_succ_getD st.splitterStack (st.stackTop - 1) (0, 0) hlt
    have e : st.stackTop - 1 + 1 = st.stackTop := by omega
    rw [e] at this
    exact this
  have hpin : p ∈ st.stack := by rw [hstack]; simp
  have hp := hS.range p.1 p.2 hpin
  have hnd := hS.nodup
  rw [hstack, List.nodup_append] at hnd
  have hpn : p.1 < n := by have := h0.numle; omega
  have hflag : ∀ c j, st1.flag c j = if c = p.1 ∧ j = p.2 then 0 else st.flag c j := by
    intro c j
    rw [hst1']
    exact set2_get st.inStack n m p.1 p.2 0 0 hS.tabIn hpn hp.2 c j
  refine ⟨hp.1, hp.2, hstack, ?_, by rw [hst1']; rfl, by rw [hst1']; rfl, by rw [hst1']⟩
  refine { lenStack := by rw [hst1']; exact hS.lenStack,
           tabIn := by rw [hst1']; exact set2_table _ _ _ _ _ _ hS.tabIn,
           topLe := by rw [hst1']; show st.stackTop - 1 ≤ n * m; omega,
           nodup := hnd.1, range := ?_, flagIff := ?_ }
  · intro c j hm
    have hnum : st1.num = st.num := by rw [hst1']
    rw [hnum]
    exact hS.range c j (by rw [hstack]; exact List.mem_append_left _ hm)
  · intro c j hc hj
    rw [hflag]
    by_cases e : c = p.1 ∧ j = p.2
    · rw [if_pos e]
      constructor
      · intro h; exact absurd rfl h
      · intro hm
        exfalso
        have : (c, j) = p := by rw [e.1, e.2]
        rw [this] at hm
        exact hnd.2.2 hm (List.mem_singleton_self _)
    · rw [if_neg e, hS.flagIff c j hc hj, hstack, List.mem_append, List.mem_singleton]
      constructor
      · rintro (h | h)
        · exact h
        · exfalso; apply e; rw [← h]; exact ⟨rfl, rfl⟩
      · intro h; exact Or.inl h

theorem refineStep_eq (m : Nat) (invTr : List (List (List Nat))) (st : HopcroftState) :
    refineStep m invTr st =
      ((List.range ((popTop st).csz (topSplitter st).1)).foldl
        (scanElem invTr (topSplitter st).1 (topSplitter st).2) (popTop st, [])).2.foldl
        (processCandidate m)
        ((List.range ((popTop st).csz (topSplitter st).1)).foldl
          (scanElem invTr (topSplitter st).1 (topSplitter st).2) (popTop st, [])).1 := rfl

/-- One round of `while (stackTop)` keeps the loop invariant, and pays one unit of
`stackTop + m * (n - num)`. -/
theorem refineStep_inv (A : DeterministicFiniteAutomaton) (h : A.WellFormed)
    (hc : A.isComplete = true) (st : HopcroftState) (hL : LoopInv A st)
    (htop : st.stackTop ≠ 0) :
    LoopInv A (refineStep A.sig.siz (buildInvTr A) st) ∧
    st.num ≤ (refineStep A.sig.siz (buildInvTr A) st).num ∧
    (refineStep A.sig.siz (buildInvTr A) st).stackTop + A.sig.siz * st.num + 1
      = st.stackTop + A.sig.siz * (refineStep A.sig.siz (buildInvTr A) st).num := by
  have hstep : ∀ p b, p < A.n → b < A.sig.siz → A.step p b < A.n :=
    fun p b hp hb => step_lt A h hc p b hp hb
  obtain ⟨p1, p2, p3, p4, p5, p6, p7⟩ := pop_spec A.n A.sig.siz st hL.stk hL.part htop
  rw [refineStep_eq]
  generalize topSplitter st = sp at p1 p2 p3
  generalize popTop st = st1 at p3 p4 p5 p6 p7
  obtain ⟨a1, a2, a3, a4, a5, a6⟩ := core_access st st1 p5
  obtain ⟨c1, c2, c3, c4⟩ := scratch_access st st1 p6
  have h1part : PartInv A.n st1 := partInv_of_core A.n st st1 hL.part p5
    (by rw [c1]; exact hL.part.lenCnt) (by rw [c2]; exact hL.part.lenSel)
  obtain ⟨V, hVnd, hVmem, hJ⟩ := scan_spec A h hc st1 sp.1 sp.2 h1part
    (by rw [c3, c4]; exact hL.clean) (by rw [a6]; exact p1) p2
  generalize (List.range (st1.csz sp.1)).foldl (scanElem (buildInvTr A) sp.1 sp.2) (st1, [])
    = S at hJ
  obtain ⟨b1, b2, b3, b4, b5, b6⟩ := core_access st1 S.1 hJ.frameCore
  obtain ⟨e1, e2, e3, e4, e5⟩ := stk_access st1 S.1 hJ.frameStk
  have hXcl : ∀ p q, p < A.n → q < A.n → A.Nerode p q → (p ∈ V ↔ q ∈ V) := by
    intro p q hp hq hN
    rw [hVmem, hVmem, a4]
    have := hL.coarse _ _ (hstep p sp.2 hp p2) (hstep q sp.2 hq p2) (nerode_step A p q sp.2 p2 hN)
    rw [this]
    exact ⟨fun x => ⟨hq, x.2⟩, fun x => ⟨hp, x.2⟩⟩
  have hM : MidInv A sp.2 (fun x => x ∈ V) S.2 S.1 := by
    refine
      { part := partInv_of_core A.n st1 S.1 h1part hJ.frameCore hJ.lenCnt hJ.lenSel,
        stk := stackInv_of_stk _ _ st1 S.1 p4 hJ.frameStk (by rw [b6]),
        csNodup := hJ.candNodup, todo := ?_, done := ?_, coarse := ?_, fine := ?_, cover := ?_ }
    · intro c hcm
      obtain ⟨x, hx, hb⟩ := (hJ.candMem c).1 hcm
      have hxn := ((hVmem x).1 hx).1
      refine ⟨by rw [b6, ← hb]; exact h1part.belLt x hxn, ?_, ?_, hJ.cntEq c, ?_⟩
      · rw [hJ.selEq]; exact hVnd.filter _
      · rw [hJ.selEq]
        intro hnil
        have : x ∈ V.filter (fun z => st1.bel z = c) := by simp [hx, hb]
        rw [hnil] at this
        exact List.not_mem_nil _ this
      · intro y
        rw [hJ.selEq, List.mem_filter, b4]
        constructor
        · rintro ⟨hy, hb'⟩
          exact ⟨((hVmem y).1 hy).1, hy, by simpa using hb'⟩
        · rintro ⟨_, hy, hb'⟩
          exact ⟨hy, by simpa using hb'⟩
    · intro c hcm
      have hnone : ∀ x, x ∈ V → st1.bel x ≠ c := fun x hx hb => hcm ((hJ.candMem c).2 ⟨x, hx, hb⟩)
      have hsel : S.1.sel c = [] := by
        rw [hJ.selEq, List.filter_eq_nil_iff]
        intro x hx
        simpa using hnone x hx
      refine ⟨by rw [hJ.cntEq, hsel]; rfl, hsel, ?_⟩
      intro x y _ _ hbx hby
      rw [b4] at hbx hby
      exact ⟨fun hx => absurd hbx (hnone x hx), fun hy => absurd hby (hnone y hy)⟩
    · rw [b4, a4]; exact hL.coarse
    · rw [b4, a4]; exact hL.fine
    · intro p q b hp hq hb hbel hne
      rw [b4, a4] at hbel hne ⊢
      rw [e4]
      have hcov := hL.cover p q b hp hq hb hbel hne
      rw [p3] at hcov
      rcases hcov with h1 | h1
      · rcases List.mem_append.1 h1 with h2 | h2
        · exact Or.inl h2
        · right; right
          rw [List.mem_singleton] at h2
          have hb1 : st.bel (A.step p b) = sp.1 := by rw [← h2]
          have hb2 : b = sp.2 := by rw [← h2]
          subst hb2
          refine ⟨rfl, ?_⟩
          rw [hVmem, hVmem, a4]
          intro hiff
          have := (hiff.1 ⟨hp, hb1⟩).2
          exact hne (by rw [hb1, this])
      · rcases List.mem_append.1 h1 with h2 | h2
        · exact Or.inr (Or.inl h2)
        · right; right
          rw [List.mem_singleton] at h2
          have hb1 : st.bel (A.step q b) = sp.1 := by rw [← h2]
          have hb2 : b = sp.2 := by rw [← h2]
          subst hb2
          refine ⟨rfl, ?_⟩
          rw [hVmem, hVmem, a4]
          intro hiff
          have := (hiff.2 ⟨hq, hb1⟩).2
          exact hne (by rw [hb1, this])
  obtain ⟨m1, m2, m3⟩ := candidates_inv A sp.2 (fun x => x ∈ V) hXcl hstep S.2 S.1 hM
  generalize S.2.foldl (processCandidate A.sig.siz) S.1 = st' at m1 m2 m3
  refine ⟨?_, by rw [← a6, ← b6]; exact m2, ?_⟩
  · exact
      { part := m1.part, stk := m1.stk,
        clean := fun c => ⟨(m1.done c (List.not_mem_nil c)).1, (m1.done c (List.not_mem_nil c)).2.1⟩,
        coarse := m1.coarse, fine := m1.fine,
        cover := by
          intro p q b hp hq hb hbel hne
          rcases m1.cover p q b hp hq hb hbel hne with h1 | h1 | h1
          · exact Or.inl h1
          · exact Or.inr h1
          · exfalso
            exact h1.2 ((m1.done _ (List.not_mem_nil _)).2.2 p q hp hq hbel rfl) }
  · rw [b6, a6] at m3
    rw [e3, p7] at m3
    omega

end DeterministicFiniteAutomaton

end FiniteAutomata

/-! ## Partition refinement: termination, the final partition, the numbering -/

namespace FiniteAutomata

namespace DeterministicFiniteAutomaton

/-- With `stackTop + m * (n - num)` rounds at hand the loop ends with an empty stack. -/
theorem refineLoop_inv (A : DeterministicFiniteAutomaton) (h : A.WellFormed)
    (hc : A.isComplete = true) (fuel : Nat) (st : HopcroftState) (hL : LoopInv A st)
    (hf : st.stackTop + A.sig.siz * (A.n - st.num) ≤ fuel) :
    LoopInv A (refineLoop A.sig.siz (buildInvTr A) fuel st) ∧
    (refineLoop A.sig.siz (buildInvTr A) fuel st).stackTop = 0 := by
  induction fuel generalizing st with
  | zero =>
    have : st.stackTop = 0 := by omega
    exact ⟨hL, this⟩
  | succ fuel ih =>
    by_cases e : st.stackTop = 0
    · have hr : refineLoop A.sig.siz (buildInvTr A) (fuel + 1) st = st := by
        simp only [refineLoop, e, if_true]
      rw [hr]
      exact ⟨hL, e⟩
    · simp only [refineLoop, e, if_false]
      obtain ⟨h1, h2, h3⟩ := refineStep_inv A h hc st hL e
      apply ih _ h1
      have hn := h1.part.numle
      have e1 : A.sig.siz * (A.n - (refineStep A.sig.siz (buildInvTr A) st).num)
          = A.sig.siz * A.n - A.sig.siz * (refineStep A.sig.siz (buildInvTr A) st).num :=
        Nat.mul_sub _ _ _
      have e2 : A.sig.siz * (A.n - st.num) = A.sig.siz * A.n - A.sig.siz * st.num :=
        Nat.mul_sub _ _ _
      have e3 : A.sig.siz * (refineStep A.sig.siz (buildInvTr A) st).num ≤ A.sig.siz * A.n :=
        Nat.mul_le_mul_left _ hn
      have e4 : A.sig.siz * st.num ≤ A.sig.siz * (refineStep A.sig.siz (buildInvTr A) st).num :=
        Nat.mul_le_mul_left _ h2
      omega

/-- When the stack is empty the classes are exactly the equivalence classes. -/
theorem final_classes (A : DeterministicFiniteAutomaton) (h : A.WellFormed)
    (hc : A.isComplete = true) (st : HopcroftState) (hL : LoopInv A st)
    (h0 : st.stackTop = 0) (p q : Nat) (hp : p < A.n) (hq : q < A.n) :
    st.bel p = st.bel q ↔ A.Nerode p q := by
  have hempty : st.stack = [] := by simp [HopcroftState.stack, h0]
  have hstable : ∀ p q b, p < A.n → q < A.n → b < A.sig.siz → st.bel p = st.bel q →
      st.bel (A.step p b) = st.bel (A.step q b) := by
    intro p q b hp hq hb hbel
    by_contra hne
    have := hL.cover p q b hp hq hb hbel hne
    rw [hempty] at this
    simp at this
  constructor
  · intro hbel w hw
    induction w generalizing p q with
    | nil => exact hL.fine p q hp hq hbel
    | cons b w ih =>
      have hb := hw b (List.mem_cons_self _ _)
      rw [run_cons, run_cons]
      exact ih (A.step p b) (A.step q b) (step_lt A h hc p b hp hb) (step_lt A h hc q b hq hb)
        (hstable p q b hp hq hb hbel) (fun c hcm => hw c (List.mem_cons_of_mem _ hcm))
  · exact hL.coarse p q hp hq

/-- The inner numbering loop gives the number `v` to every member of class `c`. -/
theorem labelClass_spec (n : Nat) (st : HopcroftState) (h0 : PartInv n st) (c : Nat)
    (hc : c < st.num) (v : Int) (ret : List Int) (hlen : ret.length = n) :
    (labelClass st c v ret).length = n ∧
    ∀ x, x < n → (labelClass st c v ret).getD x (-1)
      = if st.bel x = c then v else ret.getD x (-1) := by
  have key := foldl_range_inv
    (fun (r : List Int) (k : Nat) => r.set (st.classElems.getD (st.classBegin.getD c 0 + k) 0) v)
    (fun k r => r.length = n ∧ ∀ x, x < n → r.getD x (-1)
      = if st.bel x = c ∧ st.pos x < st.cbeg c + k then v else ret.getD x (-1))
    (st.csz c) ret
    ⟨hlen, fun x hx => by rw [if_neg]; intro hh; have := (h0.inBlock x hx).1; rw [hh.1] at this; omega⟩
    (by
      intro k r hk ⟨hl, hv⟩
      have hp := h0.blockBel c (st.cbeg c + k) hc (by omega) (by omega)
      have he := h0.elemPos _ hp.1
      refine ⟨by rw [List.length_set, hl], ?_⟩
      intro x hx
      show (r.set (st.elem (st.cbeg c + k)) v).getD x (-1) = _
      rw [getD_set_lt _ _ _ _ _ (by rw [hl]; exact he.1)]
      by_cases e : x = st.elem (st.cbeg c + k)
      · rw [if_pos e, if_pos]
        rw [e]
        exact ⟨hp.2, by rw [he.2]; omega⟩
      · rw [if_neg e, hv x hx]
        have hne : st.pos x ≠ st.cbeg c + k := by
          intro hh
          apply e
          rw [← hh, (h0.posElem x hx).2]
        by_cases e2 : st.bel x = c ∧ st.pos x < st.cbeg c + k
        · rw [if_pos e2, if_pos ⟨e2.1, by omega⟩]
        · rw [if_neg e2, if_neg]
          intro hh
          exact e2 ⟨hh.1, by omega⟩)
  refine ⟨key.1, ?_⟩
  intro x hx
  have hk : (labelClass st c v ret).getD x (-1) =
      if st.bel x = c ∧ st.pos x < st.cbeg c + st.csz c then v else ret.getD x (-1) :=
    key.2 x hx
  rw [hk]
  by_cases e : st.bel x = c
  · have hb := (h0.inBlock x hx).2
    rw [e] at hb
    rw [if_pos ⟨e, hb⟩, if_pos e]
  · rw [if_neg (fun hh => e hh.1), if_neg e]

theorem labelStep_inv (n : Nat) (st : HopcroftState) (h0 : PartInv n st) (i : Nat) (hi : i < n)
    (S : List Int × Int) (hJ : LabelInv n st i S) : LabelInv n st (i + 1) (labelStep st S i) := by
  by_cases e : S.1.getD i (-1) ≠ -1
  · have hR : labelStep st S i = S := by unfold labelStep; rw [if_pos e]
    rw [hR]
    obtain ⟨i0, hi0, hb0⟩ := (hJ.labelled i hi).1 e
    refine { len := hJ.len, cntNonneg := hJ.cntNonneg, labelled := ?_, range := hJ.range,
             same := hJ.same, onto := hJ.onto }
    intro x hx
    rw [hJ.labelled x hx]
    constructor
    · rintro ⟨i', hi', hb⟩
      exact ⟨i', by omega, hb⟩
    · rintro ⟨i', hi', hb⟩
      by_cases e2 : i' = i
      · subst e2; exact ⟨i0, hi0, by rw [hb0, hb]⟩
      · exact ⟨i', by omega, hb⟩
  · have hR : labelStep st S i = (labelClass st (st.bel i) S.2 S.1, S.2 + 1) := by
      unfold labelStep; rw [if_neg e]; rfl
    rw [hR]
    have hnone : ∀ i', i' < i → st.bel i' ≠ st.bel i := by
      intro i' hi' hb
      exact e ((hJ.labelled i hi).2 ⟨i', hi', hb⟩)
    obtain ⟨hl, hv⟩ := labelClass_spec n st h0 (st.bel i) (h0.belLt i hi) S.2 S.1 hJ.len
    have hcn := hJ.cntNonneg
    have hlab : ∀ x, x < n → ((labelClass st (st.bel i) S.2 S.1).getD x (-1) ≠ -1 ↔
        (st.bel x = st.bel i ∨ S.1.getD x (-1) ≠ -1)) := by
      intro x hx
      rw [hv x hx]
      by_cases e2 : st.bel x = st.bel i
      · rw [if_pos e2]
        exact ⟨fun _ => Or.inl e2, fun _ => by omega⟩
      · rw [if_neg e2]
        exact ⟨fun hh => Or.inr hh, fun hh => hh.resolve_left e2⟩
    have hold : ∀ x, x < n → S.1.getD x (-1) ≠ -1 → st.bel x ≠ st.bel i := by
      intro x hx hne hb
      obtain ⟨i', hi', hb'⟩ := (hJ.labelled x hx).1 hne
      exact hnone i' hi' (by rw [hb', hb])
    refine { len := hl, cntNonneg := by show 0 ≤ S.2 + 1; omega, labelled := ?_, range := ?_,
             same := ?_, onto := ?_ }
    · intro x hx
      rw [hlab x hx]
      constructor
      · rintro (hb | hne)
        · exact ⟨i, Nat.lt_succ_self _, hb.symm⟩
        · obtain ⟨i', hi', hb'⟩ := (hJ.labelled x hx).1 hne
          exact ⟨i', by omega, hb'⟩
      · rintro ⟨i', hi', hb⟩
        by_cases e2 : i' = i
        · subst e2; exact Or.inl hb.symm
        · exact Or.inr ((hJ.labelled x hx).2 ⟨i', by omega, hb⟩)
    · intro x hx hne
      show _ ∧ _ < S.2 + 1
      rw [hv x hx] at hne ⊢
      by_cases e2 : st.bel x = st.bel i
      · rw [if_pos e2]; omega
      · rw [if_neg e2] at hne ⊢
        have := hJ.range x hx hne
        omega
    · intro x y hx hy hnx hny
      rw [hv x hx] at hnx ⊢
      rw [hv y hy] at hny ⊢
      by_cases e2 : st.bel x = st.bel i
      · by_cases e3 : st.bel y = st.bel i
        · rw [if_pos e2, if_pos e3]
          exact ⟨fun _ => by rw [e2, e3], fun _ => rfl⟩
        · rw [if_pos e2, if_neg e3]
          rw [if_neg e3] at hny
          have := hJ.range y hy hny
          constructor
          · intro hh; omega
          · intro hh; exact absurd (by rw [← hh, e2]) e3
      · by_cases e3 : st.bel y = st.bel i
        · rw [if_neg e2, if_pos e3]
          rw [if_neg e2] at hnx
          have := hJ.range x hx hnx
          constructor
          · intro hh; omega
          · intro hh; exact absurd (by rw [hh, e3]) e2
        · rw [if_neg e2, if_neg e3]
          rw [if_neg e2] at hnx
          rw [if_neg e3] at hny
          exact hJ.same x y hx hy hnx hny
    · intro v hv0 hv1
      have hv1' : v < S.2 + 1 := hv1
      by_cases e2 : v = S.2
      · refine ⟨i, hi, ?_⟩
        rw [hv i hi, if_pos rfl, e2]
      · obtain ⟨x, hx, hxv⟩ := hJ.onto v hv0 (by omega)
        refine ⟨x, hx, ?_⟩
        rw [hv x hx, if_neg (hold x hx (by rw [hxv]; omega)), hxv]

/-- The final numbering: every state gets a number below `classCnt`, every number is
used, and two states get the same number exactly when they are in the same class. -/
theorem labelAll_spec (n : Nat) (st : HopcroftState) (h0 : PartInv n st) (hn : 0 < n) :
    (labelAll n st).length = n ∧
    ∃ k : Nat, 1 ≤ k ∧
      (∀ x, x < n → 0 ≤ (labelAll n st).getD x (-1) ∧ (labelAll n st).getD x (-1) < (k : Int)) ∧
      (∀ v, v < k → ∃ x, x < n ∧ (labelAll n st).getD x (-1) = (v : Int)) ∧
      (∀ x y, x < n → y < n →
        ((labelAll n st).getD x (-1) = (labelAll n st).getD y (-1) ↔ st.bel x = st.bel y)) := by
  have key := foldl_range_inv (labelStep st) (fun i S => LabelInv n st i S) n
    (List.replicate n (-1), 0)
    { len := by simp, cntNonneg := Int.le_refl 0,
      labelled := fun x hx => by
        rw [getD_replicate _ _ _ _ hx]
        exact ⟨fun hh => absurd rfl hh, fun ⟨i', hi', _⟩ => absurd hi' (Nat.not_lt_zero _)⟩,
      range := fun x hx hne => by rw [getD_replicate _ _ _ _ hx] at hne; exact absurd rfl hne,
      same := fun x y hx hy hne => by
        rw [getD_replicate _ _ _ _ hx] at hne; exact absurd rfl hne,
      onto := fun v h1 h2 => by omega }
    (fun i S hi hJ => labelStep_inv n st h0 i hi S hJ)
  generalize hS : (List.range n).foldl (labelStep st) (List.replicate n (-1), 0) = S at key
  have hret : labelAll n st = S.1 := by unfold labelAll; rw [hS]
  rw [hret]
  have hall : ∀ x, x < n → S.1.getD x (-1) ≠ -1 :=
    fun x hx => (key.labelled x hx).2 ⟨x, hx, rfl⟩
  have hpos : 0 < S.2 := by
    have := key.range 0 hn (hall 0 hn)
    omega
  refine ⟨key.len, S.2.toNat, by omega, ?_, ?_, ?_⟩
  · intro x hx
    have := key.range x hx (hall x hx)
    omega
  · intro v hv
    exact key.onto v (by omega) (by omega)
  · intro x y hx hy
    exact key.same x y hx hy (hall x hx) (hall y hy)

end DeterministicFiniteAutomaton

end FiniteAutomata

/-! ## Partition refinement: the state on entry of the loop -/

namespace FiniteAutomata

namespace DeterministicFiniteAutomaton

theorem getD_replicate_all {α : Type} (n i : Nat) (a : α) :
    (List.replicate n a).getD i a = a := by
  by_cases h : i < n
  · exact getD_replicate n i a a h
  · exact getD_of_le _ _ _ (by simp; omega)

/-- The state after class `0` was filled with all states. -/
theorem whole_spec (n m : Nat) (hn : 0 < n) :
    PartInv n (hopcroftWhole n m) ∧ (hopcroftWhole n m).num = 1 ∧
    (∀ x, (hopcroftWhole n m).bel x = 0) ∧ (hopcroftWhole n m).csz 0 = n ∧
    (hopcroftWhole n m).scratch = (List.replicate n 0, List.replicate n []) ∧
    (hopcroftWhole n m).stk
      = (List.replicate (n * m) (0, 0), List.replicate n (List.replicate m 0), 0) := by
  have hsz : ((List.replicate n 0).set 0 n).getD 0 0 = n :=
    getD_set_eq _ _ _ _ (by simpa using hn)
  have hbg : ((List.replicate n 0).set 0 0).getD 0 0 = 0 :=
    getD_set_eq _ _ _ _ (by simpa using hn)
  have key := foldl_range_inv
    (fun (st : HopcroftState) (i : Nat) =>
      { st with classElems := st.classElems.set (st.classBegin.getD st.num 0 + i) i,
                elemBelong := st.elemBelong.set i st.num,
                elemPosition := st.elemPosition.set i (st.classBegin.getD st.num 0 + i) })
    (fun i st => st.classBegin = (List.replicate n 0).set 0 0 ∧
      st.classSize = (List.replicate n 0).set 0 n ∧ st.num = 0 ∧
      st.scratch = (List.replicate n 0, List.replicate n []) ∧
      st.stk = (List.replicate (n * m) (0, 0), List.replicate n (List.replicate m 0), 0) ∧
      st.classElems.length = n ∧ st.elemBelong.length = n ∧ st.elemPosition.length = n ∧
      (∀ k, k < i → st.elem k = k ∧ st.pos k = k) ∧ (∀ x, st.bel x = 0))
    n
    { hopcroftAlloc n m with
        classBegin := (hopcroftAlloc n m).classBegin.set (hopcroftAlloc n m).num 0,
        classSize := (hopcroftAlloc n m).classSize.set (hopcroftAlloc n m).num n }
    ⟨rfl, rfl, rfl, rfl, rfl, by simp [hopcroftAlloc], by simp [hopcroftAlloc],
      by simp [hopcroftAlloc], fun k hk => absurd hk (Nat.not_lt_zero k),
      fun x => by
        show (List.replicate n 0).getD x 0 = 0
        exact getD_replicate_all n x 0⟩
    (by
      rintro i st hi ⟨h1, h2, h3, h4, h5, h6, h7, h8, h9, h10⟩
      have hb : st.classBegin.getD st.num 0 = 0 := by rw [h1, h3]; exact hbg
      refine ⟨h1, h2, h3, h4, h5, ?_, ?_, ?_, ?_, ?_⟩
      · show (st.classElems.set _ _).length = n
        rw [List.length_set, h6]
      · show (st.elemBelong.set _ _).length = n
        rw [List.length_set, h7]
      · show (st.elemPosition.set _ _).length = n
        rw [List.length_set, h8]
      · intro k hk
        show (st.classElems.set (st.classBegin.getD st.num 0 + i) i).getD k 0 = k ∧
          (st.elemPosition.set i (st.classBegin.getD st.num 0 + i)).getD k 0 = k
        rw [hb, Nat.zero_add, getD_set_lt _ _ _ _ _ (by rw [h6]; exact hi),
          getD_set_lt _ _ _ _ _ (by rw [h8]; exact hi)]
        by_cases e : k = i
        · rw [if_pos e, if_pos e]; exact ⟨e.symm, e.symm⟩
        · rw [if_neg e, if_neg e]; exact h9 k (by omega)
      · intro x
        show (st.elemBelong.set i st.num).getD x 0 = 0
        rw [getD_set_lt _ _ _ _ _ (by rw [h7]; exact hi), h3]
        by_cases e : x = i
        · rw [if_pos e]
        · rw [if_neg e]; exact h10 x)
  have hW : hopcroftWhole n m =
      { ((List.range n).foldl
          (fun (st : HopcroftState) (i : Nat) =>
            { st with classElems := st.classElems.set (st.classBegin.getD st.num 0 + i) i,
                      elemBelong := st.elemBelong.set i st.num,
                      elemPosition := st.elemPosition.set i (st.classBegin.getD st.num 0 + i) })
          { hopcroftAlloc n m with
              classBegin := (hopcroftAlloc n m).classBegin.set (hopcroftAlloc n m).num 0,
              classSize := (hopcroftAlloc n m).classSize.set (hopcroftAlloc n m).num n }) with
        num := ((List.range n).foldl
          (fun (st : HopcroftState) (i : Nat) =>
            { st with classElems := st.classElems.set (st.classBegin.getD st.num 0 + i) i,
                      elemBelong := st.elemBelong.set i st.num,
                      elemPosition := st.elemPosition.set i (st.classBegin.getD st.num 0 + i) })
          { hopcroftAlloc n m with
              classBegin := (hopcroftAlloc n m).classBegin.set (hopcroftAlloc n m).num 0,
              classSize := (hopcroftAlloc n m).classSize.set (hopcroftAlloc n m).num n }).num
          + 1 } := by
    unfold hopcroftWhole
    have : ((hopcroftAlloc n m).classSize.set (hopcroftAlloc n m).num n).getD
        (hopcroftAlloc n m).num 0 = n := hsz
    simp only [this]
  generalize (List.range n).foldl _ _ = W0 at key hW
  obtain ⟨h1, h2, h3, h4, h5, h6, h7, h8, h9, h10⟩ := key
  rw [hW]
  have hcb : ∀ c, ({ W0 with num := W0.num + 1 } : HopcroftState).cbeg c = 0 := by
    intro c
    show W0.classBegin.getD c 0 = 0
    rw [h1, getD_set_lt _ _ _ _ _ (by simpa using hn)]
    by_cases e : c = 0
    · rw [if_pos e]
    · rw [if_neg e]; exact getD_replicate_all n c 0
  have hcs0 : ({ W0 with num := W0.num + 1 } : HopcroftState).csz 0 = n := by
    show W0.classSize.getD 0 0 = n
    rw [h2]; exact hsz
  refine ⟨?_, by show W0.num + 1 = 1; rw [h3], h10, hcs0, h4, h5⟩
  have hs := h4
  unfold HopcroftState.scratch at hs
  simp only [Prod.mk.injEq] at hs
  exact
    { lenB := by show W0.classBegin.length = n; rw [h1]; simp,
      lenS := by show W0.classSize.length = n; rw [h2]; simp,
      lenE := h6, lenBel := h7, lenP := h8,
      lenCnt := by show W0.classSplitCnt.length = n; rw [hs.1]; simp,
      lenSel := by show W0.classSplitElems.length = n; rw [hs.2]; simp,
      numle := by show W0.num + 1 ≤ n; rw [h3]; omega,
      posElem := fun x hx => by
        show W0.pos x < n ∧ W0.elem (W0.pos x) = x
        rw [(h9 x hx).2]; exact ⟨hx, (h9 x hx).1⟩,
      elemPos := fun p hp => by
        show W0.elem p < n ∧ W0.pos (W0.elem p) = p
        rw [(h9 p hp).1]; exact ⟨hp, (h9 p hp).2⟩,
      belLt := fun x _ => by show W0.bel x < W0.num + 1; rw [h10 x]; omega,
      inBlock := fun x hx => by
        have e1 : ({ W0 with num := W0.num + 1 } : HopcroftState).bel x = 0 := h10 x
        have e2 : ({ W0 with num := W0.num + 1 } : HopcroftState).pos x = x := (h9 x hx).2
        rw [e1, e2, hcb, hcs0]; omega,
      blockBel := fun c p hc hp1 hp2 => by
        have hc0 : c = 0 := by
          have : c < W0.num + 1 := hc
          omega
        subst hc0
        rw [hcb, hcs0] at hp2
        exact ⟨by omega, h10 _⟩,
      sizePos := fun c hc => by
        have hc0 : c = 0 := by
          have : c < W0.num + 1 := hc
          omega
        subst hc0
        rw [hcs0]; exact hn }

theorem seedSplitter_eq (st : HopcroftState) (j : Nat) :
    seedSplitter st j = pushAt st (if st.csz 0 < st.csz 1 then 0 else 1) j := rfl

/-- The loop that seeds the stack with the smaller of the two initial classes. -/
theorem seedLoop_spec (n m : Nat) (st : HopcroftState) (h0 : PartInv n st)
    (hS : StackInv n m st) (hnum : 2 ≤ st.num) (hempty : st.stack = []) (htop : st.stackTop = 0) :
    let s := (List.range m).foldl seedSplitter st
    s.core = st.core ∧ s.scratch = st.scratch ∧ StackInv n m s ∧ s.stackTop = m ∧
    ∃ id0, (id0 = 0 ∨ id0 = 1) ∧ ∀ j, j < m → (id0, j) ∈ s.stack := by
  intro s
  have key := foldl_range_inv seedSplitter
    (fun j' s => s.core = st.core ∧ s.scratch = st.scratch ∧ StackInv n m s ∧
      s.stackTop = j' ∧
      (∀ c j, (c, j) ∈ s.stack → j < j') ∧
      (∀ j, j < j' → ((if st.csz 0 < st.csz 1 then 0 else 1), j) ∈ s.stack))
    m st
    ⟨rfl, rfl, hS, htop, fun c j hm => by rw [hempty] at hm; exact absurd hm (List.not_mem_nil _),
      fun j hj => absurd hj (Nat.not_lt_zero j)⟩
    (by
      rintro j s hj ⟨hcore, hscr, hSs, htops, hnew, hcov⟩
      obtain ⟨a1, a2, a3, a4, a5, a6⟩ := core_access st s hcore
      have h0s : PartInv n s := partInv_of_core n st s h0 hcore
        (by rw [(scratch_access st s hscr).1]; exact h0.lenCnt)
        (by rw [(scratch_access st s hscr).2.1]; exact h0.lenSel)
      rw [seedSplitter_eq, a2]
      generalize hX : (if st.csz 0 < st.csz 1 then 0 else 1) = X at hcov ⊢
      have hXc : X < s.num := by
        rw [a6, ← hX]
        split <;> omega
      have hnot : (X, j) ∉ s.stack := fun hm => by have := hnew X j hm; omega
      obtain ⟨hS', hstack', hcore', hscr', htop2⟩ := pushAt_inv n m s X j h0s hSs hXc hj hnot
      refine ⟨by rw [hcore', hcore], by rw [hscr', hscr], hS', by rw [htop2, htops], ?_, ?_⟩
      · intro c j' hm
        rw [hstack'] at hm
        rcases List.mem_append.1 hm with h1 | h1
        · have := hnew c j' h1; omega
        · rw [List.mem_singleton, Prod.mk.injEq] at h1
          omega
      · intro j' hj'
        rw [hstack']
        by_cases e : j' = j
        · subst e; exact List.mem_append_right _ (List.mem_singleton_self _)
        · exact List.mem_append_left _ (hcov j' (by omega)))
  obtain ⟨k1, k2, k3, k4, _, k6⟩ := key
  refine ⟨k1, k2, k3, k4, (if st.csz 0 < st.csz 1 then 0 else 1), ?_, k6⟩
  split
  · exact Or.inl rfl
  · exact Or.inr rfl

/-- Unless all states accept or all reject, the state on entry of the loop satisfies
the loop invariant, and `n * m` rounds will do. -/
theorem hopcroftInit_inv (A : DeterministicFiniteAutomaton) (h : A.WellFormed)
    (hacc : ∃ i, i < A.n ∧ A.acc i = true) (hrej : ∃ i, i < A.n ∧ A.acc i = false) :
    LoopInv A (hopcroftInit A) ∧
    (hopcroftInit A).stackTop + A.sig.siz * (A.n - (hopcroftInit A).num) ≤ A.n * A.sig.siz := by
  have hn : 0 < A.n := h.1
  obtain ⟨w1, w2, w3, w4, w5, w6⟩ := whole_spec A.n A.sig.siz hn
  have hL : (List.range A.n).filter (fun i => A.acceptStates.getD i 0 != 0)
      = (List.range A.n).filter (fun i => A.acc i) := rfl
  have hI : hopcroftInit A = (List.range A.sig.siz).foldl seedSplitter
      (Split (hopcroftWhole A.n A.sig.siz) 0 ((List.range A.n).filter (fun i => A.acc i))).1 := rfl
  generalize hLdef : (List.range A.n).filter (fun i => A.acc i) = L at hI
  have hLmem : ∀ x, x ∈ L ↔ x < A.n ∧ A.acc x = true := by
    intro x; rw [← hLdef]; simp
  have hLnd : L.Nodup := by rw [← hLdef]; exact (List.nodup_range _).filter _
  have hLpos : 0 < L.length := by
    obtain ⟨i, hi, ha⟩ := hacc
    exact List.length_pos_of_mem ((hLmem i).2 ⟨hi, ha⟩)
  have hLlt : L.length < A.n := by
    have hc := sublist_count L (List.range A.n) hLnd
      (fun x hx => List.mem_range.2 ((hLmem x).1 hx).1)
    rw [List.length_range] at hc
    by_contra hge
    obtain ⟨i, hi, hr⟩ := hrej
    have := hc.2 (by omega) (List.nodup_range _) i (List.mem_range.2 hi)
    have := ((hLmem i).1 this).2
    rw [hr] at this
    exact Bool.false_ne_true this
  obtain ⟨s1, s2, s3, s4, s5, s6, s7, s8, s9, s10, s11, s12⟩ :=
    split_spec A.n (hopcroftWhole A.n A.sig.siz) 0 L w1 (by omega) hLnd
      (fun x hx => ⟨((hLmem x).1 hx).1, w3 x⟩) hLpos (by rw [w4]; exact hLlt)
  generalize (Split (hopcroftWhole A.n A.sig.siz) 0 L).1 = st2
    at hI s2 s3 s4 s5 s6 s7 s8 s9 s10 s11 s12
  have hstk := w6
  unfold HopcroftState.stk at hstk
  simp only [Prod.mk.injEq] at hstk
  have hscr := w5
  unfold HopcroftState.scratch at hscr
  simp only [Prod.mk.injEq] at hscr
  have hstack2 : st2.stack = [] := by
    show st2.splitterStack.take st2.stackTop = []
    rw [s12, hstk.2.2]; rfl
  have hS2 : StackInv A.n A.sig.siz st2 :=
    { lenStack := by rw [s10, hstk.1]; simp,
      tabIn := by rw [s11, hstk.2.1]; exact table_replicate _ _ _,
      topLe := by rw [s12, hstk.2.2]; exact Nat.zero_le _,
      nodup := by rw [hstack2]; exact List.nodup_nil,
      range := by rw [hstack2]; intro c j hm; exact absurd hm (List.not_mem_nil _),
      flagIff := by
        intro c j hc hj
        rw [hstack2]
        have : st2.flag c j = 0 := by
          show (st2.inStack.getD c []).getD j 0 = 0
          rw [s11, hstk.2.1, getD_replicate _ _ _ _ hc, getD_replicate _ _ _ _ hj]
        rw [this]
        exact ⟨fun hh => absurd rfl hh, fun hm => absurd hm (List.not_mem_nil _)⟩ }
  obtain ⟨k1, k2, k3, k4, id0, hid0, hcov⟩ :=
    seedLoop_spec A.n A.sig.siz st2 s2 hS2 (by rw [s3, w2]) hstack2 (by rw [s12, hstk.2.2])
  rw [hI]
  generalize (List.range A.sig.siz).foldl seedSplitter st2 = st3 at k1 k2 k3 k4 hcov
  obtain ⟨b1, b2, b3, b4, b5, b6⟩ := core_access st2 st3 k1
  obtain ⟨c1, c2, c3, c4⟩ := scratch_access st2 st3 k2
  have hpart : PartInv A.n st3 := partInv_of_core A.n st2 st3 s2 k1
    (by rw [c1]; exact s2.lenCnt) (by rw [c2]; exact s2.lenSel)
  have hbel : ∀ x, x < A.n → st3.bel x = if A.acc x = true then 1 else 0 := by
    intro x hx
    rw [b4, s4, w2, w3]
    by_cases e : A.acc x = true
    · rw [if_pos ((hLmem x).2 ⟨hx, e⟩), if_pos e]
    · rw [if_neg (fun hm => e ((hLmem x).1 hm).2), if_neg e]
  have hbel01 : ∀ x, x < A.n → st3.bel x = 0 ∨ st3.bel x = 1 := by
    intro x hx
    rw [hbel x hx]
    split
    · exact Or.inr rfl
    · exact Or.inl rfl
  have hfine : ∀ p q, p < A.n → q < A.n → st3.bel p = st3.bel q → A.acc p = A.acc q := by
    intro p q hp hq hb
    rw [hbel p hp, hbel q hq] at hb
    by_cases e1 : A.acc p = true
    · by_cases e2 : A.acc q = true
      · rw [e1, e2]
      · rw [if_pos e1, if_neg e2] at hb; omega
    · by_cases e2 : A.acc q = true
      · rw [if_neg e1, if_pos e2] at hb; omega
      · rw [Bool.not_eq_true] at e1 e2
        rw [e1, e2]
  refine ⟨?_, ?_⟩
  · exact
      { part := hpart, stk := k3,
        clean := fun c => by
          constructor
          · show st3.classSplitCnt.getD c 0 = 0
            rw [c1, s8, hscr.1]; exact getD_replicate_all _ _ _
          · show st3.classSplitElems.getD c [] = []
            rw [c2, s9, hscr.2]; exact getD_replicate_all _ _ _,
        coarse := fun p q hp hq hN => by
          rw [hbel p hp, hbel q hq, nerode_acc A p q hN],
        fine := hfine,
        cover := fun p q b hp hq hb _ hne => by
          have hp' := hbel01 (A.step p b)
          have hq' := hbel01 (A.step q b)
          have hmem := hcov b hb
          by_cases e : st3.bel (A.step p b) = id0
          · left; rw [e]; exact hmem
          · right
            have hx : st3.bel (A.step q b) = id0 := by
              by_contra e2
              apply hne
              by_cases hpn : A.step p b < A.n
              · by_cases hqn : A.step q b < A.n
                · rcases hp' hpn with h1 | h1 <;> rcases hq' hqn with h2 | h2 <;>
                    rcases hid0 with h3 | h3 <;> omega
                · have hq0 : st3.bel (A.step q b) = 0 := by
                    show st3.elemBelong.getD _ 0 = 0
                    exact getD_of_le _ _ _ (by rw [hpart.lenBel]; omega)
                  rcases hp' hpn with h1 | h1 <;> rcases hid0 with h3 | h3 <;> omega
              · have hp0 : st3.bel (A.step p b) = 0 := by
                  show st3.elemBelong.getD _ 0 = 0
                  exact getD_of_le _ _ _ (by rw [hpart.lenBel]; omega)
                by_cases hqn : A.step q b < A.n
                · rcases hq' hqn with h2 | h2 <;> rcases hid0 with h3 | h3 <;> omega
                · have hq0 : st3.bel (A.step q b) = 0 := by
                    show st3.elemBelong.getD _ 0 = 0
                    exact getD_of_le _ _ _ (by rw [hpart.lenBel]; omega)
                  omega
            rw [hx]; exact hmem }
  · have hnum : st3.num = 2 := by rw [b6, s3, w2]
    have hn2 := hpart.numle
    rw [k4, hnum, Nat.mul_sub, Nat.mul_comm A.n A.sig.siz]
    have : A.sig.siz * 2 ≤ A.sig.siz * A.n := Nat.mul_le_mul_left _ (by omega)
    omega

end DeterministicFiniteAutomaton

end FiniteAutomata

/-! ## `equivalenceClassesHopcroft` computes the equivalence classes -/

namespace FiniteAutomata

namespace DeterministicFiniteAutomaton

theorem getD_default {α : Type} (l : List α) (i : Nat) (d d' : α) (h : i < l.length) :
    l.getD i d = l.getD i d' := by
  simp [List.getD_eq_getElem?_getD, List.getElem?_eq_getElem h]

theorem nerode_refl (A : DeterministicFiniteAutomaton) (p : Nat) : A.Nerode p p :=
  fun _ _ => rfl

theorem nerode_symm (A : DeterministicFiniteAutomaton) (p q : Nat) (h : A.Nerode p q) :
    A.Nerode q p := fun w hw => (h w hw).symm

theorem nerode_trans (A : DeterministicFiniteAutomaton) (p q r : Nat) (h1 : A.Nerode p q)
    (h2 : A.Nerode q r) : A.Nerode p r := fun w hw => (h1 w hw).trans (h2 w hw)

/-- The vector returned by `equivalenceClassesHopcroft` on a complete automaton: one
number below `k` per state, all numbers used, equal numbers exactly for equivalent
states. -/
theorem hopcroft_spec (A : DeterministicFiniteAutomaton) (h : A.WellFormed)
    (hc : A.isComplete = true) :
    (equivalenceClassesHopcroft A).length = A.n ∧
    ∃ k : Nat, 1 ≤ k ∧
      (∀ x, x < A.n → 0 ≤ (equivalenceClassesHopcroft A).getD x 0 ∧
        (equivalenceClassesHopcroft A).getD x 0 < (k : Int)) ∧
      (∀ v, v < k → ∃ x, x < A.n ∧ (equivalenceClassesHopcroft A).getD x 0 = (v : Int)) ∧
      (∀ p q, p < A.n → q < A.n →
        ((equivalenceClassesHopcroft A).getD p 0 = (equivalenceClassesHopcroft A).getD q 0
          ↔ A.Nerode p q)) := by
  have hn : 0 < A.n := h.1
  by_cases hfast : ((List.range A.n).all (fun i => A.acceptStates.getD i 0 != 0) ||
      (List.range A.n).all (fun i => A.acceptStates.getD i 0 == 0)) = true
  · have hE : equivalenceClassesHopcroft A = List.replicate A.n 0 := by
      unfold equivalenceClassesHopcroft
      simp only [hfast, if_true]
    rw [hE]
    have hsame : ∀ p q, p < A.n → q < A.n → A.acc p = A.acc q := by
      intro p q hp hq
      rw [Bool.or_eq_true] at hfast
      rcases hfast with h1 | h1
      · rw [List.all_eq_true] at h1
        have e1 : A.acc p = true := h1 p (List.mem_range.2 hp)
        have e2 : A.acc q = true := h1 q (List.mem_range.2 hq)
        rw [e1, e2]
      · rw [List.all_eq_true] at h1
        have e1 := h1 p (List.mem_range.2 hp)
        have e2 := h1 q (List.mem_range.2 hq)
        have f1 : A.acc p = false := by
          unfold acc; simp only [beq_iff_eq] at e1; rw [e1]; rfl
        have f2 : A.acc q = false := by
          unfold acc; simp only [beq_iff_eq] at e2; rw [e2]; rfl
        rw [f1, f2]
    refine ⟨by simp, 1, Nat.le_refl 1, ?_, ?_, ?_⟩
    · intro x hx
      rw [getD_replicate _ _ _ _ hx]
      omega
    · intro v hv
      refine ⟨0, hn, ?_⟩
      rw [getD_replicate _ _ _ _ hn]
      have : v = 0 := by omega
      rw [this]; rfl
    · intro p q hp hq
      rw [getD_replicate _ _ _ _ hp, getD_replicate _ _ _ _ hq]
      refine ⟨fun _ w hw => ?_, fun _ => rfl⟩
      exact hsame _ _ (run_lt A h hc w hw p hp) (run_lt A h hc w hw q hq)
  · have hE : equivalenceClassesHopcroft A = labelAll A.n
        (refineLoop A.sig.siz (buildInvTr A) (A.n * A.sig.siz) (hopcroftInit A)) := by
      unfold equivalenceClassesHopcroft
      simp only [hfast, if_false]
      rfl
    rw [Bool.or_eq_true, not_or] at hfast
    have hrej : ∃ i, i < A.n ∧ A.acc i = false := by
      have h1 := hfast.1
      rw [List.all_eq_true] at h1
      push_neg at h1
      obtain ⟨i, hi, hne⟩ := h1
      exact ⟨i, List.mem_range.1 hi, by simpa [acc] using hne⟩
    have hacc : ∃ i, i < A.n ∧ A.acc i = true := by
      have h1 := hfast.2
      rw [List.all_eq_true] at h1
      push_neg at h1
      obtain ⟨i, hi, hne⟩ := h1
      exact ⟨i, List.mem_range.1 hi, by simpa [acc] using hne⟩
    obtain ⟨hL0, hfuel⟩ := hopcroftInit_inv A h hacc hrej
    obtain ⟨hL, htop⟩ := refineLoop_inv A h hc (A.n * A.sig.siz) (hopcroftInit A) hL0 hfuel
    rw [hE]
    generalize refineLoop A.sig.siz (buildInvTr A) (A.n * A.sig.siz) (hopcroftInit A) = st
      at hL htop
    obtain ⟨l1, k, hk, l2, l3, l4⟩ := labelAll_spec A.n st hL.part hn
    have hd : ∀ x, x < A.n → (labelAll A.n st).getD x 0 = (labelAll A.n st).getD x (-1) :=
      fun x hx => getD_default _ _ _ _ (by rw [l1]; exact hx)
    refine ⟨l1, k, hk, ?_, ?_, ?_⟩
    · intro x hx; rw [hd x hx]; exact l2 x hx
    · intro v hv
      obtain ⟨x, hx, e⟩ := l3 v hv
      exact ⟨x, hx, by rw [hd x hx]; exact e⟩
    · intro p q hp hq
      rw [hd p hp, hd q hq, l4 p q hp hq]
      exact final_classes A h hc st hL htop p q hp hq

end DeterministicFiniteAutomaton

end FiniteAutomata

/-! ## Words of length at most `n` suffice to tell states apart -/

namespace FiniteAutomata

namespace DeterministicFiniteAutomaton

theorem upTo_mono (A : DeterministicFiniteAutomaton) (j k p q : Nat) (hjk : j ≤ k)
    (h : A.NerodeUpTo k p q) : A.NerodeUpTo j p q :=
  fun w hl hw => h w (by omega) hw

theorem upTo_symm (A : DeterministicFiniteAutomaton) (k p q : Nat) (h : A.NerodeUpTo k p q) :
    A.NerodeUpTo k q p := fun w hl hw => (h w hl hw).symm

theorem upTo_trans (A : DeterministicFiniteAutomaton) (k p q r : Nat)
    (h1 : A.NerodeUpTo k p q) (h2 : A.NerodeUpTo k q r) : A.NerodeUpTo k p r :=
  fun w hl hw => (h1 w hl hw).trans (h2 w hl hw)

theorem upTo_refl (A : DeterministicFiniteAutomaton) (k p : Nat) : A.NerodeUpTo k p p :=
  fun _ _ _ => rfl

theorem upTo_succ (A : DeterministicFiniteAutomaton) (k p q : Nat) :
    A.NerodeUpTo (k + 1) p q ↔
      A.acc p = A.acc q ∧ ∀ a, a < A.sig.siz → A.NerodeUpTo k (A.step p a) (A.step q a) := by
  constructor
  · intro h
    refine ⟨by simpa [run_nil] using h [] (by simp) (by simp), ?_⟩
    intro a ha w hl hw
    have := h (a :: w) (by simp; omega) (by
      intro b hb
      rcases List.mem_cons.1 hb with h1 | h1
      · omega
      · exact hw b h1)
    simpa [run_cons] using this
  · rintro ⟨h0, h1⟩ w hl hw
    cases w with
    | nil => simpa [run_nil] using h0
    | cons a w =>
      rw [run_cons, run_cons]
      exact h1 a (hw a (List.mem_cons_self _ _)) w (by simp at hl; omega)
        (fun b hb => hw b (List.mem_cons_of_mem _ hb))

/-- Once the relation stops getting finer it never gets finer again. -/
theorem upTo_stable (A : DeterministicFiniteAutomaton) (h : A.WellFormed)
    (hc : A.isComplete = true) (k : Nat)
    (hst : ∀ p q, p < A.n → q < A.n → A.NerodeUpTo k p q → A.NerodeUpTo (k + 1) p q)
    (j : Nat) : ∀ p q, p < A.n → q < A.n → A.NerodeUpTo k p q → A.NerodeUpTo (k + j) p q := by
  induction j with
  | zero => intro p q _ _ hh; exact hh
  | succ j ih =>
    intro p q hp hq hh
    have h1 := (upTo_succ A k p q).1 (hst p q hp hq hh)
    have e : k + (j + 1) = (k + j) + 1 := by omega
    rw [e, upTo_succ]
    refine ⟨h1.1, fun a ha => ?_⟩
    exact ih _ _ (step_lt A h hc p a hp ha) (step_lt A h hc q a hq ha) (h1.2 a ha)

/-- As long as the relation keeps getting finer there are `k + 1` states that words of
length at most `k` tell apart pairwise. -/
theorem upTo_chain (A : DeterministicFiniteAutomaton) (h : A.WellFormed) (k : Nat)
    (hns : ∀ j, j < k → ∃ p q, p < A.n ∧ q < A.n ∧ A.NerodeUpTo j p q ∧
      ¬ A.NerodeUpTo (j + 1) p q) :
    ∃ L : List Nat, L.length = k + 1 ∧ L.Nodup ∧ (∀ x ∈ L, x < A.n) ∧
      ∀ x ∈ L, ∀ y ∈ L, A.NerodeUpTo k x y → x = y := by
  induction k with
  | zero =>
    refine ⟨[0], rfl, List.nodup_singleton _, ?_, ?_⟩
    · intro x hx
      rw [List.mem_singleton] at hx
      rw [hx]; exact h.1
    · intro x hx y hy _
      rw [List.mem_singleton] at hx hy
      rw [hx, hy]
  | succ k ih =>
    obtain ⟨L, hlen, hnd, hlt, hsep⟩ := ih (fun j hj => hns j (by omega))
    obtain ⟨p, q, hp, hq, hpq, hnpq⟩ := hns k (Nat.lt_succ_self k)
    have hz : ∃ z, z < A.n ∧ ∀ x ∈ L, ¬ A.NerodeUpTo (k + 1) x z := by
      by_cases hx : ∃ x ∈ L, A.NerodeUpTo k x p
      · obtain ⟨x0, hx0, hx0p⟩ := hx
        have hother : ∀ z, A.NerodeUpTo k p z → ∀ x ∈ L, x ≠ x0 → ¬ A.NerodeUpTo (k + 1) x z := by
          intro z hzp x hxL hne hxz
          apply hne
          apply hsep x hxL x0 hx0
          have h1 : A.NerodeUpTo k x z := upTo_mono A k (k + 1) x z (by omega) hxz
          exact upTo_trans A k x p x0
            (upTo_trans A k x z p h1 (upTo_symm A k p z hzp)) (upTo_symm A k x0 p hx0p)
        by_cases h1 : A.NerodeUpTo (k + 1) x0 p
        · refine ⟨q, hq, ?_⟩
          intro x hxL hxq
          by_cases e : x = x0
          · subst e
            exact hnpq (upTo_trans A (k + 1) p x q (upTo_symm A (k + 1) x p h1) hxq)
          · exact hother q hpq x hxL e hxq
        · refine ⟨p, hp, ?_⟩
          intro x hxL hxp
          by_cases e : x = x0
          · subst e; exact h1 hxp
          · exact hother p (upTo_refl A k p) x hxL e hxp
      · refine ⟨p, hp, ?_⟩
        intro x hxL hxp
        exact hx ⟨x, hxL, upTo_mono A k (k + 1) x p (by omega) hxp⟩
    obtain ⟨z, hzn, hzsep⟩ := hz
    have hzL : z ∉ L := fun hm => hzsep z hm (upTo_refl A (k + 1) z)
    refine ⟨z :: L, by simp [hlen], List.nodup_cons.2 ⟨hzL, hnd⟩, ?_, ?_⟩
    · intro x hx
      rcases List.mem_cons.1 hx with h1 | h1
      · rw [h1]; exact hzn
      · exact hlt x h1
    · intro x hx y hy hxy
      rcases List.mem_cons.1 hx with h1 | h1
      · rcases List.mem_cons.1 hy with h2 | h2
        · rw [h1, h2]
        · exfalso
          rw [h1] at hxy
          exact hzsep y h2 (upTo_symm A (k + 1) z y hxy)
      · rcases List.mem_cons.1 hy with h2 | h2
        · exfalso
          rw [h2] at hxy
          exact hzsep x h1 hxy
        · exact hsep x h1 y h2 (upTo_mono A k (k + 1) x y (by omega) hxy)

/-- On a complete automaton with `n` states, two states are equivalent as soon as no
word of length at most `n` tells them apart. -/
theorem nerode_iff_upTo (A : DeterministicFiniteAutomaton) (h : A.WellFormed)
    (hc : A.isComplete = true) (p q : Nat) (hp : p < A.n) (hq : q < A.n) :
    A.Nerode p q ↔ A.NerodeUpTo A.n p q := by
  constructor
  · intro hN w _ hw
    exact hN w hw
  · intro hU
    have hex : ∃ j, j < A.n ∧ ∀ p q, p < A.n → q < A.n → A.NerodeUpTo j p q →
        A.NerodeUpTo (j + 1) p q := by
      by_contra hno
      push_neg at hno
      obtain ⟨L, hlen, hnd, hlt, _⟩ := upTo_chain A h A.n (by
        intro j hj
        obtain ⟨p, q, h1, h2, h3, h4⟩ := hno j hj
        exact ⟨p, q, h1, h2, h3, h4⟩)
      have := nodup_length_le L A.n hnd hlt
      omega
    obtain ⟨j, hj, hst⟩ := hex
    intro w hw
    have h1 := upTo_stable A h hc j hst w.length p q hp hq
      (upTo_mono A j A.n p q (by omega) hU)
    exact h1 w (by omega) hw

end DeterministicFiniteAutomaton

end FiniteAutomata

/-! ## The quotient builder `minimize` -/

namespace FiniteAutomata

namespace DeterministicFiniteAutomaton

theorem foldl_max_spec (l : List Int) (init : Int) :
    init ≤ l.foldl max init ∧ (∀ x ∈ l, x ≤ l.foldl max init) ∧
    (l.foldl max init = init ∨ l.foldl max init ∈ l) := by
  induction l generalizing init with
  | nil => simp
  | cons a l ih =>
    obtain ⟨h1, h2, h3⟩ := ih (max init a)
    rw [List.foldl_cons]
    refine ⟨le_trans (le_max_left _ _) h1, ?_, ?_⟩
    · intro x hx
      rcases List.mem_cons.1 hx with e | e
      · rw [e]; exact le_trans (le_max_right _ _) h1
      · exact h2 x e
    · rcases h3 with e | e
      · rw [e]
        rcases max_choice init a with e2 | e2
        · left; exact e2
        · right; rw [e2]; exact List.mem_cons_self _ _
      · right; exact List.mem_cons_of_mem _ e

/-- The largest class id is `k - 1` when the ids used are exactly `0 .. k - 1`. -/
theorem maxElement_eq (eqv : List Int) (n k : Nat) (hlen : eqv.length = n) (hn : 0 < n)
    (hrange : ∀ x, x < n → 0 ≤ eqv.getD x 0 ∧ eqv.getD x 0 < (k : Int))
    (honto : ∀ v, v < k → ∃ x, x < n ∧ eqv.getD x 0 = (v : Int)) (hk : 1 ≤ k) :
    maxElement eqv + 1 = (k : Int) := by
  obtain ⟨h1, h2, h3⟩ := foldl_max_spec eqv (eqv.getD 0 0)
  have hmem : maxElement eqv ∈ eqv := by
    rcases h3 with e | e
    · unfold maxElement; rw [e]; exact getD_mem _ _ _ (by omega)
    · exact e
  obtain ⟨i, hi, e⟩ := List.mem_iff_getElem.1 hmem
  have e2 : eqv.getD i 0 = maxElement eqv := by
    rw [List.getD_eq_getElem?_getD, List.getElem?_eq_getElem hi]; exact e
  have hup := (hrange i (by omega)).2
  rw [e2] at hup
  obtain ⟨x, hx, e3⟩ := honto (k - 1) (by omega)
  have hlow := h2 _ (getD_mem eqv x 0 (by omega))
  rw [e3] at hlow
  have : maxElement eqv = eqv.foldl max (eqv.getD 0 0) := rfl
  omega

/-- The vector `represent` names a member of every class. -/
theorem buildRepresent_spec (n k : Nat) (eqv : List Int)
    (hrange : ∀ x, x < n → 0 ≤ eqv.getD x 0 ∧ eqv.getD x 0 < (k : Int))
    (honto : ∀ v, v < k → ∃ x, x < n ∧ eqv.getD x 0 = (v : Int)) :
    (buildRepresent n eqv k).length = k ∧
    ∀ c, c < k → 0 ≤ (buildRepresent n eqv k).getD c (-1) ∧
      (buildRepresent n eqv k).getD c (-1) < (n : Int) ∧
      eqv.getD ((buildRepresent n eqv k).getD c (-1)).toNat 0 = (c : Int) := by
  have key := foldl_range_inv
    (fun (rep : List Int) (i : Nat) =>
      if rep.getD (eqv.getD i 0).toNat (-1) = -1 then rep.set (eqv.getD i 0).toNat (i : Int)
      else rep)
    (fun i rep => rep.length = k ∧ ∀ c, c < k →
      (rep.getD c (-1) = -1 ∧ ∀ x, x < i → eqv.getD x 0 ≠ (c : Int)) ∨
      (0 ≤ rep.getD c (-1) ∧ rep.getD c (-1) < (i : Int) ∧
        eqv.getD (rep.getD c (-1)).toNat 0 = (c : Int)))
    n (List.replicate k (-1))
    ⟨by simp, fun c hc => Or.inl ⟨getD_replicate _ _ _ _ hc, fun x hx => absurd hx (Nat.not_lt_zero x)⟩⟩
    (by
      intro i rep hi ⟨hl, hv⟩
      have hr := hrange i hi
      have hcn : (eqv.getD i 0).toNat < k := by omega
      have hcast : ((eqv.getD i 0).toNat : Int) = eqv.getD i 0 := by omega
      by_cases e : rep.getD (eqv.getD i 0).toNat (-1) = -1
      · beta_reduce
        rw [if_pos e]
        refine ⟨by rw [List.length_set, hl], ?_⟩
        intro c hc
        rw [getD_set_lt _ _ _ _ _ (by rw [hl]; exact hcn)]
        by_cases e2 : c = (eqv.getD i 0).toNat
        · rw [if_pos e2]
          right
          refine ⟨by omega, by omega, ?_⟩
          rw [Int.toNat_ofNat, e2, hcast]
        · rw [if_neg e2]
          rcases hv c hc with h1 | h1
          · left
            refine ⟨h1.1, ?_⟩
            intro x hx
            by_cases e3 : x = i
            · subst e3
              intro hh
              apply e2
              rw [hh]; simp
            · exact h1.2 x (by omega)
          · right
            exact ⟨h1.1, by omega, h1.2.2⟩
      · beta_reduce
        rw [if_neg e]
        refine ⟨hl, ?_⟩
        intro c hc
        rcases hv c hc with h1 | h1
        · left
          refine ⟨h1.1, ?_⟩
          intro x hx
          by_cases e3 : x = i
          · subst e3
            intro hh
            apply e
            have : (eqv.getD x 0).toNat = c := by rw [hh]; simp
            rw [this]; exact h1.1
          · exact h1.2 x (by omega)
        · right
          exact ⟨h1.1, by omega, h1.2.2⟩)
  refine ⟨key.1, ?_⟩
  intro c hc
  have hk : (buildRepresent n eqv k).getD c (-1) = -1 ∧ (∀ x, x < n → eqv.getD x 0 ≠ (c : Int)) ∨
      (0 ≤ (buildRepresent n eqv k).getD c (-1) ∧ (buildRepresent n eqv k).getD c (-1) < (n : Int) ∧
        eqv.getD ((buildRepresent n eqv k).getD c (-1)).toNat 0 = (c : Int)) := key.2 c hc
  rcases hk with h1 | h1
  · exfalso
    obtain ⟨x, hx, e⟩ := honto c hc
    exact h1.2 x hx e
  · exact h1

/-- The transition loop of `minimize`. -/
theorem quotientTransitions_spec (F : DeterministicFiniteAutomaton) (m k : Nat)
    (eqv rep : List Int) :
    let T := quotientTransitions F m eqv rep k (List.replicate k (List.replicate m (-1)))
    Table T k m ∧
    ∀ c j, c < k → j < m →
      (T.getD c []).getD j (-1) = eqv.getD (F.step (rep.getD c (-1)).toNat j) 0 := by
  intro T
  have key := foldl_range_inv
    (fun (t : List (List Int)) (i : Nat) =>
      let u := (rep.getD i (-1)).toNat
      (List.range m).foldl (fun t j =>
        let v := (F.tr u j).toNat
        setTr t i j (eqv.getD v 0)) t)
    (fun i' t => Table t k m ∧ ∀ c j, c < i' → j < m →
      (t.getD c []).getD j (-1) = eqv.getD (F.step (rep.getD c (-1)).toNat j) 0)
    k (List.replicate k (List.replicate m (-1)))
    ⟨table_replicate _ _ _, fun c j hc => absurd hc (Nat.not_lt_zero c)⟩
    (by
      intro i t hi ⟨htab, hrows⟩
      have inner := foldl_range_inv
        (fun (t : List (List Int)) (j : Nat) =>
          let v := (F.tr (rep.getD i (-1)).toNat j).toNat
          setTr t i j (eqv.getD v 0))
        (fun j' t => Table t k m ∧
          (∀ c j, c < i → j < m →
            (t.getD c []).getD j (-1) = eqv.getD (F.step (rep.getD c (-1)).toNat j) 0) ∧
          ∀ j, j < j' →
            (t.getD i []).getD j (-1) = eqv.getD (F.step (rep.getD i (-1)).toNat j) 0)
        m t ⟨htab, hrows, fun j hj => absurd hj (Nat.not_lt_zero j)⟩
        (by
          intro j t' hj ⟨htab', hrows', hdone⟩
          refine ⟨setTr_table _ _ _ _ _ _ htab', ?_, ?_⟩
          · intro c j' hc hj'
            show ((setTr t' i j _).getD c []).getD j' (-1) = _
            rw [setTr_get _ _ _ _ _ _ htab' hi hj, if_neg (by omega)]
            exact hrows' c j' hc hj'
          · intro j' hj'
            show ((setTr t' i j _).getD i []).getD j' (-1) = _
            rw [setTr_get _ _ _ _ _ _ htab' hi hj]
            by_cases e : j' = j
            · subst e; rw [if_pos ⟨rfl, rfl⟩]; rfl
            · rw [if_neg (fun x => e x.2)]
              exact hdone j' (by omega))
      refine ⟨inner.1, ?_⟩
      intro c j hc hj
      by_cases e : c = i
      · subst e; exact inner.2.2 j hj
      · exact inner.2.1 c j (by omega) hj)
  exact key

/-- The accept-label loop of `minimize`. -/
theorem quotientAccepts_spec (F : DeterministicFiniteAutomaton) (k : Nat) (rep : List Int) :
    (quotientAccepts F rep k (List.replicate k 0)).length = k ∧
    ∀ c, c < k → (quotientAccepts F rep k (List.replicate k 0)).getD c 0
      = F.acceptStates.getD (rep.getD c (-1)).toNat 0 := by
  have key := foldl_range_inv
    (fun (acc : List Nat) (i : Nat) =>
      acc.set i (F.acceptStates.getD (rep.getD i (-1)).toNat 0))
    (fun i' acc => acc.length = k ∧ ∀ c, c < i' →
      acc.getD c 0 = F.acceptStates.getD (rep.getD c (-1)).toNat 0)
    k (List.replicate k 0)
    ⟨by simp, fun c hc => absurd hc (Nat.not_lt_zero c)⟩
    (by
      intro i acc hi ⟨hl, hv⟩
      refine ⟨by rw [List.length_set, hl], ?_⟩
      intro c hc
      rw [getD_set_lt _ _ _ _ _ (by rw [hl]; exact hi)]
      by_cases e : c = i
      · rw [if_pos e, e]
      · rw [if_neg e]; exact hv c (by omega))
  exact key

end DeterministicFiniteAutomaton

end FiniteAutomata

namespace FiniteAutomata

namespace DeterministicFiniteAutomaton

/-- The automaton built by `minimize`, field by field, from the filtered automaton `F`. -/
theorem minimize_eq (A F : DeterministicFiniteAutomaton) (h : A.Ready)
    (hF : A.eliminateUnreachableStates = .ok F) (hFR : F.Ready) (k : Nat) (hk : 1 ≤ k)
    (hmax : maxElement F.equivalenceClassesHopcroft + 1 = (k : Int)) :
    A.minimize = .ok
      { n := k, sig := A.sig,
        transitions := quotientTransitions F A.sig.siz F.equivalenceClassesHopcroft
          (buildRepresent F.n F.equivalenceClassesHopcroft k) k
          (List.replicate k (List.replicate A.sig.siz (-1))),
        countEmptyTransitions := 0, isComplete := true,
        startStateIndex := F.equivalenceClassesHopcroft.getD F.startStateIndex.toNat 0,
        acceptStates := quotientAccepts F (buildRepresent F.n F.equivalenceClassesHopcroft k) k
          (List.replicate k 0) } := by
  have hE : F.equivalenceClasses = .ok F.equivalenceClassesHopcroft := by
    unfold equivalenceClasses
    rw [hFR.2.1]
    rfl
  unfold minimize
  rw [h.2.1, if_neg (by simp), if_neg h.2.2, hF]
  show (F.equivalenceClasses >>= fun eqv => _) = _
  rw [hE]
  show ((new A.sig).setSize (maxElement F.equivalenceClassesHopcroft + 1) >>= fun ret => _) = _
  rw [hmax, setSize_new A.sig k hk h.1.2.1]
  show Except.ok _ = Except.ok _
  simp only [Int.toNat_ofNat, size]

/-- What `minimize` returns: the quotient of the filtered automaton `F` by the class
map, which is a homomorphism onto the result. -/
theorem minimize_spec (A : DeterministicFiniteAutomaton) (h : A.Ready) :
    ∃ F M, A.eliminateUnreachableStates = .ok F ∧ A.minimize = .ok M ∧ F.Ready ∧ M.Ready ∧
      F.sig = A.sig ∧ M.sig = A.sig ∧
      (∀ u, u < F.n → F.equivalenceClassesHopcroft.getD u 0 = (F.classOf u : Int)) ∧
      (∀ u, u < F.n → F.classOf u < M.n) ∧
      (∀ v, v < M.n → ∃ u, u < F.n ∧ F.classOf u = v) ∧
      (∀ u v, u < F.n → v < F.n → (F.classOf u = F.classOf v ↔ F.Nerode u v)) ∧
      (∀ u j, u < F.n → j < A.sig.siz → M.step (F.classOf u) j = F.classOf (F.step u j)) ∧
      (∀ u, u < F.n → M.acc (F.classOf u) = F.acc u) ∧
      M.startStateIndex = (F.classOf F.startStateIndex.toNat : Int) := by
  obtain ⟨F, hF, hFR, hsig, _⟩ := eliminate_spec A h
  obtain ⟨hlen, k, hk, hrange, honto, hiff⟩ := hopcroft_spec F hFR.1 hFR.2.1
  have hmax := maxElement_eq _ F.n k hlen hFR.1.1 hrange honto hk
  have hM := minimize_eq A F h hF hFR k hk hmax
  obtain ⟨hrl, hrep⟩ := buildRepresent_spec F.n k _ hrange honto
  obtain ⟨htab, htr⟩ := quotientTransitions_spec F A.sig.siz k F.equivalenceClassesHopcroft
    (buildRepresent F.n F.equivalenceClassesHopcroft k)
  obtain ⟨hal, hav⟩ := quotientAccepts_spec F k (buildRepresent F.n F.equivalenceClassesHopcroft k)
  have hm : F.sig.siz = A.sig.siz := by rw [hsig]
  have hcls : ∀ u, u < F.n → F.equivalenceClassesHopcroft.getD u 0 = (F.classOf u : Int) := by
    intro u hu
    have := hrange u hu
    unfold classOf
    omega
  have hclt : ∀ u, u < F.n → F.classOf u < k := by
    intro u hu
    have := hrange u hu
    unfold classOf
    omega
  have hciff : ∀ u v, u < F.n → v < F.n → (F.classOf u = F.classOf v ↔ F.Nerode u v) := by
    intro u v hu hv
    rw [← hiff u v hu hv, hcls u hu, hcls v hv]
    omega
  have hs0 := start_lt F hFR
  -- the representative of the class of `u` is equivalent to `u`
  have hrepN : ∀ u, u < F.n →
      ((buildRepresent F.n F.equivalenceClassesHopcroft k).getD (F.classOf u) (-1)).toNat < F.n ∧
      F.Nerode ((buildRepresent F.n F.equivalenceClassesHopcroft k).getD (F.classOf u) (-1)).toNat u := by
    intro u hu
    obtain ⟨r1, r2, r3⟩ := hrep (F.classOf u) (hclt u hu)
    have hlt : ((buildRepresent F.n F.equivalenceClassesHopcroft k).getD (F.classOf u) (-1)).toNat
        < F.n := by omega
    refine ⟨hlt, (hciff _ _ hlt hu).1 ?_⟩
    have := hcls _ hlt
    rw [r3] at this
    omega
  have hMtr : ∀ u j, u < F.n → j < A.sig.siz →
      ((quotientTransitions F A.sig.siz F.equivalenceClassesHopcroft
        (buildRepresent F.n F.equivalenceClassesHopcroft k) k
        (List.replicate k (List.replicate A.sig.siz (-1)))).getD (F.classOf u) []).getD j (-1)
        = (F.classOf (F.step u j) : Int) := by
    intro u j hu hj
    rw [htr _ j (hclt u hu) hj]
    obtain ⟨r1, r2⟩ := hrepN u hu
    have hj' : j < F.sig.siz := by rw [hm]; exact hj
    have hs1 := step_lt F hFR.1 hFR.2.1 _ j r1 hj'
    have hs2 := step_lt F hFR.1 hFR.2.1 u j hu hj'
    rw [hcls _ hs1]
    have := (hciff _ _ hs1 hs2).2 (nerode_step F _ u j hj' r2)
    rw [this]
  refine ⟨F, _, hF, hM, hFR, ?_, hsig, rfl, hcls, hclt, ?_, hciff, ?_, ?_, ?_⟩
  · -- the result is complete, with a start state
    have hfull := table_full _ k A.sig.siz htab (by
      intro c j hc hj
      obtain ⟨u, hu, e⟩ := honto c hc
      have hcu : c = F.classOf u := by
        have := hcls u hu
        omega
      rw [hcu, hMtr u j hu hj]
      have := hclt _ (step_lt F hFR.1 hFR.2.1 u j hu (by rw [hm]; exact hj))
      omega)
    refine ⟨⟨hk, h.1.2.1, htab.1, ?_, ?_, ?_, hal, ?_, ?_⟩, rfl, ?_⟩
    · intro row hrow
      have := hfull.1 row hrow
      refine ⟨this.1, fun v hv => ?_⟩
      have := this.2 v hv
      show -1 ≤ v ∧ v < (k : Int)
      omega
    · show (0 : Int) = _
      rw [hfull.2]; rfl
    · simp
    · show (-1 : Int) ≤ F.equivalenceClassesHopcroft.getD F.startStateIndex.toNat 0
      have := hrange _ hs0
      omega
    · show F.equivalenceClassesHopcroft.getD F.startStateIndex.toNat 0 < (k : Int)
      exact (hrange _ hs0).2
    · show F.equivalenceClassesHopcroft.getD F.startStateIndex.toNat 0 ≠ -1
      have := hrange _ hs0
      omega
  · intro v hv
    obtain ⟨u, hu, e⟩ := honto v hv
    refine ⟨u, hu, ?_⟩
    have := hcls u hu
    omega
  · intro u j hu hj
    show (tr _ (F.classOf u) j).toNat = _
    unfold tr
    show ((((quotientTransitions F A.sig.siz F.equivalenceClassesHopcroft
        (buildRepresent F.n F.equivalenceClassesHopcroft k) k
        (List.replicate k (List.replicate A.sig.siz (-1)))).getD (F.classOf u) []).getD j (-1))).toNat
        = _
    rw [hMtr u j hu hj]
    rfl
  · intro u hu
    unfold acc
    show ((quotientAccepts F (buildRepresent F.n F.equivalenceClassesHopcroft k) k
      (List.replicate k 0)).getD (F.classOf u) 0 != 0) = _
    rw [hav _ (hclt u hu)]
    exact nerode_acc F _ u (hrepN u hu).2
  · show F.equivalenceClassesHopcroft.getD F.startStateIndex.toNat 0 = _
    exact hcls _ hs0

end DeterministicFiniteAutomaton

end FiniteAutomata

/-! ## Language preservation and minimality of `minimize` -/

namespace FiniteAutomata

namespace DeterministicFiniteAutomaton

/-- The class map commutes with running a word. -/
theorem quotient_run (F M : DeterministicFiniteAutomaton) (hFR : F.Ready)
    (hstep : ∀ u j, u < F.n → j < F.sig.siz → M.step (F.classOf u) j = F.classOf (F.step u j))
    (w : List Nat) (hw : ∀ a ∈ w, a < F.sig.siz) (u : Nat) (hu : u < F.n) :
    M.run (F.classOf u) w = F.classOf (F.run u w) := by
  induction w generalizing u with
  | nil => rfl
  | cons a w ih =>
    have ha := hw a (List.mem_cons_self _ _)
    rw [run_cons, run_cons, hstep u a hu ha]
    exact ih (fun b hb => hw b (List.mem_cons_of_mem _ hb)) _ (step_lt F hFR.1 hFR.2.1 u a hu ha)

/-- Every state of the filtered automaton is reachable in it. -/
theorem eliminate_all_reach (A F : DeterministicFiniteAutomaton) (h : A.Ready)
    (hF : A.eliminateUnreachableStates = .ok F) (v : Nat) (hv : v < F.n) : F.Reach v := by
  obtain ⟨F', hF', hFR, hsig, hn, htr, hacc, hstart⟩ := eliminate_spec A h
  have hFF : F' = F := by rw [hF'] at hF; exact Except.ok.inj hF
  subst hFF
  have hs := reachableFlags_spec A h
  rw [hn] at hv
  obtain ⟨u, hu, hr, e⟩ := flagSum_surj _ hs.2.1 A.n v hv
  obtain ⟨w, hw, hrun⟩ := (hs.2.2 u).1 hr
  refine ⟨w, by rw [hsig]; exact hw, ?_⟩
  have h1 : F'.startStateIndex.toNat = A.renumber A.startStateIndex.toNat := by
    rw [hstart]; rfl
  rw [h1, eliminate_run A F' h hF w hw _ (reach_start A), hrun]
  exact e

/-- The language of `minimize(A)` is the language of `A`, state by state. -/
theorem minimize_acc (A : DeterministicFiniteAutomaton) (h : A.Ready) :
    ∃ M, A.minimize = .ok M ∧ M.Ready ∧ M.sig = A.sig ∧
      ∀ w : List Nat, (∀ a ∈ w, a < A.sig.siz) →
        M.acc (M.run M.startStateIndex.toNat w) = A.acc (A.run A.startStateIndex.toNat w) := by
  obtain ⟨F, M, hF, hM, hFR, hMR, hs1, hs2, _, _, _, _, hstep, hacc, hstart⟩ := minimize_spec A h
  refine ⟨M, hM, hMR, hs2, ?_⟩
  intro w hw
  have hw' : ∀ a ∈ w, a < F.sig.siz := by rw [hs1]; exact hw
  have h1 : M.startStateIndex.toNat = F.classOf F.startStateIndex.toNat := by
    rw [hstart]; rfl
  rw [h1, quotient_run F M hFR (fun u j hu hj => hstep u j hu (by rw [← hs1]; exact hj)) w hw'
    _ (start_lt F hFR), hacc _ (run_lt F hFR.1 hFR.2.1 w hw' _ (start_lt F hFR))]
  exact eliminate_acc A F h hF w hw

/-- The driver expression gives the same answer on `A` and on `minimize(A)`. -/
theorem minimize_accepts (A : DeterministicFiniteAutomaton) (h : A.Ready) (s : List Int)
    (hs : ∀ c ∈ s, A.sig.Has c) (this that : Nat) :
    ∃ M, A.minimize = .ok M ∧ ∃ b, A.accepts this s = .ok b ∧ M.accepts that s = .ok b := by
  obtain ⟨M, hM, hMR, hsig, hacc⟩ := minimize_acc A h
  refine ⟨M, hM, _, accepts_eq A h this s hs, ?_⟩
  rw [accepts_eq M hMR that s (by rw [hsig]; exact hs), hsig, hacc _ (ids_lt A.sig s hs)]

/-- The driver expression gives the same answer on `A` and on the filtered automaton. -/
theorem eliminate_accepts (A : DeterministicFiniteAutomaton) (h : A.Ready) (s : List Int)
    (hs : ∀ c ∈ s, A.sig.Has c) (this that : Nat) :
    ∃ F, A.eliminateUnreachableStates = .ok F ∧ F.size ≤ A.size ∧
      ∃ b, A.accepts this s = .ok b ∧ F.accepts that s = .ok b := by
  obtain ⟨F, hF, hFR, hsig, hn, _⟩ := eliminate_spec A h
  refine ⟨F, hF, ?_, _, accepts_eq A h this s hs, ?_⟩
  · show F.n ≤ A.n
    rw [hn]
    exact flagSum_le _ (reachableFlags_spec A h).2.1 A.n
  · rw [accepts_eq F hFR that s (by rw [hsig]; exact hs), hsig,
      eliminate_acc A F h hF _ (ids_lt A.sig s hs)]

end DeterministicFiniteAutomaton

end FiniteAutomata

/-! ## Minimality and idempotence -/

namespace FiniteAutomata

namespace DeterministicFiniteAutomaton

theorem card_bij (n k : Nat) (f : Nat → Nat) (hlt : ∀ u, u < n → f u < k)
    (honto : ∀ v, v < k → ∃ u, u < n ∧ f u = v)
    (hinj : ∀ u v, u < n → v < n → f u = f v → u = v) : n = k := by
  have himg : (Finset.range n).image f = Finset.range k := by
    ext v
    simp only [Finset.mem_image, Finset.mem_range]
    constructor
    · rintro ⟨u, hu, rfl⟩; exact hlt u hu
    · intro hv
      obtain ⟨u, hu, e⟩ := honto v hv
      exact ⟨u, hu, e⟩
  have hcard : ((Finset.range n).image f).card = (Finset.range n).card := by
    apply Finset.card_image_of_injOn
    intro u hu v hv e
    simp only [Finset.coe_range, Set.mem_Iio] at hu hv
    exact hinj u v hu hv e
  rw [himg] at hcard
  simpa using hcard.symm

theorem mergedState_eq (A F : DeterministicFiniteAutomaton)
    (hF : A.eliminateUnreachableStates = .ok F) (u : Nat) :
    A.mergedState u = F.classOf (A.renumber u) := by
  unfold mergedState
  rw [hF]

/-- `minimize(A)` is minimal, and `mergedState` is the map from the reachable states of
`A` onto its states. -/
theorem minimize_minimal (A : DeterministicFiniteAutomaton) (h : A.Ready) :
    ∃ M, A.minimize = .ok M ∧ M.Ready ∧ M.sig = A.sig ∧
      (∀ v, v < M.n → M.Reach v) ∧
      (∀ v v', v < M.n → v' < M.n → v ≠ v' →
        ∃ w : List Nat, (∀ a ∈ w, a < M.sig.siz) ∧ M.acc (M.run v w) ≠ M.acc (M.run v' w)) ∧
      (∀ w : List Nat, (∀ a ∈ w, a < A.sig.siz) →
        M.run M.startStateIndex.toNat w = A.mergedState (A.run A.startStateIndex.toNat w)) ∧
      (∀ u, A.Reach u → A.mergedState u < M.n) ∧
      (∀ u v, A.Reach u → A.Reach v → A.acc u = A.acc v →
        (∀ a, a < A.sig.siz → A.mergedState (A.step u a) = A.mergedState (A.step v a)) →
        A.mergedState u = A.mergedState v) := by
  obtain ⟨F, M, hF, hM, hFR, hMR, hs1, hs2, hcls, hclt, honto, hiff, hstep, hacc, hstart⟩ :=
    minimize_spec A h
  obtain ⟨F', hF', _, _, hn, htr, haccF, hstartF⟩ := eliminate_spec A h
  have hFF : F' = F := by rw [hF'] at hF; exact Except.ok.inj hF
  subst hFF
  have hstepF : ∀ u j, u < F'.n → j < F'.sig.siz →
      M.step (F'.classOf u) j = F'.classOf (F'.step u j) :=
    fun u j hu hj => hstep u j hu (by rw [← hs1]; exact hj)
  have hMstart : M.startStateIndex.toNat = F'.classOf F'.startStateIndex.toNat := by
    rw [hstart]; rfl
  have hFstart : F'.startStateIndex.toNat = A.renumber A.startStateIndex.toNat := by
    rw [hstartF]; rfl
  have hrlt : ∀ u, A.Reach u → A.renumber u < F'.n := by
    intro u hu; rw [hn]; exact renumber_lt A h u hu
  have hFstepr : ∀ u a, A.Reach u → a < A.sig.siz →
      F'.step (A.renumber u) a = A.renumber (A.step u a) := by
    intro u a hu ha
    unfold step
    rw [htr u hu a ha]
    rfl
  refine ⟨M, hM, hMR, hs2, ?_, ?_, ?_, ?_, ?_⟩
  · intro v hv
    obtain ⟨u, hu, e⟩ := honto v hv
    obtain ⟨w, hw, hrun⟩ := eliminate_all_reach A F' h hF u hu
    refine ⟨w, by rw [hs2, ← hs1]; exact hw, ?_⟩
    rw [hMstart, quotient_run F' M hFR hstepF w hw _ (start_lt F' hFR), hrun, e]
  · intro v v' hv hv' hne
    obtain ⟨u, hu, e⟩ := honto v hv
    obtain ⟨u', hu', e'⟩ := honto v' hv'
    have hnN : ¬ F'.Nerode u u' := by
      intro hN
      apply hne
      rw [← e, ← e']
      exact (hiff u u' hu hu').2 hN
    unfold Nerode at hnN
    push_neg at hnN
    obtain ⟨w, hw, hd⟩ := hnN
    refine ⟨w, by rw [hs2, ← hs1]; exact hw, ?_⟩
    rw [← e, ← e', quotient_run F' M hFR hstepF w hw u hu,
      quotient_run F' M hFR hstepF w hw u' hu',
      hacc _ (run_lt F' hFR.1 hFR.2.1 w hw u hu), hacc _ (run_lt F' hFR.1 hFR.2.1 w hw u' hu')]
    exact hd
  · intro w hw
    have hw' : ∀ a ∈ w, a < F'.sig.siz := by rw [hs1]; exact hw
    rw [hMstart, quotient_run F' M hFR hstepF w hw' _ (start_lt F' hFR),
      mergedState_eq A F' hF, hFstart, eliminate_run A F' h hF w hw _ (reach_start A)]
  · intro u hu
    rw [mergedState_eq A F' hF]
    exact hclt _ (hrlt u hu)
  · intro u v hu hv hacc0 hsucc
    rw [mergedState_eq A F' hF, mergedState_eq A F' hF]
    apply (hiff _ _ (hrlt u hu) (hrlt v hv)).2
    intro w hw
    cases w with
    | nil =>
      show F'.acc (A.renumber u) = F'.acc (A.renumber v)
      unfold acc at hacc0 ⊢
      rw [haccF u hu, haccF v hv]
      exact hacc0
    | cons a w =>
      have ha : a < A.sig.siz := by rw [← hs1]; exact hw a (List.mem_cons_self _ _)
      rw [run_cons, run_cons, hFstepr u a hu ha, hFstepr v a hv ha]
      have hsu := reach_step A u a hu ha
      have hsv := reach_step A v a hv ha
      have hc := hsucc a ha
      rw [mergedState_eq A F' hF, mergedState_eq A F' hF] at hc
      exact (hiff _ _ (hrlt _ hsu) (hrlt _ hsv)).1 hc w
        (fun b hb => hw b (List.mem_cons_of_mem _ hb))

/-- When every state is reachable the renumbering is the identity. -/
theorem renumber_id (A : DeterministicFiniteAutomaton) (h : A.Ready)
    (hall : ∀ v, v < A.n → A.Reach v) (i : Nat) (hi : i ≤ A.n) : A.renumber i = i := by
  have hs := reachableFlags_spec A h
  induction i with
  | zero => rfl
  | succ i ih =>
    have h1 := ih (by omega)
    have h2 := (hs.2.2 i).2 (hall i (by omega))
    have h3 := hs.2.1 i
    unfold renumber at h1 ⊢
    rw [flagSum_succ, h1]
    omega

/-- Minimizing a second time keeps the number of states. -/
theorem minimize_idempotent (A : DeterministicFiniteAutomaton) (h : A.Ready) :
    ∃ M M2, A.minimize = .ok M ∧ M.minimize = .ok M2 ∧ M2.size = M.size := by
  obtain ⟨M, hM, hMR, _, hreach, hdist, _⟩ := minimize_minimal A h
  obtain ⟨F2, M2, hF2, hM2, hF2R, _, hs1, _, _, hclt, honto, hiff, _⟩ := minimize_spec M hMR
  obtain ⟨F2', hF2', _, _, hn, _, hacc, _⟩ := eliminate_spec M hMR
  have hFF : F2' = F2 := by rw [hF2'] at hF2; exact Except.ok.inj hF2
  subst hFF
  have hid := renumber_id M hMR hreach
  have hnn : F2'.n = M.n := by rw [hn]; exact hid M.n (Nat.le_refl _)
  have hinj : ∀ u v, u < F2'.n → v < F2'.n → F2'.classOf u = F2'.classOf v → u = v := by
    intro u v hu hv e
    by_contra hne
    rw [hnn] at hu hv
    obtain ⟨w, hw, hd⟩ := hdist u v hu hv hne
    have hN := (hiff u v (by rw [hnn]; exact hu) (by rw [hnn]; exact hv)).1 e
    have hrunu := eliminate_run M F2' hMR hF2 w hw u (hreach u hu)
    have hrunv := eliminate_run M F2' hMR hF2 w hw v (hreach v hv)
    have hru := run_lt M hMR.1 hMR.2.1 w hw u hu
    have hrv := run_lt M hMR.1 hMR.2.1 w hw v hv
    rw [hid u (by omega), hid _ (by omega)] at hrunu
    rw [hid v (by omega), hid _ (by omega)] at hrunv
    have hN' := hN w (by rw [hs1]; exact hw)
    rw [hrunu, hrunv] at hN'
    apply hd
    have hau := hacc _ (hreach _ hru)
    have hav := hacc _ (hreach _ hrv)
    rw [hid _ (by omega)] at hau hav
    unfold acc at hN' ⊢
    rw [← hau, ← hav]
    exact hN'
  have hcard := card_bij F2'.n M2.n F2'.classOf hclt honto hinj
  refine ⟨M, M2, hM, hM2, ?_⟩
  show M2.n = M.n
  omega

end DeterministicFiniteAutomaton

end FiniteAutomata

/-! ## The driver: the `multiples of k` automaton -/

namespace FiniteAutomata

open DeterministicFiniteAutomaton

theorem ok_bind {α β : Type} (a : α) (f : α → Except Err β) :
    (Except.ok a >>= f) = f a := rfl

/-- `setTransition` with two valid states on an edge that is still missing. -/
theorem setTransition_fill (A : DeterministicFiniteAutomaton) (this : Nat) (i v : Int)
    (c : Int) (hn : A.n ≠ 0) (hm : A.sig.empty = false) (hc : A.sig.Has c)
    (hi : 0 ≤ i ∧ i < (A.n : Int)) (hv : 0 ≤ v ∧ v < (A.n : Int))
    (hmiss : A.tr i.toNat (A.sig.idOf c) = -1) :
    A.setTransition this { orig := this, ind := i, vali := true } c
        { orig := this, ind := v, vali := true } =
      .ok { A with
        countEmptyTransitions := wrapInt32 (A.countEmptyTransitions - 1),
        isComplete := if wrapInt32 (A.countEmptyTransitions - 1) = 0 then true else A.isComplete,
        transitions := setTr A.transitions i.toNat (A.sig.idOf c) v } := by
  have hi' : ¬ (i < 0 ∨ i ≥ (A.n : Int)) := by omega
  have hv' : ¬ (v < 0 ∨ v ≥ (A.n : Int)) := by omega
  unfold setTransition
  rw [if_neg hn, hm, if_neg (by simp), if_neg (by simp), if_neg (by simp),
    A.sig.c2i_of_has c hc]
  simp only [bind, Except.bind, State.index, Bool.not_true, Bool.false_eq_true, if_false, hi',
    hv', hmiss, if_true]

theorem multiplesTable_table (k : Nat) : Table (multiplesTable k) k 10 := by
  refine ⟨by simp [multiplesTable], ?_⟩
  intro u hu
  simp [multiplesTable, List.getD_eq_getElem?_getD, hu]

theorem multiplesTable_get (k i j : Nat) (hi : i < k) (hj : j < 10) :
    ((multiplesTable k).getD i []).getD j (-1) = (((i * 10 + j) % k : Nat) : Int) := by
  simp [multiplesTable, List.getD_eq_getElem?_getD, hi, hj]

theorem table_ext (T T' : List (List Int)) (N m : Nat) (h : Table T N m) (h' : Table T' N m)
    (he : ∀ i j, i < N → j < m → (T.getD i []).getD j (-1) = (T'.getD i []).getD j (-1)) :
    T = T' := by
  apply List.ext_getElem (by rw [h.1, h'.1])
  intro i hi hi'
  have hiN : i < N := by rw [← h.1]; exact hi
  have e1 : T.getD i [] = T[i] := by
    rw [List.getD_eq_getElem?_getD, List.getElem?_eq_getElem hi]; rfl
  have e2 : T'.getD i [] = T'[i] := by
    rw [List.getD_eq_getElem?_getD, List.getElem?_eq_getElem hi']; rfl
  have l1 := h.2 i hiN
  have l2 := h'.2 i hiN
  rw [e1] at l1
  rw [e2] at l2
  apply List.ext_getElem (by rw [l1, l2])
  intro j hj hj'
  have hjm : j < m := by rw [← l1]; exact hj
  have := he i j hiN hjm
  rw [e1, e2, List.getD_eq_getElem?_getD, List.getD_eq_getElem?_getD,
    List.getElem?_eq_getElem hj, List.getElem?_eq_getElem hj'] at this
  exact this

/-- One `setTransition` call of the driver, when the cells before `(i, j)` are filled. -/
theorem setEdge_step (this k i j : Nat) (hi : i < k) (hj : j < 10)
    (acc : Except Err DeterministicFiniteAutomaton)
    (hInv : DriverInv k (i * 10 + j) acc) :
    DriverInv k (i * 10 + j + 1) (setEdge this (k : Int) i acc j) := by
  obtain ⟨T, b, hacc, htab, _, hent⟩ := hInv
  have hk : 0 < k := by omega
  have hval : (((i : Int) * 10 + (j : Int)) % (k : Int)) = (((i * 10 + j) % k : Nat) : Int) := by
    push_cast; rfl
  have hvlt : (i * 10 + j) % k < k := Nat.mod_lt _ hk
  have hhas : alphabet_number.Has (48 + (j : Int)) := by
    simp only [Alphabet.Has, alphabet_number]
    omega
  have hid : alphabet_number.idOf (48 + (j : Int)) = j := by
    simp only [Alphabet.idOf, alphabet_number]
    omega
  have hmiss : (T.getD i []).getD j (-1) = -1 := by
    rw [hent i j hi hj, if_neg (Nat.lt_irrefl _)]
  have hcnt : wrapInt32 (wrapInt32 ((k : Int) * 10 - ((i * 10 + j : Nat) : Int)) - 1)
      = wrapInt32 ((k : Int) * 10 - ((i * 10 + j + 1 : Nat) : Int)) := by
    have e := wrapInt32_add ((k : Int) * 10 - ((i * 10 + j : Nat) : Int)) (-1)
    have e2 : (k : Int) * 10 - ((i * 10 + j : Nat) : Int) + -1
        = (k : Int) * 10 - ((i * 10 + j + 1 : Nat) : Int) := by
      push_cast; ring
    rw [e2] at e
    rw [← e]
    rfl
  subst hacc
  refine ⟨setTr T i j (((i * 10 + j) % k : Nat) : Int),
    if wrapInt32 ((k : Int) * 10 - ((i * 10 + j + 1 : Nat) : Int)) = 0 then true else b, ?_,
    setTr_table _ _ _ _ _ _ htab, ?_, ?_⟩
  · unfold setEdge
    show (getState _ this (i : Int) >>= fun s1 => _) = _
    rw [show getState
        { n := k, sig := alphabet_number, transitions := T,
          countEmptyTransitions := wrapInt32 ((k : Int) * 10 - ((i * 10 + j : Nat) : Int)),
          isComplete := b,
          startStateIndex := -1, acceptStates := List.replicate k 0 } this (i : Int)
        = .ok { orig := this, ind := (i : Int), vali := true } from by
      unfold getState
      rw [if_neg (by show k ≠ 0; omega), if_neg (by show ¬ ((i : Int) < 0 ∨ (i : Int) ≥ (k : Int)); omega)]]
    show (getState _ this (((i : Int) * 10 + (j : Int)) % (k : Int)) >>= fun s2 => _) = _
    rw [hval]
    rw [show getState
        { n := k, sig := alphabet_number, transitions := T,
          countEmptyTransitions := wrapInt32 ((k : Int) * 10 - ((i * 10 + j : Nat) : Int)),
          isComplete := b,
          startStateIndex := -1, acceptStates := List.replicate k 0 } this
          (((i * 10 + j) % k : Nat) : Int)
        = .ok { orig := this, ind := (((i * 10 + j) % k : Nat) : Int), vali := true } from by
      unfold getState
      rw [if_neg (by show k ≠ 0; omega),
        if_neg (by
          show ¬ ((((i * 10 + j) % k : Nat) : Int) < 0 ∨ (((i * 10 + j) % k : Nat) : Int) ≥ (k : Int))
          omega)]]
    show setTransition _ this _ _ _ = _
    rw [setTransition_fill _ this (i : Int) (((i * 10 + j) % k : Nat) : Int) (48 + (j : Int))
      (by show k ≠ 0; omega) (by rfl) hhas
      (by show (0 : Int) ≤ (i : Int) ∧ (i : Int) < (k : Int); omega)
      (by
        show (0 : Int) ≤ (((i * 10 + j) % k : Nat) : Int) ∧ (((i * 10 + j) % k : Nat) : Int) < (k : Int)
        omega)
      (by
        show ((T.getD (i : Int).toNat []).getD (alphabet_number.idOf (48 + (j : Int))) (-1)) = -1
        rw [hid, Int.toNat_ofNat]; exact hmiss)]
    show Except.ok _ = Except.ok _
    congr 1
    simp only [hid, Int.toNat_ofNat, hcnt]
  · intro hfull
    have hz : (k : Int) * 10 - ((i * 10 + j + 1 : Nat) : Int) = 0 := by
      rw [hfull]; push_cast; ring
    rw [hz, if_pos (by decide)]
  · intro i' j' hi' hj'
    rw [setTr_get _ _ _ _ _ _ htab hi hj, hent i' j' hi' hj']
    by_cases e : i' = i ∧ j' = j
    · obtain ⟨e1, e2⟩ := e
      subst e1; subst e2
      rw [if_pos ⟨rfl, rfl⟩, if_pos (Nat.lt_succ_self _)]
    · rw [if_neg e]
      have hne : i' * 10 + j' ≠ i * 10 + j := by
        intro hh
        apply e
        omega
      by_cases e2 : i' * 10 + j' < i * 10 + j
      · rw [if_pos e2, if_pos (by omega)]
      · rw [if_neg e2, if_neg (by omega)]

/-- The two nested loops of the driver fill the whole table. -/
theorem driverLoops (this k : Nat) (hk : 0 < k) :
    DriverInv k (k * 10)
      ((List.range k).foldl (fun acc i => (List.range 10).foldl (setEdge this (k : Int) i) acc)
        (.ok { n := k, sig := alphabet_number,
               transitions := List.replicate k (List.replicate 10 (-1)),
               countEmptyTransitions := wrapInt32 ((k : Int) * 10), isComplete := false,
               startStateIndex := -1, acceptStates := List.replicate k 0 })) := by
  have key := foldl_range_inv
    (fun acc i => (List.range 10).foldl (setEdge this (k : Int) i) acc)
    (fun i acc => DriverInv k (i * 10) acc) k
    (.ok { n := k, sig := alphabet_number,
           transitions := List.replicate k (List.replicate 10 (-1)),
           countEmptyTransitions := wrapInt32 ((k : Int) * 10), isComplete := false,
           startStateIndex := -1, acceptStates := List.replicate k 0 })
    (by
      refine ⟨List.replicate k (List.replicate 10 (-1)), false, ?_, table_replicate _ _ _, ?_, ?_⟩
      · simp
      · intro hh
        omega
      · intro i' j' hi' hj'
        rw [getD_replicate _ _ _ _ hi', getD_replicate _ _ _ _ hj', if_neg (by omega)])
    (by
      intro i acc hi hInv
      have inner := foldl_range_inv (setEdge this (k : Int) i)
        (fun j acc => DriverInv k (i * 10 + j) acc) 10 acc hInv
        (fun j acc' hj hI => setEdge_step this k i j hi hj acc' hI)
      have e : (i + 1) * 10 = i * 10 + 10 := by omega
      show DriverInv k ((i + 1) * 10) _
      rw [e]
      exact inner)
  exact key

/-- The driver builds the automaton `multiplesRecord k`, without error. -/
theorem multiplesAutomaton_eq (this k : Nat) (hk : 0 < k) :
    multiplesAutomaton this (k : Int) = .ok (multiplesRecord k) := by
  obtain ⟨T, b, hacc, htab, hb, hent⟩ := driverLoops this k hk
  have hT : T = multiplesTable k := by
    apply table_ext T _ k 10 htab (multiplesTable_table k)
    intro i j hi hj
    rw [hent i j hi hj, multiplesTable_get k i j hi hj, if_pos (by omega)]
  have hbt : b = true := hb rfl
  have hc : wrapInt32 ((k : Int) * 10 - ((k * 10 : Nat) : Int)) = 0 := by
    have e : (k : Int) * 10 - ((k * 10 : Nat) : Int) = 0 := by push_cast; omega
    rw [e]
    decide
  unfold multiplesAutomaton
  have hsz := setSize_new alphabet_number k hk (by decide)
  have h10 : alphabet_number.siz = 10 := rfl
  rw [h10] at hsz
  have hcast : ((k : Nat) : Int) * ((10 : Nat) : Int) = (k : Int) * 10 := by push_cast; rfl
  rw [hcast] at hsz
  have hg : ∀ A : DeterministicFiniteAutomaton, A.n = k →
      A.getState this 0 = .ok { orig := this, ind := 0, vali := true } := by
    intro A hA
    unfold getState
    rw [if_neg (by omega), if_neg (by omega)]
  have hss : ∀ A : DeterministicFiniteAutomaton, A.n = k →
      A.setStartState this { orig := this, ind := 0, vali := true }
        = .ok { A with startStateIndex := 0 } := by
    intro A hA
    unfold setStartState
    rw [if_neg (by omega), if_neg (by simp), if_neg (by simp)]
    simp only [State.index, Bool.not_true, Bool.false_eq_true, if_false]
    rw [if_neg (by omega)]
  have hfl : ∀ A : DeterministicFiniteAutomaton, A.n = k →
      A.flipStateAcceptance this { orig := this, ind := 0, vali := true }
        = .ok { A with acceptStates :=
            A.acceptStates.set 0 (Nat.xor (A.acceptStates.getD 0 0) 1) } := by
    intro A hA
    unfold flipStateAcceptance
    rw [if_neg (by omega), if_neg (by simp), if_neg (by simp)]
    simp only [State.index, Bool.not_true, Bool.false_eq_true, if_false]
    rw [if_neg (by omega)]
    rfl
  rw [hsz, ok_bind, Int.toNat_ofNat, hacc, ok_bind, hg _ rfl, ok_bind, hss _ rfl, ok_bind,
    hg _ rfl, ok_bind, hfl _ rfl, hc, hT, hbt]
  show Except.ok _ = Except.ok _
  congr 1
  unfold multiplesRecord
  congr 1
  show (List.replicate k 0).set 0 (Nat.xor ((List.replicate k 0).getD 0 0) 1) = _
  rw [getD_replicate _ _ _ _ hk]
  rfl

end FiniteAutomata

namespace FiniteAutomata

open DeterministicFiniteAutomaton

theorem multiplesRecord_ready (k : Nat) (hk : 0 < k) : (multiplesRecord k).Ready := by
  have htab := multiplesTable_table k
  have hfull := table_full (multiplesTable k) k 10 htab (by
    intro u j hu hj
    rw [multiplesTable_get k u j hu hj]
    have := Nat.mod_lt (u * 10 + j) hk
    omega)
  refine ⟨⟨hk, (by show 0 < 10; decide), htab.1, ?_, ?_, ?_, ?_, ?_, ?_⟩, rfl, ?_⟩
  · intro row hrow
    have h1 := hfull.1 row hrow
    refine ⟨h1.1, fun v hv => ?_⟩
    have := h1.2 v hv
    show -1 ≤ v ∧ v < (k : Int)
    omega
  · show (0 : Int) = _
    rw [show (multiplesRecord k).transitions = multiplesTable k from rfl, hfull.2]; rfl
  · exact ⟨fun _ => rfl, fun _ => rfl⟩
  · show ((List.replicate k 0).set 0 1).length = k
    simp
  · show (-1 : Int) ≤ 0
    omega
  · show (0 : Int) < (k : Int)
    omega
  · show (0 : Int) ≠ -1
    omega

theorem multiplesRecord_step (k u d : Nat) (hu : u < k) (hd : d < 10) :
    (multiplesRecord k).step u d = (u * 10 + d) % k := by
  show (((multiplesTable k).getD u []).getD d (-1)).toNat = _
  rw [multiplesTable_get k u d hu hd]
  rfl

theorem multiplesRecord_acc (k u : Nat) (hu : u < k) :
    (multiplesRecord k).acc u = decide (u = 0) := by
  show (((List.replicate k 0).set 0 1).getD u 0 != 0) = _
  rw [getD_set_lt _ _ _ _ _ (by simp; omega)]
  by_cases e : u = 0
  · rw [if_pos e]; simp [e]
  · rw [if_neg e, getD_replicate _ _ _ _ hu]; simp [e]

/-- Reading the digits most significant first leads to the residue of the number. -/
theorem multiples_run (k : Nat) (hk : 0 < k) (l : List Nat) (hl : ∀ d ∈ l, d < 10) :
    (multiplesRecord k).run 0 l.reverse = Nat.ofDigits 10 l % k := by
  induction l with
  | nil => simp [run_nil, Nat.ofDigits, Nat.zero_mod]
  | cons d l ih =>
    have hd := hl d (List.mem_cons_self _ _)
    rw [List.reverse_cons, run_append, ih (fun x hx => hl x (List.mem_cons_of_mem _ hx)),
      run_cons, run_nil, multiplesRecord_step k _ d (Nat.mod_lt _ hk) hd, Nat.ofDigits_cons]
    rw [Nat.add_comm (Nat.ofDigits 10 l % k * 10) d, Nat.mul_comm (Nat.ofDigits 10 l % k) 10]
    rw [Nat.add_mod, Nat.mul_mod, Nat.mod_mod, ← Nat.mul_mod, ← Nat.add_mod]

theorem decimalString_ids (i : Nat) :
    (decimalString i).map alphabet_number.idOf = (Nat.digits 10 i).reverse := by
  unfold decimalString
  rw [List.map_map]
  have : (alphabet_number.idOf ∘ fun d : Nat => (48 + (d : Int))) = id := by
    funext d
    simp only [Function.comp, Alphabet.idOf, alphabet_number, id]
    omega
  rw [this, List.map_id]

theorem decimalString_has (i : Nat) : ∀ c ∈ decimalString i, alphabet_number.Has c := by
  intro c hc
  unfold decimalString at hc
  obtain ⟨d, hd, rfl⟩ := List.mem_map.1 hc
  rw [List.mem_reverse] at hd
  have := Nat.digits_lt_base (by decide : 1 < 10) hd
  simp only [Alphabet.Has, alphabet_number]
  omega

/-- The automaton of the driver accepts the decimal string of `i` exactly when `k`
divides `i`. -/
theorem multiples_accepts (this k i : Nat) (hk : 0 < k) :
    (multiplesRecord k).accepts this (decimalString i) = .ok (decide (i % k = 0)) := by
  have hR := multiplesRecord_ready k hk
  rw [accepts_eq _ hR this _ (decimalString_has i)]
  have hids : (decimalString i).map (multiplesRecord k).sig.idOf = (Nat.digits 10 i).reverse :=
    decimalString_ids i
  rw [hids]
  have h0 : (multiplesRecord k).startStateIndex.toNat = 0 := rfl
  rw [h0, multiples_run k hk _ (fun d hd => Nat.digits_lt_base (by decide : 1 < 10) hd),
    Nat.ofDigits_digits, multiplesRecord_acc k _ (Nat.mod_lt _ hk)]

/-- The driver's two loops over `i`: on `A` and on `minimize(A)`. -/
theorem multiples_decides (this that k i : Nat) (hk : 0 < k) :
    ∃ A M, multiplesAutomaton this (k : Int) = .ok A ∧ A.minimize = .ok M ∧
      A.accepts this (decimalString i) = .ok (decide (i % k = 0)) ∧
      M.accepts that (decimalString i) = .ok (decide (i % k = 0)) := by
  have hR := multiplesRecord_ready k hk
  obtain ⟨M, hM, b, hb1, hb2⟩ :=
    minimize_accepts (multiplesRecord k) hR (decimalString i) (decimalString_has i) this that
  have hacc := multiples_accepts this k i hk
  rw [hacc] at hb1
  have hb : b = decide (i % k = 0) := (Except.ok.inj hb1).symm
  refine ⟨_, M, multiplesAutomaton_eq this k hk, hM, hacc, ?_⟩
  rw [hb2, hb]

/-- When the driver expression returns a truth value, the state it reached is valid. -/
theorem accepts_ok_valid (A : DeterministicFiniteAutomaton) (this : Nat) (s : List Int)
    (b : Bool) (h : A.accepts this s = .ok b) :
    ∃ st0 st, A.start this = .ok st0 ∧ A.transitionSeq this st0 s = .ok st ∧
      st.vali = true ∧ A.isAcceptState this st = .ok b := by
  unfold accepts at h
  cases h0 : A.start this with
  | error e => rw [h0] at h; simp [bind, Except.bind] at h
  | ok st0 =>
    rw [h0] at h
    cases h1 : A.transitionSeq this st0 s with
    | error e => simp [bind, Except.bind, h1] at h
    | ok st =>
      have h2 : A.isAcceptState this st = .ok b := by
        simpa [bind, Except.bind, h1] using h
      refine ⟨st0, st, rfl, h1, ?_, h2⟩
      cases hv : st.vali with
      | true => rfl
      | false =>
        unfold isAcceptState at h2
        rw [hv] at h2
        split_ifs at h2 with _ _ h3
        exact absurd rfl h3

/-- The minimized multiples automata of the driver for the moduli 1, 3, 7 and 10. -/
theorem minimizedSize_record (this k : Nat) (hk : 0 < k) :
    minimizedSize this (k : Int)
      = ((multiplesRecord k).minimize >>= fun B => pure B.size) := by
  unfold minimizedSize
  rw [multiplesAutomaton_eq this k hk]
  rfl

end FiniteAutomata

namespace FiniteAutomata

namespace DeterministicFiniteAutomaton

/-! ## The empty-edge counter under an edge write -/

theorem wf_table (A : DeterministicFiniteAutomaton) (h : A.WellFormed) :
    Table A.transitions A.n A.sig.siz := by
  obtain ⟨_, _, hlen, hrows, _⟩ := h
  refine ⟨hlen, fun u hu => ?_⟩
  exact (hrows _ (getD_mem A.transitions u [] (by omega))).1

theorem count_set (row : List Int) (j : Nat) (v a : Int) (hj : j < row.length) :
    (row.set j v).count a + (if row.getD j (-1) = a then 1 else 0)
      = row.count a + (if v = a then 1 else 0) := by
  induction row generalizing j with
  | nil => simp at hj
  | cons x xs ih =>
    cases j with
    | zero =>
      simp only [List.set_cons_zero, List.count_cons, List.getD_cons_zero, beq_iff_eq]
      omega
    | succ j =>
      have hj' : j < xs.length := by simpa using hj
      have := ih j hj'
      simp only [List.set_cons_succ, List.count_cons, List.getD_cons_succ, beq_iff_eq]
      omega

theorem sum_map_set {α : Type} (t : List α) (f : α → Nat) (u : Nat) (r d : α)
    (hu : u < t.length) :
    ((t.set u r).map f).sum + f (t.getD u d) = (t.map f).sum + f r := by
  induction t generalizing u with
  | nil => simp at hu
  | cons x xs ih =>
    cases u with
    | zero =>
      simp only [List.set_cons_zero, List.map_cons, List.sum_cons, List.getD_cons_zero]
      omega
    | succ u =>
      have hu' : u < xs.length := by simpa using hu
      have := ih u hu'
      simp only [List.set_cons_succ, List.map_cons, List.sum_cons, List.getD_cons_succ]
      omega

/-- Writing `v` into one cell changes the number of `-1` entries by the old and the new
content of that cell only. -/
theorem emptyEdges_setTr (t : List (List Int)) (N m u j : Nat) (v : Int) (h : Table t N m)
    (hu : u < N) (hj : j < m) :
    emptyEdges (setTr t u j v) + (if (t.getD u []).getD j (-1) = -1 then 1 else 0)
      = emptyEdges t + (if v = -1 then 1 else 0) := by
  have h1 := sum_map_set t (fun row => row.count (-1)) u ((t.getD u []).set j v) []
    (by rw [h.1]; exact hu)
  have h2 := count_set (t.getD u []) j v (-1) (by rw [h.2 u hu]; exact hj)
  unfold emptyEdges setTr
  simp only [] at h1
  omega

theorem emptyEdges_replicate (N m : Nat) :
    emptyEdges (List.replicate N (List.replicate m (-1))) = N * m := by
  simp [emptyEdges, List.count_replicate_self]

theorem emptyEdges_nil : emptyEdges [] = 0 := rfl

/-- A table with rows of length `m` has at most `length * m` missing edges. -/
theorem emptyEdges_le (t : List (List Int)) (m : Nat) (h : ∀ row ∈ t, row.length = m) :
    emptyEdges t ≤ t.length * m := by
  induction t with
  | nil => simp [emptyEdges]
  | cons row rest ih =>
    have h1 : row.count (-1) ≤ m := by
      rw [← h row (List.mem_cons_self _ _)]
      exact List.count_le_length _ _
    have h2 := ih (fun r hr => h r (List.mem_cons_of_mem _ hr))
    have e : emptyEdges (row :: rest) = row.count (-1) + emptyEdges rest := by
      simp [emptyEdges]
    rw [e, List.length_cons, Nat.succ_mul]
    omega

/-- On an automaton with the class invariant the counter is between `0` and `n * m`. -/
theorem wf_counter_le (A : DeterministicFiniteAutomaton) (h : A.WellFormed) :
    0 ≤ A.countEmptyTransitions ∧
    A.countEmptyTransitions ≤ ((A.n * A.sig.siz : Nat) : Int) := by
  obtain ⟨_, _, hlen, hrows, hcnt, _⟩ := h
  have := emptyEdges_le A.transitions A.sig.siz (fun row hr => (hrows row hr).1)
  rw [hlen] at this
  rw [hcnt]
  omega

end DeterministicFiniteAutomaton

end FiniteAutomata

namespace FiniteAutomata

theorem Alphabet.c2i_error (sig : Alphabet) (c : Int) (h : ¬ sig.Has c) :
    sig.c2i c = .error .notInAlphabet := by
  unfold Alphabet.Has at h
  unfold Alphabet.c2i
  simp only []
  rw [if_pos (by omega)]

namespace DeterministicFiniteAutomaton

/-! ## `setTransition`: result, frame and invariant -/

/-- The result of `setTransition` when every check passes, field by field. -/
theorem setTransition_spec (A : DeterministicFiniteAutomaton) (this : Nat) (s t : State)
    (c : Int) (hn : A.n ≠ 0) (hm : A.sig.empty = false) (hso : this = s.orig)
    (hto : this = t.orig) (hc : A.sig.Has c) (hsv : s.vali = true)
    (hs : 0 ≤ s.ind ∧ s.ind < (A.n : Int))
    (ht : t.vali = true → 0 ≤ t.ind ∧ t.ind < (A.n : Int)) :
    ∃ B, A.setTransition this s c t = .ok B ∧ B.n = A.n ∧ B.sig = A.sig ∧
      B.acceptStates = A.acceptStates ∧ B.startStateIndex = A.startStateIndex ∧
      B.transitions = setTr A.transitions s.ind.toNat (A.sig.idOf c) t.index ∧
      B.countEmptyTransitions =
        (if t.index = -1 then
          (if A.tr s.ind.toNat (A.sig.idOf c) ≠ -1 then wrapInt32 (A.countEmptyTransitions + 1)
           else A.countEmptyTransitions)
         else
          (if A.tr s.ind.toNat (A.sig.idOf c) = -1 then wrapInt32 (A.countEmptyTransitions - 1)
           else A.countEmptyTransitions)) ∧
      B.isComplete =
        (if t.index = -1 then
          (if A.tr s.ind.toNat (A.sig.idOf c) ≠ -1 ∧ A.countEmptyTransitions = 0 then false
           else A.isComplete)
         else
          (if A.tr s.ind.toNat (A.sig.idOf c) = -1 ∧ wrapInt32 (A.countEmptyTransitions - 1) = 0
           then true else A.isComplete)) := by
  have hs' : ¬ (s.ind < 0 ∨ s.ind ≥ (A.n : Int)) := by omega
  have hsi : s.index = s.ind := by simp [State.index, hsv]
  unfold setTransition
  rw [if_neg hn, hm, if_neg (by simp), if_neg (by simpa using hso), if_neg (by simpa using hto),
    A.sig.c2i_of_has c hc]
  simp only [bind, Except.bind, hsv, Bool.not_true, Bool.false_eq_true, if_false, hsi, hs']
  cases htv : t.vali with
  | false =>
    have hti : t.index = -1 := by simp [State.index, htv]
    simp only [Bool.not_false, if_true, hti]
    by_cases hold : A.tr s.ind.toNat (A.sig.idOf c) = -1
    · refine ⟨_, rfl, ?_⟩
      simp [hold]
    · refine ⟨_, rfl, ?_⟩
      simp [hold]
  | true =>
    have hti : t.index = t.ind := by simp [State.index, htv]
    have ht' := ht htv
    have ht2 : ¬ (t.ind < 0 ∨ t.ind ≥ (A.n : Int)) := by omega
    have ht3 : t.ind ≠ -1 := by omega
    simp only [Bool.not_true, Bool.false_eq_true, if_false, hti, ht2, ht3]
    by_cases hold : A.tr s.ind.toNat (A.sig.idOf c) = -1
    · refine ⟨_, rfl, ?_⟩
      simp [hold]
    · refine ⟨_, rfl, ?_⟩
      simp [hold]

/-- A call of `setTransition` that returns has passed every check. -/
theorem setTransition_ok (A B : DeterministicFiniteAutomaton) (this : Nat) (s t : State)
    (c : Int) (h : A.setTransition this s c t = .ok B) :
    A.n ≠ 0 ∧ A.sig.empty = false ∧ this = s.orig ∧ this = t.orig ∧ A.sig.Has c ∧
    s.vali = true ∧ (0 ≤ s.ind ∧ s.ind < (A.n : Int)) ∧
    (t.vali = true → 0 ≤ t.ind ∧ t.ind < (A.n : Int)) := by
  unfold setTransition at h
  by_cases hn : A.n = 0
  · rw [if_pos hn] at h; cases h
  rw [if_neg hn] at h
  cases hm : A.sig.empty with
  | true => rw [hm, if_pos rfl] at h; cases h
  | false =>
    rw [hm, if_neg (by simp)] at h
    by_cases h1 : this ≠ s.orig
    · rw [if_pos h1] at h; cases h
    rw [if_neg h1] at h
    by_cases h2 : this ≠ t.orig
    · rw [if_pos h2] at h; cases h
    rw [if_neg h2] at h
    by_cases hc : A.sig.Has c
    swap
    · rw [A.sig.c2i_error c hc] at h
      simp [bind, Except.bind] at h
    rw [A.sig.c2i_of_has c hc] at h
    simp only [bind, Except.bind] at h
    cases hsv : s.vali with
    | false => simp [hsv] at h
    | true =>
      have hsi : s.index = s.ind := by simp [State.index, hsv]
      simp only [hsv, Bool.not_true, Bool.false_eq_true, if_false, hsi] at h
      by_cases hr : s.ind < 0 ∨ s.ind ≥ (A.n : Int)
      · rw [if_pos hr] at h; cases h
      rw [if_neg hr] at h
      refine ⟨hn, rfl, not_not.1 h1, not_not.1 h2, hc, rfl, by omega, ?_⟩
      intro htv
      have hti : t.index = t.ind := by simp [State.index, htv]
      simp only [htv, Bool.not_true, Bool.false_eq_true, if_false, hti] at h
      by_cases hr2 : t.ind < 0 ∨ t.ind ≥ (A.n : Int)
      · rw [if_pos hr2] at h; cases h
      · omega

/-- An edge write keeps the shape of the table, the labels and the start index, and
moves the number of missing edges by the edge that is written. -/
theorem setTransition_shape (A B : DeterministicFiniteAutomaton) (hA : A.WellFormed) (this : Nat)
    (s t : State) (c : Int) (h : A.setTransition this s c t = .ok B) :
    0 < B.n ∧ 0 < B.sig.siz ∧ B.transitions.length = B.n ∧
    (∀ row ∈ B.transitions, row.length = B.sig.siz ∧ ∀ v ∈ row, -1 ≤ v ∧ v < (B.n : Int)) ∧
    B.acceptStates.length = B.n ∧ -1 ≤ B.startStateIndex ∧ B.startStateIndex < (B.n : Int) ∧
    emptyEdges B.transitions + (if A.tr s.ind.toNat (A.sig.idOf c) = -1 then 1 else 0)
      = emptyEdges A.transitions + (if t.index = -1 then 1 else 0) := by
  obtain ⟨hn, hm, hso, hto, hc, hsv, hs, ht⟩ := setTransition_ok A B this s t c h
  obtain ⟨B', hB', en, esig, eacc, estart, etr, _, _⟩ :=
    setTransition_spec A this s t c hn hm hso hto hc hsv hs ht
  have hBB : B = B' := Except.ok.inj (h.symm.trans hB')
  subst hBB
  have hT := wf_table A hA
  obtain ⟨h0, hm0, hlen, hrows, hcnt, hiff, hacc, hst1, hst2⟩ := hA
  have hu : s.ind.toNat < A.n := by omega
  have hj : A.sig.idOf c < A.sig.siz := A.sig.idOf_lt c hc
  have hT' : Table B.transitions A.n A.sig.siz := by
    rw [etr]; exact setTr_table _ _ _ _ _ _ hT
  have hti : -1 ≤ t.index ∧ t.index < (A.n : Int) := by
    unfold State.index
    cases htv : t.vali with
    | false => simp; omega
    | true => have := ht htv; simp; omega
  have hE := emptyEdges_setTr A.transitions A.n A.sig.siz s.ind.toNat (A.sig.idOf c) t.index
    hT hu hj
  have hold : (A.transitions.getD s.ind.toNat []).getD (A.sig.idOf c) (-1)
      = A.tr s.ind.toNat (A.sig.idOf c) := rfl
  rw [hold, ← etr] at hE
  refine ⟨by rw [en]; exact h0, by rw [esig]; exact hm0, by rw [en]; exact hT'.1, ?_,
    by rw [eacc, en]; exact hacc, by rw [estart]; exact hst1, by rw [estart, en]; exact hst2, hE⟩
  intro row hrow
  obtain ⟨u, hu', rfl⟩ := table_mem_row _ _ _ hT' row hrow
  refine ⟨by rw [esig]; exact hT'.2 u hu', ?_⟩
  intro v hv
  obtain ⟨j, hj', rfl⟩ := row_mem_entry _ v hv
  rw [hT'.2 u hu'] at hj'
  rw [etr, setTr_get _ _ _ _ _ _ hT hu hj, en]
  split_ifs
  · exact hti
  · have := tr_range A ⟨h0, hm0, hlen, hrows, hcnt, hiff, hacc, hst1, hst2⟩ u j
    unfold tr at this
    omega

/-- An edge write keeps the class invariant of a sized automaton with an alphabet whose
table has fewer than `2^31` cells, so that the counter does not leave the range of a
32-bit `int`. -/
theorem setTransition_wf (A B : DeterministicFiniteAutomaton) (hA : A.WellFormed)
    (hb : A.n * A.sig.siz < 2147483648) (this : Nat)
    (s t : State) (c : Int) (h : A.setTransition this s c t = .ok B) : B.WellFormed := by
  obtain ⟨g1, g2, g3, g4, g5, g6, g7, hE⟩ := setTransition_shape A B hA this s t c h
  obtain ⟨hn, hm, hso, hto, hc, hsv, hs, ht⟩ := setTransition_ok A B this s t c h
  obtain ⟨B', hB', en, esig, _, _, _, ecnt, ecomp⟩ :=
    setTransition_spec A this s t c hn hm hso hto hc hsv hs ht
  have hBB : B = B' := Except.ok.inj (h.symm.trans hB')
  subst hBB
  have hle := emptyEdges_le B.transitions B.sig.siz (fun row hr => (g4 row hr).1)
  rw [g3, en, esig] at hle
  have hleA := wf_counter_le A hA
  obtain ⟨_, _, _, _, hcnt, hiff, _⟩ := hA
  have hcomp : A.isComplete = true ↔ emptyEdges A.transitions = 0 := by
    rw [hiff, hcnt]; omega
  rw [hcnt] at ecnt ecomp hleA
  by_cases h1 : t.index = -1
  · rw [if_pos h1] at ecnt ecomp hE
    by_cases h2 : A.tr s.ind.toNat (A.sig.idOf c) = -1
    · rw [if_neg (by simp [h2])] at ecnt
      rw [if_neg (by simp [h2])] at ecomp
      rw [if_pos h2] at hE
      have hcnt' : B.countEmptyTransitions = (emptyEdges B.transitions : Int) := by
        rw [ecnt]; omega
      refine ⟨g1, g2, g3, g4, hcnt', ?_, g5, g6, g7⟩
      rw [ecomp, hcomp, hcnt']
      omega
    · rw [if_pos h2] at ecnt
      rw [if_neg h2] at hE
      have hw : wrapInt32 ((emptyEdges A.transitions : Int) + 1)
          = (emptyEdges A.transitions : Int) + 1 :=
        wrapInt32_of_range _ (by omega) (by omega)
      rw [hw] at ecnt
      clear hw
      have hcnt' : B.countEmptyTransitions = (emptyEdges B.transitions : Int) := by
        rw [ecnt]; omega
      refine ⟨g1, g2, g3, g4, hcnt', ?_, g5, g6, g7⟩
      rw [ecomp, hcnt']
      by_cases h3 : (emptyEdges A.transitions : Int) = 0
      · rw [if_pos ⟨h2, h3⟩]
        refine ⟨fun hh => absurd hh (by simp), fun hh => ?_⟩
        omega
      · rw [if_neg (fun hh => h3 hh.2), hcomp]
        omega
  · rw [if_neg h1] at ecnt ecomp hE
    by_cases h2 : A.tr s.ind.toNat (A.sig.idOf c) = -1
    · rw [if_pos h2] at ecnt hE
      have hw : wrapInt32 ((emptyEdges A.transitions : Int) - 1)
          = (emptyEdges A.transitions : Int) - 1 :=
        wrapInt32_of_range _ (by omega) (by omega)
      rw [hw] at ecnt ecomp
      clear hw
      have hcnt' : B.countEmptyTransitions = (emptyEdges B.transitions : Int) := by
        rw [ecnt]; omega
      refine ⟨g1, g2, g3, g4, hcnt', ?_, g5, g6, g7⟩
      rw [ecomp, hcnt']
      by_cases h3 : (emptyEdges A.transitions : Int) - 1 = 0
      · rw [if_pos ⟨h2, h3⟩]
        refine ⟨fun _ => ?_, fun _ => rfl⟩
        omega
      · rw [if_neg (fun hh => h3 hh.2), hcomp]
        omega
    · rw [if_neg h2] at ecnt hE
      rw [if_neg (fun hh => h2 hh.1)] at ecomp
      have hcnt' : B.countEmptyTransitions = (emptyEdges B.transitions : Int) := by
        rw [ecnt]; omega
      refine ⟨g1, g2, g3, g4, hcnt', ?_, g5, g6, g7⟩
      rw [ecomp, hcomp, hcnt']
      omega

/-- A record with the shape of the class invariant satisfies the class invariant once
its counter and its flag are recomputed from the table. -/
theorem wf_recount (B : DeterministicFiniteAutomaton)
    (h : 0 < B.n ∧ 0 < B.sig.siz ∧ B.transitions.length = B.n ∧
      (∀ row ∈ B.transitions, row.length = B.sig.siz ∧ ∀ v ∈ row, -1 ≤ v ∧ v < (B.n : Int)) ∧
      B.acceptStates.length = B.n ∧ -1 ≤ B.startStateIndex ∧ B.startStateIndex < (B.n : Int)) :
    WellFormed { B with countEmptyTransitions := (emptyEdges B.transitions : Int),
                        isComplete := decide ((emptyEdges B.transitions : Int) = 0) } := by
  obtain ⟨g1, g2, g3, g4, g5, g6, g7⟩ := h
  refine ⟨g1, g2, g3, g4, rfl, ?_, g5, g6, g7⟩
  show decide ((emptyEdges B.transitions : Int) = 0) = true ↔ (emptyEdges B.transitions : Int) = 0
  simp

/-- The lookup `transition(state, symbol)` reads the table only: it is determined on
every record with the shape of the class invariant. -/
theorem transition_eq_shape (B : DeterministicFiniteAutomaton)
    (h : 0 < B.n ∧ 0 < B.sig.siz ∧ B.transitions.length = B.n ∧
      (∀ row ∈ B.transitions, row.length = B.sig.siz ∧ ∀ v ∈ row, -1 ≤ v ∧ v < (B.n : Int)) ∧
      B.acceptStates.length = B.n ∧ -1 ≤ B.startStateIndex ∧ B.startStateIndex < (B.n : Int))
    (this : Nat) (st : State) (hst : B.Owns this st) (c : Int) (hc : B.sig.Has c) :
    B.transition this st c =
      .ok (if st.vali = true ∧ B.tr st.ind.toNat (B.sig.idOf c) ≠ -1
           then { orig := this, ind := B.tr st.ind.toNat (B.sig.idOf c), vali := true }
           else { orig := this, ind := -1, vali := false }) :=
  transition_eq { B with countEmptyTransitions := (emptyEdges B.transitions : Int),
                         isComplete := decide ((emptyEdges B.transitions : Int) = 0) }
    (wf_recount B h) this st hst c hc

theorem wf_sized (A : DeterministicFiniteAutomaton) (h : A.WellFormed) :
    A.n ≠ 0 ∧ A.sig.empty = false := by
  refine ⟨by have := h.1; omega, ?_⟩
  have := h.2.1
  simp [Alphabet.empty]; omega

/-- After `setTransition(s, a, t)` the edge `(s, a)` leads to `t`, and nothing else has
changed. -/
theorem setTransition_frame (A : DeterministicFiniteAutomaton) (hA : A.WellFormed) (this : Nat)
    (s t : State) (hs : A.Owns this s) (hsv : s.vali = true) (ht : A.Owns this t) (a : Int)
    (ha : A.sig.Has a) :
    ∃ B, A.setTransition this s a t = .ok B ∧
      B.transition this s a = .ok t ∧
      (∀ s' a', A.Owns this s' → A.sig.Has a' →
        (s'.index ≠ s.index ∨ A.sig.idOf a' ≠ A.sig.idOf a) →
        B.transition this s' a' = A.transition this s' a') ∧
      (∀ u j, (u ≠ s.ind.toNat ∨ j ≠ A.sig.idOf a) → B.tr u j = A.tr u j) ∧
      B.acceptStates = A.acceptStates ∧ B.startStateIndex = A.startStateIndex ∧
      B.n = A.n ∧ B.sig = A.sig := by
  obtain ⟨hn, hm⟩ := wf_sized A hA
  have hso : this = s.orig := hs.1.symm
  have hto : this = t.orig := ht.1.symm
  have hsr : 0 ≤ s.ind ∧ s.ind < (A.n : Int) := by
    have := hs.2; rw [hsv] at this; simpa using this
  have htr : t.vali = true → 0 ≤ t.ind ∧ t.ind < (A.n : Int) := by
    intro htv
    have := ht.2; rw [htv] at this; simpa using this
  obtain ⟨B, hB, en, esig, eacc, estart, etr, _, _⟩ :=
    setTransition_spec A this s t a hn hm hso hto ha hsv hsr htr
  obtain ⟨g1, g2, g3, g4, g5, g6, g7, _⟩ := setTransition_shape A B hA this s t a hB
  have hBw : 0 < B.n ∧ 0 < B.sig.siz ∧ B.transitions.length = B.n ∧
      (∀ row ∈ B.transitions, row.length = B.sig.siz ∧ ∀ v ∈ row, -1 ≤ v ∧ v < (B.n : Int)) ∧
      B.acceptStates.length = B.n ∧ -1 ≤ B.startStateIndex ∧ B.startStateIndex < (B.n : Int) :=
    ⟨g1, g2, g3, g4, g5, g6, g7⟩
  have hT := wf_table A hA
  have hu : s.ind.toNat < A.n := by omega
  have hj : A.sig.idOf a < A.sig.siz := A.sig.idOf_lt a ha
  have hget : ∀ u j, B.tr u j
      = if u = s.ind.toNat ∧ j = A.sig.idOf a then t.index else A.tr u j := by
    intro u j
    unfold tr
    rw [etr]
    exact setTr_get _ _ _ _ _ _ hT hu hj u j
  have hown : ∀ s', A.Owns this s' → B.Owns this s' := by
    intro s' h'
    unfold Owns at h' ⊢
    rw [en]; exact h'
  refine ⟨B, hB, ?_, ?_, ?_, eacc, estart, en, esig⟩
  · have hcell : B.tr s.ind.toNat (A.sig.idOf a) = t.index := by
      rw [hget, if_pos ⟨rfl, rfl⟩]
    rw [transition_eq_shape B hBw this s (hown s hs) a (by rw [esig]; exact ha), esig, hcell]
    cases htv : t.vali with
    | false =>
      have hti : t.index = -1 := by simp [State.index, htv]
      have htind : t.ind = -1 := by
        have := ht.2; rw [htv] at this; simpa using this
      rw [hti, if_neg (by simp)]
      cases t
      simp only [State.mk.injEq, Except.ok.injEq]
      exact ⟨hto, htind.symm, htv.symm⟩
    | true =>
      have hti : t.index = t.ind := by simp [State.index, htv]
      have := htr htv
      rw [hti, if_pos ⟨hsv, by omega⟩]
      cases t
      simp only [State.mk.injEq, Except.ok.injEq]
      exact ⟨hto, trivial, htv.symm⟩
  · intro s' a' hs' ha' hne
    rw [transition_eq_shape B hBw this s' (hown s' hs') a' (by rw [esig]; exact ha'),
      transition_eq A hA this s' hs' a' ha', esig]
    cases hv' : s'.vali with
    | false => simp
    | true =>
      have hsi : s.index = s.ind := by simp [State.index, hsv]
      have hsi' : s'.index = s'.ind := by simp [State.index, hv']
      have hr' : 0 ≤ s'.ind := by
        have := hs'.2; rw [hv'] at this; simp at this; exact this.1
      have hcell : ¬ (s'.ind.toNat = s.ind.toNat ∧ A.sig.idOf a' = A.sig.idOf a) := by
        rw [hsi, hsi'] at hne
        intro hh
        rcases hne with h1 | h1
        · apply h1; omega
        · exact h1 hh.2
      rw [hget, if_neg hcell]
  · intro u j hne
    rw [hget, if_neg (by intro hh; rcases hne with h1 | h1; exact h1 hh.1; exact h1 hh.2)]

end DeterministicFiniteAutomaton

end FiniteAutomata

namespace FiniteAutomata

namespace DeterministicFiniteAutomaton

/-! ## The class invariant holds in every obtainable automaton -/

theorem unallocated_new (alph : Alphabet) : (new alph).Unallocated := by
  refine ⟨Or.inl rfl, rfl, rfl, rfl, rfl, ?_, ?_⟩ <;> simp [new]

/-- The result of `initTransitions` on a sized automaton bound to an alphabet, field by
field: the counter is the 32-bit value of `n * m`. -/
theorem initTransitions_spec (A : DeterministicFiniteAutomaton) (hn : 0 < A.n)
    (hm : 0 < A.sig.siz) :
    ∃ B, A.initTransitions = .ok B ∧ B.n = A.n ∧ B.sig = A.sig ∧
      B.acceptStates = A.acceptStates ∧ B.startStateIndex = A.startStateIndex ∧
      B.isComplete = false ∧
      B.transitions = List.replicate A.n (List.replicate A.sig.siz (-1)) ∧
      B.countEmptyTransitions = wrapInt32 ((A.n : Int) * A.sig.siz) := by
  have h1 : ¬ (A.n = 0 ∧ A.sig.empty = true) := by intro h; omega
  have h2 : ¬ (A.n = 0) := by omega
  have h3 : ¬ (A.sig.empty = true) := by simp [Alphabet.empty]; omega
  unfold initTransitions
  rw [if_neg h1, if_neg h2, if_neg h3]
  exact ⟨_, rfl, rfl, rfl, rfl, rfl, rfl, rfl, rfl⟩

/-- The table allocated by `initTransitions` satisfies the class invariant when it has
fewer than `2^31` cells. -/
theorem initTransitions_wf (A : DeterministicFiniteAutomaton) (hn : 0 < A.n)
    (hm : 0 < A.sig.siz) (hb : A.n * A.sig.siz < 2147483648)
    (hacc : A.acceptStates.length = A.n)
    (hst : -1 ≤ A.startStateIndex ∧ A.startStateIndex < (A.n : Int)) :
    ∃ B, A.initTransitions = .ok B ∧ B.WellFormed ∧ B.n = A.n ∧ B.sig = A.sig ∧
      B.acceptStates = A.acceptStates ∧ B.startStateIndex = A.startStateIndex ∧
      B.isComplete = false ∧ B.countEmptyTransitions = (A.n : Int) * A.sig.siz := by
  obtain ⟨B, hB, en, esig, eacc, estart, ecomp, etr, ecnt⟩ := initTransitions_spec A hn hm
  have hpos : 0 < A.n * A.sig.siz := Nat.mul_pos hn hm
  have hcast : (A.n : Int) * A.sig.siz = ((A.n * A.sig.siz : Nat) : Int) := by push_cast; rfl
  have hw : wrapInt32 ((A.n : Int) * A.sig.siz) = (A.n : Int) * A.sig.siz := by
    rw [hcast]
    exact wrapInt32_of_range _ (by omega) (by omega)
  rw [hw] at ecnt
  clear hw
  refine ⟨B, hB, ?_, en, esig, eacc, estart, ecomp, ecnt⟩
  refine ⟨by rw [en]; exact hn, by rw [esig]; exact hm, by rw [etr, en]; simp, ?_, ?_, ?_,
    by rw [eacc, en]; exact hacc, by rw [estart]; exact hst.1, by rw [estart, en]; exact hst.2⟩
  · intro row hrow
    rw [etr] at hrow
    have hr : row = List.replicate A.sig.siz (-1) := (List.mem_replicate.1 hrow).2
    subst hr
    refine ⟨by rw [esig]; simp, ?_⟩
    intro v hv
    have hv' : v = -1 := (List.mem_replicate.1 hv).2
    subst hv'
    omega
  · rw [ecnt, etr, emptyEdges_replicate, hcast]
  · rw [ecomp, ecnt, hcast]
    constructor
    · intro h; cases h
    · intro h
      omega

theorem unallocated_eq_new (A : DeterministicFiniteAutomaton) (h : A.Unallocated)
    (hn : A.n = 0) : A = new A.sig := by
  obtain ⟨_, ht, hc, hi, ha, hs1, hs2⟩ := h
  cases A with
  | mk n sig tr cnt comp start acc =>
    simp only at hn ht hc hi ha hs1 hs2
    subst hn
    have hacc : acc = [] := List.length_eq_zero.1 ha
    have hstart : start = -1 := by simp at hs2; omega
    subst ht hc hi hacc hstart
    rfl

theorem classInv_sized (A : DeterministicFiniteAutomaton) (h : A.ClassInv) (hn : A.n ≠ 0)
    (hm : A.sig.empty = false) : A.WellFormed := by
  rcases h with h | h
  · exfalso
    rcases h.1 with h0 | h0
    · exact hn h0
    · simp [Alphabet.empty, h0] at hm
  · exact h

theorem classInv_accept_length (A : DeterministicFiniteAutomaton) (h : A.ClassInv) :
    A.acceptStates.length = A.n := by
  rcases h with h | h
  · exact h.2.2.2.2.1
  · exact h.2.2.2.2.2.2.1

/-- A change of the alphabet to one of the same size, of the accept labels or of the
start state keeps the class invariant. -/
theorem classInv_frame (A B : DeterministicFiniteAutomaton) (h : A.ClassInv) (en : B.n = A.n)
    (esig : B.sig.siz = A.sig.siz) (etr : B.transitions = A.transitions)
    (ecnt : B.countEmptyTransitions = A.countEmptyTransitions)
    (ecomp : B.isComplete = A.isComplete) (hacc : B.acceptStates.length = B.n)
    (hst : -1 ≤ B.startStateIndex ∧ B.startStateIndex < max (B.n : Int) 0) : B.ClassInv := by
  rcases h with h | h
  · left
    obtain ⟨h0, ht, hc, hi, _, _, _⟩ := h
    refine ⟨by rw [en, esig]; exact h0, by rw [etr]; exact ht, by rw [ecnt]; exact hc,
      by rw [ecomp]; exact hi, hacc, hst.1, hst.2⟩
  · right
    obtain ⟨h0, hm0, hlen, hrows, hcnt, hiff, _, _, _⟩ := h
    have hmax : max (B.n : Int) 0 = (B.n : Int) := by omega
    refine ⟨by rw [en]; exact h0, by rw [esig]; exact hm0, by rw [etr, en]; exact hlen,
      by rw [etr, en, esig]; exact hrows, by rw [ecnt, etr]; exact hcnt,
      by rw [ecomp, ecnt]; exact hiff, hacc, hst.1, by rw [← hmax]; exact hst.2⟩

theorem classInv_start (A : DeterministicFiniteAutomaton) (h : A.ClassInv) :
    -1 ≤ A.startStateIndex ∧ A.startStateIndex < max (A.n : Int) 0 := by
  rcases h with h | h
  · exact ⟨h.2.2.2.2.2.1, h.2.2.2.2.2.2⟩
  · have := h.2.2.2.2.2.2.2
    have := h.1
    omega

end DeterministicFiniteAutomaton

end FiniteAutomata

namespace FiniteAutomata

namespace DeterministicFiniteAutomaton

theorem setSize_ok (A B : DeterministicFiniteAutomaton) (siz : Int)
    (h : A.setSize siz = .ok B) : A.n = 0 ∧ 0 < siz := by
  unfold setSize at h
  by_cases hn : A.n ≠ 0
  · rw [if_pos hn] at h; cases h
  rw [if_neg hn] at h
  by_cases hk : siz ≤ 0
  · rw [if_pos hk] at h; cases h
  exact ⟨not_not.1 hn, by omega⟩

theorem setSize_new_spec (sig : Alphabet) (siz : Int) (hk : 0 < siz) :
    ∃ B, (new sig).setSize siz = .ok B ∧ (B.n : Int) = siz ∧ B.sig = sig ∧
      B.acceptStates = List.replicate siz.toNat 0 ∧
      (siz.toNat * sig.siz < 2147483648 → B.ClassInv) := by
  have hk' : ¬ siz ≤ 0 := by omega
  have hpos : 0 < siz.toNat := by omega
  have hcast : ((siz.toNat : Nat) : Int) = siz := by omega
  have hstep : (new sig).setSize siz =
      (if (!sig.empty) = true then
        initTransitions
          { n := siz.toNat, sig := sig, transitions := [], countEmptyTransitions := 0,
            isComplete := false, startStateIndex := -1,
            acceptStates := List.replicate siz.toNat 0 }
       else .ok
          { n := siz.toNat, sig := sig, transitions := [], countEmptyTransitions := 0,
            isComplete := false, startStateIndex := -1,
            acceptStates := List.replicate siz.toNat 0 }) := by
    simp [setSize, new, hk']
  cases hm : sig.empty with
  | true =>
    have hm0 : sig.siz = 0 := by simpa [Alphabet.empty] using hm
    rw [hm] at hstep
    refine ⟨_, hstep, hcast, rfl, rfl, fun _ => Or.inl ?_⟩
    refine ⟨Or.inr hm0, rfl, rfl, rfl, by simp, ?_, ?_⟩
    · show (-1 : Int) ≤ -1
      omega
    · show (-1 : Int) < max ((siz.toNat : Nat) : Int) 0
      omega
  | false =>
    have hm0 : 0 < sig.siz := by
      have : ¬ sig.siz = 0 := by simpa [Alphabet.empty] using hm
      omega
    rw [hm] at hstep
    obtain ⟨B, hB, e1, e2, e3, _⟩ := initTransitions_spec
      { n := siz.toNat, sig := sig, transitions := [], countEmptyTransitions := 0,
        isComplete := false, startStateIndex := -1, acceptStates := List.replicate siz.toNat 0 }
      hpos hm0
    refine ⟨B, hstep.trans hB, by rw [e1]; exact hcast, e2, e3, ?_⟩
    intro hb
    obtain ⟨B', hB', hw, _⟩ := initTransitions_wf
      { n := siz.toNat, sig := sig, transitions := [], countEmptyTransitions := 0,
        isComplete := false, startStateIndex := -1, acceptStates := List.replicate siz.toNat 0 }
      hpos hm0 hb (by simp) (by constructor <;> simp)
    have : B = B' := Except.ok.inj (hB.symm.trans hB')
    rw [this]
    exact Or.inr hw

/-- `setSize` on an automaton without states: the size is installed, every accept label
is `0`, and the table is allocated when an alphabet is bound; the class invariant
holds when that table has fewer than `2^31` cells. -/
theorem setSize_spec (A : DeterministicFiniteAutomaton) (hA : A.ClassInv) (siz : Int)
    (hn : A.n = 0) (hk : 0 < siz) :
    ∃ B, A.setSize siz = .ok B ∧ (B.n : Int) = siz ∧ B.sig = A.sig ∧
      B.acceptStates = List.replicate siz.toNat 0 ∧
      (siz.toNat * A.sig.siz < 2147483648 → B.ClassInv) := by
  have hU : A.Unallocated := by
    rcases hA with h | h
    · exact h
    · have := h.1; omega
  have hnew := unallocated_eq_new A hU hn
  rw [hnew]
  exact setSize_new_spec A.sig siz hk

theorem setSize_inv (A B : DeterministicFiniteAutomaton) (hA : A.ClassInv) (siz : Int)
    (hb : siz.toNat * A.sig.siz < 2147483648)
    (h : A.setSize siz = .ok B) : B.ClassInv ∧ B.n * B.sig.siz < 2147483648 := by
  obtain ⟨hn, hk⟩ := setSize_ok A B siz h
  obtain ⟨B', hB', en, esig, _, hinv⟩ := setSize_spec A hA siz hn hk
  have : B = B' := Except.ok.inj (h.symm.trans hB')
  rw [this]
  refine ⟨hinv hb, ?_⟩
  have e : B'.n = siz.toNat := by omega
  rw [e, esig]
  exact hb

theorem setAlphabet_inv (A B : DeterministicFiniteAutomaton) (hA : A.ClassInv)
    (alph : Alphabet) (hb : A.n * alph.siz < 2147483648)
    (h : A.setAlphabet alph = .ok B) : B.ClassInv ∧ B.n * B.sig.siz < 2147483648 := by
  unfold setAlphabet at h
  cases ha : alph.empty with
  | true => rw [ha, if_pos rfl] at h; cases h
  | false =>
    rw [ha, if_neg (by simp)] at h
    cases hs : A.sig.empty with
    | false => rw [hs, if_pos (by simp)] at h; cases h
    | true =>
      rw [hs, if_neg (by simp)] at h
      simp only [] at h
      have ha0 : 0 < alph.siz := by
        have : ¬ alph.siz = 0 := by simpa [Alphabet.empty] using ha
        omega
      have hs0 : A.sig.siz = 0 := by simpa [Alphabet.empty] using hs
      have hU : A.Unallocated := by
        rcases hA with h' | h'
        · exact h'
        · have := h'.2.1; omega
      obtain ⟨_, ht, hc, hi, hacc, hs1, hs2⟩ := hU
      by_cases hn : A.n = 0
      · rw [if_neg (by simpa using hn)] at h
        have hB := (Except.ok.inj h).symm
        subst hB
        exact ⟨Or.inl ⟨Or.inl hn, ht, hc, hi, hacc, hs1, hs2⟩, hb⟩
      · rw [if_pos (by simpa using hn)] at h
        have hmax : max (A.n : Int) 0 = (A.n : Int) := by omega
        obtain ⟨B', hB', hw, en, esig, _⟩ := initTransitions_wf { A with sig := alph } (by
          show 0 < A.n
          omega) ha0 hb hacc ⟨hs1, by rw [← hmax]; exact hs2⟩
        have : B = B' := Except.ok.inj (h.symm.trans hB')
        rw [this, en, esig]
        exact ⟨Or.inr hw, hb⟩

theorem resetAlphabet_inv (A B : DeterministicFiniteAutomaton) (hA : A.ClassInv)
    (alph : Alphabet) (h : A.resetAlphabet alph = .ok B) : B.ClassInv := by
  unfold resetAlphabet at h
  cases ha : alph.empty with
  | true => rw [ha, if_pos rfl] at h; cases h
  | false =>
    rw [ha, if_neg (by simp)] at h
    by_cases he : A.sig.siz = alph.siz
    · rw [if_pos he] at h
      have hB := (Except.ok.inj h).symm
      subst hB
      exact classInv_frame A _ hA rfl he.symm rfl rfl rfl (classInv_accept_length A hA)
        (classInv_start A hA)
    · rw [if_neg he] at h
      have hB := (Except.ok.inj h).symm
      subst hB
      exact hA

theorem clear_inv (A : DeterministicFiniteAutomaton) : A.clear.ClassInv := by
  left
  refine ⟨Or.inl rfl, rfl, rfl, rfl, rfl, ?_, ?_⟩ <;> simp [clear]

theorem setStartState_inv (A B : DeterministicFiniteAutomaton) (hA : A.ClassInv) (this : Nat)
    (state : State) (h : A.setStartState this state = .ok B) : B.ClassInv := by
  unfold setStartState at h
  by_cases hn : A.n = 0
  · rw [if_pos hn] at h; cases h
  rw [if_neg hn] at h
  by_cases h1 : this ≠ state.orig
  · rw [if_pos h1] at h; cases h
  rw [if_neg h1] at h
  cases hv : state.vali with
  | false => rw [hv, if_pos (by simp)] at h; cases h
  | true =>
    rw [hv, if_neg (by simp)] at h
    simp only [] at h
    by_cases hr : state.index < 0 ∨ state.index ≥ (A.n : Int)
    · rw [if_pos hr] at h; cases h
    rw [if_neg hr] at h
    have hB := (Except.ok.inj h).symm
    subst hB
    refine classInv_frame A _ hA rfl rfl rfl rfl rfl (classInv_accept_length A hA) ?_
    show -1 ≤ state.index ∧ state.index < max (A.n : Int) 0
    omega

/-- The accept labels can be replaced by any vector with one label per state. -/
theorem classInv_labels (A : DeterministicFiniteAutomaton) (hA : A.ClassInv) (labels : List Nat)
    (hl : labels.length = A.n) : ClassInv { A with acceptStates := labels } :=
  classInv_frame A _ hA rfl rfl rfl rfl rfl hl (classInv_start A hA)

theorem flipStateAcceptance_inv (A B : DeterministicFiniteAutomaton) (hA : A.ClassInv)
    (this : Nat) (state : State) (h : A.flipStateAcceptance this state = .ok B) :
    B.ClassInv := by
  unfold flipStateAcceptance at h
  by_cases hn : A.n = 0
  · rw [if_pos hn] at h; cases h
  rw [if_neg hn] at h
  by_cases h1 : this ≠ state.orig
  · rw [if_pos h1] at h; cases h
  rw [if_neg h1] at h
  cases hv : state.vali with
  | false => rw [hv, if_pos (by simp)] at h; cases h
  | true =>
    rw [hv, if_neg (by simp)] at h
    simp only [] at h
    by_cases hr : state.index < 0 ∨ state.index ≥ (A.n : Int)
    · rw [if_pos hr] at h; cases h
    rw [if_neg hr] at h
    have hB := (Except.ok.inj h).symm
    subst hB
    exact classInv_labels A hA _ (by rw [List.length_set]; exact classInv_accept_length A hA)

theorem clearAcceptStates_inv (A : DeterministicFiniteAutomaton) (hA : A.ClassInv)
    (value : Bool) : (A.clearAcceptStates value).ClassInv := by
  unfold clearAcceptStates
  by_cases hn : A.n = 0
  · rw [if_pos hn]; exact hA
  · rw [if_neg hn]
    exact classInv_labels A hA _ (by rw [List.length_replicate]; exact classInv_accept_length A hA)

theorem resetAcceptStatesBytes_inv (A B : DeterministicFiniteAutomaton) (hA : A.ClassInv)
    (acc : List Nat) (h : A.resetAcceptStatesBytes acc = .ok B) : B.ClassInv := by
  unfold resetAcceptStatesBytes at h
  by_cases hn : A.n = 0
  · rw [if_pos hn] at h; cases h
  rw [if_neg hn] at h
  by_cases hl : (acc.length : Int) ≠ (A.n : Int)
  · rw [if_pos hl] at h; cases h
  rw [if_neg hl] at h
  have hB := (Except.ok.inj h).symm
  subst hB
  exact classInv_labels A hA _ (by omega)

theorem foldl_set_length {α β : Type} (l : List β) (f : List α → β → Nat) (g : List α → β → α)
    (init : List α) :
    (l.foldl (fun a i => a.set (f a i) (g a i)) init).length = init.length := by
  induction l generalizing init with
  | nil => rfl
  | cons x xs ih => rw [List.foldl_cons, ih, List.length_set]

theorem resetAcceptStatesBools_inv (A B : DeterministicFiniteAutomaton) (hA : A.ClassInv)
    (acc : List Bool) (h : A.resetAcceptStatesBools acc = .ok B) : B.ClassInv := by
  unfold resetAcceptStatesBools at h
  by_cases hn : A.n = 0
  · rw [if_pos hn] at h; cases h
  rw [if_neg hn] at h
  by_cases hl : (acc.length : Int) ≠ (A.n : Int)
  · rw [if_pos hl] at h; cases h
  rw [if_neg hl] at h
  have hB := (Except.ok.inj h).symm
  subst hB
  refine classInv_labels A hA _ ?_
  rw [foldl_set_length (List.range A.n) (fun _ i => i)
    (fun _ i => if acc.getD i false = true then 1 else 0)]
  exact classInv_accept_length A hA

theorem storeUnchecked_length (v : List Nat) (ind : Int) (x : Nat) :
    (storeUnchecked v ind x).length = v.length := by
  unfold storeUnchecked
  split_ifs
  · rw [List.length_set]
  · rfl

theorem foldl_store_length (states : List Int) (init : List Nat) :
    (states.foldl (fun a ind => storeUnchecked a ind 1) init).length = init.length := by
  induction states generalizing init with
  | nil => rfl
  | cons x xs ih => rw [List.foldl_cons, ih, storeUnchecked_length]

theorem resetAcceptStatesIndices_inv (A B : DeterministicFiniteAutomaton) (hA : A.ClassInv)
    (states : List Int) (h : A.resetAcceptStatesIndices states = .ok B) : B.ClassInv := by
  unfold resetAcceptStatesIndices at h
  by_cases hn : A.n = 0
  · rw [if_pos hn] at h; cases h
  rw [if_neg hn] at h
  have hB := (Except.ok.inj h).symm
  subst hB
  have hc := clearAcceptStates_inv A hA false
  exact classInv_labels _ hc _ (by
    rw [foldl_store_length]; exact classInv_accept_length _ hc)

theorem eliminate_ok (A B : DeterministicFiniteAutomaton)
    (h : A.eliminateUnreachableStates = .ok B) :
    A.isComplete = true ∧ A.startStateIndex ≠ -1 := by
  unfold eliminateUnreachableStates at h
  cases hc : A.isComplete with
  | false => rw [hc, if_pos (by simp)] at h; cases h
  | true =>
    rw [hc, if_neg (by simp)] at h
    by_cases hs : A.startStateIndex = -1
    · rw [if_pos hs] at h; cases h
    · exact ⟨rfl, hs⟩

theorem minimize_ok (A B : DeterministicFiniteAutomaton) (h : A.minimize = .ok B) :
    A.isComplete = true ∧ A.startStateIndex ≠ -1 := by
  unfold minimize at h
  cases hc : A.isComplete with
  | false => rw [hc, if_pos (by simp)] at h; cases h
  | true =>
    rw [hc, if_neg (by simp)] at h
    by_cases hs : A.startStateIndex = -1
    · rw [if_pos hs] at h; cases h
    · exact ⟨rfl, hs⟩

theorem classInv_ready (A : DeterministicFiniteAutomaton) (hA : A.ClassInv)
    (hc : A.isComplete = true) (hs : A.startStateIndex ≠ -1) : A.Ready := by
  rcases hA with h | h
  · have := h.2.2.2.1
    rw [hc] at this
    cases this
  · exact ⟨h, hc, hs⟩

theorem eliminate_inv (A B : DeterministicFiniteAutomaton) (hA : A.ClassInv)
    (h : A.eliminateUnreachableStates = .ok B) : B.ClassInv := by
  obtain ⟨hc, hs⟩ := eliminate_ok A B h
  obtain ⟨F, hF, hFR, _⟩ := eliminate_spec A (classInv_ready A hA hc hs)
  have : B = F := Except.ok.inj (h.symm.trans hF)
  rw [this]; exact Or.inr hFR.1

theorem minimize_inv (A B : DeterministicFiniteAutomaton) (hA : A.ClassInv)
    (h : A.minimize = .ok B) : B.ClassInv := by
  obtain ⟨hc, hs⟩ := minimize_ok A B h
  obtain ⟨F, M, _, hM, _, hMR, _⟩ := minimize_spec A (classInv_ready A hA hc hs)
  have : B = M := Except.ok.inj (h.symm.trans hM)
  rw [this]; exact Or.inr hMR.1

theorem setTransition_inv (A B : DeterministicFiniteAutomaton) (hA : A.ClassInv)
    (hb : A.n * A.sig.siz < 2147483648) (this : Nat)
    (s t : State) (c : Int) (h : A.setTransition this s c t = .ok B) :
    B.ClassInv ∧ B.n * B.sig.siz < 2147483648 := by
  obtain ⟨hn, hm, hso, hto, hc, hsv, hs, ht⟩ := setTransition_ok A B this s t c h
  obtain ⟨B', hB', en, esig, _⟩ := setTransition_spec A this s t c hn hm hso hto hc hsv hs ht
  have hBB : B = B' := Except.ok.inj (h.symm.trans hB')
  refine ⟨Or.inr (setTransition_wf A B (classInv_sized A hA hn hm) hb this s t c h), ?_⟩
  rw [hBB, en, esig]
  exact hb

/-! ### The number of table cells under the other operations -/

theorem resetAlphabet_cells (A B : DeterministicFiniteAutomaton) (alph : Alphabet)
    (h : A.resetAlphabet alph = .ok B) : B.n * B.sig.siz = A.n * A.sig.siz := by
  unfold resetAlphabet at h
  split_ifs at h with h1 h2
  · cases h
    show A.n * alph.siz = A.n * A.sig.siz
    rw [h2]
  · cases h
    rfl

theorem setStartState_cells (A B : DeterministicFiniteAutomaton) (this : Nat) (state : State)
    (h : A.setStartState this state = .ok B) : B.n * B.sig.siz = A.n * A.sig.siz := by
  unfold setStartState at h
  simp only [] at h
  split_ifs at h
  cases h
  rfl

theorem flipStateAcceptance_cells (A B : DeterministicFiniteAutomaton) (this : Nat)
    (state : State) (h : A.flipStateAcceptance this state = .ok B) :
    B.n * B.sig.siz = A.n * A.sig.siz := by
  unfold flipStateAcceptance at h
  simp only [] at h
  split_ifs at h
  cases h
  rfl

theorem clearAcceptStates_cells (A : DeterministicFiniteAutomaton) (value : Bool) :
    (A.clearAcceptStates value).n * (A.clearAcceptStates value).sig.siz = A.n * A.sig.siz := by
  unfold clearAcceptStates
  split_ifs <;> rfl

theorem resetAcceptStatesBytes_cells (A B : DeterministicFiniteAutomaton) (acc : List Nat)
    (h : A.resetAcceptStatesBytes acc = .ok B) : B.n * B.sig.siz = A.n * A.sig.siz := by
  unfold resetAcceptStatesBytes at h
  split_ifs at h
  cases h
  rfl

theorem resetAcceptStatesBools_cells (A B : DeterministicFiniteAutomaton) (acc : List Bool)
    (h : A.resetAcceptStatesBools acc = .ok B) : B.n * B.sig.siz = A.n * A.sig.siz := by
  unfold resetAcceptStatesBools at h
  simp only [] at h
  split_ifs at h
  cases h
  rfl

theorem resetAcceptStatesIndices_cells (A B : DeterministicFiniteAutomaton) (states : List Int)
    (h : A.resetAcceptStatesIndices states = .ok B) : B.n * B.sig.siz = A.n * A.sig.siz := by
  unfold resetAcceptStatesIndices at h
  simp only [] at h
  split_ifs at h
  cases h
  exact clearAcceptStates_cells A false

/-- A map from `[0, n)` onto `[0, k)` shows `k ≤ n`. -/
theorem onto_le (f : Nat → Nat) (k n : Nat) (h : ∀ v, v < k → ∃ u, u < n ∧ f u = v) :
    k ≤ n := by
  have hsub : Finset.range k ⊆ (Finset.range n).image f := by
    intro v hv
    obtain ⟨u, hu, e⟩ := h v (Finset.mem_range.1 hv)
    exact Finset.mem_image.2 ⟨u, Finset.mem_range.2 hu, e⟩
  have h1 := Finset.card_le_card hsub
  have h2 : ((Finset.range n).image f).card ≤ (Finset.range n).card := Finset.card_image_le
  rw [Finset.card_range] at h1 h2
  omega

theorem eliminate_cells (A B : DeterministicFiniteAutomaton) (hA : A.ClassInv)
    (h : A.eliminateUnreachableStates = .ok B) : B.n * B.sig.siz ≤ A.n * A.sig.siz := by
  obtain ⟨hc, hs⟩ := eliminate_ok A B h
  have hR := classInv_ready A hA hc hs
  obtain ⟨F, hF, _, hsig, hn, _⟩ := eliminate_spec A hR
  have : B = F := Except.ok.inj (h.symm.trans hF)
  rw [this, hsig, hn]
  have hfl := reachableFlags_spec A hR
  exact Nat.mul_le_mul_right _ (flagSum_le _ hfl.2.1 A.n)

theorem minimize_cells (A B : DeterministicFiniteAutomaton) (hA : A.ClassInv)
    (h : A.minimize = .ok B) : B.n * B.sig.siz ≤ A.n * A.sig.siz := by
  obtain ⟨hc, hs⟩ := minimize_ok A B h
  obtain ⟨F, M, hF, hM, _, _, hsF, hsM, _, _, honto, _⟩ :=
    minimize_spec A (classInv_ready A hA hc hs)
  have : B = M := Except.ok.inj (h.symm.trans hM)
  rw [this]
  have h1 : M.n ≤ F.n := onto_le F.classOf M.n F.n honto
  have h2 := eliminate_cells A F hA hF
  rw [hsF] at h2
  rw [hsM]
  exact le_trans (Nat.mul_le_mul_right _ h1) h2

/-- Every automaton that the public operations produce satisfies the class invariant,
and its table has fewer than `2^31` cells. -/
theorem obtainable_inv (A : DeterministicFiniteAutomaton) (h : Obtainable A) :
    A.ClassInv ∧ A.n * A.sig.siz < 2147483648 := by
  induction h with
  | newUnbound => exact ⟨Or.inl (unallocated_new _), by show 0 * _ < _; omega⟩
  | new alph => exact ⟨Or.inl (unallocated_new alph), by show 0 * _ < _; omega⟩
  | setSize siz _ hb h ih => exact setSize_inv _ _ ih.1 siz hb h
  | setAlphabet alph _ hb h ih => exact setAlphabet_inv _ _ ih.1 alph hb h
  | resetAlphabet alph _ h ih =>
    exact ⟨resetAlphabet_inv _ _ ih.1 alph h, by rw [resetAlphabet_cells _ _ alph h]; exact ih.2⟩
  | clear _ _ => exact ⟨clear_inv _, by show 0 * _ < _; omega⟩
  | setStartState this state _ h ih =>
    exact ⟨setStartState_inv _ _ ih.1 this state h,
      by rw [setStartState_cells _ _ this state h]; exact ih.2⟩
  | setTransition this s c t _ h ih => exact setTransition_inv _ _ ih.1 ih.2 this s t c h
  | clearAcceptStates value _ ih =>
    exact ⟨clearAcceptStates_inv _ ih.1 value, by rw [clearAcceptStates_cells]; exact ih.2⟩
  | flipStateAcceptance this state _ h ih =>
    exact ⟨flipStateAcceptance_inv _ _ ih.1 this state h,
      by rw [flipStateAcceptance_cells _ _ this state h]; exact ih.2⟩
  | resetAcceptStatesBytes acc _ h ih =>
    exact ⟨resetAcceptStatesBytes_inv _ _ ih.1 acc h,
      by rw [resetAcceptStatesBytes_cells _ _ acc h]; exact ih.2⟩
  | resetAcceptStatesBools acc _ h ih =>
    exact ⟨resetAcceptStatesBools_inv _ _ ih.1 acc h,
      by rw [resetAcceptStatesBools_cells _ _ acc h]; exact ih.2⟩
  | resetAcceptStatesIndices states _ _ h ih =>
    exact ⟨resetAcceptStatesIndices_inv _ _ ih.1 states h,
      by rw [resetAcceptStatesIndices_cells _ _ states h]; exact ih.2⟩
  | eliminateUnreachableStates _ h ih =>
    exact ⟨eliminate_inv _ _ ih.1 h, lt_of_le_of_lt (eliminate_cells _ _ ih.1 h) ih.2⟩
  | minimize _ h ih =>
    exact ⟨minimize_inv _ _ ih.1 h, lt_of_le_of_lt (minimize_cells _ _ ih.1 h) ih.2⟩

/-- Every automaton that the public operations produce satisfies the class invariant. -/
theorem obtainable_classInv (A : DeterministicFiniteAutomaton) (h : Obtainable A) :
    A.ClassInv := (obtainable_inv A h).1

/-- `setSize(N)` on a fresh automaton over `alphabet_large`: the table has `N * 2^30`
entries `-1`, and the counter holds the 32-bit value of that product. -/
theorem setSize_large (N : Nat) (hN : 0 < N) :
    ∃ B, (new alphabet_large).setSize (N : Int) = .ok B ∧ B.size = N ∧
      B.sig = alphabet_large ∧ B.complete = false ∧
      B.transitions = List.replicate N (List.replicate 1073741824 (-1)) ∧
      emptyEdges B.transitions = N * 1073741824 ∧
      B.countEmptyTransitions = wrapInt32 ((N : Int) * 1073741824) :=
  ⟨_, setSize_new alphabet_large N hN (by decide), rfl, rfl, rfl, rfl,
    emptyEdges_replicate N 1073741824, rfl⟩

/-- The counter of an automaton with the class invariant counts the `-1` entries. -/
theorem classInv_counter (A : DeterministicFiniteAutomaton) (h : A.ClassInv) :
    A.countEmptyTransitions = (emptyEdges A.transitions : Int) := by
  rcases h with h | h
  · rw [h.2.2.1, h.2.1]; rfl
  · exact h.2.2.2.2.1

/-- In every automaton that the public operations produce with tables of fewer than
`2^31` cells, the counter is the number of `-1` entries of the table. -/
theorem obtainable_counter (A : DeterministicFiniteAutomaton) (h : Obtainable A) :
    A.countEmptyTransitions = (emptyEdges A.transitions : Int) :=
  classInv_counter A (obtainable_classInv A h)

end DeterministicFiniteAutomaton

end FiniteAutomata

namespace FiniteAutomata

namespace DeterministicFiniteAutomaton

/-! ## Accept labels -/

theorem storeUnchecked_get (v : List Nat) (ind : Int) (x : Nat)
    (h : 0 ≤ ind ∧ ind < (v.length : Int)) (i : Nat) :
    (storeUnchecked v ind x).getD i 0 = if (i : Int) = ind then x else v.getD i 0 := by
  unfold storeUnchecked
  rw [if_pos h, getD_set_lt _ _ _ _ _ (by omega)]
  by_cases e : i = ind.toNat
  · rw [if_pos e, if_pos (by omega)]
  · rw [if_neg e, if_neg (by omega)]

theorem foldl_store_get (states : List Int) (init : List Nat)
    (h : ∀ ind ∈ states, 0 ≤ ind ∧ ind < (init.length : Int)) (i : Nat) :
    (states.foldl (fun a ind => storeUnchecked a ind 1) init).getD i 0
      = if (i : Int) ∈ states then 1 else init.getD i 0 := by
  induction states generalizing init with
  | nil => simp
  | cons x xs ih =>
    have hx := h x (List.mem_cons_self _ _)
    rw [List.foldl_cons, ih (storeUnchecked init x 1) (by
      intro ind hind
      rw [storeUnchecked_length]
      exact h ind (List.mem_cons_of_mem _ hind)), storeUnchecked_get init x 1 hx i]
    by_cases h1 : (i : Int) ∈ xs
    · rw [if_pos h1, if_pos (List.mem_cons_of_mem _ h1)]
    · rw [if_neg h1]
      by_cases h2 : (i : Int) = x
      · rw [if_pos h2, if_pos (by rw [h2]; exact List.mem_cons_self _ _)]
      · rw [if_neg h2, if_neg (by
          intro hm
          rcases List.mem_cons.1 hm with e | e
          · exact h2 e
          · exact h1 e)]

/-- The index-list form of `resetAcceptStates` with indices inside `[0, n)`: exactly the
listed states get the label `1`, every other state the label `0`. -/
theorem resetIndices_spec (A : DeterministicFiniteAutomaton) (hn : A.n ≠ 0)
    (hacc : A.acceptStates.length = A.n) (states : List Int)
    (h : ∀ ind ∈ states, 0 ≤ ind ∧ ind < (A.n : Int)) :
    ∃ B, A.resetAcceptStatesIndices states = .ok B ∧ B.n = A.n ∧ B.sig = A.sig ∧
      B.transitions = A.transitions ∧ B.countEmptyTransitions = A.countEmptyTransitions ∧
      B.isComplete = A.isComplete ∧ B.startStateIndex = A.startStateIndex ∧
      B.acceptStates.length = A.n ∧
      ∀ i, i < A.n → B.acceptStates.getD i 0 = if (i : Int) ∈ states then 1 else 0 := by
  have hclear : A.clearAcceptStates false
      = { A with acceptStates := List.replicate A.acceptStates.length 0 } := by
    unfold clearAcceptStates
    rw [if_neg hn]
    rfl
  unfold resetAcceptStatesIndices
  rw [if_neg hn, hclear]
  refine ⟨_, rfl, rfl, rfl, rfl, rfl, rfl, rfl, ?_, ?_⟩
  · show (states.foldl (fun a ind => storeUnchecked a ind 1)
      (List.replicate A.acceptStates.length 0)).length = A.n
    rw [foldl_store_length, List.length_replicate, hacc]
  · intro i hi
    show (states.foldl (fun a ind => storeUnchecked a ind 1)
      (List.replicate A.acceptStates.length 0)).getD i 0 = _
    rw [foldl_store_get _ _ (by
      intro ind hind
      rw [List.length_replicate, hacc]
      exact h ind hind), getD_replicate _ _ _ _ (by omega)]

/-- The acceptance test on a valid state of a sized automaton. -/
theorem isAcceptState_valid (A : DeterministicFiniteAutomaton) (hn : A.n ≠ 0) (this i : Nat)
    (hi : i < A.n) :
    A.isAcceptState this { orig := this, ind := (i : Int), vali := true } = .ok (A.acc i) := by
  have hr : ¬ ((i : Int) < 0 ∨ (i : Int) ≥ (A.n : Int)) := by omega
  unfold isAcceptState
  rw [if_neg hn, if_neg (by simp)]
  simp only [State.index, Bool.not_true, Bool.false_eq_true, if_false, hr, Int.toNat_ofNat]
  rfl

/-- The acceptance test on an invalid state of a sized automaton is a fatal error. -/
theorem isAcceptState_invalid (A : DeterministicFiniteAutomaton) (hn : A.n ≠ 0) (this : Nat)
    (st : State) (ho : st.orig = this) (hv : st.vali = false) :
    A.isAcceptState this st = .error .invalidState := by
  unfold isAcceptState
  rw [if_neg hn, if_neg (by simp [ho]), hv, if_pos (by simp)]

/-- The flip writes `label xor 1` into the label of the state and nothing else. -/
theorem flip_spec (A : DeterministicFiniteAutomaton) (hn : A.n ≠ 0) (this i : Nat)
    (hi : i < A.n) :
    A.flipStateAcceptance this { orig := this, ind := (i : Int), vali := true }
      = .ok { A with acceptStates := A.acceptStates.set i (Nat.xor (A.acceptStates.getD i 0) 1) } := by
  have hr : ¬ ((i : Int) < 0 ∨ (i : Int) ≥ (A.n : Int)) := by omega
  unfold flipStateAcceptance
  rw [if_neg hn, if_neg (by simp)]
  simp only [State.index, Bool.not_true, Bool.false_eq_true, if_false, hr, Int.toNat_ofNat]

end DeterministicFiniteAutomaton

end FiniteAutomata

namespace FiniteAutomata

namespace DeterministicFiniteAutomaton

/-! ## Outcomes of the deriving operations and of `setSize` -/

theorem equivalenceClasses_complete (A : DeterministicFiniteAutomaton)
    (hc : A.isComplete = true) : A.equivalenceClasses = .ok A.equivalenceClassesHopcroft := by
  unfold equivalenceClasses
  rw [hc, if_neg (by simp)]

theorem setSize_notEmpty (A : DeterministicFiniteAutomaton) (siz : Int) (hn : A.n ≠ 0) :
    A.setSize siz = .error .notEmpty := by
  unfold setSize
  rw [if_pos hn]

theorem setSize_nonPositive (A : DeterministicFiniteAutomaton) (siz : Int) (hn : A.n = 0)
    (hk : siz ≤ 0) : A.setSize siz = .error .nonPositiveSize := by
  unfold setSize
  rw [if_neg (by simpa using hn), if_pos hk]

/-- `setSize` fails exactly on a sized automaton or a non-positive size; when it
succeeds the size is installed, every state is rejecting, and a second `setSize`
fails. -/
theorem setSize_outcomes (A : DeterministicFiniteAutomaton) (hA : A.ClassInv) (siz : Int) :
    ((∃ e, A.setSize siz = .error e) ↔ (A.size ≠ 0 ∨ siz ≤ 0)) ∧
    (A.size ≠ 0 → A.setSize siz = .error .notEmpty) ∧
    (A.size = 0 → 0 < siz → ∃ B, A.setSize siz = .ok B) ∧
    (∀ B, A.setSize siz = .ok B →
      (B.size : Int) = siz ∧ B.acceptStates = List.replicate B.size 0 ∧
      (∀ i, i < B.size → B.acc i = false) ∧
      ∀ siz2, B.setSize siz2 = .error .notEmpty) := by
  have hsucc : ∀ B, A.setSize siz = .ok B →
      (B.size : Int) = siz ∧ B.acceptStates = List.replicate B.size 0 ∧
      (∀ i, i < B.size → B.acc i = false) ∧
      ∀ siz2, B.setSize siz2 = .error .notEmpty := by
    intro B hB
    obtain ⟨hn, hk⟩ := setSize_ok A B siz hB
    obtain ⟨B', hB', en, _, eacc, _⟩ := setSize_spec A hA siz hn hk
    have hBB : B = B' := Except.ok.inj (hB.symm.trans hB')
    subst hBB
    have hsz : B.n = siz.toNat := by omega
    refine ⟨en, by rw [eacc]; show _ = List.replicate B.n 0; rw [hsz], ?_, ?_⟩
    · intro i hi
      have hi' : i < siz.toNat := by rw [← hsz]; exact hi
      unfold acc
      rw [eacc, getD_replicate _ _ _ _ hi']
      rfl
    · intro siz2
      exact setSize_notEmpty B siz2 (by omega)
  refine ⟨⟨?_, ?_⟩, fun hn => setSize_notEmpty A siz hn, ?_, hsucc⟩
  · rintro ⟨e, he⟩
    by_contra hne
    have hn : A.n = 0 := by
      by_contra hx
      exact hne (Or.inl hx)
    have hk : 0 < siz := by
      by_contra hx
      exact hne (Or.inr (by omega))
    obtain ⟨B, hB, _⟩ := setSize_spec A hA siz hn hk
    rw [hB] at he; cases he
  · intro h
    by_cases hn : A.n = 0
    · have hk : siz ≤ 0 := by
        rcases h with h | h
        · exact absurd hn h
        · exact h
      exact ⟨_, setSize_nonPositive A siz hn hk⟩
    · exact ⟨_, setSize_notEmpty A siz hn⟩
  · intro hn hk
    obtain ⟨B, hB, _⟩ := setSize_spec A hA siz hn hk
    exact ⟨B, hB⟩

/-! ## The class map as a homomorphism onto the minimized automaton -/

/-- A vector whose values are exactly the numbers below `k` has `k` distinct values. -/
theorem dedup_length_of_range (c : List Int) (k : Nat)
    (hr : ∀ x ∈ c, 0 ≤ x ∧ x < (k : Int)) (ho : ∀ v, v < k → (v : Int) ∈ c) :
    c.dedup.length = k := by
  have hperm : c.dedup.Perm ((List.range k).map (fun v : Nat => (v : Int))) := by
    refine (List.perm_ext_iff_of_nodup (List.nodup_dedup c) ?_).2 ?_
    · exact (List.nodup_range k).map (fun a b h => by
        have : (a : Int) = (b : Int) := h
        omega)
    · intro a
      rw [List.mem_dedup, List.mem_map]
      constructor
      · intro ha
        have := hr a ha
        exact ⟨a.toNat, List.mem_range.2 (by omega), by omega⟩
      · rintro ⟨v, hv, rfl⟩
        exact ho v (List.mem_range.1 hv)
  rw [hperm.length_eq, List.length_map, List.length_range]

/-- The stored accept label of a state of `minimize(A)` is the stored label of a member of
the class: its representative. -/
theorem minimize_label_bytes (A : DeterministicFiniteAutomaton) (h : A.Ready) :
    ∃ F M, A.eliminateUnreachableStates = .ok F ∧ A.minimize = .ok M ∧
      ∀ v, v < M.n → ∃ r, r < F.n ∧ F.equivalenceClassesHopcroft.getD r 0 = (v : Int) ∧
        M.acceptStates.getD v 0 = F.acceptStates.getD r 0 := by
  obtain ⟨F, hF, hFR, hsig, _⟩ := eliminate_spec A h
  obtain ⟨hlen, k, hk, hrange, honto, _⟩ := hopcroft_spec F hFR.1 hFR.2.1
  have hmax := maxElement_eq _ F.n k hlen hFR.1.1 hrange honto hk
  have hM := minimize_eq A F h hF hFR k hk hmax
  obtain ⟨_, hrep⟩ := buildRepresent_spec F.n k _ hrange honto
  obtain ⟨_, hav⟩ := quotientAccepts_spec F k (buildRepresent F.n F.equivalenceClassesHopcroft k)
  refine ⟨F, _, hF, hM, ?_⟩
  intro v hv
  have hv' : v < k := hv
  obtain ⟨r1, r2, r3⟩ := hrep v hv'
  exact ⟨_, by omega, r3, hav v hv'⟩

/-- The class vector `c` of the filtered automaton `F` maps `F` onto `minimize(A)`, for
every state of `F`. -/
theorem minimize_classes (A : DeterministicFiniteAutomaton) (h : A.Ready) :
    ∃ F c M, A.eliminateUnreachableStates = .ok F ∧ F.equivalenceClasses = .ok c ∧
      A.minimize = .ok M ∧ M.size = c.dedup.length ∧ c.length = F.size ∧
      (∀ u, u < F.size → 0 ≤ c.getD u 0 ∧ c.getD u 0 < (M.size : Int)) ∧
      (∀ v, v < M.size → ∃ u, u < F.size ∧ c.getD u 0 = (v : Int)) ∧
      (∀ u a, u < F.size → a < A.sig.siz →
        F.step u a < F.size ∧ M.tr (c.getD u 0).toNat a = c.getD (F.step u a) 0) ∧
      (∀ u, u < F.size → M.acc (c.getD u 0).toNat = F.acc u) ∧
      (∀ v, v < M.size → ∃ r, r < F.size ∧ c.getD r 0 = (v : Int) ∧
        M.acceptStates.getD v 0 = F.acceptStates.getD r 0) ∧
      ((∀ i, i < F.size → F.acceptStates.getD i 0 ≤ 1) → ∀ u, u < F.size →
        M.acceptStates.getD (c.getD u 0).toNat 0 = F.acceptStates.getD u 0) ∧
      M.startStateIndex = c.getD F.startStateIndex.toNat 0 := by
  obtain ⟨F, M, hF, hM, hFR, hMR, hFs, hMs, hcl, hlt, honto, _, hstep, hacc, hstart⟩ :=
    minimize_spec A h
  have hbytes : ∀ v, v < M.n → ∃ r, r < F.n ∧ F.equivalenceClassesHopcroft.getD r 0 = (v : Int) ∧
      M.acceptStates.getD v 0 = F.acceptStates.getD r 0 := by
    obtain ⟨F', M', hF', hM', hb⟩ := minimize_label_bytes A h
    have e1 : F = F' := Except.ok.inj (hF.symm.trans hF')
    have e2 : M = M' := Except.ok.inj (hM.symm.trans hM')
    rw [e1, e2]; exact hb
  have hlen := (hopcroft_spec F hFR.1 hFR.2.1).1
  have hrange : ∀ u, u < F.n → 0 ≤ F.equivalenceClassesHopcroft.getD u 0 ∧
      F.equivalenceClassesHopcroft.getD u 0 < (M.n : Int) := by
    intro u hu
    rw [hcl u hu]
    have := hlt u hu
    omega
  refine ⟨F, F.equivalenceClassesHopcroft, M, hF, equivalenceClasses_complete F hFR.2.1, hM,
    ?_, hlen, hrange, ?_, ?_, hacc, hbytes, ?_, ?_⟩
  · symm
    apply dedup_length_of_range
    · intro x hx
      obtain ⟨i, hi, rfl⟩ := List.getElem_of_mem hx
      have hi' : i < F.n := by rw [← hlen]; exact hi
      have := hrange i hi'
      rw [List.getD_eq_getElem?_getD, List.getElem?_eq_getElem hi] at this
      exact this
    · intro v hv
      obtain ⟨u, hu, e⟩ := honto v hv
      have := hcl u hu
      rw [e] at this
      rw [← this]
      exact getD_mem _ u 0 (by rw [hlen]; exact hu)
  · intro v hv
    obtain ⟨u, hu, e⟩ := honto v hv
    exact ⟨u, hu, by rw [hcl u hu, e]⟩
  · intro u a hu ha
    have hsl : F.step u a < F.n := step_lt F hFR.1 hFR.2.1 u a hu (by rw [hFs]; exact ha)
    refine ⟨hsl, ?_⟩
    have hc1 : (F.equivalenceClassesHopcroft.getD u 0).toNat = F.classOf u := rfl
    rw [hc1, tr_eq_step M hMR.1 hMR.2.1 _ a (hlt u hu) (by rw [hMs]; exact ha),
      hstep u a hu ha, hcl _ hsl]
  · intro hbit u hu
    obtain ⟨r, hr, _, e⟩ := hbytes (F.classOf u) (hlt u hu)
    have h1 := hacc u hu
    have h2 := hbit u hu
    have h3 := hbit r hr
    have hc1 : (F.equivalenceClassesHopcroft.getD u 0).toNat = F.classOf u := rfl
    rw [hc1]
    unfold acc at h1
    rw [e] at h1 ⊢
    by_cases z1 : F.acceptStates.getD r 0 = 0
    · by_cases z2 : F.acceptStates.getD u 0 = 0
      · omega
      · rw [z1, bne_iff_ne.2 z2] at h1
        exact absurd h1 (by decide)
    · by_cases z2 : F.acceptStates.getD u 0 = 0
      · rw [z2, bne_iff_ne.2 z1] at h1
        exact absurd h1 (by decide)
      · omega
  · rw [hstart, hcl _ (start_lt F hFR)]

end DeterministicFiniteAutomaton

end FiniteAutomata

namespace FiniteAutomata

namespace DeterministicFiniteAutomaton

/-! ## Sample values -/

theorem sampleBuilt_obtainable : Obtainable sampleBuilt :=
  Obtainable.setTransition 7 { orig := 7, ind := 0, vali := true } 48
    { orig := 7, ind := 1, vali := true }
    (Obtainable.setSize 2 (Obtainable.new alphabet_01) (by decide) rfl) rfl

theorem sampleByteLabel_obtainable : Obtainable sampleByteLabel :=
  Obtainable.resetAcceptStatesBytes [2]
    (Obtainable.setSize 1 (Obtainable.new alphabet_01) (by decide) rfl) rfl

/-- Two owned states with the same index are the same state reference, when the first
is valid. -/
theorem owns_index_eq (A : DeterministicFiniteAutomaton) (this : Nat) (s s' : State)
    (hs : A.Owns this s) (hsv : s.vali = true) (hs' : A.Owns this s')
    (h : s'.index = s.index) : s' = s := by
  have hsr : 0 ≤ s.ind := by
    have := hs.2; rw [hsv] at this; simp at this; exact this.1
  have hsi : s.index = s.ind := by simp [State.index, hsv]
  cases hv' : s'.vali with
  | false =>
    have : s'.index = -1 := by simp [State.index, hv']
    omega
  | true =>
    have hsi' : s'.index = s'.ind := by simp [State.index, hv']
    cases s with
    | mk o i v =>
      cases s' with
      | mk o' i' v' =>
        have e1 : o = this := hs.1
        have e2 : o' = this := hs'.1
        have e3 : i' = i := by
          rw [hsi', hsi] at h
          exact h
        have e4 : v = true := hsv
        have e5 : v' = true := hv'
        rw [e1, e2, e3, e4, e5]

end DeterministicFiniteAutomaton

end FiniteAutomata

namespace FiniteAutomata

namespace DeterministicFiniteAutomaton

/-! ## The class ids are numbered by first occurrence -/

/-- The fast path of `equivalenceClassesHopcroft`. -/
theorem hopcroft_fast (A : DeterministicFiniteAutomaton)
    (h : (∀ i, i < A.n → A.acc i = true) ∨ (∀ i, i < A.n → A.acc i = false)) :
    equivalenceClassesHopcroft A = List.replicate A.n 0 := by
  have hfast : ((List.range A.n).all (fun i => A.acceptStates.getD i 0 != 0)
      || (List.range A.n).all (fun i => A.acceptStates.getD i 0 == 0)) = true := by
    rw [Bool.or_eq_true]
    rcases h with h | h
    · left
      rw [List.all_eq_true]
      intro i hi
      exact h i (List.mem_range.1 hi)
    · right
      rw [List.all_eq_true]
      intro i hi
      have := h i (List.mem_range.1 hi)
      unfold acc at this
      cases hb : (A.acceptStates.getD i 0 == 0) with
      | true => rfl
      | false =>
        have hne : A.acceptStates.getD i 0 ≠ 0 := by
          intro e
          rw [e] at hb
          exact absurd hb (by decide)
        rw [bne_iff_ne.2 hne] at this
        exact absurd this (by decide)
  unfold equivalenceClassesHopcroft
  simp only [hfast, if_true]

/-- The general case of `equivalenceClassesHopcroft`. -/
theorem hopcroft_general (A : DeterministicFiniteAutomaton)
    (hacc : ∃ i, i < A.n ∧ A.acc i = true) (hrej : ∃ i, i < A.n ∧ A.acc i = false) :
    equivalenceClassesHopcroft A = labelAll A.n
      (refineLoop A.sig.siz (buildInvTr A) (A.n * A.sig.siz) (hopcroftInit A)) := by
  have hfast : ((List.range A.n).all (fun i => A.acceptStates.getD i 0 != 0)
      || (List.range A.n).all (fun i => A.acceptStates.getD i 0 == 0)) = false := by
    rw [Bool.or_eq_false_iff]
    obtain ⟨i, hi, ha⟩ := hacc
    obtain ⟨j, hj, hr⟩ := hrej
    constructor
    · rw [Bool.eq_false_iff]
      intro hall
      rw [List.all_eq_true] at hall
      have : A.acc j = true := hall j (List.mem_range.2 hj)
      rw [hr] at this
      exact absurd this (by decide)
    · rw [Bool.eq_false_iff]
      intro hall
      rw [List.all_eq_true] at hall
      have h1 := hall i (List.mem_range.2 hi)
      rw [beq_iff_eq] at h1
      unfold acc at ha
      rw [h1] at ha
      exact absurd ha (by decide)
  unfold equivalenceClassesHopcroft
  simp only [hfast, Bool.false_eq_true, if_false]

/-- Either every state has the same acceptance, or there is an accepting and a rejecting
state. -/
theorem fast_or_general (A : DeterministicFiniteAutomaton) :
    ((∀ i, i < A.n → A.acc i = true) ∨ (∀ i, i < A.n → A.acc i = false)) ∨
    ((∃ i, i < A.n ∧ A.acc i = true) ∧ (∃ i, i < A.n ∧ A.acc i = false)) := by
  by_cases h1 : ∀ i, i < A.n → A.acc i = true
  · exact Or.inl (Or.inl h1)
  · by_cases h2 : ∀ i, i < A.n → A.acc i = false
    · exact Or.inl (Or.inr h2)
    · right
      push_neg at h1 h2
      obtain ⟨i, hi, e1⟩ := h1
      obtain ⟨j, hj, e2⟩ := h2
      refine ⟨⟨j, hj, ?_⟩, ⟨i, hi, ?_⟩⟩
      · cases hb : A.acc j with
        | true => rfl
        | false => exact absurd hb e2
      · cases hb : A.acc i with
        | false => rfl
        | true => exact absurd hb e1

/-- The numbering loop gives the number `0` first and each later number to a state
that comes after a state with the number before. -/
theorem labelAll_first (n : Nat) (st : HopcroftState) (h0 : PartInv n st) (_hn : 0 < n) :
    ∀ x, x < n → 0 < (labelAll n st).getD x (-1) →
      ∃ j, j < x ∧ (labelAll n st).getD j (-1) = (labelAll n st).getD x (-1) - 1 := by
  have hinit : LabelInv n st 0 (List.replicate n (-1), 0) :=
    { len := by simp, cntNonneg := Int.le_refl 0,
      labelled := fun x hx => by
        rw [getD_replicate _ _ _ _ hx]
        exact ⟨fun hh => absurd rfl hh, fun ⟨i', hi', _⟩ => absurd hi' (Nat.not_lt_zero _)⟩,
      range := fun x hx hne => by rw [getD_replicate _ _ _ _ hx] at hne; exact absurd rfl hne,
      same := fun x y hx hy hne => by
        rw [getD_replicate _ _ _ _ hx] at hne; exact absurd rfl hne,
      onto := fun v h1 h2 => by omega }
  have key := foldl_range_inv (labelStep st)
    (fun i S => LabelInv n st i S ∧
      (∀ x, x < n → 0 < S.1.getD x (-1) → ∃ j, j < x ∧ S.1.getD j (-1) = S.1.getD x (-1) - 1) ∧
      (0 < S.2 → ∃ j, j < i ∧ S.1.getD j (-1) = S.2 - 1)) n
    (List.replicate n (-1), 0)
    ⟨hinit,
      fun x hx hpos => by
        rw [getD_replicate _ _ _ _ hx] at hpos
        omega,
      fun hpos => by
        have : (0 : Int) < 0 := hpos
        omega⟩
    (by
      intro i S hi hQ
      obtain ⟨hJ, hprev, htop⟩ := hQ
      refine ⟨labelStep_inv n st h0 i hi S hJ, ?_⟩
      by_cases e : S.1.getD i (-1) ≠ -1
      · have hR : labelStep st S i = S := by unfold labelStep; rw [if_pos e]
        rw [hR]
        refine ⟨hprev, fun hpos => ?_⟩
        obtain ⟨j, hj, ej⟩ := htop hpos
        exact ⟨j, by omega, ej⟩
      · have hR : labelStep st S i = (labelClass st (st.bel i) S.2 S.1, S.2 + 1) := by
          unfold labelStep; rw [if_neg e]; rfl
        rw [hR]
        have hnone : ∀ i', i' < i → st.bel i' ≠ st.bel i := by
          intro i' hi' hb
          exact e ((hJ.labelled i hi).2 ⟨i', hi', hb⟩)
        obtain ⟨hl, hv⟩ := labelClass_spec n st h0 (st.bel i) (h0.belLt i hi) S.2 S.1 hJ.len
        have hcn := hJ.cntNonneg
        -- a state below `i` keeps its number
        have hkeep : ∀ j, j < i →
            (labelClass st (st.bel i) S.2 S.1).getD j (-1) = S.1.getD j (-1) := by
          intro j hj
          rw [hv j (by omega), if_neg (hnone j hj)]
        -- a member of the class of `i` is not below `i`
        have hmem : ∀ x, x < n → st.bel x = st.bel i → i ≤ x := by
          intro x _ hb
          by_contra hlt
          exact hnone x (by omega) hb
        refine ⟨?_, ?_⟩
        · intro x hx hpos
          show ∃ j, j < x ∧ (labelClass st (st.bel i) S.2 S.1).getD j (-1)
            = (labelClass st (st.bel i) S.2 S.1).getD x (-1) - 1
          rw [hv x hx] at hpos ⊢
          by_cases e2 : st.bel x = st.bel i
          · rw [if_pos e2] at hpos ⊢
            obtain ⟨j, hj, ej⟩ := htop hpos
            have := hmem x hx e2
            exact ⟨j, by omega, by rw [hkeep j hj]; exact ej⟩
          · rw [if_neg e2] at hpos ⊢
            obtain ⟨j, hj, ej⟩ := hprev x hx hpos
            refine ⟨j, hj, ?_⟩
            rw [hv j (by omega)]
            by_cases e3 : st.bel j = st.bel i
            · -- then `j` is unnumbered in `S`, against `ej`
              exfalso
              have hjn : S.1.getD j (-1) = -1 := by
                by_contra hne
                obtain ⟨i', hi', hb'⟩ := (hJ.labelled j (by omega)).1 hne
                exact hnone i' hi' (by rw [hb', e3])
              omega
            · rw [if_neg e3]; exact ej
        · intro _
          refine ⟨i, Nat.lt_succ_self i, ?_⟩
          show (labelClass st (st.bel i) S.2 S.1).getD i (-1) = S.2 + 1 - 1
          rw [hv i hi, if_pos rfl]
          omega)
  generalize hS : (List.range n).foldl (labelStep st) (List.replicate n (-1), 0) = S at key
  have hret : labelAll n st = S.1 := by unfold labelAll; rw [hS]
  rw [hret]
  exact key.2.1

/-- The vector of `equivalenceClassesHopcroft` is numbered by first occurrence: state
`0` has the id `0`, and the id of a later state is at most one more than the id of some
earlier state. -/
theorem hopcroft_first (A : DeterministicFiniteAutomaton) (h : A.WellFormed)
    (hc : A.isComplete = true) :
    (equivalenceClassesHopcroft A).getD 0 0 = 0 ∧
    ∀ i, 0 < i → i < A.n → ∃ j, j < i ∧
      (equivalenceClassesHopcroft A).getD i 0 ≤ (equivalenceClassesHopcroft A).getD j 0 + 1 := by
  have hn : 0 < A.n := h.1
  obtain ⟨hlen, k, hk, hrange, _, _⟩ := hopcroft_spec A h hc
  have hpred : ∀ x, x < A.n → 0 < (equivalenceClassesHopcroft A).getD x 0 →
      ∃ j, j < x ∧ (equivalenceClassesHopcroft A).getD j 0
        = (equivalenceClassesHopcroft A).getD x 0 - 1 := by
    rcases fast_or_general A with hf | ⟨hacc, hrej⟩
    · intro x hx hpos
      rw [hopcroft_fast A hf, getD_replicate _ _ _ _ hx] at hpos
      omega
    · obtain ⟨hL0, _⟩ := hopcroftInit_inv A h hacc hrej
      have hE := hopcroft_general A hacc hrej
      have hP : PartInv A.n
          (refineLoop A.sig.siz (buildInvTr A) (A.n * A.sig.siz) (hopcroftInit A)) := by
        obtain ⟨hL0, hfuel⟩ := hopcroftInit_inv A h hacc hrej
        exact (refineLoop_inv A h hc _ _ hL0 hfuel).1.part
      have hfirst := labelAll_first A.n _ hP hn
      have hl := (labelAll_spec A.n _ hP hn).1
      intro x hx hpos
      rw [hE] at hpos ⊢
      rw [getD_default _ x 0 (-1) (by rw [hl]; exact hx)] at hpos ⊢
      obtain ⟨j, hj, ej⟩ := hfirst x hx hpos
      exact ⟨j, hj, by rw [getD_default _ j 0 (-1) (by rw [hl]; omega)]; exact ej⟩
  have h00 : (equivalenceClassesHopcroft A).getD 0 0 = 0 := by
    by_contra hne
    have := hrange 0 hn
    obtain ⟨j, hj, _⟩ := hpred 0 hn (by omega)
    omega
  refine ⟨h00, ?_⟩
  intro i hi0 hin
  by_cases hz : (equivalenceClassesHopcroft A).getD i 0 = 0
  · exact ⟨0, hi0, by rw [hz, h00]; omega⟩
  · have := hrange i hin
    obtain ⟨j, hj, ej⟩ := hpred i hin (by omega)
    exact ⟨j, hj, by omega⟩

end DeterministicFiniteAutomaton

end FiniteAutomata

namespace FiniteAutomata

namespace DeterministicFiniteAutomaton

theorem sampleTwoLabels_obtainable : Obtainable sampleTwoLabels :=
  Obtainable.resetAcceptStatesBytes [1, 2]
    (Obtainable.setStartState 7 { orig := 7, ind := 0, vali := true }
      (Obtainable.setTransition 7 { orig := 7, ind := 1, vali := true } 49
        { orig := 7, ind := 1, vali := true }
        (Obtainable.setTransition 7 { orig := 7, ind := 1, vali := true } 48
          { orig := 7, ind := 0, vali := true }
          (Obtainable.setTransition 7 { orig := 7, ind := 0, vali := true } 49
            { orig := 7, ind := 0, vali := true }
            (Obtainable.setTransition 7 { orig := 7, ind := 0, vali := true } 48
              { orig := 7, ind := 1, vali := true }
              (Obtainable.setSize 2 (Obtainable.new alphabet_01) (by decide) rfl) rfl) rfl) rfl) rfl) rfl)
    rfl

end DeterministicFiniteAutomaton

end FiniteAutomata

namespace FiniteAutomata

namespace DeterministicFiniteAutomaton

/-! ## Checked accesses succeed inside the vector -/

end DeterministicFiniteAutomaton

end FiniteAutomata

namespace FiniteAutomata

namespace DeterministicFiniteAutomaton

/-! ## `Split`, checked -/

end DeterministicFiniteAutomaton

end FiniteAutomata

namespace FiniteAutomata

namespace DeterministicFiniteAutomaton

/-! ## The predecessor scan and the pushes, checked -/

end DeterministicFiniteAutomaton

end FiniteAutomata

namespace FiniteAutomata

namespace DeterministicFiniteAutomaton

/-! ## One round of the refinement loop, checked -/

end DeterministicFiniteAutomaton

end FiniteAutomata

namespace FiniteAutomata

namespace DeterministicFiniteAutomaton

/-! ## The state on entry of the loop, checked -/

end DeterministicFiniteAutomaton

end FiniteAutomata

namespace FiniteAutomata

namespace DeterministicFiniteAutomaton

end DeterministicFiniteAutomaton

end FiniteAutomata

/-! ## Properties of the specification -/

namespace FiniteAutomata

namespace DeterministicFiniteAutomaton

/-- C1: for a complete automaton `A` with a start state and every string `s` of alphabet
symbols, of any length, `minimize` succeeds and the driver expression
`start().transition(s).accept()` returns without error the same truth value on `A`
and on `minimize(A)`. -/
theorem minimize_preserves_acceptance (A : DeterministicFiniteAutomaton) (hA : A.Ready)
    (s : List Int) (hs : ∀ c ∈ s, A.sig.Has c) (this that : Nat) :
    ∃ M, A.minimize = .ok M ∧ ∃ b, A.accepts this s = .ok b ∧ M.accepts that s = .ok b :=
  minimize_accepts A hA s hs this that

theorem minimize_preserves_acceptance_witness :
    sampleAutomaton.Ready ∧ (∀ c ∈ [(48 : Int), 49, 49, 48], sampleAutomaton.sig.Has c) ∧
    ∃ M, sampleAutomaton.minimize = .ok M ∧
      ∃ b, sampleAutomaton.accepts 0 [48, 49, 49, 48] = .ok b ∧
        M.accepts 1 [48, 49, 49, 48] = .ok b :=
  ⟨by decide, by decide,
    minimize_preserves_acceptance sampleAutomaton (by decide) [48, 49, 49, 48] (by decide) 0 1⟩

/-- C2: for a complete automaton `A` with a start state, `minimize` succeeds with an
automaton `M` that is minimal: every state of `M` is reachable from the start state of
`M`, and any two distinct states of `M` are told apart by a word. The state of `M`
reached on a word is the merged state (`mergedState`) of the state of `A` reached on
it, and two reachable states of `A` with the same accept label whose successors on
every symbol are merged, are merged themselves. -/
theorem minimize_is_minimal (A : DeterministicFiniteAutomaton) (hA : A.Ready) :
    ∃ M, A.minimize = .ok M ∧ M.Ready ∧ M.sig = A.sig ∧
      (∀ v, v < M.size → M.Reach v) ∧
      (∀ v v', v < M.size → v' < M.size → v ≠ v' →
        ∃ w : List Nat, (∀ a ∈ w, a < M.sig.siz) ∧
          M.acc (M.run v w) ≠ M.acc (M.run v' w)) ∧
      (∀ w, (∀ a ∈ w, a < A.sig.siz) →
        M.run M.startStateIndex.toNat w
          = A.mergedState (A.run A.startStateIndex.toNat w)) ∧
      (∀ u, A.Reach u → A.mergedState u < M.size) ∧
      (∀ u v, A.Reach u → A.Reach v → A.acc u = A.acc v →
        (∀ a, a < A.sig.siz →
          A.mergedState (A.step u a) = A.mergedState (A.step v a)) →
        A.mergedState u = A.mergedState v) :=
  minimize_minimal A hA

theorem minimize_is_minimal_witness :
    sampleAutomaton.Ready ∧
    ∃ M, sampleAutomaton.minimize = .ok M ∧ M.Ready ∧ M.sig = sampleAutomaton.sig ∧
      (∀ v, v < M.size → M.Reach v) ∧
      (∀ v v', v < M.size → v' < M.size → v ≠ v' →
        ∃ w : List Nat, (∀ a ∈ w, a < M.sig.siz) ∧
          M.acc (M.run v w) ≠ M.acc (M.run v' w)) ∧
      (∀ w, (∀ a ∈ w, a < sampleAutomaton.sig.siz) →
        M.run M.startStateIndex.toNat w
          = sampleAutomaton.mergedState
              (sampleAutomaton.run sampleAutomaton.startStateIndex.toNat w)) ∧
      (∀ u, sampleAutomaton.Reach u → sampleAutomaton.mergedState u < M.size) ∧
      (∀ u v, sampleAutomaton.Reach u → sampleAutomaton.Reach v →
        sampleAutomaton.acc u = sampleAutomaton.acc v →
        (∀ a, a < sampleAutomaton.sig.siz →
          sampleAutomaton.mergedState (sampleAutomaton.step u a)
            = sampleAutomaton.mergedState (sampleAutomaton.step v a)) →
        sampleAutomaton.mergedState u = sampleAutomaton.mergedState v) :=
  ⟨by decide, minimize_is_minimal sampleAutomaton (by decide)⟩

/-- C3: on a complete automaton with `n` states (a start state is not needed,
unreachable states are allowed) `equivalenceClasses` succeeds, and two states get the
same class id if and only if no word of length at most `n` tells them apart. -/
theorem equivalenceClasses_iff_bounded_words (A : DeterministicFiniteAutomaton)
    (hA : A.WellFormed) (hc : A.complete = true) (p q : Nat) (hp : p < A.size)
    (hq : q < A.size) :
    ∃ eqv, A.equivalenceClasses = .ok eqv ∧
      (eqv.getD p 0 = eqv.getD q 0 ↔ A.NerodeUpTo A.size p q) := by
  refine ⟨A.equivalenceClassesHopcroft, ?_, ?_⟩
  · have hc' : A.isComplete = true := hc
    unfold equivalenceClasses
    rw [hc']
    rfl
  · obtain ⟨_, k, _, _, _, hiff⟩ := hopcroft_spec A hA hc
    rw [hiff p q hp hq]
    exact nerode_iff_upTo A hA hc p q hp hq

theorem equivalenceClasses_iff_bounded_words_witness :
    sampleAutomaton.WellFormed ∧ sampleAutomaton.complete = true ∧ 0 < sampleAutomaton.size ∧
    3 < sampleAutomaton.size ∧
    ∃ eqv, sampleAutomaton.equivalenceClasses = .ok eqv ∧
      (eqv.getD 0 0 = eqv.getD 3 0 ↔ sampleAutomaton.NerodeUpTo sampleAutomaton.size 0 3) :=
  ⟨by decide, by decide, by decide, by decide,
    equivalenceClasses_iff_bounded_words sampleAutomaton (by decide) (by decide) 0 3
      (by decide) (by decide)⟩

/-- C4: for a complete automaton `A` with a start state and every string `s` of alphabet
symbols, `eliminateUnreachableStates` succeeds, its result has at most as many states
as `A`, and the driver expression returns the same truth value on both. -/
theorem eliminate_preserves_acceptance (A : DeterministicFiniteAutomaton) (hA : A.Ready)
    (s : List Int) (hs : ∀ c ∈ s, A.sig.Has c) (this that : Nat) :
    ∃ F, A.eliminateUnreachableStates = .ok F ∧ F.size ≤ A.size ∧
      ∃ b, A.accepts this s = .ok b ∧ F.accepts that s = .ok b :=
  eliminate_accepts A hA s hs this that

theorem eliminate_preserves_acceptance_witness :
    sampleAutomaton.Ready ∧ (∀ c ∈ [(49 : Int), 48], sampleAutomaton.sig.Has c) ∧
    ∃ F, sampleAutomaton.eliminateUnreachableStates = .ok F ∧ F.size ≤ sampleAutomaton.size ∧
      ∃ b, sampleAutomaton.accepts 0 [49, 48] = .ok b ∧ F.accepts 1 [49, 48] = .ok b :=
  ⟨by decide, by decide,
    eliminate_preserves_acceptance sampleAutomaton (by decide) [49, 48] (by decide) 0 1⟩

/-- C5: for a complete automaton `A` with a start state, the result of
`eliminateUnreachableStates` consists of the reachable states of `A` renumbered by the
vector `map` (`renumber`): the map is strictly increasing on the reachable states and
onto the new states, and it carries transitions, accept labels and the start state. -/
theorem eliminate_renumbers_reachable (A : DeterministicFiniteAutomaton) (hA : A.Ready) :
    ∃ F, A.eliminateUnreachableStates = .ok F ∧
      (∀ u v, A.Reach u → A.Reach v → u < v → A.renumber u < A.renumber v) ∧
      (∀ u, A.Reach u → A.renumber u < F.size) ∧
      (∀ k, k < F.size → ∃ u, A.Reach u ∧ A.renumber u = k) ∧
      (∀ u a, A.Reach u → a < A.sig.siz →
        F.tr (A.renumber u) a = (A.renumber (A.step u a) : Int)) ∧
      (∀ u, A.Reach u → F.acceptStates.getD (A.renumber u) 0 = A.acceptStates.getD u 0) ∧
      F.startStateIndex = (A.renumber A.startStateIndex.toNat : Int) := by
  obtain ⟨F, hF, _, _, hn, htr, hacc, hstart⟩ := eliminate_spec A hA
  have hs := reachableFlags_spec A hA
  refine ⟨F, hF, ?_, ?_, ?_, fun u a hu ha => htr u hu a ha, hacc, hstart⟩
  · intro u v hu _ huv
    exact flagSum_lt _ u v ((hs.2.2 u).2 hu) huv
  · intro u hu
    show A.renumber u < F.n
    rw [hn]
    exact renumber_lt A hA u hu
  · intro k hk
    have hk' : k < A.renumber A.n := by rw [← hn]; exact hk
    obtain ⟨u, _, hr, e⟩ := flagSum_surj _ hs.2.1 A.n k hk'
    exact ⟨u, (hs.2.2 u).1 hr, e⟩

theorem eliminate_renumbers_reachable_witness :
    sampleAutomaton.Ready ∧
    ∃ F, sampleAutomaton.eliminateUnreachableStates = .ok F ∧
      (∀ u v, sampleAutomaton.Reach u → sampleAutomaton.Reach v → u < v →
        sampleAutomaton.renumber u < sampleAutomaton.renumber v) ∧
      (∀ u, sampleAutomaton.Reach u → sampleAutomaton.renumber u < F.size) ∧
      (∀ k, k < F.size → ∃ u, sampleAutomaton.Reach u ∧ sampleAutomaton.renumber u = k) ∧
      (∀ u a, sampleAutomaton.Reach u → a < sampleAutomaton.sig.siz →
        F.tr (sampleAutomaton.renumber u) a
          = (sampleAutomaton.renumber (sampleAutomaton.step u a) : Int)) ∧
      (∀ u, sampleAutomaton.Reach u →
        F.acceptStates.getD (sampleAutomaton.renumber u) 0
          = sampleAutomaton.acceptStates.getD u 0) ∧
      F.startStateIndex
        = (sampleAutomaton.renumber sampleAutomaton.startStateIndex.toNat : Int) :=
  ⟨by decide, eliminate_renumbers_reachable sampleAutomaton (by decide)⟩

/-- C6: for a complete automaton `A` with a start state, the result of
`eliminateUnreachableStates` has at least one state, `complete()` is true on it, and
every entry of its `size × m` transition table is a state index, none is `-1`. -/
theorem eliminate_result_complete (A : DeterministicFiniteAutomaton) (hA : A.Ready) :
    ∃ F, A.eliminateUnreachableStates = .ok F ∧ 1 ≤ F.size ∧ F.complete = true ∧
      F.countEmptyTransitions = 0 ∧ F.transitions.length = F.size ∧
      ∀ row ∈ F.transitions, row.length = A.sig.siz ∧
        ∀ v ∈ row, 0 ≤ v ∧ v < (F.size : Int) ∧ v ≠ -1 := by
  obtain ⟨F, hF, hFR, hsig, _⟩ := eliminate_spec A hA
  obtain ⟨⟨hn, _, hlen, hrows, hcnt, hiff, _⟩, hc, _⟩ := hFR
  have h0 : emptyEdges F.transitions = 0 := by
    have := hiff.1 hc
    rw [hcnt] at this
    exact_mod_cast this
  refine ⟨F, hF, hn, hc, hiff.1 hc, hlen, ?_⟩
  intro row hrow
  refine ⟨by rw [← hsig]; exact (hrows row hrow).1, ?_⟩
  intro v hv
  have h1 := (hrows row hrow).2 v hv
  have h2 : v ≠ -1 := fun e => emptyEdges_zero _ h0 row hrow (e ▸ hv)
  refine ⟨by omega, h1.2, h2⟩

theorem eliminate_result_complete_witness :
    sampleAutomaton.Ready ∧
    ∃ F, sampleAutomaton.eliminateUnreachableStates = .ok F ∧ 1 ≤ F.size ∧
      F.complete = true ∧ F.countEmptyTransitions = 0 ∧ F.transitions.length = F.size ∧
      ∀ row ∈ F.transitions, row.length = sampleAutomaton.sig.siz ∧
        ∀ v ∈ row, 0 ≤ v ∧ v < (F.size : Int) ∧ v ≠ -1 :=
  ⟨by decide, eliminate_result_complete sampleAutomaton (by decide)⟩

/-- C7: for a complete automaton `A` with a start state, `minimize(A)` and
`minimize(minimize(A))` both succeed and have the same number of states. -/
theorem minimize_twice_same_size (A : DeterministicFiniteAutomaton) (hA : A.Ready) :
    ∃ M M2, A.minimize = .ok M ∧ M.minimize = .ok M2 ∧ M2.size = M.size :=
  minimize_idempotent A hA

theorem minimize_twice_same_size_witness :
    sampleAutomaton.Ready ∧
    ∃ M M2, sampleAutomaton.minimize = .ok M ∧ M.minimize = .ok M2 ∧ M2.size = M.size :=
  ⟨by decide, minimize_twice_same_size sampleAutomaton (by decide)⟩

set_option maxRecDepth 1000000 in
/-- C8, as stated, fails at `k = 10`: the driver builds the ten-state automaton of the
multiples of 10, and `minimize` returns an automaton with 2 states, not 10. -/
theorem multiples_of_ten_minimized_to_two :
    ∃ A M, multiplesAutomaton 0 10 = .ok A ∧ A.size = 10 ∧ A.minimize = .ok M ∧
      M.size = 2 ∧ M.size ≠ 10 := by
  have hsz : ((multiplesRecord 10).minimize >>= fun B => pure B.size)
      = (.ok 2 : Except Err Nat) := by decide
  cases hM : (multiplesRecord 10).minimize with
  | error e => simp [bind, Except.bind, hM] at hsz
  | ok M =>
    rw [hM] at hsz
    have h2 : M.size = 2 := Except.ok.inj hsz
    exact ⟨multiplesRecord 10, M, multiplesAutomaton_eq 0 10 (by decide), rfl, hM, h2,
      by omega⟩

set_option maxRecDepth 1000000 in
/-- C8, amended: for the automaton of the multiples of `k` built by the driver (at any
address), `minimize` returns exactly `k` states for `k = 1, 3, 7` and exactly 2 states
for `k = 10`. -/
theorem multiples_minimized_sizes (this : Nat) :
    minimizedSize this 1 = .ok 1 ∧ minimizedSize this 3 = .ok 3 ∧
    minimizedSize this 7 = .ok 7 ∧ minimizedSize this 10 = .ok 2 := by
  refine ⟨?_, ?_, ?_, ?_⟩
  · exact (minimizedSize_record this 1 (by decide)).trans (by decide)
  · exact (minimizedSize_record this 3 (by decide)).trans (by decide)
  · exact (minimizedSize_record this 7 (by decide)).trans (by decide)
  · exact (minimizedSize_record this 10 (by decide)).trans (by decide)

/-- C9: for every `k ≥ 1` and every `i ≥ 1` (in particular `1 ≤ i ≤ 33k`) the driver
builds the automaton `A` of the multiples of `k`, `minimize(A)` succeeds, and on both
automata `start().transition(to_string(i))` is a valid state on which `accept()`
returns the truth value of `i mod k == 0`. -/
theorem multiples_acceptance (k i : Nat) (hk : 1 ≤ k) (_hi : 1 ≤ i) (this that : Nat) :
    ∃ A M, multiplesAutomaton this (k : Int) = .ok A ∧ A.minimize = .ok M ∧
      (∃ s0 st, A.start this = .ok s0 ∧ A.transitionSeq this s0 (decimalString i) = .ok st ∧
        st.vali = true ∧ A.isAcceptState this st = .ok (decide (i % k = 0))) ∧
      (∃ s0 st, M.start that = .ok s0 ∧ M.transitionSeq that s0 (decimalString i) = .ok st ∧
        st.vali = true ∧ M.isAcceptState that st = .ok (decide (i % k = 0))) := by
  obtain ⟨A, M, hA, hM, h1, h2⟩ := multiples_decides this that k i hk
  exact ⟨A, M, hA, hM, accepts_ok_valid A this _ _ h1, accepts_ok_valid M that _ _ h2⟩

theorem multiples_acceptance_witness :
    1 ≤ 3 ∧ 1 ≤ 12 ∧
    ∃ A M, multiplesAutomaton 0 ((3 : Nat) : Int) = .ok A ∧ A.minimize = .ok M ∧
      (∃ s0 st, A.start 0 = .ok s0 ∧ A.transitionSeq 0 s0 (decimalString 12) = .ok st ∧
        st.vali = true ∧ A.isAcceptState 0 st = .ok (decide (12 % 3 = 0))) ∧
      (∃ s0 st, M.start 1 = .ok s0 ∧ M.transitionSeq 1 s0 (decimalString 12) = .ok st ∧
        st.vali = true ∧ M.isAcceptState 1 st = .ok (decide (12 % 3 = 0))) :=
  ⟨by decide, by decide, multiples_acceptance 3 12 (by decide) (by decide) 0 1⟩

/-- C10: on a sized automaton bound to an alphabet, for a state reference that belongs to
it (valid or invalid) and symbols of the alphabet, neither form of `transition` raises
an error; the result is the state reference of the path that `follow` computes (the
invalid state from the invalid state or after a missing edge, else the state the table
leads to); the sequence form is the iteration of the one-symbol form, and the empty
sequence returns the input state. -/
theorem transition_trap_semantics (A : DeterministicFiniteAutomaton) (hA : A.WellFormed)
    (this : Nat) (st : State) (hst : A.Owns this st) (symbols : List Int)
    (hs : ∀ c ∈ symbols, A.sig.Has c) :
    (∀ c, A.sig.Has c →
      A.transition this st c = .ok (stateOf this (follow A (posOf st) [A.sig.idOf c]))) ∧
    A.transitionSeq this st symbols
      = .ok (stateOf this (follow A (posOf st) (symbols.map A.sig.idOf))) ∧
    (st.vali = false →
      A.transitionSeq this st symbols = .ok { orig := this, ind := -1, vali := false }) ∧
    A.transitionSeq this st symbols = symbols.foldlM (A.transition this) st ∧
    A.transitionSeq this st [] = .ok st := by
  refine ⟨fun c hc => transition_follow A hA this st hst c hc,
    transitionSeq_follow A hA this st hst symbols hs, ?_,
    transitionSeq_foldlM A hA this symbols hs st hst, ?_⟩
  · intro hv
    rw [transitionSeq_follow A hA this st hst symbols hs]
    have hp : posOf st = none := by simp [posOf, hv]
    have hf : follow A none (symbols.map A.sig.idOf) = none := by
      cases symbols.map A.sig.idOf <;> rfl
    rw [hp, hf]
    rfl
  · rw [transitionSeq_foldlM A hA this [] (by simp) st hst]
    rfl

theorem transition_trap_semantics_witness :
    sampleIncomplete.WellFormed ∧
    sampleIncomplete.Owns 7 { orig := 7, ind := 0, vali := true } ∧
    (∀ c ∈ [(48 : Int), 48, 49], sampleIncomplete.sig.Has c) ∧
    ((∀ c, sampleIncomplete.sig.Has c →
      sampleIncomplete.transition 7 { orig := 7, ind := 0, vali := true } c
        = .ok (stateOf 7 (follow sampleIncomplete (posOf { orig := 7, ind := 0, vali := true })
            [sampleIncomplete.sig.idOf c]))) ∧
    sampleIncomplete.transitionSeq 7 { orig := 7, ind := 0, vali := true } [48, 48, 49]
      = .ok (stateOf 7 (follow sampleIncomplete (posOf { orig := 7, ind := 0, vali := true })
          ([(48 : Int), 48, 49].map sampleIncomplete.sig.idOf))) ∧
    (({ orig := 7, ind := 0, vali := true } : State).vali = false →
      sampleIncomplete.transitionSeq 7 { orig := 7, ind := 0, vali := true } [48, 48, 49]
        = .ok { orig := 7, ind := -1, vali := false }) ∧
    sampleIncomplete.transitionSeq 7 { orig := 7, ind := 0, vali := true } [48, 48, 49]
      = [(48 : Int), 48, 49].foldlM
          (sampleIncomplete.transition 7) { orig := 7, ind := 0, vali := true } ∧
    sampleIncomplete.transitionSeq 7 { orig := 7, ind := 0, vali := true } []
      = .ok { orig := 7, ind := 0, vali := true }) :=
  ⟨by decide, by decide, by decide,
    transition_trap_semantics sampleIncomplete (by decide) 7 { orig := 7, ind := 0, vali := true }
      (by decide) [48, 48, 49] (by decide)⟩

end DeterministicFiniteAutomaton

end FiniteAutomata

namespace FiniteAutomata

namespace DeterministicFiniteAutomaton

/-- C11, as stated, fails: in the sized automaton `sampleIncomplete` the edge of state `0`
on the symbol `1` is missing, `transition` returns the invalid state, and so does
`start()`; `isAcceptState` on that state raises the fatal error `State is invalid`, it
does not return `false`. -/
theorem accept_of_invalid_state_is_no_value :
    sampleIncomplete.transition 7 { orig := 7, ind := 0, vali := true } 49
      = .ok { orig := 7, ind := -1, vali := false } ∧
    sampleIncomplete.start 7 = .ok { orig := 7, ind := -1, vali := false } ∧
    sampleIncomplete.isAcceptState 7 { orig := 7, ind := -1, vali := false }
      = .error .invalidState ∧
    sampleIncomplete.isAcceptState 7 { orig := 7, ind := -1, vali := false } ≠ .ok false := by
  decide

/-- C11, amended: on a sized automaton the acceptance test (`isAcceptState`, and
`State::accept` which calls it) applied to an invalid state of the automaton raises the
fatal error `State is invalid`; in particular so does the test on `start()` when no
start state is set. -/
theorem accept_of_invalid_state_is_fatal (A : DeterministicFiniteAutomaton) (hn : 0 < A.size)
    (this : Nat) (st : State) (ho : st.orig = this) (hv : st.vali = false) :
    A.isAcceptState this st = .error .invalidState ∧
    A.stateAccept st = .error .invalidState ∧
    (A.startStateIndex = -1 →
      ∃ s0, A.start this = .ok s0 ∧ s0.vali = false ∧
        A.isAcceptState this s0 = .error .invalidState) := by
  have hn' : A.n ≠ 0 := by
    have : 0 < A.n := hn
    omega
  refine ⟨isAcceptState_invalid A hn' this st ho hv, ?_, ?_⟩
  · exact isAcceptState_invalid A hn' st.orig st rfl hv
  · intro hs
    refine ⟨{ orig := this, ind := -1, vali := false }, ?_, rfl,
      isAcceptState_invalid A hn' this _ rfl rfl⟩
    unfold start invalid
    rw [if_neg hn', if_pos hs, if_neg hn']

theorem accept_of_invalid_state_is_fatal_witness :
    0 < sampleIncomplete.size ∧ ({ orig := 7, ind := -1, vali := false } : State).orig = 7 ∧
    ({ orig := 7, ind := -1, vali := false } : State).vali = false ∧
    (sampleIncomplete.isAcceptState 7 { orig := 7, ind := -1, vali := false }
      = .error .invalidState ∧
    sampleIncomplete.stateAccept { orig := 7, ind := -1, vali := false }
      = .error .invalidState ∧
    (sampleIncomplete.startStateIndex = -1 →
      ∃ s0, sampleIncomplete.start 7 = .ok s0 ∧ s0.vali = false ∧
        sampleIncomplete.isAcceptState 7 s0 = .error .invalidState)) :=
  ⟨by decide, rfl, rfl,
    accept_of_invalid_state_is_fatal sampleIncomplete (by decide) 7
      { orig := 7, ind := -1, vali := false } rfl rfl⟩

/-- C12: on a sized automaton bound to an alphabet, for a valid state `s`, a symbol `a` of
the alphabet and a target `t` of the same automaton (valid or invalid), `setTransition`
succeeds; afterwards `transition(s, a)` returns `t`, the transition of every other pair
of a state and a symbol id is what it was (so of every other pair of a state and a
symbol, when distinct symbols have distinct ids), and the accept labels, the start state
and the size are unchanged. -/
theorem setTransition_then_transition (A : DeterministicFiniteAutomaton) (hA : A.WellFormed)
    (this : Nat) (s t : State) (hs : A.Owns this s) (hsv : s.vali = true)
    (ht : A.Owns this t) (a : Int) (ha : A.sig.Has a) :
    ∃ B, A.setTransition this s a t = .ok B ∧
      B.transition this s a = .ok t ∧
      (∀ s' a', A.Owns this s' → A.sig.Has a' →
        (s'.index ≠ s.index ∨ A.sig.idOf a' ≠ A.sig.idOf a) →
        B.transition this s' a' = A.transition this s' a') ∧
      ((∀ c c', A.sig.Has c → A.sig.Has c' → A.sig.idOf c = A.sig.idOf c' → c = c') →
        ∀ s' a', A.Owns this s' → A.sig.Has a' → (s' ≠ s ∨ a' ≠ a) →
          B.transition this s' a' = A.transition this s' a') ∧
      (∀ u j, (u ≠ s.ind.toNat ∨ j ≠ A.sig.idOf a) → B.tr u j = A.tr u j) ∧
      B.acceptStates = A.acceptStates ∧ B.startStateIndex = A.startStateIndex ∧
      B.size = A.size := by
  obtain ⟨B, hB, h1, h2, h3, h4, h5, h6, _⟩ :=
    setTransition_frame A hA this s t hs hsv ht a ha
  refine ⟨B, hB, h1, h2, ?_, h3, h4, h5, h6⟩
  intro hinj s' a' hs' ha' hne
  apply h2 s' a' hs' ha'
  by_cases e : A.sig.idOf a' = A.sig.idOf a
  · left
    have ea : a' = a := hinj a' a ha' ha e
    intro hi
    have hss : s' = s := owns_index_eq A this s s' hs hsv hs' hi
    rcases hne with h | h
    · exact h hss
    · exact h ea
  · exact Or.inr e

theorem setTransition_then_transition_witness :
    sampleIncomplete.WellFormed ∧
    sampleIncomplete.Owns 7 { orig := 7, ind := 0, vali := true } ∧
    ({ orig := 7, ind := 0, vali := true } : State).vali = true ∧
    sampleIncomplete.Owns 7 { orig := 7, ind := 1, vali := true } ∧
    sampleIncomplete.sig.Has 49 ∧
    ∃ B, sampleIncomplete.setTransition 7 { orig := 7, ind := 0, vali := true } 49
        { orig := 7, ind := 1, vali := true } = .ok B ∧
      B.transition 7 { orig := 7, ind := 0, vali := true } 49
        = .ok { orig := 7, ind := 1, vali := true } ∧
      (∀ s' a', sampleIncomplete.Owns 7 s' → sampleIncomplete.sig.Has a' →
        (s'.index ≠ ({ orig := 7, ind := 0, vali := true } : State).index ∨
          sampleIncomplete.sig.idOf a' ≠ sampleIncomplete.sig.idOf 49) →
        B.transition 7 s' a' = sampleIncomplete.transition 7 s' a') ∧
      ((∀ c c', sampleIncomplete.sig.Has c → sampleIncomplete.sig.Has c' →
          sampleIncomplete.sig.idOf c = sampleIncomplete.sig.idOf c' → c = c') →
        ∀ s' a', sampleIncomplete.Owns 7 s' → sampleIncomplete.sig.Has a' →
          (s' ≠ { orig := 7, ind := 0, vali := true } ∨ a' ≠ 49) →
          B.transition 7 s' a' = sampleIncomplete.transition 7 s' a') ∧
      (∀ u j, (u ≠ ({ orig := 7, ind := 0, vali := true } : State).ind.toNat ∨
          j ≠ sampleIncomplete.sig.idOf 49) → B.tr u j = sampleIncomplete.tr u j) ∧
      B.acceptStates = sampleIncomplete.acceptStates ∧
      B.startStateIndex = sampleIncomplete.startStateIndex ∧
      B.size = sampleIncomplete.size :=
  ⟨by decide, by decide, rfl, by decide, by decide,
    setTransition_then_transition sampleIncomplete (by decide) 7
      { orig := 7, ind := 0, vali := true } { orig := 7, ind := 1, vali := true }
      (by decide) rfl (by decide) 49 (by decide)⟩

/-- C13 at a table of `2^31` cells: after `DFA A(alphabet_large); A.setSize(2);`, with
an alphabet of `2^30` symbols, the table has `2147483648` entries `-1` and the 32-bit
counter `countEmptyTransitions`, assigned `n * m`, holds `-2147483648`. With the
two-symbol alphabet `alphabet_01` the same calls give the counter `4` for the four
entries `-1`. -/
theorem counter_overflows_on_large_table :
    (∃ B, (new alphabet_large).setSize 2 = .ok B ∧ B.size = 2 ∧ B.sig.siz = 1073741824 ∧
      B.transitions = List.replicate 2 (List.replicate 1073741824 (-1)) ∧
      emptyEdges B.transitions = 2147483648 ∧
      B.countEmptyTransitions = -2147483648 ∧
      B.countEmptyTransitions ≠ (emptyEdges B.transitions : Int)) ∧
    (∃ B, (new alphabet_01).setSize 2 = .ok B ∧ emptyEdges B.transitions = 4 ∧
      B.countEmptyTransitions = 4) := by
  obtain ⟨B, hB, hn, hsig, _, htr, he, hc⟩ := setSize_large 2 (by decide)
  have hc2 : B.countEmptyTransitions = -2147483648 := by rw [hc]; decide
  refine ⟨⟨B, hB, hn, by rw [hsig]; rfl, htr, he, hc2, ?_⟩, ⟨_, rfl, by decide, by decide⟩⟩
  rw [hc2, he]
  decide

/-- C14, as stated, fails on a freshly constructed automaton: its counter is `0` and
`complete()` is false. It fails as well on the sized automaton that
`DFA A(alphabet_large); A.setSize(4);` builds: all `2^32` entries of its table are `-1`,
the 32-bit counter holds `0`, and `complete()` is false. -/
theorem counter_zero_not_complete :
    (Obtainable (new alphabet_01) ∧ (new alphabet_01).countEmptyTransitions = 0 ∧
      (new alphabet_01).complete = false ∧
      ¬ ((new alphabet_01).complete = true ↔ (new alphabet_01).countEmptyTransitions = 0)) ∧
    (∃ B, (new alphabet_large).setSize 4 = .ok B ∧ B.size = 4 ∧ B.sig.siz = 1073741824 ∧
      emptyEdges B.transitions = 4294967296 ∧ B.countEmptyTransitions = 0 ∧
      B.complete = false ∧
      ¬ (B.complete = true ↔ B.countEmptyTransitions = 0)) := by
  obtain ⟨B, hB, hn, hsig, hcomp, _, he, hc⟩ := setSize_large 4 (by decide)
  have hc2 : B.countEmptyTransitions = 0 := by rw [hc]; decide
  refine ⟨⟨Obtainable.new alphabet_01, rfl, rfl, by decide⟩,
    ⟨B, hB, hn, by rw [hsig]; rfl, he, hc2, hcomp, ?_⟩⟩
  rw [hcomp, hc2]
  decide

/-- C14, amended: in every automaton that the public operations produce while no table
of `2^31` or more cells is allocated, `complete()` true implies that the counter is
`0`; on a sized automaton bound to an alphabet `complete()` is true if and only if the
counter is `0`; an unsized or alphabet-less automaton has the counter `0` and
`complete()` false. -/
theorem complete_iff_counter_zero_when_allocated (A : DeterministicFiniteAutomaton)
    (h : Obtainable A) :
    A.size * A.sig.siz < 2147483648 ∧
    (A.complete = true → A.countEmptyTransitions = 0) ∧
    (0 < A.size → 0 < A.sig.siz → (A.complete = true ↔ A.countEmptyTransitions = 0)) ∧
    ((A.size = 0 ∨ A.sig.siz = 0) → A.countEmptyTransitions = 0 ∧ A.complete = false) := by
  obtain ⟨hinv, hfit⟩ := obtainable_inv A h
  refine ⟨hfit, ?_⟩
  rcases hinv with hU | hW
  · obtain ⟨h0, _, hc, hi, _⟩ := hU
    refine ⟨fun _ => hc, ?_, fun _ => ⟨hc, hi⟩⟩
    intro hn hm
    have hn' : 0 < A.n := hn
    omega
  · obtain ⟨h0, hm0, _, _, _, hiff, _⟩ := hW
    refine ⟨hiff.1, fun _ _ => hiff, ?_⟩
    intro hz
    have : A.n = 0 ∨ A.sig.siz = 0 := hz
    omega

theorem complete_iff_counter_zero_when_allocated_witness :
    Obtainable sampleBuilt ∧
    (sampleBuilt.size * sampleBuilt.sig.siz < 2147483648 ∧
    (sampleBuilt.complete = true → sampleBuilt.countEmptyTransitions = 0) ∧
    (0 < sampleBuilt.size → 0 < sampleBuilt.sig.siz →
      (sampleBuilt.complete = true ↔ sampleBuilt.countEmptyTransitions = 0)) ∧
    ((sampleBuilt.size = 0 ∨ sampleBuilt.sig.siz = 0) →
      sampleBuilt.countEmptyTransitions = 0 ∧ sampleBuilt.complete = false)) :=
  ⟨sampleBuilt_obtainable,
    complete_iff_counter_zero_when_allocated sampleBuilt sampleBuilt_obtainable⟩

/-- C15: on a sized automaton with `n` states, whatever its accept labels, and for a
list `L` of indices all in `[0, n)`, the index-list form of `resetAcceptStates`
succeeds, and afterwards the acceptance test of state `i` returns true if and only if
`i` occurs in `L`. -/
theorem resetAcceptStates_marks_exactly (A : DeterministicFiniteAutomaton) (hA : A.ClassInv)
    (hn : 0 < A.size) (L : List Int) (hL : ∀ ind ∈ L, 0 ≤ ind ∧ ind < (A.size : Int))
    (this : Nat) :
    ∃ B, A.resetAcceptStatesIndices L = .ok B ∧ B.size = A.size ∧
      ∀ i, i < A.size →
        B.isAcceptState this { orig := this, ind := (i : Int), vali := true }
          = .ok (decide ((i : Int) ∈ L)) := by
  have hn' : A.n ≠ 0 := by
    have : 0 < A.n := hn
    omega
  obtain ⟨B, hB, en, _, _, _, _, _, _, hget⟩ :=
    resetIndices_spec A hn' (classInv_accept_length A hA) L hL
  refine ⟨B, hB, en, ?_⟩
  intro i hi
  rw [isAcceptState_valid B (by rw [en]; exact hn') this i (by rw [en]; exact hi)]
  unfold acc
  rw [hget i hi]
  by_cases hm : (i : Int) ∈ L
  · rw [if_pos hm]; simp [hm]
  · rw [if_neg hm]; simp [hm]

theorem resetAcceptStates_marks_exactly_witness :
    sampleIncomplete.ClassInv ∧ 0 < sampleIncomplete.size ∧
    (∀ ind ∈ [(0 : Int)], 0 ≤ ind ∧ ind < (sampleIncomplete.size : Int)) ∧
    ∃ B, sampleIncomplete.resetAcceptStatesIndices [0] = .ok B ∧
      B.size = sampleIncomplete.size ∧
      ∀ i, i < sampleIncomplete.size →
        B.isAcceptState 7 { orig := 7, ind := (i : Int), vali := true }
          = .ok (decide ((i : Int) ∈ [(0 : Int)])) :=
  ⟨by decide, by decide, by decide,
    resetAcceptStates_marks_exactly sampleIncomplete (by decide) (by decide) [0] (by decide) 7⟩

/-- C16 at a label installed by the byte-vector bulk set: the one-state automaton
`sampleByteLabel` carries the byte `2`, state `0` is accepting, and after
`flipStateAcceptance` the byte is `3` and state `0` is still accepting. -/
theorem flip_on_byte_label_keeps_acceptance :
    Obtainable sampleByteLabel ∧
    sampleByteLabel.isAcceptState 0 { orig := 0, ind := 0, vali := true } = .ok true ∧
    ∃ B, sampleByteLabel.flipStateAcceptance 0 { orig := 0, ind := 0, vali := true } = .ok B ∧
      B.acceptStates = [3] ∧
      B.isAcceptState 0 { orig := 0, ind := 0, vali := true } = .ok true :=
  ⟨sampleByteLabel_obtainable, by decide, _, rfl, rfl, by decide⟩

/-- C18: `setSize(k)` ends in a fatal error if and only if the automaton is already
sized or `k ≤ 0`; a successful `setSize(k)` yields size `k` with every accept label
`0`, and any further `setSize` on the result fails with the `already sized` error. -/
theorem setSize_fails_iff (A : DeterministicFiniteAutomaton) (hA : A.ClassInv) (k : Int) :
    ((∃ e, A.setSize k = .error e) ↔ (A.size ≠ 0 ∨ k ≤ 0)) ∧
    (A.size ≠ 0 → A.setSize k = .error .notEmpty) ∧
    (A.size = 0 → 0 < k → ∃ B, A.setSize k = .ok B) ∧
    (∀ B, A.setSize k = .ok B →
      (B.size : Int) = k ∧ B.acceptStates = List.replicate B.size 0 ∧
      (∀ i, i < B.size → B.acc i = false) ∧
      ∀ k2, B.setSize k2 = .error .notEmpty) :=
  setSize_outcomes A hA k

theorem setSize_fails_iff_witness :
    (new alphabet_01).ClassInv ∧
    (((∃ e, (new alphabet_01).setSize 3 = .error e)
      ↔ ((new alphabet_01).size ≠ 0 ∨ (3 : Int) ≤ 0)) ∧
    ((new alphabet_01).size ≠ 0 → (new alphabet_01).setSize 3 = .error .notEmpty) ∧
    ((new alphabet_01).size = 0 → (0 : Int) < 3 → ∃ B, (new alphabet_01).setSize 3 = .ok B) ∧
    (∀ B, (new alphabet_01).setSize 3 = .ok B →
      (B.size : Int) = 3 ∧ B.acceptStates = List.replicate B.size 0 ∧
      (∀ i, i < B.size → B.acc i = false) ∧
      ∀ k2, B.setSize k2 = .error .notEmpty)) :=
  ⟨by decide, setSize_fails_iff (new alphabet_01) (by decide) 3⟩

/-- C19 at an index outside `[0, n)`: on the two-state automaton `sampleIncomplete`,
`getState(5)` raises the index error, while the index-list form of `resetAcceptStates`
called with the list `{5}` raises no error. -/
theorem resetAcceptStates_index_list_unchecked :
    sampleIncomplete.getState 7 5 = .error .indexOutOfRange ∧
    (∃ B, sampleIncomplete.resetAcceptStatesIndices [5] = .ok B) ∧
    ∀ e, sampleIncomplete.resetAcceptStatesIndices [5] ≠ .error e :=
  ⟨by decide, ⟨_, rfl⟩, fun e h => by cases h⟩

/-- C20: for a complete automaton `A` with a start state, with `F` the result of
`eliminateUnreachableStates`, `c` the class vector of `F` and `M` the result of
`minimize`: `M` has as many states as `c` has distinct values, and `c` maps `F` onto
`M` as a homomorphism at every state `u` of `F`: the transition of `M` from `c[u]` on
a symbol is `c` of the successor of `u`, the acceptance of `c[u]` in `M` is that of `u`
in `F` (the stored label of `c[u]` is that of a member of the class, hence that of `u`
when the labels are `0` or `1`), and the start state of `M` is `c` of the start state
of `F`. -/
theorem class_map_is_homomorphism (A : DeterministicFiniteAutomaton) (hA : A.Ready) :
    ∃ F c M, A.eliminateUnreachableStates = .ok F ∧ F.equivalenceClasses = .ok c ∧
      A.minimize = .ok M ∧ M.size = c.dedup.length ∧ c.length = F.size ∧
      (∀ u, u < F.size → 0 ≤ c.getD u 0 ∧ c.getD u 0 < (M.size : Int)) ∧
      (∀ v, v < M.size → ∃ u, u < F.size ∧ c.getD u 0 = (v : Int)) ∧
      (∀ u a, u < F.size → a < A.sig.siz →
        F.step u a < F.size ∧ M.tr (c.getD u 0).toNat a = c.getD (F.step u a) 0) ∧
      (∀ u, u < F.size → M.acc (c.getD u 0).toNat = F.acc u) ∧
      (∀ v, v < M.size → ∃ r, r < F.size ∧ c.getD r 0 = (v : Int) ∧
        M.acceptStates.getD v 0 = F.acceptStates.getD r 0) ∧
      ((∀ i, i < F.size → F.acceptStates.getD i 0 ≤ 1) → ∀ u, u < F.size →
        M.acceptStates.getD (c.getD u 0).toNat 0 = F.acceptStates.getD u 0) ∧
      M.startStateIndex = c.getD F.startStateIndex.toNat 0 :=
  minimize_classes A hA

theorem class_map_is_homomorphism_witness :
    sampleAutomaton.Ready ∧
    ∃ F c M, sampleAutomaton.eliminateUnreachableStates = .ok F ∧
      F.equivalenceClasses = .ok c ∧ sampleAutomaton.minimize = .ok M ∧
      M.size = c.dedup.length ∧ c.length = F.size ∧
      (∀ u, u < F.size → 0 ≤ c.getD u 0 ∧ c.getD u 0 < (M.size : Int)) ∧
      (∀ v, v < M.size → ∃ u, u < F.size ∧ c.getD u 0 = (v : Int)) ∧
      (∀ u a, u < F.size → a < sampleAutomaton.sig.siz →
        F.step u a < F.size ∧ M.tr (c.getD u 0).toNat a = c.getD (F.step u a) 0) ∧
      (∀ u, u < F.size → M.acc (c.getD u 0).toNat = F.acc u) ∧
      (∀ v, v < M.size → ∃ r, r < F.size ∧ c.getD r 0 = (v : Int) ∧
        M.acceptStates.getD v 0 = F.acceptStates.getD r 0) ∧
      ((∀ i, i < F.size → F.acceptStates.getD i 0 ≤ 1) → ∀ u, u < F.size →
        M.acceptStates.getD (c.getD u 0).toNat 0 = F.acceptStates.getD u 0) ∧
      M.startStateIndex = c.getD F.startStateIndex.toNat 0 :=
  ⟨by decide, class_map_is_homomorphism sampleAutomaton (by decide)⟩

end DeterministicFiniteAutomaton

end FiniteAutomata

namespace FiniteAutomata

namespace DeterministicFiniteAutomaton

/-- C21 at label bytes installed by the byte-vector bulk set: on the complete automaton
`sampleTwoLabels`, whose two states are accepting with the bytes `1` and `2`,
`equivalenceClassesHopcroft` returns `[0, 0]` (its fast path, every state accepting)
and `equivalenceClassesTableFilling`, whose marking loop has ended, returns `[0, 1]`.
With the labels `1` and `1` on the same automaton, and on `sampleAutomaton` whose
labels are `0` or `1`, the two functions return the same vector. -/
theorem hopcroft_and_table_filling_differ :
    Obtainable sampleTwoLabels ∧ sampleTwoLabels.Ready ∧
    sampleTwoLabels.equivalenceClassesHopcroft = [0, 0] ∧
    (fillFinal sampleTwoLabels).head = (fillFinal sampleTwoLabels).tail ∧
    sampleTwoLabels.equivalenceClassesTableFilling = [0, 1] ∧
    sampleTwoLabels.equivalenceClassesHopcroft
      ≠ sampleTwoLabels.equivalenceClassesTableFilling ∧
    equivalenceClassesHopcroft { sampleTwoLabels with acceptStates := [1, 1] }
      = equivalenceClassesTableFilling { sampleTwoLabels with acceptStates := [1, 1] } ∧
    sampleAutomaton.equivalenceClassesHopcroft
      = sampleAutomaton.equivalenceClassesTableFilling :=
  ⟨sampleTwoLabels_obtainable, by decide, by decide, by decide, by decide, by decide,
    by decide, by decide⟩

/-- C22: on a complete automaton with `n` states `equivalenceClasses` returns a vector
of length `n` whose values are exactly the ids `0 .. k - 1` for some `k ≥ 1`, numbered
by first occurrence: state `0` has the id `0`, and the id of a state `i > 0` is at most
one more than the id of some state below `i`; when every state is accepting or every
state is rejecting the vector is all zeros. -/
theorem equivalenceClasses_numbering (A : DeterministicFiniteAutomaton) (hA : A.WellFormed)
    (hc : A.complete = true) :
    ∃ c, A.equivalenceClasses = .ok c ∧ c.length = A.size ∧
      (∃ k : Nat, 1 ≤ k ∧ (∀ x, x < A.size → 0 ≤ c.getD x 0 ∧ c.getD x 0 < (k : Int)) ∧
        ∀ v, v < k → ∃ x, x < A.size ∧ c.getD x 0 = (v : Int)) ∧
      c.getD 0 0 = 0 ∧
      (∀ i, 0 < i → i < A.size → ∃ j, j < i ∧ c.getD i 0 ≤ c.getD j 0 + 1) ∧
      (((∀ i, i < A.size → A.acc i = true) ∨ (∀ i, i < A.size → A.acc i = false)) →
        c = List.replicate A.size 0) := by
  obtain ⟨hlen, k, hk, hrange, honto, _⟩ := hopcroft_spec A hA hc
  obtain ⟨h0, hfirst⟩ := hopcroft_first A hA hc
  exact ⟨_, equivalenceClasses_complete A hc, hlen, ⟨k, hk, hrange, honto⟩, h0, hfirst,
    fun hf => hopcroft_fast A hf⟩

theorem equivalenceClasses_numbering_witness :
    sampleAutomaton.WellFormed ∧ sampleAutomaton.complete = true ∧
    ∃ c, sampleAutomaton.equivalenceClasses = .ok c ∧ c.length = sampleAutomaton.size ∧
      (∃ k : Nat, 1 ≤ k ∧
        (∀ x, x < sampleAutomaton.size → 0 ≤ c.getD x 0 ∧ c.getD x 0 < (k : Int)) ∧
        ∀ v, v < k → ∃ x, x < sampleAutomaton.size ∧ c.getD x 0 = (v : Int)) ∧
      c.getD 0 0 = 0 ∧
      (∀ i, 0 < i → i < sampleAutomaton.size → ∃ j, j < i ∧ c.getD i 0 ≤ c.getD j 0 + 1) ∧
      (((∀ i, i < sampleAutomaton.size → sampleAutomaton.acc i = true) ∨
          (∀ i, i < sampleAutomaton.size → sampleAutomaton.acc i = false)) →
        c = List.replicate sampleAutomaton.size 0) :=
  ⟨by decide, by decide, equivalenceClasses_numbering sampleAutomaton (by decide) (by decide)⟩

end DeterministicFiniteAutomaton

end FiniteAutomata

